import Mathlib

/-!
# zero: cooperative fibers (`zero_fiber.h`) and the job scheduler (`zero_jobs.h`)

A shallow embedding of the two headers.

* Pointers are natural numbers.  A fiber pointer is the address of its
  `zero_fiber_t`; address `0` is `&zero_fiber_main`.  Nullable pointers are
  `Option`.  `zero_userdata_t` is `void*`, modelled as `Nat` with `NULL = 0`.
* An entrypoint is a function pointer: an index into the program text
  `text : Nat → zero_userdata_t → Prog`.
* The code that runs inside a fiber is a `Prog`: the sequence of library calls it
  makes, each with the continuation that receives the call's result.
* A saved context (`zero_context_t`) is a `Frame`: the place where the fiber is
  parked together with the continuation of the call it is parked in.
* `double` time is modelled by exact rationals; an `int` is a cell of
  `mem : Nat → Int`, and the atomic increment and decrement of a status counter wrap
  around at 32 bits.
* A dereference of a null pointer, a call through a null function pointer, an
  access outside an array and a loop that never ends are `Outcome.fault` / `none`.
-/

namespace Zero

/-! ## Data model -/

/-- The type `zero_userdata_t` is `void*`. -/
abbrev zero_userdata_t := Nat

/-- The null payload. -/
abbrev NULL : zero_userdata_t := 0

/-- Transcribes `enum zero_coroutine_status`; the first enumerator has value 0. -/
inductive zero_coroutine_status where
  | ZERO_FIBER_STARTED
  | ZERO_FIBER_SUSPENDED
  | ZERO_FIBER_RUNNING
  | ZERO_FIBER_ENDED
  | ZERO_FIBER_ERROR
  deriving DecidableEq

open zero_coroutine_status

/-- Transcribes `struct zero_fiber_t`.  The field `context` is kept in
`World.context`, `description` is a debug label and is left out. -/
structure zero_fiber_t where
  caller : Option Nat
  userdata : zero_userdata_t
  entrypoint : Option Nat
  status : zero_coroutine_status
  stack_size : Nat
  deriving DecidableEq

/-- A zero-initialised fiber (`= {0}`), as `zero_fiber_main` is. -/
def zero_fiber_zeroed : zero_fiber_t :=
  { caller := none, userdata := NULL, entrypoint := none,
    status := ZERO_FIBER_STARTED, stack_size := 0 }

/-- Transcribes `struct job_t`. -/
structure job_t where
  fiber : Nat
  status_counter : Option Nat
  deriving DecidableEq

/-- The enumeration `job_waiting_t::condition`. -/
inductive job_condition where
  | JOB_WAIT_TIMER
  | JOB_WAIT_COUNTER_ZERO
  | JOB_WAIT_DATA_ZERO
  deriving DecidableEq

open job_condition

/-- Transcribes `struct job_waiting_t`.  The anonymous union is kept as two fields;
the code only reads the member that matches `condition`. -/
structure job_waiting_t where
  job : job_t
  condition : job_condition
  end_time : ℚ
  data_address : Option Nat
  deriving DecidableEq

/-- The library calls made by code that runs inside a fiber (or by the thread's
own code), in continuation-passing form. -/
inductive Prog where
  /-- Statement `return v;` out of the entrypoint, back into `zero_fiber_wrap_entrypoint`. -/
  | ret (v : zero_userdata_t)
  /-- The code written as a `Prog` is over: the native caller takes over with `v`. -/
  | done (v : zero_userdata_t)
  /-- Call `r = zero_fiber_yield(q); k r`. -/
  | fiber_yield (q : zero_userdata_t) (k : zero_userdata_t → Prog)
  /-- Call `r = zero_fiber_resume(f, p); k r`. -/
  | fiber_resume (f : Nat) (p : zero_userdata_t) (k : zero_userdata_t → Prog)
  /-- Call `f = zero_fiber_make("", stack_size, e, d); k f`. -/
  | fiber_make (stack_size : Nat) (e : Option Nat) (d : zero_userdata_t) (k : Nat → Prog)
  /-- Call `b = zero_fiber_is_active(f); k b`. -/
  | fiber_is_active (f : Option Nat) (k : Bool → Prog)
  /-- Call `job_create(e, c); k`. -/
  | job_create (e : Option Nat) (c : Option Nat) (k : Prog)
  /-- Call `job_yield(); k`. -/
  | job_yield (k : Prog)
  /-- Call `job_wait(d); k`. -/
  | job_wait (d : ℚ) (k : Prog)
  /-- Call `job_wait_on_condition(c); k`. -/
  | job_wait_on_condition (c : Option Nat) (k : Prog)
  /-- Call `c = job_counter_make(); k c`. -/
  | job_counter_make (k : Nat → Prog)
  /-- Read `v = *a; k v` of an `int` in memory. -/
  | load (a : Nat) (k : Int → Prog)
  /-- Write `*a = v; k` of an `int` in memory. -/
  | store (a : Nat) (v : Int) (k : Prog)
  /-- Loop back: continue as the code at text address `e` with argument `d`
  (the back edge of a `while(true)`). -/
  | jump (e : Nat) (d : zero_userdata_t)

/-- A saved context: where a fiber that is not executing is parked. -/
inductive Frame where
  /-- Freshly derived context: the first switch enters `zero_fiber_wrap_entrypoint`. -/
  | entry
  /-- Parked in `zero_context_switch` inside `zero_fiber_resume(coroutine, _)`. -/
  | in_resume (coroutine : Nat) (k : zero_userdata_t → Prog)
  /-- Parked in `zero_context_switch` inside `zero_fiber_yield`, local `previous`. -/
  | in_yield (previous : Nat) (k : zero_userdata_t → Prog)
  /-- Parked in `zero_context_switch` inside `zero_fiber_return`: nothing to return to. -/
  | in_return

/-- One observable event of the scheduler (ghost state, never read by the code). -/
inductive Event where
  /-- The inner loop of `jobs_run` resumed this job. -/
  | resumed (j : job_t)
  /-- A call of `job_yield` pushed this job on `yielded_jobs`. -/
  | yielded (j : job_t)
  /-- The inner loop of `jobs_run` decremented this counter for this job. -/
  | decremented (j : job_t) (c : Nat)
  /-- A call of `job_create` made this job and incremented its counter, if any. -/
  | created (j : job_t)
  deriving DecidableEq

/-- The thread-local and global variables of the two headers. -/
structure World where
  /-- the heap of `zero_fiber_t`; address 0 is `zero_fiber_main` -/
  fibers : Nat → zero_fiber_t
  /-- the next address `malloc` hands out for a fiber -/
  nfibers : Nat
  zero_fiber_current : Option Nat
  /-- the saved context of every fiber -/
  context : Nat → Frame
  /-- The queue `thread_local std::queue<job_t> jobs` (front of the queue first). -/
  jobs : List job_t
  yielded_jobs : List job_t
  waiting_jobs : List job_waiting_t
  /-- The pointer `job_current` points at the local `job` of `jobs_run`; its pointee is kept. -/
  job_current : Option job_t
  latest_time : ℚ
  /-- the `int` cells in memory: counters made by `job_counter_make` and user variables -/
  mem : Nat → Int
  /-- the next address handed out for a counter -/
  nmem : Nat
  /-- ghost trace of scheduler events, oldest first -/
  log : List Event
  /-- the `job_t` cells of the pools in memory: a `job_t*` is the address of its cell -/
  job_heap : Nat → job_t
  /-- the next address `malloc` hands out for a `job_t` cell -/
  njob_heap : Nat
  /-- the array `zero_jobs_small_free_table` (`none` is the null table pointer); a cell
  holds a `job_t*` or null -/
  zero_jobs_small_free_table : Option (List (Option Nat))
  /-- the array `zero_jobs_large_free_table` -/
  zero_jobs_large_free_table : Option (List (Option Nat))

/-- The state of a thread before any library call: all statics zero. -/
def World.init : World :=
  { fibers := fun _ => zero_fiber_zeroed, nfibers := 1, zero_fiber_current := none,
    context := fun _ => Frame.entry, jobs := [], yielded_jobs := [], waiting_jobs := [],
    job_current := none, latest_time := 0, mem := fun _ => 0, nmem := 0, log := [],
    job_heap := fun _ => { fiber := 0, status_counter := none }, njob_heap := 0,
    zero_jobs_small_free_table := none, zero_jobs_large_free_table := none }

/-- What one library call leads to. -/
inductive Outcome where
  /-- the thread goes on executing `p` -/
  | next (w : World) (p : Prog)
  /-- the code written as a `Prog` is over with value `v` -/
  | done (w : World) (v : zero_userdata_t)
  /-- undefined behaviour -/
  | fault

/-! ## `zero_fiber.h` -/

/-- Field update `fiber->status = s`. -/
def set_status (w : World) (f : Nat) (s : zero_coroutine_status) : World :=
  { w with fibers := Function.update w.fibers f { w.fibers f with status := s } }

/-- Field update `fiber->userdata = d`. -/
def set_userdata (w : World) (f : Nat) (d : zero_userdata_t) : World :=
  { w with fibers := Function.update w.fibers f { w.fibers f with userdata := d } }

/-- Field update `fiber->caller = c`. -/
def set_caller (w : World) (f : Nat) (c : Option Nat) : World :=
  { w with fibers := Function.update w.fibers f { w.fibers f with caller := c } }

/-- Field update `fiber->entrypoint = e`. -/
def set_entrypoint (w : World) (f : Nat) (e : Option Nat) : World :=
  { w with fibers := Function.update w.fibers f { w.fibers f with entrypoint := e } }

/-- The active context block is saved into the context of fiber `f`. -/
def save_context (w : World) (f : Nat) (fr : Frame) : World :=
  { w with context := Function.update w.context f fr }

/-- Transcribes `zero_fiber_active`: the current fiber, materialising the main
fiber (address 0) on the first call. -/
def zero_fiber_active (w : World) : World × Nat :=
  match w.zero_fiber_current with
  | none => ({ set_status w 0 ZERO_FIBER_RUNNING with zero_fiber_current := some 0 }, 0)
  | some f => (w, f)

/-- Transcribes `zero_fiber_is_active`. -/
def zero_fiber_is_active (w : World) (fiber : Option Nat) : Bool :=
  match fiber with
  | none => false
  | some f => decide ((w.fibers f).status ≠ ZERO_FIBER_ENDED)

/-- Transcribes `zero_fiber_make`; `malloc` succeeds and returns the fresh address
`w.nfibers`.  The source leaves `caller` uninitialised; it is never read before
`zero_fiber_resume` writes it. -/
def zero_fiber_make (w : World) (stack_size : Nat) (entrypoint : Option Nat)
    (data : zero_userdata_t) : World × Nat :=
  ({ w with
      fibers := Function.update w.fibers w.nfibers
        { caller := none, userdata := data, entrypoint := entrypoint,
          status := ZERO_FIBER_STARTED, stack_size := stack_size }
      context := Function.update w.context w.nfibers Frame.entry
      nfibers := w.nfibers + 1 }, w.nfibers)

/-- Transcribes `zero_context_switch(fiber->context)` for the fiber `target`, which the
callers have already made the current fiber: control continues where `target` is
parked.  A fresh context enters `zero_fiber_wrap_entrypoint`, which calls
`fiber->entrypoint(fiber->userdata)` for the current fiber; a context parked in
`zero_fiber_resume` returns `coroutine->caller->userdata`; one parked in
`zero_fiber_yield` returns `previous->userdata`. -/
def zero_context_switch (text : Nat → zero_userdata_t → Prog) (w : World) (target : Nat) :
    Outcome :=
  match w.context target with
  | Frame.entry =>
    let (w1, fiber) := zero_fiber_active w
    match (w1.fibers fiber).entrypoint with
    | none => Outcome.fault
    | some e => Outcome.next w1 (text e (w1.fibers fiber).userdata)
  | Frame.in_resume coroutine k =>
    match (w.fibers coroutine).caller with
    | none => Outcome.fault
    | some c => Outcome.next w (k (w.fibers c).userdata)
  | Frame.in_yield previous k => Outcome.next w (k (w.fibers previous).userdata)
  | Frame.in_return => Outcome.fault

/-- The loop `while(fiber->status == ZERO_FIBER_ENDED) fiber = fiber->caller;` of
`zero_fiber_return`, with a bound on the number of iterations. -/
def zero_fiber_return_walk (w : World) : Nat → Nat → Option Nat
  | 0, _ => none
  | n + 1, fiber =>
    if (w.fibers fiber).status = ZERO_FIBER_ENDED then
      match (w.fibers fiber).caller with
      | none => none
      | some c => zero_fiber_return_walk w n c
    else some fiber

/-- Transcribes `zero_fiber_return(userdata)`, called by `zero_fiber_wrap_entrypoint`
with the value the entrypoint returned.  The walk is given `nfibers + 1`
iterations: a longer walk over allocated fibers is on a cycle of Ended fibers. -/
def zero_fiber_return (text : Nat → zero_userdata_t → Prog) (w : World)
    (userdata : zero_userdata_t) : Outcome :=
  let (w1, fiber) := zero_fiber_active w
  let w2 := set_status w1 fiber ZERO_FIBER_ENDED
  match zero_fiber_return_walk w2 (w2.nfibers + 1) fiber with
  | none => Outcome.fault
  | some g =>
    let w3 := { w2 with zero_fiber_current := some g }
    let w4 := set_userdata w3 g userdata
    zero_context_switch text (save_context w4 fiber Frame.in_return) g

/-- Transcribes `zero_fiber_resume(coroutine, userdata)`; `k` is the code of the
caller that receives the return value.  In `coroutine->caller->status = ...` the
pointer `coroutine->caller` is `current_fiber`, assigned on the line before. -/
def zero_fiber_resume (text : Nat → zero_userdata_t → Prog) (w : World) (coroutine : Nat)
    (userdata : zero_userdata_t) (k : zero_userdata_t → Prog) : Outcome :=
  let (w1, current_fiber) := zero_fiber_active w
  if (w1.fibers coroutine).status = ZERO_FIBER_ENDED then Outcome.next w1 (k NULL)
  else
    let w2 := set_caller w1 coroutine (some current_fiber)
    let w3 := set_status w2 current_fiber ZERO_FIBER_SUSPENDED
    let w4 := set_userdata w3 coroutine userdata
    let w5 := set_status w4 coroutine ZERO_FIBER_RUNNING
    let w6 := { w5 with zero_fiber_current := some coroutine }
    zero_context_switch text (save_context w6 current_fiber (Frame.in_resume coroutine k))
      coroutine

/-- Transcribes `zero_fiber_yield(userdata)`; `debug` is `ZERO_FIBER_DEBUG`, `k` is
the code of the caller that receives the return value. -/
def zero_fiber_yield (text : Nat → zero_userdata_t → Prog) (debug : Bool) (w : World)
    (userdata : zero_userdata_t) (k : zero_userdata_t → Prog) : Outcome :=
  let (w1, current_fiber) := zero_fiber_active w
  if (w1.fibers current_fiber).status = ZERO_FIBER_ENDED then Outcome.next w1 (k NULL)
  else if debug && decide (current_fiber = 0) then Outcome.next w1 (k NULL)
  else if debug && decide ((w1.fibers current_fiber).caller = none) then
    Outcome.next w1 (k NULL)
  else
    match (w1.fibers current_fiber).caller with
    | none => Outcome.fault
    | some caller =>
      let w2 := set_userdata w1 caller userdata
      let w3 := set_status w2 current_fiber ZERO_FIBER_SUSPENDED
      let w4 := set_status w3 caller ZERO_FIBER_RUNNING
      let previous := current_fiber
      let w5 := { w4 with zero_fiber_current := some caller }
      zero_context_switch text (save_context w5 current_fiber (Frame.in_yield previous k))
        caller

/-! ## `zero_jobs.h`: the job API -/

/-- The constant `ZERO_JOBS_TIMING_ERROR`. -/
def ZERO_JOBS_TIMING_ERROR : ℚ := 1 / 1000000

/-- The values of an `int`, which is 32 bits wide: from `INT_MIN` to `INT_MAX`. -/
@[reducible] def is_int (x : Int) : Prop := -2147483648 ≤ x ∧ x ≤ 2147483647

/-- The value that the result `x` of an addition or subtraction has once it is stored in
an `int` by `__sync_fetch_and_add` or `__sync_fetch_and_sub`: two's complement
wrap-around at 32 bits. -/
def int_wrap (x : Int) : Int := (x + 2147483648) % 4294967296 - 2147483648

/-- Transcribes `ZERO_ATOMIC_INCREMENT(x)`, which is `__sync_fetch_and_add(x, 1)` on an
`int`. -/
def ZERO_ATOMIC_INCREMENT (w : World) (x : Nat) : World :=
  { w with mem := Function.update w.mem x (int_wrap (w.mem x + 1)) }

/-- Transcribes `ZERO_ATOMIC_DECREMENT(x)`, which is `__sync_fetch_and_sub(x, 1)` on an
`int`. -/
def ZERO_ATOMIC_DECREMENT (w : World) (x : Nat) : World :=
  { w with mem := Function.update w.mem x (int_wrap (w.mem x - 1)) }

/-- Transcribes `job_counter_make`: `new int(0)` at the fresh address `w.nmem`. -/
def job_counter_make (w : World) : World × Nat :=
  ({ w with mem := Function.update w.mem w.nmem 0, nmem := w.nmem + 1 }, w.nmem)

/-- Transcribes `job_create(job_entrypoint, counter)`. -/
def job_create (w : World) (job_entrypoint : Option Nat) (counter : Option Nat) : World :=
  let (w1, fiber) := zero_fiber_make w (4 * 1024) job_entrypoint NULL
  let job : job_t := { fiber := fiber, status_counter := counter }
  let w2 := match counter with
    | some c => ZERO_ATOMIC_INCREMENT w1 c
    | none => w1
  { w2 with jobs := w2.jobs ++ [job], log := w2.log ++ [Event.created job] }

/-- Transcribes `job_yield`, up to its call of `zero_fiber_yield(nullptr)`:
`yielded_jobs.push(*job_current)`. -/
def job_yield_push (w : World) : Option World :=
  match w.job_current with
  | none => none
  | some j => some { w with yielded_jobs := w.yielded_jobs ++ [j],
                            log := w.log ++ [Event.yielded j] }

/-- Transcribes `job_wait(time)`, up to its call of `zero_fiber_yield(nullptr)`. -/
def job_wait_push (w : World) (time : ℚ) : Option World :=
  match w.job_current with
  | none => none
  | some j =>
    let wait : job_waiting_t :=
      { job := j, condition := JOB_WAIT_TIMER, end_time := w.latest_time + time,
        data_address := none }
    some { w with waiting_jobs := w.waiting_jobs ++ [wait] }

/-- Transcribes `job_wait_on_condition(counter)`, up to its call of
`zero_fiber_yield(nullptr)`. -/
def job_wait_on_condition_push (w : World) (counter : Option Nat) : Option World :=
  match w.job_current with
  | none => none
  | some j =>
    let wait : job_waiting_t :=
      { job := j, condition := JOB_WAIT_COUNTER_ZERO, end_time := 0,
        data_address := counter }
    some { w with waiting_jobs := w.waiting_jobs ++ [wait] }

/-! ## `zero_jobs.h`: the stack pools -/

/-- The compile-time constants of the pools. -/
structure zero_jobs_config where
  ZERO_JOBS_SMALL_COUNT : Nat
  ZERO_JOBS_LARGE_COUNT : Nat
  ZERO_JOBS_SMALL_SIZE : Nat
  ZERO_JOBS_LARGE_SIZE : Nat

/-- The default values of the constants in `zero_jobs.h`. -/
def zero_jobs_config_default : zero_jobs_config :=
  { ZERO_JOBS_SMALL_COUNT := 128, ZERO_JOBS_LARGE_COUNT := 32,
    ZERO_JOBS_SMALL_SIZE := 64 * 1024, ZERO_JOBS_LARGE_SIZE := 512 * 1024 }

/-- Transcribes `ZERO_ATOMIC_CAS(dest, expected, desired)`, which is
`__sync_val_compare_and_swap`: the new content of the cell and the value returned,
which is the old content of the cell. -/
def ZERO_ATOMIC_CAS (cell expected desired : Option Nat) : Option Nat × Option Nat :=
  (if cell = expected then desired else cell, cell)

/-- One of the two `for` loops of `job_pool_init`, from `slot` for `n` more slots:
`table[slot] = &pool[slot]; j = LOAD(table + slot); j->fiber = zero_fiber_make("", size, NULL, NULL);`
where `&pool[slot]` is `base + slot`.  The result is the new world and the cells
`table[slot], table[slot + 1], ...` that the loop has written. -/
def job_pool_init_loop (size base : Nat) : Nat → Nat → World → World × List (Option Nat)
  | 0, _, w => (w, [])
  | n + 1, slot, w =>
    let cell := some (base + slot)
    let j := base + slot
    let (w1, fiber) := zero_fiber_make w size none NULL
    let w2 := { w1 with
      job_heap := Function.update w1.job_heap j { w1.job_heap j with fiber := fiber } }
    let (w3, cells) := job_pool_init_loop size base n (slot + 1) w2
    (w3, cell :: cells)

/-- Transcribes `job_pool_init`.  The two pools are fresh arrays of `job_t` cells at
the addresses `njob_heap ..`; the fresh tables are filled by the two loops. -/
def job_pool_init (cfg : zero_jobs_config) (w : World) : World :=
  let small_pool := w.njob_heap
  let large_pool := w.njob_heap + cfg.ZERO_JOBS_SMALL_COUNT
  let w1 := { w with
    njob_heap := w.njob_heap + cfg.ZERO_JOBS_SMALL_COUNT + cfg.ZERO_JOBS_LARGE_COUNT }
  let (w2, small_table) :=
    job_pool_init_loop cfg.ZERO_JOBS_SMALL_SIZE small_pool cfg.ZERO_JOBS_SMALL_COUNT 0 w1
  let (w3, large_table) :=
    job_pool_init_loop cfg.ZERO_JOBS_LARGE_SIZE large_pool cfg.ZERO_JOBS_LARGE_COUNT 0 w2
  { w3 with zero_jobs_small_free_table := some small_table,
            zero_jobs_large_free_table := some large_table }

/-- The loop of `job_alloc`, from `slot` for `n` more slots; the result is the new
world and the returned `job_t*`.  `zero_context_derive` primes the stack of the fiber
again, so that the next switch to it enters `zero_fiber_wrap_entrypoint`. -/
def job_alloc_loop (entrypoint : Option Nat) (data : zero_userdata_t) :
    Nat → Nat → World → Option (World × Option Nat)
  | 0, _, w => some (w, none)
  | n + 1, slot, w =>
    match w.zero_jobs_small_free_table with
    | none => none
    | some table =>
      match table.get? slot with
      | none => none
      | some job =>
        match job with
        | none => job_alloc_loop entrypoint data n (slot + 1) w
        | some j =>
          let (cell, old) := ZERO_ATOMIC_CAS job job none
          let w1 := { w with zero_jobs_small_free_table := some (table.set slot cell) }
          if old ≠ none then
            let fiber := (w1.job_heap j).fiber
            let w2 := save_context w1 fiber Frame.entry
            let w3 := set_entrypoint w2 fiber entrypoint
            let w4 := set_userdata w3 fiber data
            let w5 := set_status w4 fiber ZERO_FIBER_STARTED
            some (w5, some j)
          else job_alloc_loop entrypoint data n (slot + 1) w1

/-- Transcribes `job_alloc(entrypoint, data)`. -/
def job_alloc (cfg : zero_jobs_config) (w : World) (entrypoint : Option Nat)
    (data : zero_userdata_t) : Option (World × Option Nat) :=
  job_alloc_loop entrypoint data cfg.ZERO_JOBS_SMALL_COUNT 0 w

/-- The loop of `job_alloc_large`, from `slot` for `n` more slots. -/
def job_alloc_large_loop (entrypoint : Option Nat) (data : zero_userdata_t) :
    Nat → Nat → World → Option (World × Option Nat)
  | 0, _, w => some (w, none)
  | n + 1, slot, w =>
    match w.zero_jobs_large_free_table with
    | none => none
    | some table =>
      match table.get? slot with
      | none => none
      | some job =>
        match job with
        | none => job_alloc_large_loop entrypoint data n (slot + 1) w
        | some j =>
          let (cell, old) := ZERO_ATOMIC_CAS job job none
          let w1 := { w with zero_jobs_large_free_table := some (table.set slot cell) }
          if old ≠ none then
            let fiber := (w1.job_heap j).fiber
            let w2 := set_entrypoint w1 fiber entrypoint
            let w3 := set_userdata w2 fiber data
            some (w3, some j)
          else job_alloc_large_loop entrypoint data n (slot + 1) w1

/-- A sequence of calls of `job_alloc`, one for each pair of arguments; the result is
the final world and the pointers returned, in order. -/
def job_allocs (cfg : zero_jobs_config) :
    List (Option Nat × zero_userdata_t) → World → Option (World × List (Option Nat))
  | [], w => some (w, [])
  | (e, d) :: args, w =>
    match job_alloc cfg w e d with
    | none => none
    | some (w1, j) =>
      match job_allocs cfg args w1 with
      | none => none
      | some (w2, js) => some (w2, j :: js)

/-- Transcribes `job_alloc_large(entrypoint, data)`; its loop runs to
`ZERO_JOBS_SMALL_COUNT`. -/
def job_alloc_large (cfg : zero_jobs_config) (w : World) (entrypoint : Option Nat)
    (data : zero_userdata_t) : Option (World × Option Nat) :=
  job_alloc_large_loop entrypoint data cfg.ZERO_JOBS_SMALL_COUNT 0 w

/-- The free-table that `job_free` works on. -/
inductive job_free_table where
  | small
  | large
  | null
  deriving DecidableEq

/-- Reads the table that `job_free` selected (`none` is the null table pointer). -/
def job_free_table.read (w : World) : job_free_table → Option (List (Option Nat))
  | job_free_table.small => w.zero_jobs_small_free_table
  | job_free_table.large => w.zero_jobs_large_free_table
  | job_free_table.null => none

/-- Writes the table that `job_free` selected. -/
def job_free_table.write (w : World) (table : List (Option Nat)) : job_free_table → World
  | job_free_table.small => { w with zero_jobs_small_free_table := some table }
  | job_free_table.large => { w with zero_jobs_large_free_table := some table }
  | job_free_table.null => w

/-- The loop of `job_free`, from `slot` for `n` more slots.  The condition of the `if`
assigns the loaded cell to the variable `job`, so the value stored by the
compare-and-swap is that loaded value; the `return` is taken when the compare-and-swap
returns a non-null old value. -/
def job_free_loop (table : job_free_table) : Nat → Nat → World → Option World
  | 0, _, w => some w
  | n + 1, slot, w =>
    match table.read w with
    | none => none
    | some cells =>
      match cells.get? slot with
      | none => none
      | some loaded =>
        let job := loaded
        if job = none then
          let (cell, old) := ZERO_ATOMIC_CAS loaded none job
          let w1 := table.write w (cells.set slot cell)
          if old ≠ none then some w1
          else job_free_loop table n (slot + 1) w1
        else job_free_loop table n (slot + 1) w

/-- Transcribes `job_free(job)`. -/
def job_free (cfg : zero_jobs_config) (w : World) (job : Nat) : Option World :=
  let fiber := (w.job_heap job).fiber
  let size := (w.fibers fiber).stack_size
  let w1 := set_entrypoint w fiber none
  let table :=
    if size = cfg.ZERO_JOBS_SMALL_SIZE then job_free_table.small
    else if size = cfg.ZERO_JOBS_LARGE_SIZE then job_free_table.large
    else job_free_table.null
  job_free_loop table cfg.ZERO_JOBS_SMALL_COUNT 0 w1

/-! ## Execution -/

/-- One library call of the executing code. -/
def step (text : Nat → zero_userdata_t → Prog) (debug : Bool) (w : World) : Prog → Outcome
  | Prog.ret v => zero_fiber_return text w v
  | Prog.done v => Outcome.done w v
  | Prog.fiber_yield q k => zero_fiber_yield text debug w q k
  | Prog.fiber_resume f p k => zero_fiber_resume text w f p k
  | Prog.fiber_make size e d k =>
    let (w1, f) := zero_fiber_make w size e d
    Outcome.next w1 (k f)
  | Prog.fiber_is_active f k => Outcome.next w (k (zero_fiber_is_active w f))
  | Prog.job_create e c k => Outcome.next (job_create w e c) k
  | Prog.job_yield k =>
    match job_yield_push w with
    | none => Outcome.fault
    | some w1 => zero_fiber_yield text debug w1 NULL (fun _ => k)
  | Prog.job_wait d k =>
    match job_wait_push w d with
    | none => Outcome.fault
    | some w1 => zero_fiber_yield text debug w1 NULL (fun _ => k)
  | Prog.job_wait_on_condition c k =>
    match job_wait_on_condition_push w c with
    | none => Outcome.fault
    | some w1 => zero_fiber_yield text debug w1 NULL (fun _ => k)
  | Prog.job_counter_make k =>
    let (w1, c) := job_counter_make w
    Outcome.next w1 (k c)
  | Prog.load a k => Outcome.next w (k (w.mem a))
  | Prog.store a v k => Outcome.next { w with mem := Function.update w.mem a v } k
  | Prog.jump e d => Outcome.next w (text e d)

/-- Runs the executing code for at most `fuel` library calls, until the code
written as a `Prog` is over. -/
def run (text : Nat → zero_userdata_t → Prog) (debug : Bool) :
    Nat → World → Prog → Option (World × zero_userdata_t)
  | 0, _, _ => none
  | n + 1, w, p =>
    match step text debug w p with
    | Outcome.next w1 p1 => run text debug n w1 p1
    | Outcome.done w1 v => some (w1, v)
    | Outcome.fault => none

/-! ## `zero_jobs.h`: `jobs_run` -/

/-- The test of one waiting record in the waiting-queue pass of `jobs_run`:
`true` when its job is pushed on `running_jobs`. -/
def wait_satisfied (time : ℚ) (mem : Nat → Int) (wait_job : job_waiting_t) : Bool :=
  match wait_job.condition with
  | JOB_WAIT_TIMER => decide (time ≥ wait_job.end_time - ZERO_JOBS_TIMING_ERROR)
  | JOB_WAIT_COUNTER_ZERO =>
    match wait_job.data_address with
    | none => false
    | some a => decide (mem a = 0)
  | JOB_WAIT_DATA_ZERO => false

/-- The waiting-queue pass of `jobs_run`:
`for(int i = 0; i < waiting_size; i++) { ... }`.  The first argument is
`waiting_size - i`; the result is `(waiting_jobs, running_jobs)`.
`front()` of an empty queue is `none`. -/
def jobs_run_waiting (time : ℚ) (mem : Nat → Int) :
    Nat → List job_waiting_t → List job_t → Option (List job_waiting_t × List job_t)
  | 0, waiting_jobs, running_jobs => some (waiting_jobs, running_jobs)
  | _ + 1, [], _ => none
  | n + 1, wait_job :: waiting_jobs, running_jobs =>
    match wait_job.condition with
    | JOB_WAIT_TIMER =>
      if time ≥ wait_job.end_time - ZERO_JOBS_TIMING_ERROR then
        jobs_run_waiting time mem n waiting_jobs (running_jobs ++ [wait_job.job])
      else
        jobs_run_waiting time mem n (waiting_jobs ++ [wait_job]) running_jobs
    | JOB_WAIT_COUNTER_ZERO =>
      match wait_job.data_address with
      | none => jobs_run_waiting time mem n (waiting_jobs ++ [wait_job]) running_jobs
      | some a =>
        if mem a = 0 then
          jobs_run_waiting time mem n waiting_jobs (running_jobs ++ [wait_job.job])
        else
          jobs_run_waiting time mem n (waiting_jobs ++ [wait_job]) running_jobs
    | JOB_WAIT_DATA_ZERO => jobs_run_waiting time mem n waiting_jobs running_jobs

/-- The body of the inner loop of `jobs_run` for one job of the running batch:
`job_current = &job; zero_fiber_resume(job.fiber, NULL);` and the decrement of the
status counter when the fiber is no longer active. -/
def jobs_run_job (text : Nat → zero_userdata_t → Prog) (debug : Bool) (fuel : Nat)
    (job : job_t) (w : World) : Option World :=
  let w1 := { w with job_current := some job, log := w.log ++ [Event.resumed job] }
  match run text debug fuel w1 (Prog.fiber_resume job.fiber NULL Prog.done) with
  | none => none
  | some (w2, _) =>
    match job.status_counter with
    | some c =>
      if !zero_fiber_is_active w2 (some job.fiber) then
        some { ZERO_ATOMIC_DECREMENT w2 c with log := w2.log ++ [Event.decremented job c] }
      else some w2
    | none => some w2

/-- The inner loop of `jobs_run`: `while( running_jobs.size() ) { ... }`. -/
def jobs_run_running (text : Nat → zero_userdata_t → Prog) (debug : Bool) (fuel : Nat) :
    List job_t → World → Option World
  | [], w => some w
  | job :: running_jobs, w =>
    match jobs_run_job text debug fuel job w with
    | none => none
    | some w1 => jobs_run_running text debug fuel running_jobs w1

/-- The first half of one iteration of the outer loop of `jobs_run`: the drain of
`jobs` into the local queue `running_jobs` (which is empty at the start of every
iteration) and the waiting-queue pass.  The result is the world with the two queues
updated, and the running batch. -/
def jobs_run_queueing (time : ℚ) (w : World) : Option (World × List job_t) :=
  match jobs_run_waiting time w.mem w.waiting_jobs.length w.waiting_jobs w.jobs with
  | none => none
  | some (waiting_jobs, running_jobs) =>
    some ({ w with jobs := [], waiting_jobs := waiting_jobs }, running_jobs)

/-- The outer loop of `jobs_run`: `while(run_queueing) { ... }`, for at most the
given number of iterations. -/
def jobs_run_loop (text : Nat → zero_userdata_t → Prog) (debug : Bool) (fuel : Nat)
    (time : ℚ) : Nat → World → Option World
  | 0, _ => none
  | n + 1, w =>
    match jobs_run_queueing time w with
    | none => none
    | some (w1, []) => some w1
    | some (w1, job :: running_jobs) =>
      match jobs_run_running text debug fuel (job :: running_jobs) w1 with
      | none => none
      | some w2 => jobs_run_loop text debug fuel time n w2

/-- Transcribes `jobs_run(time)`.  `fuel` bounds the number of iterations of the outer
loop and the number of library calls made during each resume. -/
def jobs_run (text : Nat → zero_userdata_t → Prog) (debug : Bool) (fuel : Nat) (time : ℚ)
    (w : World) : Option World :=
  match jobs_run_loop text debug fuel time fuel { w with latest_time := time } with
  | none => none
  | some w1 => some { w1 with jobs := w1.jobs ++ w1.yielded_jobs, yielded_jobs := [] }

/-! ## Auxiliary notions for the statements -/

/-- A library call that never switches to another context. -/
def Prog.is_local : Prog → Bool
  | Prog.fiber_make _ _ _ _ => true
  | Prog.fiber_is_active _ _ => true
  | Prog.job_create _ _ _ => true
  | Prog.job_counter_make _ => true
  | Prog.load _ _ => true
  | Prog.store _ _ _ => true
  | Prog.jump _ _ => true
  | _ => false

/-- The executing fiber goes from `(w, p)` to `(w1, p1)` through library calls that do
not switch to another context: it does not suspend in between. -/
inductive Quiet (text : Nat → zero_userdata_t → Prog) (debug : Bool) :
    World → Prog → World → Prog → Prop where
  | refl (w : World) (p : Prog) : Quiet text debug w p w p
  | call (w : World) (p : Prog) (w1 : World) (p1 : Prog) (w2 : World) (p2 : Prog) :
      p.is_local = true → step text debug w p = Outcome.next w1 p1 →
      Quiet text debug w1 p1 w2 p2 → Quiet text debug w p w2 p2

/-- Fiber `F` is executing, resumed by `R`, and `R` is parked in its call
`zero_fiber_resume(F, _)` whose return value goes to `k`. -/
structure RunningUnder (w : World) (F R : Nat) (k : zero_userdata_t → Prog) : Prop where
  cur : w.zero_fiber_current = some F
  caller : (w.fibers F).caller = some R
  status : (w.fibers F).status = ZERO_FIBER_RUNNING
  parked : w.context R = Frame.in_resume F k
  rstatus : (w.fibers R).status = ZERO_FIBER_SUSPENDED
  ne : F ≠ R
  hF : F < w.nfibers
  hR : R < w.nfibers

/-- The world of an outcome (the initial world for a fault). -/
def Outcome.world : Outcome → World
  | Outcome.next w _ => w
  | Outcome.done w _ => w
  | Outcome.fault => World.init

/-- The world and the code reached after `n` library calls (fewer when the code is
over or faults earlier). -/
def steps (text : Nat → zero_userdata_t → Prog) (debug : Bool) :
    Nat → World → Prog → World × Prog
  | 0, w, p => (w, p)
  | n + 1, w, p =>
    match step text debug w p with
    | Outcome.next w1 p1 => steps text debug n w1 p1
    | _ => (w, p)

/-! ## The test `Run basic fiber` of `test_fibers.cpp` -/

/-- The code of `fiber_basic` after its third yield. -/
def fiber_basic_3 : zero_userdata_t → Prog := fun _ => Prog.ret 1

/-- The code of `fiber_basic` after its second yield. -/
def fiber_basic_2 : zero_userdata_t → Prog := fun _ => Prog.fiber_yield 3 fiber_basic_3

/-- The code of `fiber_basic` after its first yield. -/
def fiber_basic_1 : zero_userdata_t → Prog := fun _ => Prog.fiber_yield 2 fiber_basic_2

/-- The lambda `fiber_basic` of the test. -/
def fiber_basic : zero_userdata_t → Prog := fun _ => Prog.fiber_yield 1 fiber_basic_1

/-- The program text of the test: `fiber_basic` is at address 0. -/
def test_fibers_text : Nat → zero_userdata_t → Prog := fun _ => fiber_basic

/-- The four resumes of the test after `zero_fiber_make` returned `f`; the four values
they return are handed over as `1000 r1 + 100 r2 + 10 r3 + r4`. -/
def test_fibers_resumes (f : Nat) : Prog :=
  Prog.fiber_resume f 1 (fun r1 => Prog.fiber_resume f 2 (fun r2 =>
    Prog.fiber_resume f 3 (fun r3 => Prog.fiber_resume f 4 (fun r4 =>
      Prog.done (1000 * r1 + 100 * r2 + 10 * r3 + r4)))))

/-- The body of the test case. -/
def test_fibers_main : Prog :=
  Prog.fiber_make (64 * 1024) (some 0) 1 test_fibers_resumes

/-- The world of the test after `zero_fiber_make`: the fiber is at address 1. -/
def test_fibers_world : World := (steps test_fibers_text true 1 World.init test_fibers_main).1

/-- The continuation of the first resume of the test. -/
def test_fibers_k1 : zero_userdata_t → Prog :=
  fun r1 => Prog.fiber_resume 1 2 (fun r2 =>
    Prog.fiber_resume 1 3 (fun r3 => Prog.fiber_resume 1 4 (fun r4 =>
      Prog.done (1000 * r1 + 100 * r2 + 10 * r3 + r4))))

/-- The world of the test once the first resume has entered `fiber_basic`. -/
def test_fibers_world_1 : World := (steps test_fibers_text true 2 World.init test_fibers_main).1

/-- The continuation of the fourth resume of the test, after the first three returned 1, 2, 3. -/
def test_fibers_k4 : zero_userdata_t → Prog :=
  fun r4 => Prog.done (1000 * 1 + 100 * 2 + 10 * 3 + r4)

/-- The world of the test when the fourth resume is about to be made: after
`zero_fiber_make` and three rounds of resume and yield. -/
def test_fibers_world_3 : World := (steps test_fibers_text true 7 World.init test_fibers_main).1

/-- The world of the test once the fourth resume has switched back into `fiber_basic`. -/
def test_fibers_world_4 : World := (steps test_fibers_text true 8 World.init test_fibers_main).1

/-- The world of the test when the fourth resume has returned: the fiber is Ended. -/
def test_fibers_world_5 : World := (steps test_fibers_text true 9 World.init test_fibers_main).1

/-- The test of one waiting record in the waiting-queue pass of `jobs_run`:
`true` when the record is pushed back on `waiting_jobs` (`still_waiting`). -/
def wait_requeued (time : ℚ) (mem : Nat → Int) (wait_job : job_waiting_t) : Bool :=
  match wait_job.condition with
  | JOB_WAIT_TIMER => !decide (time ≥ wait_job.end_time - ZERO_JOBS_TIMING_ERROR)
  | JOB_WAIT_COUNTER_ZERO =>
    match wait_job.data_address with
    | none => true
    | some a => !decide (mem a = 0)
  | JOB_WAIT_DATA_ZERO => false

/-- The jobs of the `job_yield` events of a trace, in order. -/
def yields : List Event → List job_t
  | [] => []
  | Event.yielded j :: l => j :: yields l
  | _ :: l => yields l

/-- The jobs of the `job_create` events of a trace, in order. -/
def creates : List Event → List job_t
  | [] => []
  | Event.created j :: l => j :: creates l
  | _ :: l => creates l

/-- The jobs resumed by the scheduler in a trace, in order. -/
def resumes : List Event → List job_t
  | [] => []
  | Event.resumed j :: l => j :: resumes l
  | _ :: l => resumes l

/-- The jobs whose end made the scheduler decrement a counter in a trace, in order. -/
def decrements : List Event → List job_t
  | [] => []
  | Event.decremented j _ :: l => j :: decrements l
  | _ :: l => decrements l

/-- World `w1` differs from `w` in the fiber heap, the saved contexts and the
current-fiber pointer only. -/
structure FiberOnly (w w1 : World) : Prop where
  nfibers : w1.nfibers = w.nfibers
  jobs : w1.jobs = w.jobs
  yielded_jobs : w1.yielded_jobs = w.yielded_jobs
  waiting_jobs : w1.waiting_jobs = w.waiting_jobs
  job_current : w1.job_current = w.job_current
  latest_time : w1.latest_time = w.latest_time
  mem : w1.mem = w.mem
  nmem : w1.nmem = w.nmem
  log : w1.log = w.log

/-- What code running in fibers can do to the scheduler's variables between two
points of an execution: the trace grows by `l`, which holds no scheduler event; the
ready queue grows by the jobs created, whose fibers are fresh; the yielded queue grows
by the jobs of the `job_yield` events and the waiting queue by `ws`, and everything
pushed on these two is the pointee of `job_current`. -/
structure SchedExt (w w1 : World) (l : List Event) (ws : List job_waiting_t) : Prop where
  job_current : w1.job_current = w.job_current
  latest_time : w1.latest_time = w.latest_time
  nfibers : w.nfibers ≤ w1.nfibers
  nmem : w.nmem ≤ w1.nmem
  log : w1.log = w.log ++ l
  no_resumes : resumes l = []
  no_decrements : decrements l = []
  jobs : w1.jobs = w.jobs ++ creates l
  fresh : ∀ j ∈ creates l, w.nfibers ≤ j.fiber ∧ j.fiber < w1.nfibers
  fresh_nodup : ((creates l).map (fun j => j.fiber)).Nodup
  yielded_jobs : w1.yielded_jobs = w.yielded_jobs ++ yields l
  yielded_current : ∀ j ∈ yields l, w.job_current = some j
  waiting_jobs : w1.waiting_jobs = w.waiting_jobs ++ ws
  waiting_current : ∀ x ∈ ws, w.job_current = some x.job

/-! ## The job `basic_job` of `test_jobs.cpp` -/

/-- The function `basic_job` of the test: four calls of `job_wait(0.5)`, then `return nullptr`. -/
def basic_job : Prog :=
  Prog.job_wait (1 / 2) (Prog.job_wait (1 / 2) (Prog.job_wait (1 / 2) (Prog.job_wait (1 / 2)
    (Prog.ret NULL))))

/-- A program text with `basic_job` at every address. -/
def basic_job_text : Nat → zero_userdata_t → Prog := fun _ _ => basic_job

/-- The world after `job_create(basic_job, nullptr)` on a fresh thread. -/
def basic_job_created : World := job_create World.init (some 0) none

/-- The parent: makes a counter, creates one child on it and waits for the counter. -/
def group_parent : Prog :=
  Prog.job_counter_make (fun c =>
    Prog.job_create (some 1) (some c) (Prog.job_wait_on_condition (some c) (Prog.ret NULL)))

/-- The child: yields once and returns. -/
def group_child : Prog := Prog.job_yield (Prog.ret NULL)

/-- The program text: the parent is at address 0, the child at every other address. -/
def group_text : Nat → zero_userdata_t → Prog
  | 0, _ => group_parent
  | _, _ => group_child

/-- The world after `job_create(parent, nullptr)` and the Tick `jobs_run(0)`: the parent
(fiber 1) waits for the counter at address 0, whose value is 1; the child (fiber 2) has
yielded and is in the ready queue. -/
def group_world : World :=
  (jobs_run group_text false 8 0 (job_create World.init (some 0) none)).getD World.init

/-- The waiting record that the parent pushed in `job_wait_on_condition`. -/
def group_wait : job_waiting_t :=
  { job := { fiber := 1, status_counter := none }, condition := JOB_WAIT_COUNTER_ZERO,
    end_time := 0, data_address := some 0 }

/-- The free-table of the small pool in which the first `k` cells are claimed and the
other `m` cells hold the pointers to their own slots. -/
def small_table_claimed (base k m : Nat) : List (Option Nat) :=
  List.replicate k none ++ (List.range' k m).map (fun i => some (base + i))

/-- The constants of scenario S5 of the specification: a small pool of 4 slots. -/
def zero_jobs_config_s5 : zero_jobs_config :=
  { ZERO_JOBS_SMALL_COUNT := 4, ZERO_JOBS_LARGE_COUNT := 32,
    ZERO_JOBS_SMALL_SIZE := 64 * 1024, ZERO_JOBS_LARGE_SIZE := 512 * 1024 }

/-- The world of scenario S5 after `job_pool_init` and four calls of `job_alloc`. -/
def s5_exhausted : World :=
  ((job_allocs zero_jobs_config_s5 [(some 0, 0), (some 0, 0), (some 0, 0), (some 0, 0)]
    (job_pool_init zero_jobs_config_s5 World.init)).getD (World.init, [])).1

/-! ## A job that calls `job_wait(0)` -/

/-- The job: `job_wait(0.0); return nullptr;`. -/
def wait_zero_job : Prog := Prog.job_wait 0 (Prog.ret NULL)

/-- A program text with that job at every address. -/
def wait_zero_text : Nat → zero_userdata_t → Prog := fun _ _ => wait_zero_job

/-- The world after `job_create(wait_zero_job, nullptr)` on a fresh thread: one job
(fiber 1), with one queue entry. -/
def wait_zero_created : World := job_create World.init (some 0) none

/-- The `int` cell that held `x` holds `y` after atomic increments and decrements whose
net number is `n`: `y` is `x + n` up to the wrap-around, and is the value of an `int` when
`x` is one. -/
def counter_moved (x y n : Int) : Prop :=
  y % 4294967296 = (x + n) % 4294967296 ∧ (is_int x → is_int y)

/-! ## Jobs that use the job API only -/

/-- Code of a job that suspends only in `job_yield`, `job_wait` and
`job_wait_on_condition` or by returning from its entrypoint, and that never stores to a
cell of `frozen` (the cells used as status counters): it makes no direct call of
`zero_fiber_yield` or `zero_fiber_resume`. -/
inductive WellBehaved (frozen : Nat → Prop) : Prog → Prop where
  | ret (v : zero_userdata_t) : WellBehaved frozen (Prog.ret v)
  | fiber_make (size : Nat) (e : Option Nat) (d : zero_userdata_t) (k : Nat → Prog) :
      (∀ f, WellBehaved frozen (k f)) → WellBehaved frozen (Prog.fiber_make size e d k)
  | fiber_is_active (f : Option Nat) (k : Bool → Prog) :
      (∀ b, WellBehaved frozen (k b)) → WellBehaved frozen (Prog.fiber_is_active f k)
  | job_create (e : Option Nat) (c : Option Nat) (k : Prog) :
      WellBehaved frozen k → WellBehaved frozen (Prog.job_create e c k)
  | job_yield (k : Prog) : WellBehaved frozen k → WellBehaved frozen (Prog.job_yield k)
  | job_wait (d : ℚ) (k : Prog) : WellBehaved frozen k → WellBehaved frozen (Prog.job_wait d k)
  | job_wait_on_condition (c : Option Nat) (k : Prog) :
      WellBehaved frozen k → WellBehaved frozen (Prog.job_wait_on_condition c k)
  | job_counter_make (k : Nat → Prog) :
      (∀ c, WellBehaved frozen (k c)) → WellBehaved frozen (Prog.job_counter_make k)
  | load (a : Nat) (k : Int → Prog) :
      (∀ v, WellBehaved frozen (k v)) → WellBehaved frozen (Prog.load a k)
  | store (a : Nat) (v : Int) (k : Prog) :
      ¬ frozen a → WellBehaved frozen k → WellBehaved frozen (Prog.store a v k)
  | jump (e : Nat) (d : zero_userdata_t) : WellBehaved frozen (Prog.jump e d)

/-- The saved context of fiber `f` is one that a job leaves behind: fresh, parked in
its own yield with code that satisfies `P`, or returned. -/
def FrameOK (P : Prog → Prop) (f : Nat) : Frame → Prop
  | Frame.entry => True
  | Frame.in_return => True
  | Frame.in_yield previous k => previous = f ∧ ∀ r, P (k r)
  | Frame.in_resume _ _ => False

/-- The number of jobs of a list whose status counter is `c`. -/
def count_on (c : Nat) : List job_t → Int
  | [] => 0
  | j :: js => (if j.status_counter = some c then 1 else 0) + count_on c js

/-- The fibers of all the queue entries, the rest of the running batch first. -/
def queued_jobs (w : World) (rest : List job_t) : List job_t :=
  rest ++ w.jobs ++ w.yielded_jobs ++ w.waiting_jobs.map (fun x => x.job)

/-- The state of the scheduler between two resumes of `jobs_run`, `rest` being what is
left of the running batch: the thread's own code executes; every fiber has at most one
queue entry; the fibers of the queue entries are allocated, are not the main fiber and
are not Ended; every saved context is one that a well-behaved job leaves behind. -/
structure JobsInv (frozen : Nat → Prop) (w : World) (rest : List job_t) : Prop where
  nf : 1 ≤ w.nfibers
  host : w.zero_fiber_current = none ∨ w.zero_fiber_current = some 0
  frames : ∀ f, 1 ≤ f → FrameOK (WellBehaved frozen) f (w.context f)
  nodup : ((queued_jobs w rest).map (fun j => j.fiber)).Nodup
  queued : ∀ j ∈ queued_jobs w rest,
    1 ≤ j.fiber ∧ j.fiber < w.nfibers ∧ (w.fibers j.fiber).status ≠ ZERO_FIBER_ENDED

/-- What the run of job `J`, resumed by `jobs_run` in world `w`, has done when the world
is `w1`, apart from the two queues it can suspend in: the trace grew by the resume and
the events `l`, which are creations only apart from yields; the ready queue grew by the
jobs created, on fresh fibers; no other old fiber changed its status and the new ones
are Started; a frozen cell grew by the number of jobs created on it, with the wrap-around
of an `int`. -/
structure JobCore (frozen : Nat → Prop) (w : World) (J : job_t) (w1 : World)
    (l : List Event) : Prop where
  cur : w1.job_current = some J
  log : w1.log = w.log ++ Event.resumed J :: l
  no_resumes : resumes l = []
  no_decrements : decrements l = []
  jobs : w1.jobs = w.jobs ++ creates l
  fresh : ∀ j ∈ creates l, w.nfibers ≤ j.fiber ∧ j.fiber < w1.nfibers
  fresh_nodup : ((creates l).map (fun j => j.fiber)).Nodup
  latest_time : w1.latest_time = w.latest_time
  nfibers : w.nfibers ≤ w1.nfibers
  nmem : w.nmem ≤ w1.nmem
  others : ∀ f, f ≠ J.fiber → 1 ≤ f → f < w.nfibers →
    (w1.fibers f).status = (w.fibers f).status
  started : ∀ f, w.nfibers ≤ f → f < w1.nfibers → (w1.fibers f).status = ZERO_FIBER_STARTED
  frames : ∀ f, 1 ≤ f → FrameOK (WellBehaved frozen) f (w1.context f)
  mem : ∀ c, frozen c → c < w.nmem →
    counter_moved (w.mem c) (w1.mem c) (count_on c (creates l))

/-- Job `J`, resumed by `jobs_run` in world `w`, is executing in world `w1`: the main
fiber is parked in the resume, and nothing was pushed on the yielded and waiting
queues. -/
structure JobRunning (frozen : Nat → Prop) (w : World) (J : job_t) (w1 : World)
    (l : List Event) : Prop where
  core : JobCore frozen w J w1 l
  under : RunningUnder w1 J.fiber 0 Prog.done
  no_yields : yields l = []
  yielded_jobs : w1.yielded_jobs = w.yielded_jobs
  waiting_jobs : w1.waiting_jobs = w.waiting_jobs

/-- The resume of job `J` by `jobs_run` in world `w` is over in world `w1`: the main
fiber is current again, and the job has yielded (one entry on the yielded queue), or
waits (one record on the waiting queue), or has Ended (no entry). -/
structure JobSuspended (frozen : Nat → Prop) (w : World) (J : job_t) (w1 : World)
    (l : List Event) : Prop where
  core : JobCore frozen w J w1 l
  host : w1.zero_fiber_current = some 0
  kind :
    (yields l = [J] ∧ w1.yielded_jobs = w.yielded_jobs ++ [J] ∧
      w1.waiting_jobs = w.waiting_jobs ∧
      (w1.fibers J.fiber).status = ZERO_FIBER_SUSPENDED) ∨
    (yields l = [] ∧ w1.yielded_jobs = w.yielded_jobs ∧
      (∃ x : job_waiting_t, x.job = J ∧ x.condition ≠ JOB_WAIT_DATA_ZERO ∧
        w1.waiting_jobs = w.waiting_jobs ++ [x]) ∧
      (w1.fibers J.fiber).status = ZERO_FIBER_SUSPENDED) ∨
    (yields l = [] ∧ w1.yielded_jobs = w.yielded_jobs ∧ w1.waiting_jobs = w.waiting_jobs ∧
      (w1.fibers J.fiber).status = ZERO_FIBER_ENDED)

/-- The world in which `zero_fiber_yield(Q)` of fiber `F` hands control to its caller `R`. -/
def yield_world (w : World) (F R : Nat) (Q : zero_userdata_t)
    (kF : zero_userdata_t → Prog) : World :=
  save_context
    { set_status (set_status (set_userdata w R Q) F ZERO_FIBER_SUSPENDED) R ZERO_FIBER_RUNNING
      with zero_fiber_current := some R } F (Frame.in_yield F kF)

/-- The world in which `zero_fiber_return(v)` of fiber `F` hands control to its caller `R`. -/
def return_world (w : World) (F R : Nat) (v : zero_userdata_t) : World :=
  save_context
    (set_userdata { set_status w F ZERO_FIBER_ENDED with zero_fiber_current := some R } R v)
    F Frame.in_return

/-- The effect of a library call that does not switch contexts, from world `w1` to world
`w2`: the executing fiber and the yielded and waiting queues are the same; the trace
grew by `l`, which holds creations only; the ready queue grew by the jobs created, on
fresh fibers; no allocated fiber and no saved context of an allocated fiber changed; a
frozen cell grew by the number of jobs created on it, with the wrap-around of an `int`. -/
structure LocalEffect (frozen : Nat → Prop) (w1 w2 : World) (l : List Event) : Prop where
  current : w2.zero_fiber_current = w1.zero_fiber_current
  job_current : w2.job_current = w1.job_current
  log : w2.log = w1.log ++ l
  no_resumes : resumes l = []
  no_decrements : decrements l = []
  no_yields : yields l = []
  jobs : w2.jobs = w1.jobs ++ creates l
  fresh : ∀ j ∈ creates l, w1.nfibers ≤ j.fiber ∧ j.fiber < w2.nfibers
  fresh_nodup : ((creates l).map (fun j => j.fiber)).Nodup
  yielded_jobs : w2.yielded_jobs = w1.yielded_jobs
  waiting_jobs : w2.waiting_jobs = w1.waiting_jobs
  latest_time : w2.latest_time = w1.latest_time
  nfibers : w1.nfibers ≤ w2.nfibers
  nmem : w1.nmem ≤ w2.nmem
  fibers : ∀ f, f < w1.nfibers → w2.fibers f = w1.fibers f
  started : ∀ f, w1.nfibers ≤ f → f < w2.nfibers →
    (w2.fibers f).status = ZERO_FIBER_STARTED
  context : ∀ f, w2.context f = w1.context f ∨ (w1.nfibers ≤ f ∧ w2.context f = Frame.entry)
  mem : ∀ c, frozen c → c < w1.nmem →
    counter_moved (w1.mem c) (w2.mem c) (count_on c (creates l))

/-- The world in which `zero_fiber_resume(F, P)`, called by the current fiber `R` of
world `w`, switches to the context of `F`. -/
def resume_world (w : World) (R F : Nat) (P : zero_userdata_t)
    (k : zero_userdata_t → Prog) : World :=
  save_context
    { set_status (set_userdata (set_status (set_caller w F (some R)) R ZERO_FIBER_SUSPENDED)
        F P) F ZERO_FIBER_RUNNING with zero_fiber_current := some F }
    R (Frame.in_resume F k)

/-- In a trace, no job is resumed by the scheduler after a `job_yield` event of the
same fiber. -/
def NoResumeAfterYield : List Event → Prop
  | [] => True
  | Event.yielded j :: l => (∀ j1 ∈ resumes l, j1.fiber ≠ j.fiber) ∧ NoResumeAfterYield l
  | _ :: l => NoResumeAfterYield l

/-! ## A job that yields every time it is resumed -/

/-- The job: `while(true) job_yield();` (the text address 0 is the head of the loop). -/
def yield_forever_text : Nat → zero_userdata_t → Prog :=
  fun _ _ => Prog.job_yield (Prog.jump 0 NULL)

/-- A world in which the ready queue holds the same job twice: the world after
`job_create` on a fresh thread, with the entry of the ready queue doubled. -/
def doubled_entry_world : World :=
  { job_create World.init (some 0) none with
      jobs := [{ fiber := 1, status_counter := none }, { fiber := 1, status_counter := none }] }

/-- The world after `job_create` of the job that yields forever, on a fresh thread. -/
def yield_forever_created : World := job_create World.init (some 0) none

/-- The world after the first Tick of the job that yields forever. -/
def yield_forever_world : World :=
  (jobs_run yield_forever_text false 4 0 yield_forever_created).getD World.init

/-- The fiber `f` was allocated and not Ended in world `w`, or was allocated later. -/
def LiveOrNew (w : World) (f : Nat) : Prop :=
  (f < w.nfibers ∧ (w.fibers f).status ≠ ZERO_FIBER_ENDED) ∨ w.nfibers ≤ f

/-- The bookkeeping of the status counter `c` during a Tick that started in world `w`,
when the world is `v`, the trace of the Tick so far is `l` and `rest` is what is left of
the running batch. -/
structure CounterInv (w : World) (c : Nat) (v : World) (rest : List job_t)
    (l : List Event) : Prop where
  log : v.log = w.log ++ l
  nfibers : w.nfibers ≤ v.nfibers
  nmem : w.nmem ≤ v.nmem
  balance : counter_moved (w.mem c) (v.mem c)
    (count_on c (creates l) - count_on c (decrements l))
  dec : ∀ j c1, Event.decremented j c1 ∈ l →
    j.status_counter = some c1 ∧ 1 ≤ j.fiber ∧ j.fiber < v.nfibers ∧
      (v.fibers j.fiber).status = ZERO_FIBER_ENDED ∧ LiveOrNew w j.fiber
  dec_nodup : ((decrements l).map (fun j => j.fiber)).Nodup
  res : ∀ j ∈ resumes l, 1 ≤ j.fiber ∧ j.fiber < v.nfibers ∧ LiveOrNew w j.fiber
  res_entry : ∀ j ∈ resumes l, ∀ j1 ∈ queued_jobs v rest, j1.fiber = j.fiber → j1 = j
  res_dec : ∀ j ∈ resumes l, (v.fibers j.fiber).status = ZERO_FIBER_ENDED →
    j.status_counter ≠ none → j ∈ decrements l
  ended : ∀ f, 1 ≤ f → f < w.nfibers → (w.fibers f).status = ZERO_FIBER_ENDED →
    (v.fibers f).status = ZERO_FIBER_ENDED
  entries : ∀ j ∈ queued_jobs v rest, LiveOrNew w j.fiber
  waiters : ∀ x ∈ v.waiting_jobs, x.condition ≠ JOB_WAIT_DATA_ZERO
  live : counter_moved (w.mem c) (v.mem c)
    (count_on c (queued_jobs v rest) - count_on c (queued_jobs w []))
  origin : ∀ j ∈ queued_jobs v rest, j ∈ queued_jobs w [] ∨ j ∈ creates l
  created : ∀ j, j ∈ queued_jobs w [] ∨ j ∈ creates l → j ∈ queued_jobs v rest ∨ j ∈ resumes l

/-- A call of the job API by the thread's own code, outside every fiber. -/
inductive HostCall where
  | job_counter_make
  | job_create (job_entrypoint : Option Nat) (counter : Option Nat)
  | jobs_run (time : ℚ)

/-- The thread's own code makes the calls of the list in order; every `jobs_run` gets
`fuel` steps for each resume. -/
def host_calls (text : Nat → zero_userdata_t → Prog) (debug : Bool) (fuel : Nat) :
    List HostCall → World → Option World
  | [], w => some w
  | HostCall.job_counter_make :: cs, w => host_calls text debug fuel cs (job_counter_make w).1
  | HostCall.job_create e c :: cs, w => host_calls text debug fuel cs (job_create w e c)
  | HostCall.jobs_run t :: cs, w =>
    match jobs_run text debug fuel t w with
    | none => none
    | some w1 => host_calls text debug fuel cs w1

/-! ## One job on a counter made by the thread's own code -/

/-- The world after `job_counter_make()` on a fresh thread: the counter is at address 0. -/
def counted_job_start : World := (job_counter_make World.init).1

/-- The calls `job_create(child, counter); jobs_run(0); jobs_run(1);`, the child being at
address 1 of `group_text`. -/
def counted_job_calls : List HostCall :=
  [HostCall.job_create (some 1) (some 0), HostCall.jobs_run 0, HostCall.jobs_run 1]

/-- The world after the calls `counted_job_calls`: the child has yielded in the first Tick
and returned in the second one. -/
def counted_job_world : World :=
  (host_calls group_text false 8 counted_job_calls counted_job_start).getD World.init

/-! ## A pooled fiber that an earlier use left Ended -/

/-- The pool state after `job_pool_init` (small pool of 4 slots, large pool of 32) in
which the pooled fiber of slot 0 of the large pool has status Ended, as a job that ran
to completion leaves it; the cell of the slot in the free-table is non-null. -/
def large_ended_world : World :=
  let w := job_pool_init zero_jobs_config_s5 World.init
  set_status w (w.job_heap 4).fiber ZERO_FIBER_ENDED

/-- The same state for the small pool: the pooled fiber of slot 0 has status Ended. -/
def small_ended_world : World :=
  let w := job_pool_init zero_jobs_config_s5 World.init
  set_status w (w.job_heap 0).fiber ZERO_FIBER_ENDED

/-! ## A job that waits on a null counter -/

/-- The job: `job_wait_on_condition(nullptr); return nullptr;`. -/
def null_wait_job : Prog := Prog.job_wait_on_condition none (Prog.ret NULL)

/-- A program text with that job at every address. -/
def null_wait_text : Nat → zero_userdata_t → Prog := fun _ _ => null_wait_job

/-- The world after `job_create(null_wait_job, nullptr)` on a fresh thread and the Tick
`jobs_run(0)`, in which the job has called `job_wait_on_condition(nullptr)`. -/
def null_wait_world : World :=
  (jobs_run null_wait_text false 4 0 (job_create World.init (some 0) none)).getD World.init

/-- The waiting record that the job has pushed. -/
def null_wait_record : job_waiting_t :=
  { job := { fiber := 1, status_counter := none }, condition := JOB_WAIT_COUNTER_ZERO,
    end_time := 0, data_address := none }

/-! ## A job that does not come from a pool -/

/-- The world after `job_pool_init` (default constants) in which a `job_t` on the heap,
at the fresh address `njob_heap`, holds a fiber made by `zero_fiber_make` with a stack of
4 KiB, as `job_create` makes them. -/
def adhoc_job_world : World :=
  let w := job_pool_init zero_jobs_config_default World.init
  let (w1, fiber) := zero_fiber_make w (4 * 1024) (some 0) NULL
  { w1 with
    job_heap := Function.update w1.job_heap w1.njob_heap { fiber := fiber, status_counter := none }
    njob_heap := w1.njob_heap + 1 }

/-- Every fiber whose status is Running is the one the current-fiber pointer designates. -/
def RunningIsCurrent (w : World) : Prop :=
  ∀ f, (w.fibers f).status = ZERO_FIBER_RUNNING → w.zero_fiber_current = some f

/-! ## Sequences of Ticks -/

/-- The times of the first `n` Ticks of the test loop of `test_jobs.cpp`, in exact
arithmetic: `time = 0; time += 1/120` for each Tick. -/
def tick_times (n : Nat) : List ℚ := (List.range n).map (fun k => (k : ℚ) / 120)

/-- One call of `jobs_run` for each time of the list, in order.  The result holds, for
each Tick, the events that the Tick added to the trace and the world in which it
returned. -/
def run_ticks (text : Nat → zero_userdata_t → Prog) (debug : Bool) (fuel : Nat) :
    List ℚ → World → Option (List (List Event × World))
  | [], _ => some []
  | t :: ts, w =>
    match jobs_run text debug fuel t w with
    | none => none
    | some w1 =>
      match run_ticks text debug fuel ts w1 with
      | none => none
      | some r => some ((w1.log.drop w.log.length, w1) :: r)

/-- What scenario S2 observes after a Tick: the jobs resumed in the Tick, the status of
the fiber of the job (address 1) and the deadlines in the waiting queue. -/
def s2_observation (x : List Event × World) : List job_t × zero_coroutine_status × List ℚ :=
  (resumes x.1, (x.2.fibers 1).status, x.2.waiting_jobs.map (fun r => r.end_time))

/-- The observations of scenario S2 for Tick `k`: the job is resumed in the Ticks 0, 60,
120, 180 and 240 only; it waits for `k/120 + 1/2` after the first four of them and is
Ended from Tick 240 on. -/
def s2_expected (k : Nat) : List job_t × zero_coroutine_status × List ℚ :=
  (if k % 60 = 0 ∧ k ≤ 240 then [⟨1, none⟩] else [],
   if k < 240 then ZERO_FIBER_SUSPENDED else ZERO_FIBER_ENDED,
   if k < 240 then [((k / 60 : Nat) : ℚ) / 2 + 1 / 2] else [])

/-! ## Scenario S4: a parent job that waits for ten children -/

/-- The code `for n times: job_create(e, c);` followed by `k`. -/
def job_creates (e c : Option Nat) : Nat → Prog → Prog
  | 0, k => k
  | n + 1, k => Prog.job_create e c (job_creates e c n k)

/-- The parent of scenario S4: makes a counter, creates ten children on it (the child is
at text address 1), waits for the counter and returns. -/
def s4_parent : Prog :=
  Prog.job_counter_make (fun c =>
    job_creates (some 1) (some c) 10 (Prog.job_wait_on_condition (some c) (Prog.ret NULL)))

/-- The program text of scenario S4: the parent is at address 0; the child, which yields
once and returns, is at every other address. -/
def s4_text : Nat → zero_userdata_t → Prog
  | 0, _ => s4_parent
  | _, _ => group_child

/-- The world of scenario S4 after `job_create(parent, nullptr)` on a fresh thread: the
parent is fiber 1. -/
def s4_created : World := job_create World.init (some 0) none

/-- The parent as a queue entry. -/
def s4_parent_job : job_t := { fiber := 1, status_counter := none }

/-- The ten children as queue entries: fibers 2 to 11, on the counter at address 0. -/
def s4_children : List job_t :=
  (List.range' 2 10).map (fun f => { fiber := f, status_counter := some 0 })

/-- The waiting record that the parent pushes. -/
def s4_wait : job_waiting_t :=
  { job := s4_parent_job, condition := JOB_WAIT_COUNTER_ZERO, end_time := 0,
    data_address := some 0 }

/-- The world of scenario S4 after the first invocation `jobs_run(0)`. -/
def s4_world_1 : World := (jobs_run s4_text false 16 0 s4_created).getD World.init

/-- The trace of the first invocation of scenario S4: the parent is resumed and creates
the children; then each child is resumed and yields. -/
def s4_trace_1 : List Event :=
  Event.resumed s4_parent_job :: s4_children.map Event.created ++
    s4_children.flatMap (fun j => [Event.resumed j, Event.yielded j])

/-- The trace of the second invocation of scenario S4: each child is resumed and ends,
which decrements the counter; then the parent is resumed. -/
def s4_trace_2 : List Event :=
  s4_children.flatMap (fun j => [Event.resumed j, Event.decremented j 0]) ++
    [Event.resumed s4_parent_job]

/-! ## Jobs whose code is known -/

/-- The code that the fiber `F` executes when `jobs_run` resumes it next is in `Y`: its
entrypoint applied to null when its context is fresh, the continuation of its last
`zero_fiber_yield`, which returns null, otherwise. -/
def NextCode (text : Nat → zero_userdata_t → Prog) (Y : Prog → Prop) (w : World) (F : Nat) :
    Prop :=
  (w.context F = Frame.entry ∧ ∃ e, (w.fibers F).entrypoint = some e ∧ Y (text e NULL)) ∨
    ∃ k, w.context F = Frame.in_yield F k ∧ Y (k NULL)

/-- The set `Y` of code is closed under the library calls that do not switch contexts. -/
def LocallyClosed (text : Nat → zero_userdata_t → Prog) (debug : Bool) (Y : Prog → Prop) :
    Prop :=
  ∀ p w w2 p2, Y p → p.is_local = true → step text debug w p = Outcome.next w2 p2 → Y p2

/-- Code of `Y` calls `job_yield` every time it is resumed: `Y` is closed under the calls
that do not switch contexts, and the only call of code of `Y` that switches contexts is
`job_yield`, followed by code of `Y`. -/
structure YieldsEveryTime (text : Nat → zero_userdata_t → Prog) (debug : Bool)
    (Y : Prog → Prop) : Prop where
  closed : LocallyClosed text debug Y
  suspend : ∀ p, Y p → p.is_local = false → ∃ k, p = Prog.job_yield k ∧ Y k

/-- Code of `Y` calls `job_wait(d)` with a `d` of at most `ZERO_JOBS_TIMING_ERROR` every
time it is resumed. -/
structure WaitsShortEveryTime (text : Nat → zero_userdata_t → Prog) (debug : Bool)
    (Y : Prog → Prop) : Prop where
  closed : LocallyClosed text debug Y
  suspend : ∀ p, Y p → p.is_local = false →
    ∃ d k, p = Prog.job_wait d k ∧ d ≤ ZERO_JOBS_TIMING_ERROR ∧ Y k

/-- The resumes of the fiber `F` in a trace. -/
def resumes_of (F : Nat) (l : List Event) : List job_t :=
  (resumes l).filter (fun j => decide (j.fiber = F))

/-- The state of a job `J` that yields every time, during a Tick whose trace started after
`base`: the next code of its fiber is in `Y`; either it is still in the running batch or
the ready queue and has not been resumed in this Tick, or it is in the yielded queue and
has been resumed once. -/
def YieldingInv (text : Nat → zero_userdata_t → Prog) (Y : Prog → Prop) (J : job_t)
    (base : List Event) (v : World) (rest : List job_t) : Prop :=
  NextCode text Y v J.fiber ∧ ∃ l, v.log = base ++ l ∧
    ((J ∈ rest ++ v.jobs ∧ resumes_of J.fiber l = []) ∨
      (J ∈ v.yielded_jobs ∧ resumes_of J.fiber l = [J]))

/-! ## The test `Run basic job` of `test_jobs.cpp` -/

/-- The body of the loop of `counter_job` after `job_yield()`: `counter++;` and the back
edge of `while(true)`.  The global `counter` is the cell at address 0; `counter_job` is
at text address 1. -/
def counter_job_body : Prog :=
  Prog.load 0 (fun v => Prog.store 0 (v + 1) (Prog.jump 1 NULL))

/-- The function `counter_job` of the test: `while(true) { job_yield(); counter++; }`. -/
def counter_job : Prog := Prog.job_yield counter_job_body

/-- The third job of the test, a lambda at text address 2:
`while(true) { job_wait(1.0); int counter_value = counter; counter = 0; ... }`.  The
local `counter_value` is the cell at address 1; the `REQUIRE` and the `printf` that
follow read it. -/
def waiter_job : Prog :=
  Prog.job_wait 1 (Prog.load 0 (fun v => Prog.store 1 v (Prog.store 0 0 (Prog.jump 2 NULL))))

/-- The program text of the test. -/
def test_jobs_text : Nat → zero_userdata_t → Prog
  | 0, _ => basic_job
  | 1, _ => counter_job
  | _, _ => waiter_job

/-- The world of the test after the three calls of `job_create`, in the order
`basic_job`, `counter_job`, the lambda: fibers 1, 2 and 3.  The call of `job_pool_init`
that the test makes first is left out: it touches the pools only. -/
def test_jobs_created : World :=
  job_create (job_create (job_create World.init (some 0) none) (some 1) none) (some 2) none

/-- The code that `counter_job` goes through. -/
def counter_job_code (p : Prog) : Prop :=
  p = counter_job ∨ p = counter_job_body ∨
    (∃ v : Int, p = Prog.store 0 (v + 1) (Prog.jump 1 NULL)) ∨ p = Prog.jump 1 NULL

/-- What the test observes after a Tick: the value of `counter`, the value of
`counter_value`, and the waiting queue as the fiber and the deadline of each record. -/
def test_jobs_observation (x : List Event × World) : Int × Int × List (Nat × ℚ) :=
  (x.2.mem 0, x.2.mem 1, x.2.waiting_jobs.map (fun r => (r.job.fiber, r.end_time)))

/-- The observations of the test for Tick `k`: `counter` is `k` modulo 120 and
`counter_value` is 120 from Tick 120 on; the lambda (fiber 3) waits for second 1 until it
wakes in Tick 120, then for second 2 until it wakes in Tick 240, then for second 3;
`basic_job` (fiber 1) wakes in the Ticks 60, 120, 180 and 240. -/
def test_jobs_expected (k : Nat) : Int × Int × List (Nat × ℚ) :=
  (((k % 120 : Nat) : Int), if k < 120 then 0 else 120,
    if k < 60 then [(1, 1 / 2), (3, 1)]
    else if k < 120 then [(3, 1), (1, 1)]
    else if k < 180 then [(3, 2), (1, 3 / 2)]
    else if k < 240 then [(3, 2), (1, 2)]
    else [(3, 3)])

/-- The state, during the call `jobs_run(now)`, of a job `J` that calls `job_wait(d)` with
`d ≤ ZERO_JOBS_TIMING_ERROR` every time: the next code of its fiber is in `Y`; either it
is in the running batch or the ready queue, or the waiting queue holds a Timer record of
it that the next pass finds satisfied. -/
def ShortWaitInv (text : Nat → zero_userdata_t → Prog) (Y : Prog → Prop) (J : job_t)
    (now : ℚ) (v : World) (rest : List job_t) : Prop :=
  v.latest_time = now ∧ NextCode text Y v J.fiber ∧
    (J ∈ rest ++ v.jobs ∨
      ∃ x ∈ v.waiting_jobs, x.job = J ∧ x.condition = JOB_WAIT_TIMER ∧
        x.end_time ≤ now + ZERO_JOBS_TIMING_ERROR)

/-! ## A job that waits for no time, forever -/

/-- The job: `while(true) job_wait(0.0);` (the text address 0 is the head of the loop). -/
def wait_forever_text : Nat → zero_userdata_t → Prog :=
  fun _ _ => Prog.job_wait 0 (Prog.jump 0 NULL)

/-- The code that the job goes through. -/
def wait_forever_code (p : Prog) : Prop :=
  p = Prog.job_wait 0 (Prog.jump 0 NULL) ∨ p = Prog.jump 0 NULL

/-- The world after `job_create` of that job on a fresh thread. -/
def wait_forever_created : World := job_create World.init (some 0) none

/-! ## A scheduler state with several waiters of both kinds -/

/-- Six jobs: `job_yield(); return;` at address 0, `job_wait(1.0); return;` at 1,
`job_wait(2.0); return;` at 2, `job_wait_on_condition(c0); return;` at 3,
`job_wait_on_condition(c1); return;` at 4 and `job_wait(0.5); return;` elsewhere, where
`c0` and `c1` are the counters at the addresses 0 and 1. -/
def partition_text : Nat → zero_userdata_t → Prog
  | 0, _ => Prog.job_yield (Prog.ret NULL)
  | 1, _ => Prog.job_wait 1 (Prog.ret NULL)
  | 2, _ => Prog.job_wait 2 (Prog.ret NULL)
  | 3, _ => Prog.job_wait_on_condition (some 0) (Prog.ret NULL)
  | 4, _ => Prog.job_wait_on_condition (some 1) (Prog.ret NULL)
  | _, _ => Prog.job_wait (1 / 2) (Prog.ret NULL)

/-- The calls of the thread: two counters are made, a yielding job is created on each of
them (fibers 1 and 2), then the five waiting jobs in the order of the text (fibers 3 to
7), and the first Tick runs at time 0. -/
def partition_calls : List HostCall :=
  [HostCall.job_counter_make, HostCall.job_counter_make,
   HostCall.job_create (some 0) (some 0), HostCall.job_create (some 0) (some 1),
   HostCall.job_create (some 1) none, HostCall.job_create (some 2) none,
   HostCall.job_create (some 3) none, HostCall.job_create (some 4) none,
   HostCall.job_create (some 5) none, HostCall.jobs_run 0]

/-- The world after the calls `partition_calls` on a fresh thread: the two yielding jobs
are in the ready queue and the five others in the waiting queue, both counters are 1. -/
def partition_world : World :=
  (host_calls partition_text false 8 partition_calls World.init).getD World.init

/-! ## Fibers that have not been entered yet -/

/-- Fiber `F` has been created with the entrypoint `e` and has not been entered yet: its
context is the freshly derived one and its status is Started; it is an allocated fiber
other than the main one, it is not the current fiber and no fiber has it as its
caller.  Nothing is said about its userdata. -/
structure Unentered (w : World) (F e : Nat) : Prop where
  ctx : w.context F = Frame.entry
  entrypoint : (w.fibers F).entrypoint = some e
  status : (w.fibers F).status = ZERO_FIBER_STARTED
  allocated : F < w.nfibers
  ne_main : F ≠ 0
  not_current : w.zero_fiber_current ≠ some F
  not_caller : ∀ g, (w.fibers g).caller ≠ some F

/-! ## A fiber made with one userdata and resumed with another payload -/

/-- The thread's own code: `f = zero_fiber_make("", 4096, e0, 7); r = zero_fiber_resume(f, 3);`
where the entrypoint `e0` at text address 0 returns its argument. -/
def payload_main : Prog :=
  Prog.fiber_make (4 * 1024) (some 0) 7 (fun f => Prog.fiber_resume f 3 Prog.done)

/-- The program text: every entrypoint returns its argument. -/
def payload_text : Nat → zero_userdata_t → Prog := fun _ d => Prog.ret d

/-- The world after the call of `zero_fiber_make` in `payload_main`. -/
def payload_world : World := (zero_fiber_make World.init (4 * 1024) (some 0) 7).1

/-! ## The walk of a natural return -/

/-- The walk that the specification describes, in world `w`: from the fiber `f`, going
from a fiber to its caller past `n` allocated fibers whose status is Ended, the first
fiber whose status is not Ended is `g`. -/
inductive ReturnWalk (w : World) : Nat → Nat → Nat → Prop where
  | here (g : Nat) : (w.fibers g).status ≠ ZERO_FIBER_ENDED → ReturnWalk w 0 g g
  | skip (n f c g : Nat) : f < w.nfibers → (w.fibers f).status = ZERO_FIBER_ENDED →
      (w.fibers f).caller = some c → ReturnWalk w n c g → ReturnWalk w (n + 1) f g

/-! ## Scenario S6: a fiber that resumes a fiber, and both return -/

/-- Fiber A at text address 0: `b = zero_fiber_make(B); r = zero_fiber_resume(b, NULL);
result = r; return 11;` where `result` is the cell at address 0; fiber B elsewhere:
`return 22;`. -/
def s6_text : Nat → zero_userdata_t → Prog
  | 0, _ => Prog.fiber_make (4 * 1024) (some 1) NULL
      (fun b => Prog.fiber_resume b NULL (fun r => Prog.store 0 (r : Int) (Prog.ret 11)))
  | _, _ => Prog.ret 22

/-- The thread's own code: `a = zero_fiber_make(A); r = zero_fiber_resume(a, NULL);`. -/
def s6_main : Prog :=
  Prog.fiber_make (4 * 1024) (some 0) NULL (fun a => Prog.fiber_resume a NULL Prog.done)

/-! ## A return whose walk passes an Ended caller -/

/-- Three fibers.  C at text address 0 makes X and resumes it, and returns 7 when it gets
control back; X at address 1 makes Y and resumes it, and returns 9 when it gets control
back; Y elsewhere resumes C (the fiber at address 1) with the payload 4, yields 5 when it
gets control back, and returns what the yield returns. -/
def skip_text : Nat → zero_userdata_t → Prog
  | 0, _ => Prog.fiber_make (4 * 1024) (some 1) NULL
      (fun x => Prog.fiber_resume x NULL (fun _ => Prog.ret 7))
  | 1, _ => Prog.fiber_make (4 * 1024) (some 2) NULL
      (fun y => Prog.fiber_resume y NULL (fun _ => Prog.ret 9))
  | _, _ => Prog.fiber_resume 1 4 (fun _ => Prog.fiber_yield 5 (fun r => Prog.ret r))

/-- The thread's own code: `c = zero_fiber_make(C); zero_fiber_resume(c, NULL);`. -/
def skip_main : Prog :=
  Prog.fiber_make (4 * 1024) (some 0) NULL (fun c => Prog.fiber_resume c NULL Prog.done)

/-- The world in which X (fiber 2) is about to return 9: the thread has resumed C (fiber
1), C has resumed X, X has resumed Y (fiber 3), Y has resumed C, C has returned 7 to Y
and Y has yielded to X.  The caller of X is C, which is Ended, and the caller of C is Y,
which is Suspended. -/
def skip_world : World := (steps skip_text false 9 World.init skip_main).1

/-! ## The slots that the pool scans access -/

/-- The slots `slot` of `zero_jobs_small_free_table[slot]` that the loop of `job_alloc`
accesses, in order, from `slot` for `n` more iterations.  The list ends with the slot at
which the loop returns, or with the slot whose access is outside the table (or through the
null table pointer), after which the behaviour is undefined. -/
def job_alloc_slots : Nat → Nat → World → List Nat
  | 0, _, _ => []
  | n + 1, slot, w =>
    match w.zero_jobs_small_free_table with
    | none => [slot]
    | some table =>
      match table.get? slot with
      | none => [slot]
      | some job =>
        match job with
        | none => slot :: job_alloc_slots n (slot + 1) w
        | some _ =>
          let (cell, old) := ZERO_ATOMIC_CAS job job none
          let w1 := { w with zero_jobs_small_free_table := some (table.set slot cell) }
          if old ≠ none then [slot] else slot :: job_alloc_slots n (slot + 1) w1

/-- The slots of `zero_jobs_large_free_table` that the loop of `job_alloc_large`
accesses, in order. -/
def job_alloc_large_slots : Nat → Nat → World → List Nat
  | 0, _, _ => []
  | n + 1, slot, w =>
    match w.zero_jobs_large_free_table with
    | none => [slot]
    | some table =>
      match table.get? slot with
      | none => [slot]
      | some job =>
        match job with
        | none => slot :: job_alloc_large_slots n (slot + 1) w
        | some _ =>
          let (cell, old) := ZERO_ATOMIC_CAS job job none
          let w1 := { w with zero_jobs_large_free_table := some (table.set slot cell) }
          if old ≠ none then [slot] else slot :: job_alloc_large_slots n (slot + 1) w1

/-- The slots of the selected table that the loop of `job_free` accesses, in order. -/
def job_free_slots (table : job_free_table) : Nat → Nat → World → List Nat
  | 0, _, _ => []
  | n + 1, slot, w =>
    match table.read w with
    | none => [slot]
    | some cells =>
      match cells.get? slot with
      | none => [slot]
      | some loaded =>
        let job := loaded
        if job = none then
          let (cell, old) := ZERO_ATOMIC_CAS loaded none job
          let w1 := table.write w (cells.set slot cell)
          if old ≠ none then [slot]
          else slot :: job_free_slots table n (slot + 1) w1
        else slot :: job_free_slots table n (slot + 1) w

/-- The table that `job_free(job)` selects by the stack size of the fiber of the job. -/
def job_free_select (cfg : zero_jobs_config) (w : World) (job : Nat) : job_free_table :=
  let fiber := (w.job_heap job).fiber
  let size := (w.fibers fiber).stack_size
  if size = cfg.ZERO_JOBS_SMALL_SIZE then job_free_table.small
  else if size = cfg.ZERO_JOBS_LARGE_SIZE then job_free_table.large
  else job_free_table.null

/-- The slots of the selected table that `job_free(job)` accesses, in order. -/
def job_free_accesses (cfg : zero_jobs_config) (w : World) (job : Nat) : List Nat :=
  let fiber := (w.job_heap job).fiber
  let w1 := set_entrypoint w fiber none
  job_free_slots (job_free_select cfg w job) cfg.ZERO_JOBS_SMALL_COUNT 0 w1

/-- A sequence of calls of `job_alloc_large`, one for each pair of arguments; the result
is the final world and the pointers returned, in order. -/
def job_allocs_large (cfg : zero_jobs_config) :
    List (Option Nat × zero_userdata_t) → World → Option (World × List (Option Nat))
  | [], w => some (w, [])
  | (e, d) :: args, w =>
    match job_alloc_large cfg w e d with
    | none => none
    | some (w1, j) =>
      match job_allocs_large cfg args w1 with
      | none => none
      | some (w2, js) => some (w2, j :: js)

/-- The world after `job_pool_init` (default constants: 128 small slots, 32 large ones)
and 32 calls of `job_alloc_large`: the large pool is exhausted. -/
def large_exhausted : World :=
  ((job_allocs_large zero_jobs_config_default (List.replicate 32 (some 0, NULL))
    (job_pool_init zero_jobs_config_default World.init)).map (fun r => r.1)).getD World.init

/-! ## A waiter on a counter that a job of the same batch raises -/

/-- Four jobs.  A at text address 0: `job_create(Q, nullptr); return;`.  P at address 1:
`job_wait_on_condition(c); seen = *c; return;` where `c` is the counter at address 0 and
`seen` the cell at address 1.  Q at address 2: `job_create(child, c); return;`.  The child
elsewhere: `return;`. -/
def raise_text : Nat → zero_userdata_t → Prog
  | 0, _ => Prog.job_create (some 2) none (Prog.ret NULL)
  | 1, _ => Prog.job_wait_on_condition (some 0)
      (Prog.load 0 (fun v => Prog.store 1 v (Prog.ret NULL)))
  | 2, _ => Prog.job_create (some 3) (some 0) (Prog.ret NULL)
  | _, _ => Prog.ret NULL

/-- The calls of the thread: `c = job_counter_make(); job_create(A, nullptr);
job_create(P, nullptr); jobs_run(0);`. -/
def raise_calls : List HostCall :=
  [HostCall.job_counter_make, HostCall.job_create (some 0) none,
   HostCall.job_create (some 1) none, HostCall.jobs_run 0]

/-! ## A job whose helper fiber calls `job_yield` -/

/-- The job J at text address 0: `h = zero_fiber_make(H); zero_fiber_resume(h, NULL);
return;`.  The helper H elsewhere: `job_yield(); return;`. -/
def twice_text : Nat → zero_userdata_t → Prog
  | 0, _ => Prog.fiber_make (4 * 1024) (some 1) NULL
      (fun h => Prog.fiber_resume h NULL (fun _ => Prog.ret NULL))
  | _, _ => Prog.job_yield (Prog.ret NULL)

/-- The calls of the thread: `c = job_counter_make(); job_create(J, c); jobs_run(0);
jobs_run(1);`. -/
def twice_calls : List HostCall :=
  [HostCall.job_counter_make, HostCall.job_create (some 0) (some 0), HostCall.jobs_run 0,
   HostCall.jobs_run 1]

/-- The job J at text address 0: `h = zero_fiber_make(H); while(true) {
zero_fiber_resume(h, NULL); job_yield(); }` (the loop is at address 2, with `h` as its
argument).  The helper H at address 1: `while(true) job_yield();`. -/
def helper_text : Nat → zero_userdata_t → Prog
  | 0, _ => Prog.fiber_make (4 * 1024) (some 1) NULL (fun h => Prog.jump 2 h)
  | 1, _ => Prog.job_yield (Prog.jump 1 NULL)
  | _, h => Prog.fiber_resume h NULL (fun _ => Prog.job_yield (Prog.jump 2 h))

/-- The world after `job_create(J, nullptr)` on a fresh thread. -/
def helper_created : World := job_create World.init (some 0) none

/-! # Theorems -/

/-! ## Arithmetic of `int` cells -/

theorem int_wrap_of_is_int (x : Int) (h : is_int x) : int_wrap x = x := by
  unfold int_wrap
  obtain ⟨h1, h2⟩ := h
  omega

theorem is_int_int_wrap (x : Int) : is_int (int_wrap x) := by
  unfold int_wrap
  constructor <;> omega

@[simp] theorem counter_moved_refl (x : Int) : counter_moved x x 0 := by
  unfold counter_moved
  exact ⟨by simp, fun h => h⟩

theorem counter_moved_congr (x y a b : Int) (h : counter_moved x y a) (hab : a = b) :
    counter_moved x y b := by
  rw [← hab]
  exact h

theorem counter_moved_trans (x y z a b : Int) (h1 : counter_moved x y a)
    (h2 : counter_moved y z b) : counter_moved x z (a + b) := by
  unfold counter_moved at *
  obtain ⟨h11, h12⟩ := h1
  obtain ⟨h21, h22⟩ := h2
  exact ⟨by omega, fun h => h22 (h12 h)⟩

theorem counter_moved_incr (x : Int) : counter_moved x (int_wrap (x + 1)) 1 := by
  unfold counter_moved
  refine ⟨?_, fun _ => is_int_int_wrap _⟩
  unfold int_wrap
  omega

theorem counter_moved_decr (x : Int) : counter_moved x (int_wrap (x - 1)) (-1) := by
  unfold counter_moved
  refine ⟨?_, fun _ => is_int_int_wrap _⟩
  unfold int_wrap
  omega

/-- The value of a counter that started as an `int`. -/
theorem counter_moved_value (x y n : Int) (hx : is_int x) (h : counter_moved x y n) :
    y = int_wrap (x + n) := by
  unfold counter_moved at h
  obtain ⟨h1, h2⟩ := h
  obtain ⟨h3, h4⟩ := h2 hx
  unfold int_wrap
  omega

theorem counter_moved_zero (x y : Int) (hx : is_int x) (h : counter_moved x y 0) : y = x := by
  rw [counter_moved_value x y 0 hx h, add_zero, int_wrap_of_is_int x hx]


theorem zero_fiber_active_some (w : World) (f : Nat) (h : w.zero_fiber_current = some f) :
    zero_fiber_active w = (w, f) := by
  simp [zero_fiber_active, h]

theorem zero_fiber_active_current (w : World) :
    (zero_fiber_active w).1.zero_fiber_current = some (zero_fiber_active w).2 := by
  unfold zero_fiber_active
  split <;> simp_all

theorem zero_fiber_active_nfibers (w : World) :
    (zero_fiber_active w).1.nfibers = w.nfibers := by
  unfold zero_fiber_active
  split <;> simp [set_status]

theorem zero_fiber_active_status (w : World) (F : Nat) (h : F ≠ (zero_fiber_active w).2) :
    ((zero_fiber_active w).1.fibers F).status = (w.fibers F).status := by
  unfold zero_fiber_active at h ⊢
  split
  · rename_i hc
    simp only [hc] at h
    simp [set_status, Function.update_noteq h]
  · rfl

theorem zero_fiber_active_idem (w : World) :
    zero_fiber_active (zero_fiber_active w).1 = zero_fiber_active w :=
  zero_fiber_active_some _ _ (zero_fiber_active_current w)

theorem step_resume_active (text : Nat → zero_userdata_t → Prog) (debug : Bool) (w : World)
    (F : Nat) (P : zero_userdata_t) (k : zero_userdata_t → Prog) :
    step text debug w (Prog.fiber_resume F P k) =
      step text debug (zero_fiber_active w).1 (Prog.fiber_resume F P k) := by
  simp only [step, zero_fiber_resume, zero_fiber_active_idem]

theorem resume_running_under_some (text : Nat → zero_userdata_t → Prog) (debug : Bool)
    (w w0 : World) (R F : Nat) (P : zero_userdata_t) (k : zero_userdata_t → Prog) (p0 : Prog)
    (hcur : w.zero_fiber_current = some R) (hne : F ≠ R)
    (hst : (w.fibers F).status ≠ ZERO_FIBER_ENDED) (hF : F < w.nfibers) (hR : R < w.nfibers)
    (h : step text debug w (Prog.fiber_resume F P k) = Outcome.next w0 p0) :
    RunningUnder w0 F R k := by
  simp only [step, zero_fiber_resume, zero_fiber_active_some w R hcur, if_neg hst] at h
  simp only [set_caller, Function.update_same] at h
  unfold zero_context_switch at h
  simp only [set_status, set_userdata, save_context, Function.update_same,
    Function.update_noteq hne, Function.update_noteq (Ne.symm hne)] at h
  split at h
  · simp only [zero_fiber_active, Function.update_same] at h
    split at h
    · exact absurd h (by simp)
    · injection h with h1 h2
      subst h1
      constructor <;>
        simp [Function.update_noteq hne, Function.update_noteq (Ne.symm hne), hne, hF, hR]
  · split at h
    · exact absurd h (by simp)
    · injection h with h1 h2
      subst h1
      constructor <;>
        simp [Function.update_noteq hne, Function.update_noteq (Ne.symm hne), hne, hF, hR]
  · injection h with h1 h2
    subst h1
    constructor <;>
      simp [Function.update_noteq hne, Function.update_noteq (Ne.symm hne), hne, hF, hR]
  · exact absurd h (by simp)

theorem resume_running_under (text : Nat → zero_userdata_t → Prog) (debug : Bool)
    (w w0 : World) (R F : Nat) (P : zero_userdata_t) (k : zero_userdata_t → Prog) (p0 : Prog)
    (hcur : (zero_fiber_active w).2 = R) (hne : F ≠ R)
    (hst : (w.fibers F).status ≠ ZERO_FIBER_ENDED) (hF : F < w.nfibers) (hR : R < w.nfibers)
    (h : step text debug w (Prog.fiber_resume F P k) = Outcome.next w0 p0) :
    RunningUnder w0 F R k := by
  rw [step_resume_active] at h
  subst hcur
  refine resume_running_under_some text debug _ w0 _ F P k p0 (zero_fiber_active_current w) hne
    ?_ ?_ ?_ h
  · rw [zero_fiber_active_status w F hne]; exact hst
  · rw [zero_fiber_active_nfibers]; exact hF
  · rw [zero_fiber_active_nfibers]; exact hR

theorem local_step_running_under (text : Nat → zero_userdata_t → Prog) (debug : Bool)
    (w w1 : World) (p p1 : Prog) (F R : Nat) (k : zero_userdata_t → Prog)
    (hl : p.is_local = true) (h : step text debug w p = Outcome.next w1 p1)
    (hr : RunningUnder w F R k) : RunningUnder w1 F R k := by
  obtain ⟨c1, c2, c3, c4, c8, c5, c6, c7⟩ := hr
  have hF : F ≠ w.nfibers := Nat.ne_of_lt c6
  have hR : R ≠ w.nfibers := Nat.ne_of_lt c7
  cases p <;> simp [Prog.is_local] at hl <;> simp only [step] at h
  all_goals
    injection h with h1 h2
    subst h1
    constructor <;>
      first
        | assumption
        | (simp [zero_fiber_make, job_counter_make, Function.update_noteq hF,
            Function.update_noteq hR, c1, c2, c3, c4, c5, c8]; done)
        | (simp [zero_fiber_make]; omega)
        | (cases ‹Option ℕ› <;>
            simp [job_create, zero_fiber_make, ZERO_ATOMIC_INCREMENT, Function.update_noteq hF,
              Function.update_noteq hR, c1, c2, c3, c4, c5, c8] <;> omega)

theorem quiet_running_under (text : Nat → zero_userdata_t → Prog) (debug : Bool)
    (w w1 : World) (p p1 : Prog) (F R : Nat) (k : zero_userdata_t → Prog)
    (hq : Quiet text debug w p w1 p1) (hr : RunningUnder w F R k) :
    RunningUnder w1 F R k := by
  induction hq with
  | refl w p => exact hr
  | call w p w1 p1 w2 p2 hl hs _ ih =>
    exact ih (local_step_running_under text debug w w1 p p1 F R k hl hs hr)

theorem yield_running_under (text : Nat → zero_userdata_t → Prog) (debug : Bool)
    (w : World) (F R : Nat) (Q : zero_userdata_t) (k kF : zero_userdata_t → Prog)
    (hmain : debug = true → F ≠ 0) (hr : RunningUnder w F R k) :
    ∃ w2, step text debug w (Prog.fiber_yield Q kF) = Outcome.next w2 (k Q) ∧
      w2.zero_fiber_current = some R ∧ w2.context F = Frame.in_yield F kF ∧
      (w2.fibers F).status = ZERO_FIBER_SUSPENDED ∧
      (w2.fibers R).status = ZERO_FIBER_RUNNING := by
  obtain ⟨c1, c2, c3, c4, c8, c5, c6, c7⟩ := hr
  have hd1 : (debug && decide (F = 0)) = false := by
    cases debug <;> simp_all
  have hd2 : (debug && decide ((w.fibers F).caller = none)) = false := by
    cases debug <;> simp [c2]
  have h : step text debug w (Prog.fiber_yield Q kF) = Outcome.next
      (save_context { set_status (set_status (set_userdata w R Q) F ZERO_FIBER_SUSPENDED) R
        ZERO_FIBER_RUNNING with zero_fiber_current := some R } F (Frame.in_yield F kF)) (k Q) := by
    simp only [step, zero_fiber_yield, zero_fiber_active_some w F c1, c3, c2, hd1, hd2]
    simp [zero_context_switch, save_context, set_status, set_userdata, Function.update_noteq c5,
      Function.update_noteq (Ne.symm c5), c4, c2]
  refine ⟨_, h, ?_⟩
  simp [save_context, set_status, set_userdata, Function.update_noteq c5,
      Function.update_noteq (Ne.symm c5)]

theorem return_running_under (text : Nat → zero_userdata_t → Prog) (debug : Bool)
    (w : World) (F R : Nat) (v : zero_userdata_t) (k : zero_userdata_t → Prog)
    (hr : RunningUnder w F R k) :
    ∃ w2, step text debug w (Prog.ret v) = Outcome.next w2 (k v) ∧
      w2.zero_fiber_current = some R ∧ (w2.fibers F).status = ZERO_FIBER_ENDED ∧
      zero_fiber_is_active w2 (some F) = false := by
  obtain ⟨c1, c2, c3, c4, c8, c5, c6, c7⟩ := hr
  obtain ⟨n, hn⟩ : ∃ n, w.nfibers = n + 1 := ⟨w.nfibers - 1, by omega⟩
  have h : step text debug w (Prog.ret v) = Outcome.next
      (save_context (set_userdata { set_status w F ZERO_FIBER_ENDED with
        zero_fiber_current := some R } R v) F Frame.in_return) (k v) := by
    simp only [step, zero_fiber_return, zero_fiber_active_some w F c1]
    simp [zero_fiber_return_walk, hn, set_status, c2, c8, Function.update_noteq c5,
      Function.update_noteq (Ne.symm c5), zero_context_switch, save_context, set_userdata, c4]
  refine ⟨_, h, ?_⟩
  simp [save_context, set_status, set_userdata, Function.update_noteq c5,
      Function.update_noteq (Ne.symm c5), zero_fiber_is_active]

theorem resume_parked_in_yield (text : Nat → zero_userdata_t → Prog) (debug : Bool)
    (w : World) (F R : Nat) (P : zero_userdata_t) (k kF : zero_userdata_t → Prog)
    (hcur : w.zero_fiber_current = some R) (hne : R ≠ F)
    (hst : (w.fibers F).status ≠ ZERO_FIBER_ENDED)
    (hctx : w.context F = Frame.in_yield F kF) :
    ∃ w2, step text debug w (Prog.fiber_resume F P k) = Outcome.next w2 (kF P) ∧
      w2.zero_fiber_current = some F := by
  have h : step text debug w (Prog.fiber_resume F P k) = Outcome.next
      (save_context { set_status (set_userdata (set_status (set_caller w F (some R)) R
        ZERO_FIBER_SUSPENDED) F P) F ZERO_FIBER_RUNNING with zero_fiber_current := some F } R
        (Frame.in_resume F k)) (kF P) := by
    simp only [step, zero_fiber_resume, zero_fiber_active_some w R hcur, if_neg hst]
    simp [zero_context_switch, save_context, set_status, set_userdata, set_caller,
      Function.update_noteq hne, Function.update_noteq (Ne.symm hne), hctx]
  exact ⟨_, h, rfl⟩

/-! ## C1 -/

/-- C1. Resume/Yield round trip.  Let `R` be the current fiber and `F` another
allocated fiber that is not Ended.  `R` calls `zero_fiber_resume(F, P)`; `F` then
runs without suspending until it calls `zero_fiber_yield(Q)` (with
`ZERO_FIBER_DEBUG` on, `F` is not the main fiber, whose yield would not suspend).
Then that yield hands control back to `R` and `R`'s resume call returns `Q`.
Moreover, whenever a current fiber `R'` other than `F` later calls
`zero_fiber_resume(F, P')` while `F` is still parked in that yield, `F` continues
and its yield call returns `P'`. -/
theorem resume_yield_round_trip (text : Nat → zero_userdata_t → Prog) (debug : Bool)
    (w w0 w1 : World) (R F : Nat) (P Q : zero_userdata_t)
    (k kF : zero_userdata_t → Prog) (p0 : Prog)
    (hcur : (zero_fiber_active w).2 = R) (hne : F ≠ R)
    (hst : (w.fibers F).status ≠ ZERO_FIBER_ENDED)
    (hF : F < w.nfibers) (hR : R < w.nfibers)
    (hmain : debug = true → F ≠ 0)
    (hres : step text debug w (Prog.fiber_resume F P k) = Outcome.next w0 p0)
    (hq : Quiet text debug w0 p0 w1 (Prog.fiber_yield Q kF)) :
    ∃ w2, step text debug w1 (Prog.fiber_yield Q kF) = Outcome.next w2 (k Q) ∧
      w2.zero_fiber_current = some R ∧
      ∀ (w3 : World) (R' : Nat) (P' : zero_userdata_t) (k' : zero_userdata_t → Prog),
        w3.zero_fiber_current = some R' → R' ≠ F →
        (w3.fibers F).status ≠ ZERO_FIBER_ENDED → w3.context F = w2.context F →
        ∃ w4, step text debug w3 (Prog.fiber_resume F P' k') = Outcome.next w4 (kF P') ∧
          w4.zero_fiber_current = some F := by
  have hr := quiet_running_under text debug w0 w1 p0 _ F R k hq
    (resume_running_under text debug w w0 R F P k p0 hcur hne hst hF hR hres)
  obtain ⟨w2, h1, h2, h3, -, -⟩ := yield_running_under text debug w1 F R Q k kF hmain hr
  refine ⟨w2, h1, h2, ?_⟩
  intro w3 R' P' k' hc hn hs hctx
  exact resume_parked_in_yield text debug w3 F R' P' k' kF hc hn hs (hctx.trans h3)

/-- The test `Run basic fiber`: the four resumes return 1, 2, 3 and 1. -/
theorem test_fibers_run_basic_fiber :
    (run test_fibers_text true 10 World.init test_fibers_main).map (fun r => r.2) =
      some 1231 := by
  decide

/-- Witness for C1: the first resume of the test `Run basic fiber`. -/
theorem resume_yield_round_trip_witness :
    ∃ w2, step test_fibers_text true test_fibers_world_1 (Prog.fiber_yield 1 fiber_basic_1) =
        Outcome.next w2 (test_fibers_k1 1) ∧
      w2.zero_fiber_current = some 0 ∧
      ∀ (w3 : World) (R' : Nat) (P' : zero_userdata_t) (k' : zero_userdata_t → Prog),
        w3.zero_fiber_current = some R' → R' ≠ 1 →
        (w3.fibers 1).status ≠ ZERO_FIBER_ENDED → w3.context 1 = w2.context 1 →
        ∃ w4, step test_fibers_text true w3 (Prog.fiber_resume 1 P' k') =
            Outcome.next w4 (fiber_basic_1 P') ∧
          w4.zero_fiber_current = some 1 :=
  resume_yield_round_trip test_fibers_text true test_fibers_world test_fibers_world_1
    test_fibers_world_1 0 1 1 1 test_fibers_k1 fiber_basic_1 (Prog.fiber_yield 1 fiber_basic_1)
    rfl (by decide) (by decide) (by decide) (by decide) (by decide) rfl (Quiet.refl _ _)

/-! ## C2 -/

/-- C2. Natural return delivers the final value.  Let `R` be the current fiber and `F`
another allocated fiber that is not Ended.  `R` calls `zero_fiber_resume(F, P)`
(which leaves `R` Suspended, hence live); `F` then runs without suspending until
its entrypoint returns `v`.  Then control goes back to `R`, whose resume call
returns `v`, the status of `F` is Ended and `zero_fiber_is_active(F)` is false. -/
theorem natural_return_delivers_value (text : Nat → zero_userdata_t → Prog) (debug : Bool)
    (w w0 w1 : World) (R F : Nat) (P v : zero_userdata_t)
    (k : zero_userdata_t → Prog) (p0 : Prog)
    (hcur : (zero_fiber_active w).2 = R) (hne : F ≠ R)
    (hst : (w.fibers F).status ≠ ZERO_FIBER_ENDED)
    (hF : F < w.nfibers) (hR : R < w.nfibers)
    (hres : step text debug w (Prog.fiber_resume F P k) = Outcome.next w0 p0)
    (hq : Quiet text debug w0 p0 w1 (Prog.ret v)) :
    ∃ w2, step text debug w1 (Prog.ret v) = Outcome.next w2 (k v) ∧
      w2.zero_fiber_current = some R ∧
      (w2.fibers F).status = ZERO_FIBER_ENDED ∧
      zero_fiber_is_active w2 (some F) = false :=
  return_running_under text debug w1 F R v k
    (quiet_running_under text debug w0 w1 p0 _ F R k hq
      (resume_running_under text debug w w0 R F P k p0 hcur hne hst hF hR hres))

/-- Witness for C2: the fourth resume of the test `Run basic fiber` returns the value 1
that the entrypoint returns. -/
theorem natural_return_delivers_value_witness :
    ∃ w2, step test_fibers_text true test_fibers_world_4 (Prog.ret 1) =
        Outcome.next w2 (test_fibers_k4 1) ∧
      w2.zero_fiber_current = some 0 ∧
      (w2.fibers 1).status = ZERO_FIBER_ENDED ∧
      zero_fiber_is_active w2 (some 1) = false :=
  natural_return_delivers_value test_fibers_text true test_fibers_world_3 test_fibers_world_4
    test_fibers_world_4 0 1 4 1 test_fibers_k4 (Prog.ret 1)
    rfl (by decide) (by decide) (by decide) (by decide) rfl (Quiet.refl _ _)

/-! ## C3 -/

/-- C3. Resuming an Ended fiber is a no-op.  When the current fiber `R` calls
`zero_fiber_resume(F, P)` for a fiber `F` whose status is Ended, the call returns
`NULL` and the world is unchanged: the status, caller and userdata of `F`, the
status of `R` and the current-fiber pointer are what they were, and no context
switch happens (`R` goes on with the return value). -/
theorem resume_ended_is_noop (text : Nat → zero_userdata_t → Prog) (debug : Bool)
    (w : World) (R F : Nat) (P : zero_userdata_t) (k : zero_userdata_t → Prog)
    (hcur : w.zero_fiber_current = some R)
    (hst : (w.fibers F).status = ZERO_FIBER_ENDED) :
    step text debug w (Prog.fiber_resume F P k) = Outcome.next w (k NULL) := by
  simp [step, zero_fiber_resume, zero_fiber_active_some w R hcur, hst]

/-- Witness for C3: a fifth resume in the test `Run basic fiber`, whose fiber has Ended. -/
theorem resume_ended_is_noop_witness :
    step test_fibers_text true test_fibers_world_5 (Prog.fiber_resume 1 5 Prog.done) =
      Outcome.next test_fibers_world_5 (Prog.done NULL) :=
  resume_ended_is_noop test_fibers_text true test_fibers_world_5 0 1 5 Prog.done
    (by decide) (by decide)

/-! ## The waiting-queue pass -/

theorem jobs_run_waiting_append (time : ℚ) (mem : Nat → Int) (W : List job_waiting_t) :
    ∀ (V : List job_waiting_t) (R : List job_t),
      jobs_run_waiting time mem W.length (W ++ V) R =
        some (V ++ W.filter (wait_requeued time mem),
          R ++ (W.filter (wait_satisfied time mem)).map (fun x => x.job)) := by
  induction W with
  | nil => intro V R; simp [jobs_run_waiting]
  | cons x W ih =>
    intro V R
    simp only [List.length_cons, List.cons_append, jobs_run_waiting]
    cases hc : x.condition
    · by_cases ht : time ≥ x.end_time - ZERO_JOBS_TIMING_ERROR
      · simp [ht, ih, wait_requeued, wait_satisfied, hc, List.filter_cons]
      · have := ih (V ++ [x]) R
        simp only [List.append_assoc] at this
        simp [ht, this, wait_requeued, wait_satisfied, hc, List.filter_cons]
    · cases ha : x.data_address with
      | none =>
        have := ih (V ++ [x]) R
        simp only [List.append_assoc] at this
        simp [this, wait_requeued, wait_satisfied, hc, ha, List.filter_cons]
      | some a =>
        by_cases hm : mem a = 0
        · simp [hm, ih, wait_requeued, wait_satisfied, hc, ha, List.filter_cons]
        · have := ih (V ++ [x]) R
          simp only [List.append_assoc] at this
          simp [hm, this, wait_requeued, wait_satisfied, hc, ha, List.filter_cons]
    · simp [ih, wait_requeued, wait_satisfied, hc, List.filter_cons]

theorem jobs_run_waiting_eq (time : ℚ) (mem : Nat → Int) (W : List job_waiting_t)
    (R : List job_t) :
    jobs_run_waiting time mem W.length W R =
      some (W.filter (wait_requeued time mem),
        R ++ (W.filter (wait_satisfied time mem)).map (fun x => x.job)) := by
  have := jobs_run_waiting_append time mem W [] R
  simpa using this

theorem jobs_run_queueing_eq (time : ℚ) (w : World) :
    jobs_run_queueing time w =
      some ({ w with jobs := [], waiting_jobs := w.waiting_jobs.filter (wait_requeued time w.mem) },
        w.jobs ++ (w.waiting_jobs.filter (wait_satisfied time w.mem)).map (fun x => x.job)) := by
  simp [jobs_run_queueing, jobs_run_waiting_eq]

/-! ## What a library call does to the scheduler's variables -/

theorem yields_append (l1 l2 : List Event) : yields (l1 ++ l2) = yields l1 ++ yields l2 := by
  induction l1 with
  | nil => rfl
  | cons e l ih => cases e <;> simp [yields, ih]

theorem creates_append (l1 l2 : List Event) :
    creates (l1 ++ l2) = creates l1 ++ creates l2 := by
  induction l1 with
  | nil => rfl
  | cons e l ih => cases e <;> simp [creates, ih]

theorem resumes_append (l1 l2 : List Event) :
    resumes (l1 ++ l2) = resumes l1 ++ resumes l2 := by
  induction l1 with
  | nil => rfl
  | cons e l ih => cases e <;> simp [resumes, ih]

theorem decrements_append (l1 l2 : List Event) :
    decrements (l1 ++ l2) = decrements l1 ++ decrements l2 := by
  induction l1 with
  | nil => rfl
  | cons e l ih => cases e <;> simp [decrements, ih]

theorem fiberOnly_refl (w : World) : FiberOnly w w :=
  ⟨rfl, rfl, rfl, rfl, rfl, rfl, rfl, rfl, rfl⟩

theorem fiberOnly_trans {w w1 w2 : World} (h1 : FiberOnly w w1) (h2 : FiberOnly w1 w2) :
    FiberOnly w w2 :=
  ⟨h2.nfibers.trans h1.nfibers, h2.jobs.trans h1.jobs, h2.yielded_jobs.trans h1.yielded_jobs,
    h2.waiting_jobs.trans h1.waiting_jobs, h2.job_current.trans h1.job_current,
    h2.latest_time.trans h1.latest_time, h2.mem.trans h1.mem, h2.nmem.trans h1.nmem,
    h2.log.trans h1.log⟩

theorem zero_fiber_active_fiberOnly (w : World) : FiberOnly w (zero_fiber_active w).1 := by
  unfold zero_fiber_active
  split
  · exact ⟨rfl, rfl, rfl, rfl, rfl, rfl, rfl, rfl, rfl⟩
  · exact fiberOnly_refl w

theorem zero_context_switch_fiberOnly (text : Nat → zero_userdata_t → Prog) (w w1 : World)
    (target : Nat) (p : Prog) (h : zero_context_switch text w target = Outcome.next w1 p) :
    FiberOnly w w1 := by
  unfold zero_context_switch at h
  split at h
  · simp only at h
    split at h
    · cases h
    · injection h with h1 h2
      subst h1
      exact zero_fiber_active_fiberOnly w
  · split at h
    · cases h
    · injection h with h1 h2
      subst h1
      exact fiberOnly_refl w
  · injection h with h1 h2
    subst h1
    exact fiberOnly_refl w
  · cases h

theorem zero_context_switch_not_done (text : Nat → zero_userdata_t → Prog) (w w1 : World)
    (target : Nat) (v : zero_userdata_t) :
    zero_context_switch text w target ≠ Outcome.done w1 v := by
  unfold zero_context_switch
  intro h
  split at h
  · simp only at h
    split at h <;> cases h
  · split at h <;> cases h
  · cases h
  · cases h

theorem zero_fiber_return_fiberOnly (text : Nat → zero_userdata_t → Prog) (w w1 : World)
    (v : zero_userdata_t) (p : Prog) (h : zero_fiber_return text w v = Outcome.next w1 p) :
    FiberOnly w w1 := by
  unfold zero_fiber_return at h
  simp only at h
  split at h
  · cases h
  · have hs := zero_context_switch_fiberOnly text _ w1 _ p h
    exact fiberOnly_trans (zero_fiber_active_fiberOnly w)
      ⟨hs.nfibers, hs.jobs, hs.yielded_jobs, hs.waiting_jobs, hs.job_current, hs.latest_time,
        hs.mem, hs.nmem, hs.log⟩

theorem zero_fiber_resume_fiberOnly (text : Nat → zero_userdata_t → Prog) (w w1 : World)
    (f : Nat) (d : zero_userdata_t) (k : zero_userdata_t → Prog) (p : Prog)
    (h : zero_fiber_resume text w f d k = Outcome.next w1 p) : FiberOnly w w1 := by
  unfold zero_fiber_resume at h
  simp only at h
  split at h
  · injection h with h1 h2
    subst h1
    exact zero_fiber_active_fiberOnly w
  · have hs := zero_context_switch_fiberOnly text _ w1 _ p h
    exact fiberOnly_trans (zero_fiber_active_fiberOnly w)
      ⟨hs.nfibers, hs.jobs, hs.yielded_jobs, hs.waiting_jobs, hs.job_current, hs.latest_time,
        hs.mem, hs.nmem, hs.log⟩

theorem zero_fiber_yield_fiberOnly (text : Nat → zero_userdata_t → Prog) (debug : Bool)
    (w w1 : World) (d : zero_userdata_t) (k : zero_userdata_t → Prog) (p : Prog)
    (h : zero_fiber_yield text debug w d k = Outcome.next w1 p) : FiberOnly w w1 := by
  unfold zero_fiber_yield at h
  simp only at h
  split at h
  · injection h with h1 h2
    subst h1
    exact zero_fiber_active_fiberOnly w
  · split at h
    · injection h with h1 h2
      subst h1
      exact zero_fiber_active_fiberOnly w
    · split at h
      · injection h with h1 h2
        subst h1
        exact zero_fiber_active_fiberOnly w
      · split at h
        · cases h
        · have hs := zero_context_switch_fiberOnly text _ w1 _ p h
          exact fiberOnly_trans (zero_fiber_active_fiberOnly w)
            ⟨hs.nfibers, hs.jobs, hs.yielded_jobs, hs.waiting_jobs, hs.job_current,
              hs.latest_time, hs.mem, hs.nmem, hs.log⟩

theorem schedExt_refl (w : World) : SchedExt w w [] [] where
  job_current := rfl
  latest_time := rfl
  nfibers := le_refl _
  nmem := le_refl _
  log := by simp
  no_resumes := rfl
  no_decrements := rfl
  jobs := by simp [creates]
  fresh := by simp [creates]
  fresh_nodup := by simp [creates]
  yielded_jobs := by simp [yields]
  yielded_current := by simp [yields]
  waiting_jobs := by simp
  waiting_current := by simp

theorem schedExt_of_fiberOnly {w w1 : World} (h : FiberOnly w w1) : SchedExt w w1 [] [] where
  job_current := h.job_current
  latest_time := h.latest_time
  nfibers := le_of_eq h.nfibers.symm
  nmem := le_of_eq h.nmem.symm
  log := by simp [h.log]
  no_resumes := rfl
  no_decrements := rfl
  jobs := by simp [creates, h.jobs]
  fresh := by simp [creates]
  fresh_nodup := by simp [creates]
  yielded_jobs := by simp [yields, h.yielded_jobs]
  yielded_current := by simp [yields]
  waiting_jobs := by simp [h.waiting_jobs]
  waiting_current := by simp

theorem schedExt_trans {w w1 w2 : World} {l1 l2 : List Event} {ws1 ws2 : List job_waiting_t}
    (h1 : SchedExt w w1 l1 ws1) (h2 : SchedExt w1 w2 l2 ws2) :
    SchedExt w w2 (l1 ++ l2) (ws1 ++ ws2) where
  job_current := h2.job_current.trans h1.job_current
  latest_time := h2.latest_time.trans h1.latest_time
  nfibers := le_trans h1.nfibers h2.nfibers
  nmem := le_trans h1.nmem h2.nmem
  log := by rw [h2.log, h1.log, List.append_assoc]
  no_resumes := by rw [resumes_append, h1.no_resumes, h2.no_resumes]; rfl
  no_decrements := by rw [decrements_append, h1.no_decrements, h2.no_decrements]; rfl
  jobs := by rw [h2.jobs, h1.jobs, creates_append, List.append_assoc]
  fresh := by
    intro j hj
    rw [creates_append, List.mem_append] at hj
    rcases hj with hj | hj
    · exact ⟨(h1.fresh j hj).1, lt_of_lt_of_le (h1.fresh j hj).2 h2.nfibers⟩
    · exact ⟨le_trans h1.nfibers (h2.fresh j hj).1, (h2.fresh j hj).2⟩
  fresh_nodup := by
    rw [creates_append, List.map_append, List.nodup_append]
    refine ⟨h1.fresh_nodup, h2.fresh_nodup, ?_⟩
    intro a ha hb
    rw [List.mem_map] at ha hb
    obtain ⟨j1, hj1, rfl⟩ := ha
    obtain ⟨j2, hj2, he⟩ := hb
    have := (h1.fresh j1 hj1).2
    have := (h2.fresh j2 hj2).1
    omega
  yielded_jobs := by rw [h2.yielded_jobs, h1.yielded_jobs, yields_append, List.append_assoc]
  yielded_current := by
    intro j hj
    rw [yields_append, List.mem_append] at hj
    rcases hj with hj | hj
    · exact h1.yielded_current j hj
    · rw [← h1.job_current]; exact h2.yielded_current j hj
  waiting_jobs := by rw [h2.waiting_jobs, h1.waiting_jobs, List.append_assoc]
  waiting_current := by
    intro x hx
    rw [List.mem_append] at hx
    rcases hx with hx | hx
    · exact h1.waiting_current x hx
    · rw [← h1.job_current]; exact h2.waiting_current x hx

theorem step_done (text : Nat → zero_userdata_t → Prog) (debug : Bool) (w w1 : World)
    (p : Prog) (v : zero_userdata_t) (h : step text debug w p = Outcome.done w1 v) :
    w1 = w ∧ p = Prog.done v := by
  cases p <;> simp only [step] at h
  case done v1 => injection h with h1 h2; exact ⟨h1.symm, by rw [h2]⟩
  case ret v1 =>
    unfold zero_fiber_return at h
    simp only at h
    split at h
    · cases h
    · exact absurd h (zero_context_switch_not_done text _ _ _ _)
  case fiber_yield q k =>
    unfold zero_fiber_yield at h
    simp only at h
    repeat (first | cases h | split at h)
    exact absurd h (zero_context_switch_not_done text _ _ _ _)
  case fiber_resume f q k =>
    unfold zero_fiber_resume at h
    simp only at h
    split at h
    · cases h
    · exact absurd h (zero_context_switch_not_done text _ _ _ _)
  case job_yield k =>
    split at h
    · cases h
    · unfold zero_fiber_yield at h
      simp only at h
      repeat (first | cases h | split at h)
      exact absurd h (zero_context_switch_not_done text _ _ _ _)
  case job_wait d k =>
    split at h
    · cases h
    · unfold zero_fiber_yield at h
      simp only at h
      repeat (first | cases h | split at h)
      exact absurd h (zero_context_switch_not_done text _ _ _ _)
  case job_wait_on_condition c k =>
    split at h
    · cases h
    · unfold zero_fiber_yield at h
      simp only at h
      repeat (first | cases h | split at h)
      exact absurd h (zero_context_switch_not_done text _ _ _ _)
  all_goals cases h

theorem step_schedExt (text : Nat → zero_userdata_t → Prog) (debug : Bool) (w w1 : World)
    (p p1 : Prog) (h : step text debug w p = Outcome.next w1 p1) :
    ∃ l ws, SchedExt w w1 l ws := by
  cases p <;> simp only [step] at h
  case ret v => exact ⟨_, _, schedExt_of_fiberOnly (zero_fiber_return_fiberOnly text w w1 v p1 h)⟩
  case done v => cases h
  case fiber_yield q k =>
    exact ⟨_, _, schedExt_of_fiberOnly (zero_fiber_yield_fiberOnly text debug w w1 q k p1 h)⟩
  case fiber_resume f q k =>
    exact ⟨_, _, schedExt_of_fiberOnly (zero_fiber_resume_fiberOnly text w w1 f q k p1 h)⟩
  case fiber_make size e d k =>
    injection h with h1 h2
    subst h1
    exact ⟨[], [], by constructor <;> simp [zero_fiber_make, creates, yields, resumes, decrements]⟩
  case fiber_is_active f k =>
    injection h with h1 h2
    subst h1
    exact ⟨_, _, schedExt_refl w⟩
  case job_create e c k =>
    injection h with h1 h2
    subst h1
    refine ⟨[Event.created ⟨w.nfibers, c⟩], [], ?_⟩
    cases c <;> constructor <;>
      simp [job_create, zero_fiber_make, ZERO_ATOMIC_INCREMENT, creates, yields, resumes,
        decrements]
  case job_yield k =>
    cases hj : w.job_current with
    | none => simp [job_yield_push, hj] at h
    | some j =>
      simp only [job_yield_push, hj] at h
      have hf := zero_fiber_yield_fiberOnly text debug _ w1 _ _ p1 h
      refine ⟨[Event.yielded j], [], ?_⟩
      constructor <;>
        simp [hf.job_current, hf.latest_time, hf.nfibers, hf.nmem, hf.log, hf.jobs,
          hf.yielded_jobs, hf.waiting_jobs, creates, yields, resumes, decrements, hj]
  case job_wait d k =>
    cases hj : w.job_current with
    | none => simp [job_wait_push, hj] at h
    | some j =>
      simp only [job_wait_push, hj] at h
      have hf := zero_fiber_yield_fiberOnly text debug _ w1 _ _ p1 h
      refine ⟨[], [(⟨j, JOB_WAIT_TIMER, w.latest_time + d, none⟩ : job_waiting_t)], ?_⟩
      constructor <;>
        first
          | exact hf.waiting_jobs
          | simp [hf.job_current, hf.latest_time, hf.nfibers, hf.nmem, hf.log, hf.jobs,
              hf.yielded_jobs, creates, yields, resumes, decrements, hj]
  case job_wait_on_condition c k =>
    cases hj : w.job_current with
    | none => simp [job_wait_on_condition_push, hj] at h
    | some j =>
      simp only [job_wait_on_condition_push, hj] at h
      have hf := zero_fiber_yield_fiberOnly text debug _ w1 _ _ p1 h
      refine ⟨[], [(⟨j, JOB_WAIT_COUNTER_ZERO, 0, c⟩ : job_waiting_t)], ?_⟩
      constructor <;>
        first
          | exact hf.waiting_jobs
          | simp [hf.job_current, hf.latest_time, hf.nfibers, hf.nmem, hf.log, hf.jobs,
              hf.yielded_jobs, creates, yields, resumes, decrements, hj]
  case job_counter_make k =>
    injection h with h1 h2
    subst h1
    exact ⟨[], [], by constructor <;> simp [job_counter_make, creates, yields, resumes, decrements]⟩
  case load a k =>
    injection h with h1 h2
    subst h1
    exact ⟨_, _, schedExt_refl w⟩
  case store a v k =>
    injection h with h1 h2
    subst h1
    exact ⟨[], [], by constructor <;> simp [creates, yields, resumes, decrements]⟩
  case jump e d =>
    injection h with h1 h2
    subst h1
    exact ⟨_, _, schedExt_refl w⟩

theorem run_schedExt (text : Nat → zero_userdata_t → Prog) (debug : Bool) (n : Nat) :
    ∀ (w : World) (p : Prog) (w1 : World) (v : zero_userdata_t),
      run text debug n w p = some (w1, v) → ∃ l ws, SchedExt w w1 l ws := by
  induction n with
  | zero => intro w p w1 v h; simp [run] at h
  | succ n ih =>
    intro w p w1 v h
    simp only [run] at h
    split at h
    · rename_i w2 p2 hs
      obtain ⟨l1, ws1, h1⟩ := step_schedExt text debug w w2 p p2 hs
      obtain ⟨l2, ws2, h2⟩ := ih w2 p2 w1 v h
      exact ⟨_, _, schedExt_trans h1 h2⟩
    · rename_i w2 v2 hs
      injection h with h1
      injection h1 with h1 h2
      subst h1
      rw [(step_done text debug w w2 p v2 hs).1]
      exact ⟨_, _, schedExt_refl w⟩
    · cases h

/-! ## The loops of `jobs_run` -/

theorem jobs_run_job_spec (text : Nat → zero_userdata_t → Prog) (debug : Bool) (fuel : Nat)
    (J : job_t) (w w1 : World) (h : jobs_run_job text debug fuel J w = some w1) :
    ∃ w2 l ws,
      SchedExt { w with job_current := some J, log := w.log ++ [Event.resumed J] } w2 l ws ∧
      (w1 = w2 ∧ (J.status_counter = none ∨ (w2.fibers J.fiber).status ≠ ZERO_FIBER_ENDED) ∨
        ∃ c, J.status_counter = some c ∧ (w2.fibers J.fiber).status = ZERO_FIBER_ENDED ∧
          w1 = { ZERO_ATOMIC_DECREMENT w2 c with log := w2.log ++ [Event.decremented J c] }) := by
  unfold jobs_run_job at h
  simp only at h
  split at h
  · cases h
  · rename_i w2 v hr
    obtain ⟨l, ws, hs⟩ := run_schedExt text debug fuel _ _ w2 v hr
    refine ⟨w2, l, ws, hs, ?_⟩
    split at h
    · rename_i c hc
      by_cases he : (w2.fibers J.fiber).status = ZERO_FIBER_ENDED
      · right
        simp [zero_fiber_is_active, he] at h
        exact ⟨c, hc, he, h.symm⟩
      · left
        simp [zero_fiber_is_active, he] at h
        exact ⟨h.symm, Or.inr he⟩
    · rename_i hc
      left
      injection h with h
      exact ⟨h.symm, Or.inl hc⟩

theorem jobs_run_running_inv (text : Nat → zero_userdata_t → Prog) (debug : Bool) (fuel : Nat)
    (H : List job_t → World → Prop)
    (hjob : ∀ J rest w w1, H (J :: rest) w → jobs_run_job text debug fuel J w = some w1 →
      H rest w1) :
    ∀ (batch : List job_t) (w w1 : World), H batch w →
      jobs_run_running text debug fuel batch w = some w1 → H [] w1 := by
  intro batch
  induction batch with
  | nil =>
    intro w w1 hH h
    simp only [jobs_run_running] at h
    injection h with h
    subst h
    exact hH
  | cons J rest ih =>
    intro w w1 hH h
    simp only [jobs_run_running] at h
    split at h
    · cases h
    · rename_i w2 hj
      exact ih w2 w1 (hjob J rest w w2 hH hj) h

theorem jobs_run_loop_inv (text : Nat → zero_userdata_t → Prog) (debug : Bool) (fuel : Nat)
    (time : ℚ) (H : List job_t → World → Prop)
    (hjob : ∀ J rest w w1, H (J :: rest) w → jobs_run_job text debug fuel J w = some w1 →
      H rest w1)
    (hqueue : ∀ w w1 batch, H [] w → jobs_run_queueing time w = some (w1, batch) → H batch w1)
    (n : Nat) :
    ∀ (w w1 : World), H [] w → jobs_run_loop text debug fuel time n w = some w1 →
      ∃ w0, H [] w0 ∧ jobs_run_queueing time w0 = some (w1, []) := by
  induction n with
  | zero => intro w w1 _ h; simp [jobs_run_loop] at h
  | succ n ih =>
    intro w w1 hH h
    simp only [jobs_run_loop] at h
    split at h
    · cases h
    · rename_i w2 hq
      injection h with h
      subst h
      exact ⟨w, hH, hq⟩
    · rename_i w2 J rest hq
      split at h
      · cases h
      · rename_i w3 hr
        exact ih w3 w1
          (jobs_run_running_inv text debug fuel H hjob (J :: rest) w2 w3
            (hqueue w w2 (J :: rest) hH hq) hr) h

theorem mem_resumes (j : job_t) (l : List Event) : j ∈ resumes l ↔ Event.resumed j ∈ l := by
  induction l with
  | nil => simp [resumes]
  | cons e l ih => cases e <;> simp [resumes, ih]

theorem mem_yields (j : job_t) (l : List Event) : j ∈ yields l ↔ Event.yielded j ∈ l := by
  induction l with
  | nil => simp [yields]
  | cons e l ih => cases e <;> simp [yields, ih]

theorem mem_creates (j : job_t) (l : List Event) : j ∈ creates l ↔ Event.created j ∈ l := by
  induction l with
  | nil => simp [creates]
  | cons e l ih => cases e <;> simp [creates, ih]

/-- The effect of one iteration of the inner loop of `jobs_run` on the scheduler's
variables: the trace grows by the resume of `J`, the events `l` of the code and
possibly one decrement; the queues grow as in `SchedExt`. -/
theorem jobs_run_job_ext (text : Nat → zero_userdata_t → Prog) (debug : Bool) (fuel : Nat)
    (J : job_t) (w w1 : World) (h : jobs_run_job text debug fuel J w = some w1) :
    ∃ l ws d, w1.log = w.log ++ Event.resumed J :: (l ++ d) ∧ resumes l = [] ∧ resumes d = [] ∧
      yields d = [] ∧ creates d = [] ∧
      w1.jobs = w.jobs ++ creates l ∧
      (∀ j ∈ creates l, w.nfibers ≤ j.fiber ∧ j.fiber < w1.nfibers) ∧
      ((creates l).map (fun j => j.fiber)).Nodup ∧
      w1.yielded_jobs = w.yielded_jobs ++ yields l ∧ (∀ j ∈ yields l, j = J) ∧
      w1.waiting_jobs = w.waiting_jobs ++ ws ∧ (∀ x ∈ ws, x.job = J) ∧
      w.nfibers ≤ w1.nfibers ∧ w1.latest_time = w.latest_time ∧ w1.job_current = some J := by
  obtain ⟨w2, l, ws, hs, hw⟩ := jobs_run_job_spec text debug fuel J w w1 h
  have hy : ∀ j ∈ yields l, j = J := fun j hj => by
    have := hs.yielded_current j hj
    simp only [Option.some.injEq] at this
    exact this.symm
  have hx : ∀ x ∈ ws, x.job = J := fun x hx => by
    have := hs.waiting_current x hx
    simp only [Option.some.injEq] at this
    exact this.symm
  rcases hw with ⟨rfl, _⟩ | ⟨c, _, _, rfl⟩
  · refine ⟨l, ws, [], ?_, hs.no_resumes, rfl, rfl, rfl, hs.jobs, hs.fresh, hs.fresh_nodup,
      hs.yielded_jobs, hy, hs.waiting_jobs, hx, hs.nfibers, hs.latest_time, hs.job_current⟩
    simp [hs.log]
  · refine ⟨l, ws, [Event.decremented J c], ?_, hs.no_resumes, rfl, rfl, rfl, hs.jobs, hs.fresh,
      hs.fresh_nodup, hs.yielded_jobs, hy, hs.waiting_jobs, hx, hs.nfibers, hs.latest_time,
      hs.job_current⟩
    simp [hs.log, ZERO_ATOMIC_DECREMENT]

theorem jobs_run_eq (text : Nat → zero_userdata_t → Prog) (debug : Bool) (fuel : Nat)
    (time : ℚ) (w w1 : World) (h : jobs_run text debug fuel time w = some w1) :
    ∃ w2, jobs_run_loop text debug fuel time fuel { w with latest_time := time } = some w2 ∧
      w1 = { w2 with jobs := w2.jobs ++ w2.yielded_jobs, yielded_jobs := [] } := by
  unfold jobs_run at h
  split at h
  · cases h
  · rename_i w2 hl
    injection h with h
    exact ⟨w2, hl, h.symm⟩

theorem wait_satisfied_timer (time : ℚ) (mem : Nat → Int) (x : job_waiting_t)
    (h : x.condition = JOB_WAIT_TIMER) :
    wait_satisfied time mem x = decide (time ≥ x.end_time - ZERO_JOBS_TIMING_ERROR) := by
  simp [wait_satisfied, h]

theorem eq_some_getD_of_isSome {α : Type} (o : Option α) (d : α) (h : o.isSome = true) :
    o = some (o.getD d) := by
  cases o with
  | none => cases h
  | some a => rfl

/-- The inner loop of `jobs_run` resumes exactly the jobs of the running batch, in
order. -/
theorem jobs_run_running_resumes (text : Nat → zero_userdata_t → Prog) (debug : Bool)
    (fuel : Nat) :
    ∀ (batch : List job_t) (w w1 : World),
      jobs_run_running text debug fuel batch w = some w1 →
      ∃ l, w1.log = w.log ++ l ∧ resumes l = batch := by
  intro batch
  induction batch with
  | nil =>
    intro w w1 h
    simp only [jobs_run_running] at h
    injection h with h
    subst h
    exact ⟨[], by simp, rfl⟩
  | cons J rest ih =>
    intro w w1 h
    simp only [jobs_run_running] at h
    split at h
    · cases h
    · rename_i w2 hj
      obtain ⟨l', ws, d, e1, e2, e3, -⟩ := jobs_run_job_ext text debug fuel J w w2 hj
      obtain ⟨l, hl, hr⟩ := ih w2 w1 h
      refine ⟨Event.resumed J :: (l' ++ d) ++ l, by rw [hl, e1, List.append_assoc], ?_⟩
      simp [resumes, resumes_append, e2, e3, hr]

theorem wait_satisfied_counter (time : ℚ) (mem : Nat → Int) (x : job_waiting_t) (c : Nat)
    (h : x.condition = JOB_WAIT_COUNTER_ZERO) (hc : x.data_address = some c) :
    wait_satisfied time mem x = decide (mem c = 0) := by
  simp [wait_satisfied, h, hc]

theorem wait_requeued_counter (time : ℚ) (mem : Nat → Int) (x : job_waiting_t) (c : Nat)
    (h : x.condition = JOB_WAIT_COUNTER_ZERO) (hc : x.data_address = some c) :
    wait_requeued time mem x = !decide (mem c = 0) := by
  simp [wait_requeued, h, hc]

/-! ## C5 -/

/-- C5 (amended). CounterZero waiters are gated by their counter at the pass.  Let the
waiting queue be `pre ++ wc :: post` with `wc` a CounterZero record that references the
counter `c`.
(1) The waiting-queue pass of `jobs_run` moves the job of `wc` to the running batch (at
its place among the promoted jobs) when `c` loads zero at that moment, and otherwise
re-enqueues `wc` and leaves its job out.
(2) The scheduler resumes exactly the jobs of the running batch; so when `c` is
non-zero at the pass and `wc` is the only queue entry of its fiber (the job is blocked in
`job_wait_on_condition(c)`), the scheduler resumes that fiber nowhere in this iteration
of the outer loop, and `wc` is in the waiting queue for the next pass.  The counter is
tested at the pass only, not at the resume. -/
theorem counter_waiter_gated (now : ℚ) (w : World) (pre post : List job_waiting_t)
    (wc : job_waiting_t) (c : Nat)
    (hcond : wc.condition = JOB_WAIT_COUNTER_ZERO) (haddr : wc.data_address = some c)
    (hw : w.waiting_jobs = pre ++ wc :: post) :
    jobs_run_queueing now w = some
      (if w.mem c = 0 then
        ({ w with jobs := [],
                  waiting_jobs := pre.filter (wait_requeued now w.mem) ++
                    post.filter (wait_requeued now w.mem) },
          w.jobs ++ ((pre.filter (wait_satisfied now w.mem)).map (fun x => x.job) ++
            wc.job :: (post.filter (wait_satisfied now w.mem)).map (fun x => x.job)))
      else
        ({ w with jobs := [],
                  waiting_jobs := pre.filter (wait_requeued now w.mem) ++
                    wc :: post.filter (wait_requeued now w.mem) },
          w.jobs ++ ((pre.filter (wait_satisfied now w.mem)).map (fun x => x.job) ++
            (post.filter (wait_satisfied now w.mem)).map (fun x => x.job)))) ∧
    ∀ (text : Nat → zero_userdata_t → Prog) (debug : Bool) (fuel : Nat)
      (w1 w2 : World) (batch : List job_t),
      jobs_run_queueing now w = some (w1, batch) →
      jobs_run_running text debug fuel batch w1 = some w2 →
      ∃ l, w2.log = w.log ++ l ∧ resumes l = batch ∧
        (w.mem c ≠ 0 →
          (∀ j ∈ w.jobs, j.fiber ≠ wc.job.fiber) →
          (∀ x ∈ pre ++ post, x.job.fiber ≠ wc.job.fiber) →
          (∀ j ∈ resumes l, j.fiber ≠ wc.job.fiber) ∧ wc ∈ w2.waiting_jobs) := by
  have hfirst : jobs_run_queueing now w = some
      (if w.mem c = 0 then
        ({ w with jobs := [],
                  waiting_jobs := pre.filter (wait_requeued now w.mem) ++
                    post.filter (wait_requeued now w.mem) },
          w.jobs ++ ((pre.filter (wait_satisfied now w.mem)).map (fun x => x.job) ++
            wc.job :: (post.filter (wait_satisfied now w.mem)).map (fun x => x.job)))
      else
        ({ w with jobs := [],
                  waiting_jobs := pre.filter (wait_requeued now w.mem) ++
                    wc :: post.filter (wait_requeued now w.mem) },
          w.jobs ++ ((pre.filter (wait_satisfied now w.mem)).map (fun x => x.job) ++
            (post.filter (wait_satisfied now w.mem)).map (fun x => x.job)))) := by
    rw [jobs_run_queueing_eq, hw]
    by_cases hz : w.mem c = 0
    · simp [hz, List.filter_cons, wait_satisfied_counter now w.mem wc c hcond haddr,
        wait_requeued_counter now w.mem wc c hcond haddr]
    · simp [hz, List.filter_cons, wait_satisfied_counter now w.mem wc c hcond haddr,
        wait_requeued_counter now w.mem wc c hcond haddr]
  refine ⟨hfirst, ?_⟩
  intro text debug fuel w1 w2 batch hq hr
  obtain ⟨l, hl, hres⟩ := jobs_run_running_resumes text debug fuel batch w1 w2 hr
  have hlog : w1.log = w.log := by
    rw [jobs_run_queueing_eq] at hq
    injection hq with hq
    injection hq with hq1 hq2
    rw [← hq1]
  refine ⟨l, by rw [hl, hlog], hres, ?_⟩
  intro hz hjobs hothers
  rw [hfirst, if_neg hz] at hq
  injection hq with hq
  injection hq with hq1 hq2
  constructor
  · intro j hj
    rw [hres, ← hq2] at hj
    rcases List.mem_append.mp hj with hj | hj
    · exact hjobs j hj
    · rcases List.mem_append.mp hj with hj | hj
      · obtain ⟨x, hx, rfl⟩ := List.mem_map.mp hj
        exact hothers x (List.mem_append_left _ (List.mem_filter.mp hx).1)
      · obtain ⟨x, hx, rfl⟩ := List.mem_map.mp hj
        exact hothers x (List.mem_append_right _ (List.mem_filter.mp hx).1)
  · have hin : wc ∈ w1.waiting_jobs := by
      rw [← hq1]
      simp
    have key := jobs_run_running_inv text debug fuel
      (fun _ v => wc ∈ v.waiting_jobs)
      (by
        intro J rest v v1 hv hj
        obtain ⟨l', ws, d, -, -, -, -, -, -, -, -, -, -, e8, -⟩ :=
          jobs_run_job_ext text debug fuel J v v1 hj
        rw [e8]
        exact List.mem_append_left _ hv)
      batch w1 w2 hin hr
    exact key

/-- The first Tick of the parent and its child. -/
theorem group_world_eq :
    jobs_run group_text false 8 0 (job_create World.init (some 0) none) = some group_world ∧
    group_world.waiting_jobs = [group_wait] ∧
    group_world.jobs = [⟨2, some 0⟩] ∧ group_world.yielded_jobs = [] ∧
    group_world.mem 0 = 1 ∧ group_world.nfibers = 3 ∧
    group_world.log =
      [Event.created ⟨1, none⟩, Event.resumed ⟨1, none⟩, Event.created ⟨2, some 0⟩,
        Event.resumed ⟨2, some 0⟩, Event.yielded ⟨2, some 0⟩] :=
  ⟨eq_some_getD_of_isSome _ _ (by decide!), by decide!, by decide!, by decide!, by decide!,
    by decide!, by decide!⟩

/-- Witness for C5: the record of the parent after the first Tick, the counter being 1. -/
theorem counter_waiter_gated_witness :
    group_wait.condition = JOB_WAIT_COUNTER_ZERO ∧ group_wait.data_address = some 0 ∧
    group_world.waiting_jobs = [] ++ group_wait :: [] ∧
    (jobs_run_queueing (1 / 120) group_world = some
      (if group_world.mem 0 = 0 then
        ({ group_world with
            jobs := [],
            waiting_jobs := ([] : List job_waiting_t).filter
                (wait_requeued (1 / 120) group_world.mem) ++
              ([] : List job_waiting_t).filter (wait_requeued (1 / 120) group_world.mem) },
          group_world.jobs ++
            ((([] : List job_waiting_t).filter
                (wait_satisfied (1 / 120) group_world.mem)).map (fun x => x.job) ++
              group_wait.job :: (([] : List job_waiting_t).filter
                (wait_satisfied (1 / 120) group_world.mem)).map (fun x => x.job)))
      else
        ({ group_world with
            jobs := [],
            waiting_jobs := ([] : List job_waiting_t).filter
                (wait_requeued (1 / 120) group_world.mem) ++
              group_wait :: ([] : List job_waiting_t).filter
                (wait_requeued (1 / 120) group_world.mem) },
          group_world.jobs ++
            ((([] : List job_waiting_t).filter
                (wait_satisfied (1 / 120) group_world.mem)).map (fun x => x.job) ++
              (([] : List job_waiting_t).filter
                (wait_satisfied (1 / 120) group_world.mem)).map (fun x => x.job)))) ∧
    ∀ (text : Nat → zero_userdata_t → Prog) (debug : Bool) (fuel : Nat)
      (w1 w2 : World) (batch : List job_t),
      jobs_run_queueing (1 / 120) group_world = some (w1, batch) →
      jobs_run_running text debug fuel batch w1 = some w2 →
      ∃ l, w2.log = group_world.log ++ l ∧ resumes l = batch ∧
        (group_world.mem 0 ≠ 0 →
          (∀ j ∈ group_world.jobs, j.fiber ≠ group_wait.job.fiber) →
          (∀ x ∈ ([] : List job_waiting_t) ++ [], x.job.fiber ≠ group_wait.job.fiber) →
          (∀ j ∈ resumes l, j.fiber ≠ group_wait.job.fiber) ∧ group_wait ∈ w2.waiting_jobs)) :=
  ⟨rfl, rfl, group_world_eq.2.1,
    counter_waiter_gated (1 / 120) group_world [] [] group_wait 0 rfl rfl group_world_eq.2.1⟩

/-! ## The stack pools -/

theorem job_pool_init_loop_cells (size base : Nat) (n : Nat) :
    ∀ (slot : Nat) (w : World),
      (job_pool_init_loop size base n slot w).2 =
        (List.range' slot n).map (fun i => some (base + i)) := by
  induction n with
  | zero => intro slot w; rfl
  | succ n ih =>
    intro slot w
    simp only [job_pool_init_loop, List.range'_succ, List.map_cons]
    rw [ih]

theorem job_pool_init_small_table (cfg : zero_jobs_config) (w : World) :
    (job_pool_init cfg w).zero_jobs_small_free_table =
      some ((List.range' 0 cfg.ZERO_JOBS_SMALL_COUNT).map (fun i => some (w.njob_heap + i))) := by
  simp only [job_pool_init]
  rw [job_pool_init_loop_cells]

/-- The loop of `job_alloc` passes over null cells. -/
theorem job_alloc_loop_skip (e : Option Nat) (d : zero_userdata_t) (w : World)
    (table : List (Option Nat)) (ht : w.zero_jobs_small_free_table = some table) (i : Nat) :
    ∀ (slot n : Nat), (∀ t, t < i → table.get? (slot + t) = some none) →
      job_alloc_loop e d (i + n) slot w = job_alloc_loop e d n (slot + i) w := by
  induction i with
  | zero => intro slot n _; simp
  | succ i ih =>
    intro slot n h
    have h0 := h 0 (Nat.succ_pos i)
    simp only [Nat.add_zero] at h0
    have : i + 1 + n = (i + n) + 1 := by omega
    rw [this]
    simp only [job_alloc_loop, ht, h0]
    rw [ih (slot + 1) n (fun t ht' => by
      have := h (t + 1) (by omega)
      rwa [show slot + (t + 1) = slot + 1 + t by omega] at this)]
    congr 1
    omega

/-- The loop of `job_alloc` claims the first non-null cell it meets. -/
theorem job_alloc_loop_hit (e : Option Nat) (d : zero_userdata_t) (w : World)
    (table : List (Option Nat)) (ht : w.zero_jobs_small_free_table = some table)
    (slot n j : Nat) (hj : table.get? slot = some (some j)) :
    job_alloc_loop e d (n + 1) slot w =
      some (set_status (set_userdata (set_entrypoint (save_context
        { w with zero_jobs_small_free_table := some (table.set slot none) }
        (w.job_heap j).fiber Frame.entry) (w.job_heap j).fiber e) (w.job_heap j).fiber d)
        (w.job_heap j).fiber ZERO_FIBER_STARTED, some j) := by
  simp only [job_alloc_loop, ht, hj, ZERO_ATOMIC_CAS]
  simp

theorem small_table_claimed_get_lt (base k m t : Nat) (h : t < k) :
    (small_table_claimed base k m).get? t = some none := by
  unfold small_table_claimed
  rw [List.get?_eq_getElem?, List.getElem?_append_left (by simpa using h)]
  simp [List.getElem?_replicate, h]

theorem small_table_claimed_get (base k m : Nat) :
    (small_table_claimed base k (m + 1)).get? k = some (some (base + k)) := by
  unfold small_table_claimed
  rw [List.get?_eq_getElem?, List.getElem?_append_right (by simp)]
  simp [List.range'_succ]

theorem small_table_claimed_set (base k m : Nat) :
    (small_table_claimed base k (m + 1)).set k none = small_table_claimed base (k + 1) m := by
  unfold small_table_claimed
  rw [List.set_append_right _ _ (by simp)]
  simp [List.range'_succ, List.replicate_succ', List.append_assoc]

theorem job_alloc_claimed (cfg : zero_jobs_config) (w : World) (base k m : Nat)
    (e : Option Nat) (d : zero_userdata_t)
    (hN : k + (m + 1) = cfg.ZERO_JOBS_SMALL_COUNT)
    (ht : w.zero_jobs_small_free_table = some (small_table_claimed base k (m + 1))) :
    ∃ w1, job_alloc cfg w e d = some (w1, some (base + k)) ∧
      w1.zero_jobs_small_free_table = some (small_table_claimed base (k + 1) m) := by
  unfold job_alloc
  rw [← hN, job_alloc_loop_skip e d w _ ht k 0 (m + 1)
    (fun t h => by rw [Nat.zero_add]; exact small_table_claimed_get_lt base k (m + 1) t h),
    Nat.zero_add,
    job_alloc_loop_hit e d w _ ht k m (base + k) (small_table_claimed_get base k m)]
  refine ⟨_, rfl, ?_⟩
  simp [set_status, set_userdata, set_entrypoint, save_context, small_table_claimed_set]

theorem job_alloc_exhausted (cfg : zero_jobs_config) (w : World) (base : Nat)
    (e : Option Nat) (d : zero_userdata_t)
    (ht : w.zero_jobs_small_free_table =
      some (small_table_claimed base cfg.ZERO_JOBS_SMALL_COUNT 0)) :
    job_alloc cfg w e d = some (w, none) := by
  unfold job_alloc
  have := job_alloc_loop_skip e d w _ ht cfg.ZERO_JOBS_SMALL_COUNT 0 0
    (fun t h => by
      rw [Nat.zero_add]; exact small_table_claimed_get_lt base cfg.ZERO_JOBS_SMALL_COUNT 0 t h)
  rw [Nat.add_zero] at this
  rw [this]
  rfl

theorem job_allocs_claimed (cfg : zero_jobs_config) (base : Nat)
    (args : List (Option Nat × zero_userdata_t)) :
    ∀ (k : Nat) (w : World), k + args.length = cfg.ZERO_JOBS_SMALL_COUNT →
      w.zero_jobs_small_free_table = some (small_table_claimed base k args.length) →
      ∃ w1, job_allocs cfg args w =
          some (w1, (List.range' k args.length).map (fun i => some (base + i))) ∧
        w1.zero_jobs_small_free_table =
          some (small_table_claimed base cfg.ZERO_JOBS_SMALL_COUNT 0) := by
  induction args with
  | nil =>
    intro k w hk ht
    simp only [List.length_nil, Nat.add_zero] at hk ht
    exact ⟨w, rfl, by rw [ht, hk]⟩
  | cons a args ih =>
    intro k w hk ht
    obtain ⟨e, d⟩ := a
    simp only [List.length_cons] at hk ht
    obtain ⟨w1, h1, h2⟩ := job_alloc_claimed cfg w base k args.length e d hk ht
    obtain ⟨w2, h3, h4⟩ := ih (k + 1) w1 (by omega) h2
    refine ⟨w2, ?_, h4⟩
    simp [job_allocs, h1, h3, List.range'_succ]

/-! ## C9 -/

/-- C9. Pool exhaustion.  After `job_pool_init` with small-pool count `N`, a sequence of
`N` calls of `job_alloc` (with any arguments) returns `N` non-null pointers that are
pairwise distinct, and in the world reached every further call of `job_alloc` returns
null and leaves the world unchanged: the free-tables and every pooled fiber are what
they were. -/
theorem pool_exhaustion (cfg : zero_jobs_config) (w : World)
    (args : List (Option Nat × zero_userdata_t))
    (hlen : args.length = cfg.ZERO_JOBS_SMALL_COUNT) :
    ∃ (wN : World) (ptrs : List (Option Nat)),
      job_allocs cfg args (job_pool_init cfg w) = some (wN, ptrs) ∧
      ptrs.length = cfg.ZERO_JOBS_SMALL_COUNT ∧ (∀ p ∈ ptrs, p ≠ none) ∧ ptrs.Nodup ∧
      ∀ (e : Option Nat) (d : zero_userdata_t), job_alloc cfg wN e d = some (wN, none) := by
  have ht : (job_pool_init cfg w).zero_jobs_small_free_table =
      some (small_table_claimed w.njob_heap 0 args.length) := by
    rw [job_pool_init_small_table, hlen]
    simp [small_table_claimed]
  obtain ⟨wN, h1, h2⟩ := job_allocs_claimed cfg w.njob_heap args 0 (job_pool_init cfg w)
    (by omega) ht
  refine ⟨wN, _, h1, by simp [hlen], ?_, ?_, ?_⟩
  · intro p hp
    obtain ⟨i, -, rfl⟩ := List.mem_map.mp hp
    simp
  · refine List.Nodup.map ?_ (List.nodup_range' 0 args.length)
    intro a b hab
    simp only [Option.some.injEq] at hab
    omega
  · intro e d
    exact job_alloc_exhausted cfg wN w.njob_heap e d h2

/-- Scenario S5: with a small pool of 4 slots, four calls of `job_alloc` return the four
slots and the fifth returns null. -/
theorem s5_pool_exhaustion :
    (job_allocs zero_jobs_config_s5
      [(some 0, 0), (some 0, 0), (some 0, 0), (some 0, 0), (some 0, 0)]
      (job_pool_init zero_jobs_config_s5 World.init)).map (fun r => r.2) =
      some [some 0, some 1, some 2, some 3, none] := by
  decide

/-- Witness for C9: scenario S5, small-pool count 4. -/
theorem pool_exhaustion_witness :
    ([(some 0, 0), (some 0, 0), (some 0, 0), (some 0, 0)] :
        List (Option Nat × zero_userdata_t)).length =
      zero_jobs_config_s5.ZERO_JOBS_SMALL_COUNT ∧
    ∃ (wN : World) (ptrs : List (Option Nat)),
      job_allocs zero_jobs_config_s5 [(some 0, 0), (some 0, 0), (some 0, 0), (some 0, 0)]
        (job_pool_init zero_jobs_config_s5 World.init) = some (wN, ptrs) ∧
      ptrs.length = zero_jobs_config_s5.ZERO_JOBS_SMALL_COUNT ∧ (∀ p ∈ ptrs, p ≠ none) ∧
      ptrs.Nodup ∧
      ∀ (e : Option Nat) (d : zero_userdata_t),
        job_alloc zero_jobs_config_s5 wN e d = some (wN, none) :=
  ⟨rfl, pool_exhaustion zero_jobs_config_s5 World.init
    [(some 0, 0), (some 0, 0), (some 0, 0), (some 0, 0)] rfl⟩

/-! ## C10 -/

theorem list_set_of_get (cells : List (Option Nat)) (slot : Nat) (v : Option Nat)
    (h : cells.get? slot = some v) : cells.set slot v = cells := by
  induction cells generalizing slot with
  | nil => rfl
  | cons a cells ih =>
    cases slot with
    | zero =>
      simp only [List.get?_cons_zero, Option.some.injEq] at h
      simp [h]
    | succ slot =>
      simp only [List.get?_cons_succ] at h
      simp [ih slot h]

/-- The loop of `job_free` leaves both free-tables as they are: the only value it ever
stores in a cell is the null it has just loaded from that cell. -/
theorem job_free_loop_tables (table : job_free_table) (n : Nat) :
    ∀ (slot : Nat) (w w1 : World), job_free_loop table n slot w = some w1 →
      w1.zero_jobs_small_free_table = w.zero_jobs_small_free_table ∧
      w1.zero_jobs_large_free_table = w.zero_jobs_large_free_table := by
  induction n with
  | zero =>
    intro slot w w1 h
    simp only [job_free_loop] at h
    injection h with h
    subst h
    exact ⟨rfl, rfl⟩
  | succ n ih =>
    intro slot w w1 h
    simp only [job_free_loop] at h
    split at h
    · cases h
    · rename_i cells hr
      split at h
      · cases h
      · rename_i loaded hl
        by_cases hn : loaded = none
        · subst hn
          simp only [ZERO_ATOMIC_CAS, if_true, ne_eq, not_true_eq_false, if_false] at h
          rw [list_set_of_get cells slot none hl] at h
          obtain ⟨h1, h2⟩ := ih (slot + 1) _ w1 h
          rw [h1, h2]
          cases table
          · simp only [job_free_table.read] at hr
            simp [job_free_table.write, hr]
          · simp only [job_free_table.read] at hr
            simp [job_free_table.write, hr]
          · simp [job_free_table.write]
        · simp only [hn, if_false] at h
          exact ih (slot + 1) w w1 h

/-- A call of `job_free` that returns leaves both free-tables as they are: the job is
not stored in any cell. -/
theorem job_free_tables (cfg : zero_jobs_config) (w w1 : World) (job : Nat)
    (h : job_free cfg w job = some w1) :
    w1.zero_jobs_small_free_table = w.zero_jobs_small_free_table ∧
    w1.zero_jobs_large_free_table = w.zero_jobs_large_free_table := by
  unfold job_free at h
  have := job_free_loop_tables _ _ 0 (set_entrypoint w (w.job_heap job).fiber none) w1 h
  simpa [set_entrypoint] using this

/-- C10, failing input: scenario S5.  With a small pool of 4 slots, after four calls of
`job_alloc` the call `job_free` of the job of slot 2 returns with all four cells of the
free-table still null, and the next call of `job_alloc` returns null. -/
theorem s5_release_does_not_refill :
    (s5_exhausted.zero_jobs_small_free_table = some [none, none, none, none]) ∧
    ((job_free zero_jobs_config_s5 s5_exhausted 2).map
      (fun w => w.zero_jobs_small_free_table) = some (some [none, none, none, none])) ∧
    (((job_free zero_jobs_config_s5 s5_exhausted 2).bind
      (fun w => job_alloc zero_jobs_config_s5 w (some 0) 0)).map (fun r => r.2) =
        some none) := by
  decide

/-! ## C7 -/

/-- C7, failing input.  The ready queue holds one job, once; the job calls `job_wait(0)`
and, when resumed again, returns.  A single invocation `jobs_run(0)` returns and has
resumed that job twice: the record pushed by `job_wait(0)` is already satisfied in the
waiting-queue pass of the next iteration of the outer loop. -/
theorem wait_zero_resumed_twice :
    wait_zero_created.jobs = [⟨1, none⟩] ∧ wait_zero_created.yielded_jobs = [] ∧
    wait_zero_created.waiting_jobs = [] ∧
    (jobs_run wait_zero_text false 4 0 wait_zero_created).map (fun w => resumes w.log) =
      some [⟨1, none⟩, ⟨1, none⟩] := by
  decide!

/-! ## Jobs that use the job API only -/

theorem count_on_append (c : Nat) (a b : List job_t) :
    count_on c (a ++ b) = count_on c a + count_on c b := by
  induction a with
  | nil => simp [count_on]
  | cons j a ih => simp [count_on, ih, add_assoc]

theorem step_yield_running_under (text : Nat → zero_userdata_t → Prog) (debug : Bool)
    (w : World) (F R : Nat) (Q : zero_userdata_t) (k kF : zero_userdata_t → Prog)
    (hmain : debug = true → F ≠ 0) (hr : RunningUnder w F R k) :
    step text debug w (Prog.fiber_yield Q kF) = Outcome.next (yield_world w F R Q kF) (k Q) := by
  obtain ⟨c1, c2, c3, c4, c8, c5, c6, c7⟩ := hr
  have hd1 : (debug && decide (F = 0)) = false := by
    cases debug <;> simp_all
  have hd2 : (debug && decide ((w.fibers F).caller = none)) = false := by
    cases debug <;> simp [c2]
  simp only [step, zero_fiber_yield, zero_fiber_active_some w F c1, c3, c2, hd1, hd2]
  simp [yield_world, zero_context_switch, save_context, set_status, set_userdata,
    Function.update_noteq c5, Function.update_noteq (Ne.symm c5), c4, c2]

theorem step_ret_running_under (text : Nat → zero_userdata_t → Prog) (debug : Bool)
    (w : World) (F R : Nat) (v : zero_userdata_t) (k : zero_userdata_t → Prog)
    (hr : RunningUnder w F R k) :
    step text debug w (Prog.ret v) = Outcome.next (return_world w F R v) (k v) := by
  obtain ⟨c1, c2, c3, c4, c8, c5, c6, c7⟩ := hr
  obtain ⟨n, hn⟩ : ∃ n, w.nfibers = n + 1 := ⟨w.nfibers - 1, by omega⟩
  simp only [step, zero_fiber_return, zero_fiber_active_some w F c1]
  simp [return_world, zero_fiber_return_walk, hn, set_status, c2, c8, Function.update_noteq c5,
    Function.update_noteq (Ne.symm c5), zero_context_switch, save_context, set_userdata, c4]

theorem jobCore_ext {frozen : Nat → Prop} {w : World} {J : job_t} {w1 w2 : World}
    {l : List Event} (hc : JobCore frozen w J w1 l)
    (h1 : w2.job_current = w1.job_current) (h2 : w2.log = w1.log) (h3 : w2.jobs = w1.jobs)
    (h4 : w2.latest_time = w1.latest_time) (h5 : w2.nfibers = w1.nfibers)
    (h6 : w2.nmem = w1.nmem)
    (h7 : ∀ f, f ≠ J.fiber → 1 ≤ f → (w2.fibers f).status = (w1.fibers f).status)
    (h8 : ∀ f, 1 ≤ f → FrameOK (WellBehaved frozen) f (w2.context f))
    (h9 : w2.mem = w1.mem) (h10 : J.fiber < w.nfibers) :
    JobCore frozen w J w2 l where
  cur := h1.trans hc.cur
  log := h2.trans hc.log
  no_resumes := hc.no_resumes
  no_decrements := hc.no_decrements
  jobs := h3.trans hc.jobs
  fresh := fun j hj => by rw [h5]; exact hc.fresh j hj
  fresh_nodup := hc.fresh_nodup
  latest_time := h4.trans hc.latest_time
  nfibers := by rw [h5]; exact hc.nfibers
  nmem := by rw [h6]; exact hc.nmem
  others := fun f hf h1f hlt => by rw [h7 f hf h1f]; exact hc.others f hf h1f hlt
  started := fun f hge hlt => by
    rw [h7 f (by omega) (by omega)]
    exact hc.started f hge (by rw [← h5]; exact hlt)
  frames := h8
  mem := fun c hfc hlt => by rw [h9]; exact hc.mem c hfc hlt

theorem localEffect_refl (frozen : Nat → Prop) (w : World) : LocalEffect frozen w w [] := by
  constructor <;>
    first
      | (intro f h1 h2; omega)
      | simp [resumes, decrements, yields, creates, count_on]

/-- A library call of well-behaved code that does not switch contexts. -/
theorem local_step_effect (frozen : Nat → Prop) (text : Nat → zero_userdata_t → Prog)
    (htext : ∀ e d, WellBehaved frozen (text e d)) (debug : Bool) (w1 w2 : World)
    (p p2 : Prog) (hwb : WellBehaved frozen p) (hl : p.is_local = true)
    (h : step text debug w1 p = Outcome.next w2 p2) :
    ∃ l, LocalEffect frozen w1 w2 l ∧ WellBehaved frozen p2 := by
  cases hwb with
  | ret v => simp [Prog.is_local] at hl
  | job_yield k hk => simp [Prog.is_local] at hl
  | job_wait d k hk => simp [Prog.is_local] at hl
  | job_wait_on_condition c k hk => simp [Prog.is_local] at hl
  | fiber_make size e d k hk =>
    simp only [step] at h
    injection h with h1 h2
    subst h1
    subst h2
    refine ⟨[], ?_, hk _⟩
    constructor <;>
      simp +contextual [zero_fiber_make, resumes, decrements, yields,
        creates, count_on, Function.update_apply]
    · intro f hf; omega
    · intro f h1 h2
      have : f = w1.nfibers := by omega
      simp [this]
    · intro f
      by_cases hf : f = w1.nfibers
      · right; simp [hf]
      · left; simp [hf]
  | fiber_is_active f k hk =>
    simp only [step] at h
    injection h with h1 h2
    subst h1
    subst h2
    exact ⟨[], localEffect_refl frozen w1, hk _⟩
  | job_create e c k hk =>
    simp only [step] at h
    injection h with h1 h2
    subst h1
    subst h2
    refine ⟨[Event.created ⟨w1.nfibers, c⟩], ?_, hk⟩
    cases c with
    | none =>
      constructor <;>
        simp +contextual [job_create, zero_fiber_make, resumes, decrements, yields,
          creates, count_on, Function.update_apply]
      · intro f hf; omega
      · intro f h1 h2
        have : f = w1.nfibers := by omega
        simp [this]
      · intro f
        by_cases hf : f = w1.nfibers
        · right; simp [hf]
        · left; simp [hf]
    | some c0 =>
      constructor <;>
        simp +contextual [job_create, zero_fiber_make, ZERO_ATOMIC_INCREMENT, resumes,
          decrements, yields, creates, count_on, Function.update_apply]
      · intro f hf; omega
      · intro f h1 h2
        have : f = w1.nfibers := by omega
        simp [this]
      · intro f
        by_cases hf : f = w1.nfibers
        · right; simp [hf]
        · left; simp [hf]
      · intro c _ _
        by_cases hc : c = c0
        · simp only [hc, if_true]
          exact counter_moved_incr _
        · simp [hc, Ne.symm hc]
  | job_counter_make k hk =>
    simp only [step] at h
    injection h with h1 h2
    subst h1
    subst h2
    refine ⟨[], ?_, hk _⟩
    constructor <;>
      first
        | (intro f h1 h2; simp only [job_counter_make] at h2; omega)
        | simp +contextual [job_counter_make, resumes, decrements, yields, creates, count_on,
            Function.update_apply]
    intro c _ hc
    simp [Nat.ne_of_lt hc]
  | load a k hk =>
    simp only [step] at h
    injection h with h1 h2
    subst h1
    subst h2
    exact ⟨[], localEffect_refl frozen w1, hk _⟩
  | store a v k ha hk =>
    simp only [step] at h
    injection h with h1 h2
    subst h1
    subst h2
    refine ⟨[], ?_, hk⟩
    constructor <;>
      first
        | (intro f h1 h2; omega)
        | simp +contextual [resumes, decrements, yields, creates, count_on,
            Function.update_apply]
    intro c hc _
    have hca : c ≠ a := fun h => ha (h ▸ hc)
    simp [hca]
  | jump e d =>
    simp only [step] at h
    injection h with h1 h2
    subst h1
    subst h2
    exact ⟨[], localEffect_refl frozen w1, htext e d⟩

theorem jobRunning_local (frozen : Nat → Prop) (w : World) (J : job_t) (w1 w2 : World)
    (l l2 : List Event) (hr : JobRunning frozen w J w1 l) (he : LocalEffect frozen w1 w2 l2) :
    JobRunning frozen w J w2 (l ++ l2) := by
  obtain ⟨core, under, ny, hy, hw⟩ := hr
  obtain ⟨c1, c2, c3, c4, c8, c5, c6, c7⟩ := under
  refine ⟨?_, ?_, ?_, he.yielded_jobs.trans hy, he.waiting_jobs.trans hw⟩
  · constructor
    · exact he.job_current.trans core.cur
    · rw [he.log, core.log]; simp
    · rw [resumes_append, core.no_resumes, he.no_resumes]; rfl
    · rw [decrements_append, core.no_decrements, he.no_decrements]; rfl
    · rw [he.jobs, core.jobs, creates_append, List.append_assoc]
    · intro j hj
      rw [creates_append, List.mem_append] at hj
      rcases hj with hj | hj
      · exact ⟨(core.fresh j hj).1, lt_of_lt_of_le (core.fresh j hj).2 he.nfibers⟩
      · exact ⟨le_trans core.nfibers (he.fresh j hj).1, (he.fresh j hj).2⟩
    · rw [creates_append, List.map_append, List.nodup_append]
      refine ⟨core.fresh_nodup, he.fresh_nodup, ?_⟩
      intro a ha hb
      rw [List.mem_map] at ha hb
      obtain ⟨j1, hj1, rfl⟩ := ha
      obtain ⟨j2, hj2, he2⟩ := hb
      have := (core.fresh j1 hj1).2
      have := (he.fresh j2 hj2).1
      omega
    · exact he.latest_time.trans core.latest_time
    · exact le_trans core.nfibers he.nfibers
    · exact le_trans core.nmem he.nmem
    · intro f hf h1 hlt
      rw [he.fibers f (lt_of_lt_of_le hlt core.nfibers)]
      exact core.others f hf h1 hlt
    · intro f hge hlt
      by_cases hf : f < w1.nfibers
      · rw [he.fibers f hf]; exact core.started f hge hf
      · exact he.started f (by omega) hlt
    · intro f h1
      rcases he.context f with hc | ⟨_, hc⟩
      · rw [hc]; exact core.frames f h1
      · rw [hc]; trivial
    · intro c hc hlt
      rw [creates_append, count_on_append]
      exact counter_moved_trans _ _ _ _ _ (core.mem c hc hlt)
        (he.mem c hc (lt_of_lt_of_le hlt core.nmem))
  · refine ⟨he.current.trans c1, ?_, ?_, ?_, ?_, c5, lt_of_lt_of_le c6 he.nfibers,
      lt_of_lt_of_le c7 he.nfibers⟩
    · rw [he.fibers _ c6]; exact c2
    · rw [he.fibers _ c6]; exact c3
    · rcases he.context 0 with hc | ⟨hc, _⟩
      · rw [hc]; exact c4
      · omega
    · rw [he.fibers _ c7]; exact c8
  · rw [yields_append, ny, he.no_yields]; rfl

theorem jobCore_push {frozen : Nat → Prop} {w : World} {J : job_t} {w1 w2 : World}
    {l : List Event} (l2 : List Event) (hc : JobCore frozen w J w1 l)
    (h1 : w2.job_current = w1.job_current) (h2 : w2.log = w1.log ++ l2)
    (hl1 : resumes l2 = []) (hl2 : decrements l2 = []) (hl3 : creates l2 = [])
    (h3 : w2.jobs = w1.jobs)
    (h4 : w2.latest_time = w1.latest_time) (h5 : w2.nfibers = w1.nfibers)
    (h6 : w2.nmem = w1.nmem)
    (h7 : ∀ f, f ≠ J.fiber → 1 ≤ f → (w2.fibers f).status = (w1.fibers f).status)
    (h8 : ∀ f, 1 ≤ f → FrameOK (WellBehaved frozen) f (w2.context f))
    (h9 : w2.mem = w1.mem) (h10 : J.fiber < w.nfibers) :
    JobCore frozen w J w2 (l ++ l2) where
  cur := h1.trans hc.cur
  log := by rw [h2, hc.log]; simp
  no_resumes := by rw [resumes_append, hc.no_resumes, hl1]; rfl
  no_decrements := by rw [decrements_append, hc.no_decrements, hl2]; rfl
  jobs := by rw [h3, hc.jobs, creates_append, hl3, List.append_nil]
  fresh := fun j hj => by
    rw [creates_append, hl3, List.append_nil] at hj
    rw [h5]; exact hc.fresh j hj
  fresh_nodup := by rw [creates_append, hl3, List.append_nil]; exact hc.fresh_nodup
  latest_time := h4.trans hc.latest_time
  nfibers := by rw [h5]; exact hc.nfibers
  nmem := by rw [h6]; exact hc.nmem
  others := fun f hf h1f hlt => by rw [h7 f hf h1f]; exact hc.others f hf h1f hlt
  started := fun f hge hlt => by
    rw [h7 f (by omega) (by omega)]
    exact hc.started f hge (by rw [← h5]; exact hlt)
  frames := h8
  mem := fun c hfc hlt => by
    rw [h9, creates_append, hl3, List.append_nil]; exact hc.mem c hfc hlt

/-- The library call in which a well-behaved job suspends or ends: control is back in
`jobs_run`. -/
theorem job_running_terminal (frozen : Nat → Prop) (text : Nat → zero_userdata_t → Prog)
    (debug : Bool) (w : World) (J : job_t) (w1 w2 : World) (l : List Event) (p p2 : Prog)
    (hJ : J.fiber < w.nfibers)
    (hr : JobRunning frozen w J w1 l) (hwb : WellBehaved frozen p)
    (hl : p.is_local = false) (h : step text debug w1 p = Outcome.next w2 p2) :
    ∃ l2 v, p2 = Prog.done v ∧ JobSuspended frozen w J w2 (l ++ l2) := by
  obtain ⟨core, under, ny, hy, hw⟩ := hr
  have hne : J.fiber ≠ 0 := under.ne
  have hmain : debug = true → J.fiber ≠ 0 := fun _ => hne
  cases hwb with
  | fiber_make size e d k hk => simp [Prog.is_local] at hl
  | fiber_is_active f k hk => simp [Prog.is_local] at hl
  | job_create e c k hk => simp [Prog.is_local] at hl
  | job_counter_make k hk => simp [Prog.is_local] at hl
  | load a k hk => simp [Prog.is_local] at hl
  | store a v k ha hk => simp [Prog.is_local] at hl
  | jump e d => simp [Prog.is_local] at hl
  | ret v =>
    rw [step_ret_running_under text debug w1 J.fiber 0 v Prog.done under] at h
    injection h with h1 h2
    subst h1
    refine ⟨[], v, h2.symm, ?_, rfl, ?_⟩
    · refine jobCore_push [] core rfl (by simp [return_world, save_context, set_userdata, set_status])
        rfl rfl rfl rfl rfl rfl rfl ?_ ?_ rfl hJ
      · intro f hf h1f
        simp [return_world, save_context, set_userdata, set_status, Function.update_apply, hf,
          show f ≠ 0 by omega]
      · intro f h1f
        by_cases hf : f = J.fiber
        · simp [return_world, save_context, hf, FrameOK]
        · simp only [return_world, save_context, Function.update_noteq hf]
          exact core.frames f h1f
    · right; right
      refine ⟨by simpa using ny, hy, hw, ?_⟩
      simp [return_world, save_context, set_userdata, set_status, Function.update_apply, hne]
  | job_yield k hk =>
    have hstep : step text debug w1 (Prog.job_yield k) =
        step text debug { w1 with yielded_jobs := w1.yielded_jobs ++ [J],
                                  log := w1.log ++ [Event.yielded J] }
          (Prog.fiber_yield NULL (fun _ => k)) := by
      simp [step, job_yield_push, core.cur]
    have hu : RunningUnder { w1 with yielded_jobs := w1.yielded_jobs ++ [J]
                                     log := w1.log ++ [Event.yielded J] }
        J.fiber 0 Prog.done :=
      ⟨under.cur, under.caller, under.status, under.parked, under.rstatus, under.ne, under.hF,
        under.hR⟩
    rw [hstep, step_yield_running_under text debug _ J.fiber 0 NULL Prog.done _ hmain hu] at h
    injection h with h1 h2
    subst h1
    refine ⟨[Event.yielded J], NULL, h2.symm, ?_, rfl, ?_⟩
    · refine jobCore_push [Event.yielded J] core rfl
        (by simp [yield_world, save_context, set_userdata, set_status])
        rfl rfl rfl rfl rfl rfl rfl ?_ ?_ rfl hJ
      · intro f hf h1f
        simp [yield_world, save_context, set_userdata, set_status, Function.update_apply, hf,
          show f ≠ 0 by omega]
      · intro f h1f
        by_cases hf : f = J.fiber
        · simp only [yield_world, save_context, hf, Function.update_same, FrameOK]
          exact ⟨trivial, fun _ => hk⟩
        · simp only [yield_world, save_context, Function.update_noteq hf]
          exact core.frames f h1f
    · left
      refine ⟨by simp [yields_append, ny, yields], ?_, hw, ?_⟩
      · simp [yield_world, save_context, set_userdata, set_status, hy]
      · simp [yield_world, save_context, set_userdata, set_status, Function.update_apply, hne]
  | job_wait d k hk =>
    have hstep : step text debug w1 (Prog.job_wait d k) =
        step text debug { w1 with waiting_jobs := w1.waiting_jobs ++ [(⟨J, JOB_WAIT_TIMER, w1.latest_time + d, none⟩ : job_waiting_t)] }
          (Prog.fiber_yield NULL (fun _ => k)) := by
      simp [step, job_wait_push, core.cur]
    have hu : RunningUnder ({ w1 with waiting_jobs := w1.waiting_jobs ++
          [(⟨J, JOB_WAIT_TIMER, w1.latest_time + d, none⟩ : job_waiting_t)] } : World)
        J.fiber 0 Prog.done :=
      ⟨under.cur, under.caller, under.status, under.parked, under.rstatus, under.ne, under.hF,
        under.hR⟩
    rw [hstep, step_yield_running_under text debug _ J.fiber 0 NULL Prog.done _ hmain hu] at h
    injection h with h1 h2
    subst h1
    refine ⟨[], NULL, h2.symm, ?_, rfl, ?_⟩
    · refine jobCore_push [] core rfl
        (by simp [yield_world, save_context, set_userdata, set_status])
        rfl rfl rfl rfl rfl rfl rfl ?_ ?_ rfl hJ
      · intro f hf h1f
        simp [yield_world, save_context, set_userdata, set_status, Function.update_apply, hf,
          show f ≠ 0 by omega]
      · intro f h1f
        by_cases hf : f = J.fiber
        · simp only [yield_world, save_context, hf, Function.update_same, FrameOK]
          exact ⟨trivial, fun _ => hk⟩
        · simp only [yield_world, save_context, Function.update_noteq hf]
          exact core.frames f h1f
    · right; left
      refine ⟨by simpa using ny, ?_, ⟨(⟨J, JOB_WAIT_TIMER, w1.latest_time + d, none⟩ : job_waiting_t), rfl, by simp, ?_⟩, ?_⟩
      · simp [yield_world, save_context, set_userdata, set_status, hy]
      · simp [yield_world, save_context, set_userdata, set_status, hw]
      · simp [yield_world, save_context, set_userdata, set_status, Function.update_apply, hne]
  | job_wait_on_condition c k hk =>
    have hstep : step text debug w1 (Prog.job_wait_on_condition c k) =
        step text debug { w1 with waiting_jobs := w1.waiting_jobs ++ [(⟨J, JOB_WAIT_COUNTER_ZERO, 0, c⟩ : job_waiting_t)] }
          (Prog.fiber_yield NULL (fun _ => k)) := by
      simp [step, job_wait_on_condition_push, core.cur]
    have hu : RunningUnder ({ w1 with waiting_jobs := w1.waiting_jobs ++
          [(⟨J, JOB_WAIT_COUNTER_ZERO, 0, c⟩ : job_waiting_t)] } : World)
        J.fiber 0 Prog.done :=
      ⟨under.cur, under.caller, under.status, under.parked, under.rstatus, under.ne, under.hF,
        under.hR⟩
    rw [hstep, step_yield_running_under text debug _ J.fiber 0 NULL Prog.done _ hmain hu] at h
    injection h with h1 h2
    subst h1
    refine ⟨[], NULL, h2.symm, ?_, rfl, ?_⟩
    · refine jobCore_push [] core rfl
        (by simp [yield_world, save_context, set_userdata, set_status])
        rfl rfl rfl rfl rfl rfl rfl ?_ ?_ rfl hJ
      · intro f hf h1f
        simp [yield_world, save_context, set_userdata, set_status, Function.update_apply, hf,
          show f ≠ 0 by omega]
      · intro f h1f
        by_cases hf : f = J.fiber
        · simp only [yield_world, save_context, hf, Function.update_same, FrameOK]
          exact ⟨trivial, fun _ => hk⟩
        · simp only [yield_world, save_context, Function.update_noteq hf]
          exact core.frames f h1f
    · right; left
      refine ⟨by simpa using ny, ?_, ⟨(⟨J, JOB_WAIT_COUNTER_ZERO, 0, c⟩ : job_waiting_t), rfl, by simp, ?_⟩, ?_⟩
      · simp [yield_world, save_context, set_userdata, set_status, hy]
      · simp [yield_world, save_context, set_userdata, set_status, hw]
      · simp [yield_world, save_context, set_userdata, set_status, Function.update_apply, hne]

/-- The run of a well-behaved job ends with control back in `jobs_run`, the job having
yielded, waiting or Ended. -/
theorem run_job_running (frozen : Nat → Prop) (text : Nat → zero_userdata_t → Prog)
    (htext : ∀ e d, WellBehaved frozen (text e d)) (debug : Bool) (w : World) (J : job_t)
    (hJ : J.fiber < w.nfibers) (w2 : World) (v : zero_userdata_t) (n : Nat) :
    ∀ (w1 : World) (p : Prog) (l : List Event), WellBehaved frozen p →
      JobRunning frozen w J w1 l → run text debug n w1 p = some (w2, v) →
      ∃ l2, JobSuspended frozen w J w2 l2 := by
  induction n with
  | zero => intro w1 p l _ _ h; simp [run] at h
  | succ n ih =>
    intro w1 p l hwb hr h
    simp only [run] at h
    split at h
    · rename_i w3 p3 hs
      by_cases hl : p.is_local = true
      · obtain ⟨l2, he, hwb3⟩ := local_step_effect frozen text htext debug w1 w3 p p3 hwb hl hs
        exact ih w3 p3 (l ++ l2) hwb3 (jobRunning_local frozen w J w1 w3 l l2 hr he) h
      · have hl' : p.is_local = false := by simpa using hl
        obtain ⟨l2, v3, hp3, hsusp⟩ :=
          job_running_terminal frozen text debug w J w1 w3 l p p3 hJ hr hwb hl' hs
        subst hp3
        cases n with
        | zero => simp [run] at h
        | succ n =>
          simp only [run, step] at h
          injection h with h
          injection h with h1 h2
          subst h1
          exact ⟨_, hsusp⟩
    · rename_i w3 v3 hs
      obtain ⟨-, hp⟩ := step_done text debug w1 w3 p v3 hs
      subst hp
      cases hwb
    · cases h

theorem step_resume_host (text : Nat → zero_userdata_t → Prog) (debug : Bool) (w : World)
    (F : Nat) (P : zero_userdata_t) (k : zero_userdata_t → Prog)
    (hhost : w.zero_fiber_current = none ∨ w.zero_fiber_current = some 0)
    (hst : (w.fibers F).status ≠ ZERO_FIBER_ENDED) (hF : F ≠ 0) :
    step text debug w (Prog.fiber_resume F P k) =
      zero_context_switch text (resume_world (zero_fiber_active w).1 0 F P k) F := by
  have h0 : (zero_fiber_active w).2 = 0 := by
    rcases hhost with h | h <;> simp [zero_fiber_active, h]
  have hst' : ((zero_fiber_active w).1.fibers F).status ≠ ZERO_FIBER_ENDED := by
    rw [zero_fiber_active_status w F (by rw [h0]; exact hF)]; exact hst
  simp only [step, zero_fiber_resume, h0, if_neg hst', resume_world]

theorem zero_fiber_active_fibers (w : World) (F : Nat) (h : F ≠ 0) :
    (zero_fiber_active w).1.fibers F = w.fibers F := by
  unfold zero_fiber_active
  split
  · simp [set_status, Function.update_noteq h]
  · rfl

theorem zero_fiber_active_context (w : World) :
    (zero_fiber_active w).1.context = w.context := by
  unfold zero_fiber_active
  split <;> rfl

theorem zero_fiber_active_host (w : World)
    (hhost : w.zero_fiber_current = none ∨ w.zero_fiber_current = some 0) :
    (zero_fiber_active w).2 = 0 := by
  rcases hhost with h | h <;> simp [zero_fiber_active, h]

/-- The resume of a queued job by `jobs_run` enters well-behaved code. -/
theorem job_resume_start (frozen : Nat → Prop) (text : Nat → zero_userdata_t → Prog)
    (htext : ∀ e d, WellBehaved frozen (text e d)) (debug : Bool) (w : World) (J : job_t)
    (rest : List job_t) (hinv : JobsInv frozen w (J :: rest)) (w1 : World) (p : Prog)
    (h : step text debug { w with job_current := some J, log := w.log ++ [Event.resumed J] }
      (Prog.fiber_resume J.fiber NULL Prog.done) = Outcome.next w1 p) :
    WellBehaved frozen p ∧ JobRunning frozen w J w1 [] := by
  obtain ⟨hJ1, hJ2, hJ3⟩ := hinv.queued J (by simp [queued_jobs])
  have hJ0 : J.fiber ≠ 0 := by omega
  have hhost : ({ w with job_current := some J, log := w.log ++ [Event.resumed J] } :
      World).zero_fiber_current = none ∨
      ({ w with job_current := some J, log := w.log ++ [Event.resumed J] } :
      World).zero_fiber_current = some 0 := hinv.host
  have h0 : (zero_fiber_active
      { w with job_current := some J, log := w.log ++ [Event.resumed J] }).2 = 0 :=
    zero_fiber_active_host _ hhost
  have under := resume_running_under text debug _ w1 0 J.fiber NULL Prog.done p h0 hJ0 hJ3 hJ2
    (by exact hinv.nf) h
  rw [step_resume_host text debug _ J.fiber NULL Prog.done hhost hJ3 hJ0] at h
  have hfo := zero_fiber_active_fiberOnly
    { w with job_current := some J, log := w.log ++ [Event.resumed J] }
  have hfib : ∀ f, f ≠ 0 → (zero_fiber_active
      { w with job_current := some J, log := w.log ++ [Event.resumed J] }).1.fibers f =
      w.fibers f := fun f hf => zero_fiber_active_fibers _ f hf
  have hctx := zero_fiber_active_context
    { w with job_current := some J, log := w.log ++ [Event.resumed J] }
  have hframe := hinv.frames J.fiber hJ1
  have hw1 : WellBehaved frozen p ∧ w1 = resume_world (zero_fiber_active
      { w with job_current := some J, log := w.log ++ [Event.resumed J] }).1 0 J.fiber NULL
      Prog.done := by
    unfold zero_context_switch at h
    have hc : (resume_world (zero_fiber_active
        { w with job_current := some J, log := w.log ++ [Event.resumed J] }).1 0 J.fiber NULL
        Prog.done).context J.fiber = w.context J.fiber := by
      simp [resume_world, save_context, set_status, set_userdata, set_caller, hctx,
        Function.update_noteq hJ0]
    rw [hc] at h
    cases hcf : w.context J.fiber with
    | entry =>
      simp only [hcf] at h
      rw [zero_fiber_active_some _ J.fiber (by simp [resume_world, save_context])] at h
      simp only at h
      split at h
      · cases h
      · injection h with h1 h2
        exact ⟨h2 ▸ htext _ _, h1.symm⟩
    | in_resume c k =>
      rw [hcf] at hframe
      exact absurd hframe (by simp [FrameOK])
    | in_yield previous k =>
      rw [hcf] at hframe
      simp only [hcf] at h
      injection h with h1 h2
      exact ⟨h2 ▸ hframe.2 _, h1.symm⟩
    | in_return =>
      simp only [hcf] at h
      cases h
  obtain ⟨hwb, rfl⟩ := hw1
  refine ⟨hwb, ⟨?_, under, rfl, ?_, ?_⟩⟩
  · constructor
    · simp [resume_world, save_context, set_status, set_userdata, set_caller, hfo.job_current]
    · simp [resume_world, save_context, set_status, set_userdata, set_caller, hfo.log]
    · rfl
    · rfl
    · simp [resume_world, save_context, set_status, set_userdata, set_caller, hfo.jobs, creates]
    · simp [creates]
    · simp [creates]
    · simp [resume_world, save_context, set_status, set_userdata, set_caller, hfo.latest_time]
    · simp [resume_world, save_context, set_status, set_userdata, set_caller, hfo.nfibers]
    · simp [resume_world, save_context, set_status, set_userdata, set_caller, hfo.nmem]
    · intro f hf h1 _
      have hf0 : f ≠ 0 := by omega
      simp [resume_world, save_context, set_status, set_userdata, set_caller,
        Function.update_noteq hf, Function.update_noteq hf0, hfib f hf0]
    · intro f hge hlt
      simp only [resume_world, save_context, set_status, set_userdata, set_caller,
        hfo.nfibers] at hlt
      omega
    · intro f h1
      have hf0 : f ≠ 0 := by omega
      simp only [resume_world, save_context, set_status, set_userdata, set_caller, hctx,
        Function.update_noteq hf0]
      exact hinv.frames f h1
    · intro c _ _
      simp [resume_world, save_context, set_status, set_userdata, set_caller, hfo.mem, creates,
        count_on]
  · simp [resume_world, save_context, set_status, set_userdata, set_caller, hfo.yielded_jobs]
  · simp [resume_world, save_context, set_status, set_userdata, set_caller, hfo.waiting_jobs]

/-- The resume of a queued well-behaved job by `jobs_run`, up to the test of
`zero_fiber_is_active`. -/
theorem run_resume_job (frozen : Nat → Prop) (text : Nat → zero_userdata_t → Prog)
    (htext : ∀ e d, WellBehaved frozen (text e d)) (debug : Bool) (fuel : Nat) (w : World)
    (J : job_t) (rest : List job_t) (hinv : JobsInv frozen w (J :: rest)) (w2 : World)
    (v : zero_userdata_t)
    (h : run text debug fuel
      { w with job_current := some J, log := w.log ++ [Event.resumed J] }
      (Prog.fiber_resume J.fiber NULL Prog.done) = some (w2, v)) :
    ∃ l, JobSuspended frozen w J w2 l := by
  have hJ := (hinv.queued J (by simp [queued_jobs])).2.1
  cases fuel with
  | zero => simp [run] at h
  | succ n =>
    simp only [run] at h
    split at h
    · rename_i w1 p hs
      obtain ⟨hwb, hr⟩ := job_resume_start frozen text htext debug w J rest hinv w1 p hs
      exact run_job_running frozen text htext debug w J hJ w2 v n w1 p [] hwb hr h
    · rename_i w1 v1 hs
      have := (step_done text debug _ w1 _ v1 hs).2
      cases this
    · cases h

theorem nodup_requeue (R A C Y W : List Nat) (J n : Nat)
    (hold : (J :: (R ++ A ++ Y ++ W)).Nodup) (hC : C.Nodup)
    (hlt : ∀ a ∈ J :: (R ++ A ++ Y ++ W), a < n) (hge : ∀ a ∈ C, n ≤ a) :
    (R ++ (A ++ C) ++ (Y ++ [J]) ++ W).Nodup ∧ (R ++ (A ++ C) ++ Y ++ (W ++ [J])).Nodup ∧
      (R ++ (A ++ C) ++ Y ++ W).Nodup := by
  rw [List.nodup_iff_count_le_one] at hold hC
  simp only [List.nodup_iff_count_le_one]
  have key : ∀ a, List.count a R + List.count a A + List.count a C + List.count a Y +
      List.count a W + List.count a [J] ≤ 1 := by
    intro a
    have h1 := hold a
    have h2 := hC a
    simp only [List.count_cons, List.count_append, List.count_nil] at h1 ⊢
    by_cases ha : a ∈ C
    · have hna : a ∉ J :: (R ++ A ++ Y ++ W) := fun hm => by
        have := hlt a hm
        have := hge a ha
        omega
      have h3 := List.count_eq_zero_of_not_mem hna
      simp only [List.count_cons, List.count_append] at h3
      omega
    · have h3 := List.count_eq_zero_of_not_mem ha
      omega
  refine ⟨fun a => ?_, fun a => ?_, fun a => ?_⟩ <;>
    · have := key a
      simp only [List.count_append] at this ⊢
      omega

theorem jobSuspended_inv (frozen : Nat → Prop) (w : World) (J : job_t) (rest : List job_t)
    (w2 : World) (l : List Event) (hinv : JobsInv frozen w (J :: rest))
    (hs : JobSuspended frozen w J w2 l) : JobsInv frozen w2 rest := by
  obtain ⟨core, host, kind⟩ := hs
  have hq := hinv.queued
  have hnd : (J.fiber :: (rest.map (fun j => j.fiber) ++ w.jobs.map (fun j => j.fiber) ++
      w.yielded_jobs.map (fun j => j.fiber) ++
      (w.waiting_jobs.map (fun x => x.job)).map (fun j => j.fiber))).Nodup := by
    have := hinv.nodup
    simpa [queued_jobs] using this
  have hJ := hq J (by simp [queued_jobs])
  have hlt : ∀ a ∈ J.fiber :: (rest.map (fun j => j.fiber) ++ w.jobs.map (fun j => j.fiber) ++
      w.yielded_jobs.map (fun j => j.fiber) ++
      (w.waiting_jobs.map (fun x => x.job)).map (fun j => j.fiber)), a < w.nfibers := by
    intro a ha
    have : a ∈ (queued_jobs w (J :: rest)).map (fun j => j.fiber) := by
      simpa [queued_jobs] using ha
    obtain ⟨j, hj, rfl⟩ := List.mem_map.mp this
    exact (hq j hj).2.1
  have hge : ∀ a ∈ (creates l).map (fun j => j.fiber), w.nfibers ≤ a := by
    intro a ha
    obtain ⟨j, hj, rfl⟩ := List.mem_map.mp ha
    exact (core.fresh j hj).1
  obtain ⟨n1, n2, n3⟩ := nodup_requeue _ _ _ _ _ _ _ hnd core.fresh_nodup hlt hge
  have hfresh : ∀ j ∈ creates l,
      1 ≤ j.fiber ∧ j.fiber < w2.nfibers ∧ (w2.fibers j.fiber).status ≠ ZERO_FIBER_ENDED :=
    fun j hj => by
      obtain ⟨h1, h2⟩ := core.fresh j hj
      refine ⟨le_trans hinv.nf h1, h2, ?_⟩
      rw [core.started j.fiber h1 h2]
      simp
  have hold : ∀ j ∈ rest ++ w.jobs ++ w.yielded_jobs ++ w.waiting_jobs.map (fun x => x.job),
      1 ≤ j.fiber ∧ j.fiber < w2.nfibers ∧ (w2.fibers j.fiber).status ≠ ZERO_FIBER_ENDED := by
    intro j hj
    have hjq := hq j (by simp only [queued_jobs, List.cons_append]; exact List.mem_cons_of_mem _ hj)
    have hne : j.fiber ≠ J.fiber := by
      intro heq
      have h1 := (List.nodup_cons.mp hnd).1
      apply h1
      rw [← heq]
      have : j.fiber ∈ (rest ++ w.jobs ++ w.yielded_jobs ++
          w.waiting_jobs.map (fun x => x.job)).map (fun j => j.fiber) :=
        List.mem_map_of_mem _ hj
      simpa using this
    exact ⟨hjq.1, lt_of_lt_of_le hjq.2.1 core.nfibers, by
      rw [core.others j.fiber hne hjq.1 hjq.2.1]; exact hjq.2.2⟩
  have hnew : (w2.fibers J.fiber).status = ZERO_FIBER_SUSPENDED →
      1 ≤ J.fiber ∧ J.fiber < w2.nfibers ∧ (w2.fibers J.fiber).status ≠ ZERO_FIBER_ENDED :=
    fun h => ⟨hJ.1, lt_of_lt_of_le hJ.2.1 core.nfibers, by rw [h]; simp⟩
  refine ⟨le_trans hinv.nf core.nfibers, Or.inr host, core.frames, ?_, ?_⟩
  · rcases kind with ⟨-, hy, hw, -⟩ | ⟨-, hy, ⟨x, hx, -, hw⟩, -⟩ | ⟨-, hy, hw, -⟩
    · simpa [queued_jobs, core.jobs, hy, hw] using n1
    · simpa [queued_jobs, core.jobs, hy, hw, hx] using n2
    · simpa [queued_jobs, core.jobs, hy, hw] using n3
  · intro j hj
    rcases kind with ⟨-, hy, hw, hst⟩ | ⟨-, hy, ⟨x, hx, -, hw⟩, hst⟩ | ⟨-, hy, hw, hst⟩
    · simp only [queued_jobs, core.jobs, hy, hw, List.mem_append, List.mem_singleton] at hj
      rcases hj with ((hj | hj | hj) | hj | hj) | hj
      · exact hold j (by simp [hj])
      · exact hold j (by simp [hj])
      · exact hfresh j hj
      · exact hold j (by simp [hj])
      · rw [hj]; exact hnew hst
      · exact hold j (by simp [hj])
    · simp only [queued_jobs, core.jobs, hy, hw, List.mem_append, List.map_append,
        List.map_cons, List.map_nil, List.mem_singleton, hx] at hj
      rcases hj with ((hj | hj | hj) | hj) | hj | hj
      · exact hold j (by simp [hj])
      · exact hold j (by simp [hj])
      · exact hfresh j hj
      · exact hold j (by simp [hj])
      · exact hold j (by simp [hj])
      · rw [hj]; exact hnew hst
    · simp only [queued_jobs, core.jobs, hy, hw, List.mem_append] at hj
      rcases hj with ((hj | hj | hj) | hj) | hj
      · exact hold j (by simp [hj])
      · exact hold j (by simp [hj])
      · exact hfresh j hj
      · exact hold j (by simp [hj])
      · exact hold j (by simp [hj])

/-- One iteration of the inner loop of `jobs_run` for a queued well-behaved job: the
resume ends with the job on the yielded queue, on the waiting queue or Ended; the
counter of an Ended job is decremented; the invariant holds for the rest of the batch. -/
theorem jobs_run_job_inv (frozen : Nat → Prop) (text : Nat → zero_userdata_t → Prog)
    (htext : ∀ e d, WellBehaved frozen (text e d)) (debug : Bool) (fuel : Nat) (w : World)
    (J : job_t) (rest : List job_t) (hinv : JobsInv frozen w (J :: rest)) (w1 : World)
    (h : jobs_run_job text debug fuel J w = some w1) :
    JobsInv frozen w1 rest ∧
    ∃ w2 l, JobSuspended frozen w J w2 l ∧
      (w1 = w2 ∧ (J.status_counter = none ∨ (w2.fibers J.fiber).status ≠ ZERO_FIBER_ENDED) ∨
        ∃ c, J.status_counter = some c ∧ (w2.fibers J.fiber).status = ZERO_FIBER_ENDED ∧
          w1 = { ZERO_ATOMIC_DECREMENT w2 c with log := w2.log ++ [Event.decremented J c] }) := by
  unfold jobs_run_job at h
  simp only at h
  split at h
  · cases h
  · rename_i w2 v hr
    obtain ⟨l, hs⟩ := run_resume_job frozen text htext debug fuel w J rest hinv w2 v hr
    have hinv2 := jobSuspended_inv frozen w J rest w2 l hinv hs
    have hcases : w1 = w2 ∧
        (J.status_counter = none ∨ (w2.fibers J.fiber).status ≠ ZERO_FIBER_ENDED) ∨
        ∃ c, J.status_counter = some c ∧ (w2.fibers J.fiber).status = ZERO_FIBER_ENDED ∧
          w1 = { ZERO_ATOMIC_DECREMENT w2 c with
            log := w2.log ++ [Event.decremented J c] } := by
      split at h
      · rename_i c hc
        by_cases he : (w2.fibers J.fiber).status = ZERO_FIBER_ENDED
        · right
          simp [zero_fiber_is_active, he] at h
          exact ⟨c, hc, he, h.symm⟩
        · left
          simp [zero_fiber_is_active, he] at h
          exact ⟨h.symm, Or.inr he⟩
      · rename_i hc
        left
        injection h with h
        exact ⟨h.symm, Or.inl hc⟩
    refine ⟨?_, w2, l, hs, hcases⟩
    rcases hcases with ⟨rfl, -⟩ | ⟨c, -, -, rfl⟩
    · exact hinv2
    · exact ⟨hinv2.nf, hinv2.host, hinv2.frames, hinv2.nodup, hinv2.queued⟩

theorem nodup_filter_split {α : Type} (f : α → Nat) (p q : α → Bool)
    (hpq : ∀ x, p x = true → q x = false) (l : List α) (a : Nat) :
    List.count a ((l.filter p).map f) + List.count a ((l.filter q).map f) ≤
      List.count a (l.map f) := by
  induction l with
  | nil => simp
  | cons x l ih =>
    by_cases hp : p x = true
    · have hq := hpq x hp
      simp [List.filter_cons, hp, hq, List.count_cons]
      omega
    · by_cases hq : q x = true
      · simp [List.filter_cons, hp, hq, List.count_cons]
        omega
      · simp [List.filter_cons, hp, hq, List.count_cons]
        omega

theorem wait_satisfied_not_requeued (time : ℚ) (mem : Nat → Int) (x : job_waiting_t)
    (h : wait_satisfied time mem x = true) : wait_requeued time mem x = false := by
  unfold wait_satisfied at h
  unfold wait_requeued
  cases hc : x.condition <;> simp only [hc] at h ⊢
  · simpa using h
  · cases ha : x.data_address <;> simp only [ha] at h ⊢
    · cases h
    · simpa using h

/-- The drain of the ready queue and the waiting-queue pass keep the invariant. -/
theorem jobs_run_queueing_inv (frozen : Nat → Prop) (time : ℚ) (w w1 : World)
    (batch : List job_t) (hinv : JobsInv frozen w [])
    (h : jobs_run_queueing time w = some (w1, batch)) : JobsInv frozen w1 batch := by
  rw [jobs_run_queueing_eq] at h
  injection h with h
  injection h with h1 h2
  subst h1
  subst h2
  refine ⟨hinv.nf, hinv.host, hinv.frames, ?_, ?_⟩
  · have hnd := hinv.nodup
    rw [List.nodup_iff_count_le_one] at hnd ⊢
    intro a
    have h1 := hnd a
    have h2 := nodup_filter_split (fun x : job_waiting_t => x.job.fiber)
      (wait_satisfied time w.mem) (wait_requeued time w.mem)
      (wait_satisfied_not_requeued time w.mem) w.waiting_jobs a
    simp only [queued_jobs, List.nil_append, List.append_nil, List.map_append, List.map_map,
      List.count_append, Function.comp_def] at h1 h2 ⊢
    omega
  · intro j hj
    apply hinv.queued j
    simp only [queued_jobs, List.nil_append, List.append_nil, List.mem_append, List.mem_map,
      List.mem_filter] at hj ⊢
    rcases hj with ((hj | ⟨x, ⟨hx, -⟩, rfl⟩) | hj) | ⟨x, ⟨hx, -⟩, rfl⟩
    · exact Or.inl (Or.inl hj)
    · exact Or.inr ⟨x, hx, rfl⟩
    · exact Or.inl (Or.inr hj)
    · exact Or.inr ⟨x, hx, rfl⟩

/-- The move of the yielded queue to the ready queue at the end of `jobs_run` keeps the
invariant. -/
theorem jobs_run_finish_inv (frozen : Nat → Prop) (w : World) (hinv : JobsInv frozen w []) :
    JobsInv frozen { w with jobs := w.jobs ++ w.yielded_jobs, yielded_jobs := [] } [] := by
  refine ⟨hinv.nf, hinv.host, hinv.frames, ?_, ?_⟩
  · have := hinv.nodup
    simpa [queued_jobs] using this
  · intro j hj
    apply hinv.queued j
    simpa [queued_jobs] using hj

/-! ## C6 -/

theorem noResumeAfterYield_of_no_resumes (l : List Event) (h : resumes l = []) :
    NoResumeAfterYield l := by
  induction l with
  | nil => trivial
  | cons e l ih =>
    cases e with
    | resumed j => simp [resumes] at h
    | yielded j =>
      simp only [resumes] at h
      exact ⟨by simp [h], ih h⟩
    | decremented j c => exact ih (by simpa [resumes] using h)
    | created j => exact ih (by simpa [resumes] using h)

theorem noResumeAfterYield_append (l1 l2 : List Event) :
    NoResumeAfterYield (l1 ++ l2) ↔
      NoResumeAfterYield l1 ∧ NoResumeAfterYield l2 ∧
        ∀ j ∈ yields l1, ∀ j1 ∈ resumes l2, j1.fiber ≠ j.fiber := by
  induction l1 with
  | nil => simp [NoResumeAfterYield, yields]
  | cons e l ih =>
    cases e with
    | resumed j => simpa [NoResumeAfterYield, yields] using ih
    | decremented j c => simpa [NoResumeAfterYield, yields] using ih
    | created j => simpa [NoResumeAfterYield, yields] using ih
    | yielded j =>
      show ((∀ j1 ∈ resumes (l ++ l2), j1.fiber ≠ j.fiber) ∧ NoResumeAfterYield (l ++ l2)) ↔
        ((∀ j1 ∈ resumes l, j1.fiber ≠ j.fiber) ∧ NoResumeAfterYield l) ∧
          NoResumeAfterYield l2 ∧ ∀ j0 ∈ j :: yields l, ∀ j1 ∈ resumes l2, j1.fiber ≠ j0.fiber
      rw [ih, resumes_append]
      simp only [List.mem_append, List.mem_cons]
      constructor
      · rintro ⟨h1, h2, h3, h4⟩
        refine ⟨⟨fun j1 hj1 => h1 j1 (Or.inl hj1), h2⟩, h3, ?_⟩
        rintro j0 (rfl | hj0) j1 hj1
        · exact h1 j1 (Or.inr hj1)
        · exact h4 j0 hj0 j1 hj1
      · rintro ⟨⟨h1, h2⟩, h3, h4⟩
        refine ⟨?_, h2, h3, fun j0 hj0 j1 hj1 => h4 j0 (Or.inr hj0) j1 hj1⟩
        rintro j1 (hj1 | hj1)
        · exact h1 j1 hj1
        · exact h4 j (Or.inl rfl) j1 hj1

/-- When `jobs_run` returns, on a world whose yielded queue is empty on entry, the
yielded queue is empty and the ready queue holds the jobs of the `job_yield` events of
the Tick, in order. -/
theorem tick_moves_yielded (text : Nat → zero_userdata_t → Prog) (debug : Bool)
    (fuel : Nat) (now : ℚ) (w w1 : World) (hy : w.yielded_jobs = [])
    (h : jobs_run text debug fuel now w = some w1) :
    w1.yielded_jobs = [] ∧ ∃ l, w1.log = w.log ++ l ∧ w1.jobs = yields l := by
  obtain ⟨w2, hl, rfl⟩ := jobs_run_eq text debug fuel now w w1 h
  have key := jobs_run_loop_inv text debug fuel now
    (fun _ v => ∃ l, v.log = w.log ++ l ∧ v.yielded_jobs = yields l)
    (by
      intro J rest v v1 ⟨l, hlog, hyl⟩ hj
      obtain ⟨l2, ws, d, e1, -, -, e3, -, -, -, -, e6, -⟩ :=
        jobs_run_job_ext text debug fuel J v v1 hj
      refine ⟨l ++ Event.resumed J :: (l2 ++ d), by rw [e1, hlog, List.append_assoc], ?_⟩
      rw [e6, hyl]
      simp [yields_append, yields, e3])
    (by
      intro v v1 batch ⟨l, hlog, hyl⟩ hq
      rw [jobs_run_queueing_eq] at hq
      injection hq with hq
      injection hq with hq1 hq2
      subst hq1
      exact ⟨l, hlog, hyl⟩)
    fuel { w with latest_time := now } w2 ⟨[], by simp, by simpa [yields] using hy⟩ hl
  obtain ⟨w0, ⟨l, hlog, hyl⟩, hq⟩ := key
  rw [jobs_run_queueing_eq] at hq
  injection hq with hq
  injection hq with hq1 hq2
  subst hq1
  exact ⟨rfl, l, hlog, by simpa using hyl⟩

/-- When every fiber has at most one queue entry and the jobs are well-behaved, a Tick
keeps it so, and no job is resumed after it has yielded in that Tick. -/
theorem tick_no_resume_after_yield (frozen : Nat → Prop)
    (text : Nat → zero_userdata_t → Prog) (htext : ∀ e d, WellBehaved frozen (text e d))
    (debug : Bool) (fuel : Nat) (now : ℚ) (w w1 : World)
    (hinv : JobsInv frozen w []) (h : jobs_run text debug fuel now w = some w1) :
    JobsInv frozen w1 [] ∧ ∃ l, w1.log = w.log ++ l ∧ NoResumeAfterYield l := by
  obtain ⟨w2, hl, rfl⟩ := jobs_run_eq text debug fuel now w w1 h
  have key := jobs_run_loop_inv text debug fuel now
    (fun rest v => JobsInv frozen v rest ∧ ∃ l, v.log = w.log ++ l ∧ NoResumeAfterYield l ∧
      ∀ j ∈ yields l, j.fiber ∈ v.yielded_jobs.map (fun j => j.fiber))
    (by
      intro J rest v v1 ⟨hv, l, hlog, hnr, hyl⟩ hj
      obtain ⟨hv1, v2, l2, hs, hcase⟩ :=
        jobs_run_job_inv frozen text htext debug fuel v J rest hv v1 hj
      refine ⟨hv1, ?_⟩
      have hJy : J.fiber ∉ v.yielded_jobs.map (fun j => j.fiber) := by
        have hnd := hv.nodup
        simp only [queued_jobs, List.cons_append, List.map_cons, List.map_append,
          List.nodup_cons, List.mem_append] at hnd
        exact fun hm => hnd.1 (Or.inl (Or.inr hm))
      have hyields : v2.yielded_jobs = v.yielded_jobs ++ yields l2 := by
        rcases hs.kind with ⟨h1, h2, -, -⟩ | ⟨h1, h2, -, -⟩ | ⟨h1, h2, -, -⟩
        · rw [h2, h1]
        · rw [h2, h1, List.append_nil]
        · rw [h2, h1, List.append_nil]
      have hbase : NoResumeAfterYield (l ++ Event.resumed J :: l2) ∧
          ∀ j ∈ yields (l ++ Event.resumed J :: l2),
            j.fiber ∈ v2.yielded_jobs.map (fun j => j.fiber) := by
        constructor
        · rw [noResumeAfterYield_append]
          refine ⟨hnr, noResumeAfterYield_of_no_resumes l2 hs.core.no_resumes, ?_⟩
          intro j hj j1 hj1
          simp only [resumes, hs.core.no_resumes, List.mem_singleton] at hj1
          rw [hj1]
          intro heq
          exact hJy (heq ▸ hyl j hj)
        · intro j hj
          rw [yields_append, List.mem_append] at hj
          rw [hyields, List.map_append, List.mem_append]
          rcases hj with hj | hj
          · exact Or.inl (hyl j hj)
          · exact Or.inr (List.mem_map_of_mem _ (by simpa [yields] using hj))
      rcases hcase with ⟨rfl, -⟩ | ⟨c, -, -, rfl⟩
      · exact ⟨l ++ Event.resumed J :: l2, by rw [hs.core.log, hlog, List.append_assoc],
          hbase.1, hbase.2⟩
      · refine ⟨(l ++ Event.resumed J :: l2) ++ [Event.decremented J c], ?_, ?_, ?_⟩
        · simp [hs.core.log, hlog]
        · rw [noResumeAfterYield_append]
          exact ⟨hbase.1, trivial, by simp [resumes]⟩
        · intro j hj
          rw [yields_append] at hj
          simp only [yields, List.append_nil] at hj
          exact hbase.2 j hj)
    (by
      intro v v1 batch ⟨hv, l, hlog, hnr, hyl⟩ hq
      refine ⟨jobs_run_queueing_inv frozen now v v1 batch hv hq, ?_⟩
      rw [jobs_run_queueing_eq] at hq
      injection hq with hq
      injection hq with hq1 hq2
      subst hq1
      exact ⟨l, hlog, hnr, hyl⟩)
    fuel { w with latest_time := now } w2
    ⟨⟨hinv.nf, hinv.host, hinv.frames, hinv.nodup, hinv.queued⟩, [], by simp, trivial,
      by simp [yields]⟩ hl
  obtain ⟨w0, ⟨hv, l, hlog, hnr, -⟩, hq⟩ := key
  have hv2 := jobs_run_queueing_inv frozen now w0 w2 [] hv hq
  refine ⟨jobs_run_finish_inv frozen w2 hv2, l, ?_, hnr⟩
  rw [jobs_run_queueing_eq] at hq
  injection hq with hq
  injection hq with hq1 hq2
  subst hq1
  exact hlog

/-- A fresh thread satisfies the invariant of the scheduler. -/
theorem jobsInv_init (frozen : Nat → Prop) : JobsInv frozen World.init [] := by
  refine ⟨le_refl _, Or.inl rfl, fun f _ => trivial, ?_, ?_⟩
  · simp [queued_jobs, World.init]
  · intro j hj
    simp [queued_jobs, World.init] at hj

/-- A call of `job_create` by the thread's own code keeps the invariant of the scheduler. -/
theorem jobsInv_job_create (frozen : Nat → Prop) (w : World) (e c : Option Nat)
    (hinv : JobsInv frozen w []) : JobsInv frozen (job_create w e c) [] := by
  have hnf := hinv.nf
  have hjobs : (job_create w e c).jobs = w.jobs ++ [⟨w.nfibers, c⟩] := by
    cases c <;> simp [job_create, zero_fiber_make, ZERO_ATOMIC_INCREMENT]
  have hy : (job_create w e c).yielded_jobs = w.yielded_jobs := by
    cases c <;> simp [job_create, zero_fiber_make, ZERO_ATOMIC_INCREMENT]
  have hwq : (job_create w e c).waiting_jobs = w.waiting_jobs := by
    cases c <;> simp [job_create, zero_fiber_make, ZERO_ATOMIC_INCREMENT]
  have hn : (job_create w e c).nfibers = w.nfibers + 1 := by
    cases c <;> simp [job_create, zero_fiber_make, ZERO_ATOMIC_INCREMENT]
  have hf : (job_create w e c).fibers = Function.update w.fibers w.nfibers
      { caller := none, userdata := NULL, entrypoint := e, status := ZERO_FIBER_STARTED,
        stack_size := 4 * 1024 } := by
    cases c <;> simp [job_create, zero_fiber_make, ZERO_ATOMIC_INCREMENT]
  have hc : (job_create w e c).context = Function.update w.context w.nfibers Frame.entry := by
    cases c <;> simp [job_create, zero_fiber_make, ZERO_ATOMIC_INCREMENT]
  have hcur : (job_create w e c).zero_fiber_current = w.zero_fiber_current := by
    cases c <;> simp [job_create, zero_fiber_make, ZERO_ATOMIC_INCREMENT]
  refine ⟨by omega, by rw [hcur]; exact hinv.host, ?_, ?_, ?_⟩
  · intro f h1
    rw [hc]
    by_cases hf0 : f = w.nfibers
    · subst hf0
      rw [Function.update_same]
      trivial
    · rw [Function.update_noteq hf0]; exact hinv.frames f h1
  · have hnd := hinv.nodup
    have hq := hinv.queued
    rw [List.nodup_iff_count_le_one] at hnd ⊢
    intro a
    have h1 := hnd a
    simp only [queued_jobs, hjobs, hy, hwq, List.nil_append, List.map_append, List.map_cons,
      List.map_nil, List.count_append, List.count_cons, List.count_nil] at h1 ⊢
    by_cases ha : w.nfibers = a
    · have hna : a ∉ (queued_jobs w []).map (fun j => j.fiber) := by
        intro hm
        obtain ⟨j, hj, rfl⟩ := List.mem_map.mp hm
        have := (hq j hj).2.1
        omega
      have h3 := List.count_eq_zero_of_not_mem hna
      simp only [queued_jobs, List.nil_append, List.map_append, List.count_append] at h3
      simp only [ha, beq_self_eq_true, if_true]
      omega
    · simp only [beq_iff_eq, ha, if_false]
      omega
  · intro j hj
    simp only [queued_jobs, hjobs, hy, hwq, List.nil_append, List.mem_append,
      List.mem_singleton] at hj
    have hold : j ∈ queued_jobs w [] → 1 ≤ j.fiber ∧ j.fiber < (job_create w e c).nfibers ∧
        ((job_create w e c).fibers j.fiber).status ≠ ZERO_FIBER_ENDED := by
      intro hm
      obtain ⟨h1, h2, h3⟩ := hinv.queued j hm
      refine ⟨h1, by omega, ?_⟩
      rw [hf, Function.update_noteq (by omega)]
      exact h3
    rcases hj with ((hj | hj) | hj) | hj
    · exact hold (by simp [queued_jobs, hj])
    · subst hj
      refine ⟨hnf, by simp [hn], ?_⟩
      simp [hf]
    · exact hold (by simp [queued_jobs, hj])
    · exact hold (by simp [queued_jobs, hj])

/-- Counterexample for C6: the ready queue holds the same job twice and the yielded
queue is empty; the job yields every time it is resumed.  `jobs_run(0)` returns, and in
its trace the job is resumed again after it has yielded. -/
theorem doubled_entry_resumed_after_yield :
    doubled_entry_world.yielded_jobs = [] ∧
    ∃ w1 l, jobs_run yield_forever_text false 4 0 doubled_entry_world = some w1 ∧
      w1.log = doubled_entry_world.log ++ l ∧ ¬ NoResumeAfterYield l := by
  refine ⟨rfl, _, [Event.resumed ⟨1, none⟩, Event.yielded ⟨1, none⟩, Event.resumed ⟨1, none⟩,
    Event.yielded ⟨1, none⟩], eq_some_getD_of_isSome _ World.init (by decide!), by decide!, ?_⟩
  simp [NoResumeAfterYield, resumes]

/-- C6 (amended).  For every world whose yielded queue is empty on entry: when
`jobs_run(now)` returns, the yielded queue is empty again and the ready queue consists of
exactly the jobs that called `job_yield` during this Tick, in the order they yielded.
If moreover, on entry, every fiber has at most one queue entry and the jobs are
well-behaved (they suspend only in `job_yield`, `job_wait`, `job_wait_on_condition` or by
returning), then none of them is resumed again in the Tick after it has yielded, and
the same holds on entry of the next Tick. -/
theorem yielded_jobs_deferred (text : Nat → zero_userdata_t → Prog) (debug : Bool)
    (fuel : Nat) (now : ℚ) (w w1 : World) (hy : w.yielded_jobs = [])
    (h : jobs_run text debug fuel now w = some w1) :
    w1.yielded_jobs = [] ∧ ∃ l, w1.log = w.log ++ l ∧ w1.jobs = yields l ∧
      ∀ frozen : Nat → Prop, (∀ e d, WellBehaved frozen (text e d)) → JobsInv frozen w [] →
        NoResumeAfterYield l ∧ JobsInv frozen w1 [] := by
  obtain ⟨h1, l, hlog, hjobs⟩ := tick_moves_yielded text debug fuel now w w1 hy h
  refine ⟨h1, l, hlog, hjobs, ?_⟩
  intro frozen htext hinv
  obtain ⟨hinv1, l2, hlog2, hnr⟩ :=
    tick_no_resume_after_yield frozen text htext debug fuel now w w1 hinv h
  have : l2 = l := List.append_cancel_left (hlog2.symm.trans hlog)
  subst this
  exact ⟨hnr, hinv1⟩

/-- Witness for C6 (amended): the first Tick of the job that yields forever; its code is
well-behaved and the world after `job_create` has one queue entry per fiber. -/
theorem yielded_jobs_deferred_witness :
    yield_forever_created.yielded_jobs = [] ∧
    jobs_run yield_forever_text false 4 0 yield_forever_created = some yield_forever_world ∧
    (∀ e d, WellBehaved (fun _ => False) (yield_forever_text e d)) ∧
    JobsInv (fun _ => False) yield_forever_created [] ∧
    yield_forever_world.yielded_jobs = [] ∧
    ∃ l, yield_forever_world.log = yield_forever_created.log ++ l ∧
      yield_forever_world.jobs = yields l ∧
      NoResumeAfterYield l ∧ JobsInv (fun _ => False) yield_forever_world [] := by
  have hrun : jobs_run yield_forever_text false 4 0 yield_forever_created =
      some yield_forever_world := eq_some_getD_of_isSome _ World.init (by decide!)
  have hwb : ∀ e d, WellBehaved (fun _ => False) (yield_forever_text e d) :=
    fun _ _ => WellBehaved.job_yield _ (WellBehaved.jump 0 NULL)
  have hinv : JobsInv (fun _ => False) yield_forever_created [] :=
    jobsInv_job_create _ World.init (some 0) none (jobsInv_init _)
  obtain ⟨h1, l, h2, h3, h4⟩ :=
    yielded_jobs_deferred yield_forever_text false 4 0 yield_forever_created
      yield_forever_world rfl hrun
  exact ⟨rfl, hrun, hwb, hinv, h1, l, h2, h3, h4 _ hwb hinv⟩

/-! ## C8 -/

theorem mem_decrements (j : job_t) (l : List Event) :
    j ∈ decrements l ↔ ∃ c, Event.decremented j c ∈ l := by
  induction l with
  | nil => simp [decrements]
  | cons e l ih =>
    cases e with
    | resumed j1 => simp [decrements, ih]
    | yielded j1 => simp [decrements, ih]
    | created j1 => simp [decrements, ih]
    | decremented j1 c1 =>
      simp only [decrements, List.mem_cons, ih, Event.decremented.injEq]
      constructor
      · rintro (rfl | ⟨c, hc⟩)
        · exact ⟨c1, Or.inl ⟨rfl, rfl⟩⟩
        · exact ⟨c, Or.inr hc⟩
      · rintro ⟨c, ⟨rfl, -⟩ | hc⟩
        · exact Or.inl rfl
        · exact Or.inr ⟨c, hc⟩

/-- The queue entries after the resume of `J`: old entries other than the one taken
from the batch, jobs created during the resume, and `J` itself. -/
theorem mem_queued_after (frozen : Nat → Prop) (v : World) (J : job_t) (rest : List job_t)
    (v2 : World) (l2 : List Event) (hs : JobSuspended frozen v J v2 l2) (j : job_t)
    (hj : j ∈ queued_jobs v2 rest) :
    j ∈ rest ++ v.jobs ++ v.yielded_jobs ++ v.waiting_jobs.map (fun x => x.job) ∨
      j ∈ creates l2 ∨ j = J := by
  rcases hs.kind with ⟨-, hy, hw, -⟩ | ⟨-, hy, ⟨x, hx, -, hw⟩, -⟩ | ⟨-, hy, hw, -⟩
  · simp only [queued_jobs, hs.core.jobs, hy, hw, List.mem_append, List.mem_singleton] at hj
    simp only [List.mem_append]
    tauto
  · simp only [queued_jobs, hs.core.jobs, hy, hw, List.mem_append, List.map_append,
      List.map_cons, List.map_nil, List.mem_singleton, hx] at hj
    simp only [List.mem_append]
    tauto
  · simp only [queued_jobs, hs.core.jobs, hy, hw, List.mem_append] at hj
    simp only [List.mem_append]
    tauto

/-- What the resume of `J` leaves of the bookkeeping, before the scheduler looks at the
status of the fiber. -/
theorem counterInv_resume (frozen : Nat → Prop) (w : World) (c : Nat) (hc : frozen c)
    (hcw : c < w.nmem) (v : World) (J : job_t) (rest : List job_t) (l : List Event)
    (hv : JobsInv frozen v (J :: rest)) (hI : CounterInv w c v (J :: rest) l)
    (v2 : World) (l2 : List Event) (hs : JobSuspended frozen v J v2 l2) :
    (1 ≤ J.fiber ∧ J.fiber < v2.nfibers ∧ LiveOrNew w J.fiber) ∧
    (∀ j ∈ decrements l, j.fiber ≠ J.fiber) ∧
    (∀ j ∈ resumes l, j.fiber = J.fiber → j = J) ∧
    (∀ j ∈ resumes l, j.fiber ≠ J.fiber → (v2.fibers j.fiber).status = ZERO_FIBER_ENDED →
      j.status_counter ≠ none → j ∈ decrements l) ∧
    counter_moved (w.mem c) (v2.mem c)
      (count_on c (creates l ++ creates l2) - count_on c (decrements l)) ∧
    (∀ j c1, Event.decremented j c1 ∈ l →
      j.status_counter = some c1 ∧ 1 ≤ j.fiber ∧ j.fiber < v2.nfibers ∧
        (v2.fibers j.fiber).status = ZERO_FIBER_ENDED ∧ LiveOrNew w j.fiber) ∧
    (∀ j ∈ resumes l ++ [J], 1 ≤ j.fiber ∧ j.fiber < v2.nfibers ∧ LiveOrNew w j.fiber) ∧
    (∀ j ∈ resumes l ++ [J], ∀ j1 ∈ queued_jobs v2 rest, j1.fiber = j.fiber → j1 = j) ∧
    (∀ f, 1 ≤ f → f < w.nfibers → (w.fibers f).status = ZERO_FIBER_ENDED →
      (v2.fibers f).status = ZERO_FIBER_ENDED) ∧
    (∀ j ∈ queued_jobs v2 rest, LiveOrNew w j.fiber) := by
  have hJmem : J ∈ queued_jobs v (J :: rest) := by simp [queued_jobs]
  have hJq := hv.queued J hJmem
  have hJlive := hI.entries J hJmem
  have hold : ∀ j ∈ rest ++ v.jobs ++ v.yielded_jobs ++ v.waiting_jobs.map (fun x => x.job),
      j ∈ queued_jobs v (J :: rest) ∧ j.fiber ≠ J.fiber := by
    intro j hj
    have hnd := hv.nodup
    simp only [queued_jobs, List.cons_append, List.map_cons, List.nodup_cons, List.mem_map,
      not_exists, not_and] at hnd
    refine ⟨?_, fun he => hnd.1 j hj he⟩
    simp only [queued_jobs, List.cons_append, List.mem_cons]
    exact Or.inr hj
  have hnf := hs.core.nfibers
  have hdecJ : ∀ j ∈ decrements l, j.fiber ≠ J.fiber := by
    intro j hj he
    obtain ⟨c1, hc1⟩ := (mem_decrements j l).1 hj
    have := (hI.dec j c1 hc1).2.2.2.1
    rw [he] at this
    exact hJq.2.2 this
  have hresJ : ∀ j ∈ resumes l, j.fiber = J.fiber → j = J := by
    intro j hj he
    exact (hI.res_entry j hj J hJmem he.symm).symm
  have hmem := hs.core.mem c hc (lt_of_lt_of_le hcw hI.nmem)
  refine ⟨⟨hJq.1, lt_of_lt_of_le hJq.2.1 hnf, hJlive⟩, hdecJ, hresJ, ?_, ?_, ?_, ?_, ?_, ?_,
    ?_⟩
  · intro j hj hne hst hcn
    have hb := hI.res j hj
    rw [hs.core.others j.fiber hne hb.1 hb.2.1] at hst
    exact hI.res_dec j hj hst hcn
  · refine counter_moved_congr _ _ _ _ (counter_moved_trans _ _ _ _ _ hI.balance hmem) ?_
    rw [count_on_append]
    ring
  · intro j c1 hj
    obtain ⟨h1, h2, h3, h4, h5⟩ := hI.dec j c1 hj
    have hne : j.fiber ≠ J.fiber := hdecJ j ((mem_decrements j l).2 ⟨c1, hj⟩)
    exact ⟨h1, h2, lt_of_lt_of_le h3 hnf, by rw [hs.core.others j.fiber hne h2 h3]; exact h4,
      h5⟩
  · intro j hj
    rcases List.mem_append.1 hj with hj | hj
    · obtain ⟨h1, h2, h3⟩ := hI.res j hj
      exact ⟨h1, lt_of_lt_of_le h2 hnf, h3⟩
    · rw [List.mem_singleton.1 hj]
      exact ⟨hJq.1, lt_of_lt_of_le hJq.2.1 hnf, hJlive⟩
  · intro j hj j1 hj1 he
    rcases mem_queued_after frozen v J rest v2 l2 hs j1 hj1 with h1 | h1 | h1
    · obtain ⟨hq, hne⟩ := hold j1 h1
      rcases List.mem_append.1 hj with hj | hj
      · exact hI.res_entry j hj j1 hq he
      · rw [List.mem_singleton.1 hj] at he
        exact absurd he hne
    · have hfr := (hs.core.fresh j1 h1).1
      rcases List.mem_append.1 hj with hj | hj
      · have := (hI.res j hj).2.1
        omega
      · rw [List.mem_singleton.1 hj] at he
        have := hJq.2.1
        omega
    · rcases List.mem_append.1 hj with hj | hj
      · rw [h1] at he ⊢
        exact (hresJ j hj he.symm).symm
      · rw [h1, List.mem_singleton.1 hj]
  · intro f h1 h2 h3
    have h4 := hI.ended f h1 h2 h3
    have hne : f ≠ J.fiber := by
      intro he
      rw [he] at h4
      exact hJq.2.2 h4
    rw [hs.core.others f hne h1 (lt_of_lt_of_le h2 hI.nfibers)]
    exact h4
  · intro j hj
    rcases mem_queued_after frozen v J rest v2 l2 hs j hj with h1 | h1 | h1
    · exact hI.entries j (hold j h1).1
    · right
      exact le_trans hI.nfibers (hs.core.fresh j h1).1
    · rw [h1]
      exact hJlive

/-- The old queue entries other than the one taken from the batch, and the jobs created
during the resume, are queue entries after the resume of `J`. -/
theorem mem_queued_after_of (frozen : Nat → Prop) (v : World) (J : job_t) (rest : List job_t)
    (v2 : World) (l2 : List Event) (hs : JobSuspended frozen v J v2 l2) (j : job_t)
    (hj : j ∈ rest ++ v.jobs ++ v.yielded_jobs ++ v.waiting_jobs.map (fun x => x.job) ∨
      j ∈ creates l2) : j ∈ queued_jobs v2 rest := by
  simp only [List.mem_append] at hj
  rcases hs.kind with ⟨-, hy, hw, -⟩ | ⟨-, hy, ⟨x, hx, -, hw⟩, -⟩ | ⟨-, hy, hw, -⟩
  · simp only [queued_jobs, hs.core.jobs, hy, hw, List.mem_append, List.mem_singleton]
    tauto
  · simp only [queued_jobs, hs.core.jobs, hy, hw, List.mem_append, List.map_append,
      List.map_cons, List.map_nil, List.mem_singleton, hx]
    tauto
  · simp only [queued_jobs, hs.core.jobs, hy, hw, List.mem_append]
    tauto

theorem count_on_cons (c : Nat) (j : job_t) (js : List job_t) :
    count_on c (j :: js) = (if j.status_counter = some c then 1 else 0) + count_on c js := rfl

theorem count_on_nil (c : Nat) : count_on c [] = 0 := rfl

/-- The number of queue entries on the counter `c` after the resume of `J`. -/
theorem count_queued_after (frozen : Nat → Prop) (v : World) (J : job_t) (rest : List job_t)
    (v2 : World) (l2 : List Event) (hs : JobSuspended frozen v J v2 l2) (c : Nat) :
    count_on c (queued_jobs v2 rest) + count_on c [J] =
      count_on c (queued_jobs v (J :: rest)) + count_on c (creates l2) +
        (if (v2.fibers J.fiber).status = ZERO_FIBER_ENDED then 0 else count_on c [J]) := by
  rcases hs.kind with ⟨-, hy, hw, hst⟩ | ⟨-, hy, ⟨x, hx, -, hw⟩, hst⟩ | ⟨-, hy, hw, hst⟩
  · simp only [queued_jobs, hs.core.jobs, hy, hw, hst, count_on_append, count_on_cons,
      count_on_nil, List.cons_append, reduceCtorEq, if_false]
    ring
  · simp only [queued_jobs, hs.core.jobs, hy, hw, hst, count_on_append, count_on_cons,
      count_on_nil, List.cons_append, List.map_append, List.map_cons, List.map_nil, hx,
      reduceCtorEq, if_false]
    ring
  · simp only [queued_jobs, hs.core.jobs, hy, hw, hst, count_on_append, count_on_cons,
      count_on_nil, List.cons_append, if_true]
    ring

/-- One resume by `jobs_run_job` keeps the bookkeeping of the counter `c`. -/
theorem counterInv_job (frozen : Nat → Prop) (w : World) (c : Nat) (hc : frozen c)
    (hcw : c < w.nmem) (v : World) (J : job_t) (rest : List job_t) (l : List Event)
    (hv : JobsInv frozen v (J :: rest)) (hI : CounterInv w c v (J :: rest) l)
    (v2 : World) (l2 : List Event) (hs : JobSuspended frozen v J v2 l2) (v1 : World)
    (hcase : (v1 = v2 ∧ (J.status_counter = none ∨
        (v2.fibers J.fiber).status ≠ ZERO_FIBER_ENDED)) ∨
      ∃ c0, J.status_counter = some c0 ∧ (v2.fibers J.fiber).status = ZERO_FIBER_ENDED ∧
        v1 = { ZERO_ATOMIC_DECREMENT v2 c0 with
          log := v2.log ++ [Event.decremented J c0] }) :
    ∃ l1, CounterInv w c v1 rest l1 := by
  obtain ⟨hJ, hdecJ, hresJ, hold, hbal, hdec, hres, hentry, hended, hentries⟩ :=
    counterInv_resume frozen w c hc hcw v J rest l hv hI v2 l2 hs
  have hR : resumes (l ++ Event.resumed J :: l2) = resumes l ++ [J] := by
    rw [resumes_append]
    simp [resumes, hs.core.no_resumes]
  have hD : decrements (l ++ Event.resumed J :: l2) = decrements l := by
    rw [decrements_append]
    simp [decrements, hs.core.no_decrements]
  have hC : creates (l ++ Event.resumed J :: l2) = creates l ++ creates l2 := by
    rw [creates_append]
    simp [creates]
  have hev : ∀ j c1, Event.decremented j c1 ∈ l ++ Event.resumed J :: l2 →
      Event.decremented j c1 ∈ l := by
    intro j c1 h
    have h1 : j ∈ decrements (l ++ Event.resumed J :: l2) := (mem_decrements j _).2 ⟨c1, h⟩
    rcases List.mem_append.1 h with h | h
    · exact h
    · rcases List.mem_cons.1 h with h | h
      · cases h
      · have h2 : j ∈ decrements l2 := (mem_decrements j _).2 ⟨c1, h⟩
        rw [hs.core.no_decrements] at h2
        cases h2
  have hlog : v2.log = w.log ++ (l ++ Event.resumed J :: l2) := by
    rw [hs.core.log, hI.log, List.append_assoc]
  have hJmem : J ∈ queued_jobs v (J :: rest) := by simp [queued_jobs]
  have htail : ∀ j, j ∈ queued_jobs v (J :: rest) →
      j = J ∨ j ∈ rest ++ v.jobs ++ v.yielded_jobs ++ v.waiting_jobs.map (fun x => x.job) := by
    intro j hj
    simpa [queued_jobs] using hj
  have hwait : ∀ x ∈ v2.waiting_jobs, x.condition ≠ JOB_WAIT_DATA_ZERO := by
    intro x hx
    rcases hs.kind with ⟨-, -, hw, -⟩ | ⟨-, -, ⟨y, -, hy, hw⟩, -⟩ | ⟨-, -, hw, -⟩
    · rw [hw] at hx
      exact hI.waiters x hx
    · rw [hw] at hx
      rcases List.mem_append.1 hx with hx | hx
      · exact hI.waiters x hx
      · rw [List.mem_singleton.1 hx]
        exact hy
    · rw [hw] at hx
      exact hI.waiters x hx
  have horigin : ∀ j ∈ queued_jobs v2 rest,
      j ∈ queued_jobs w [] ∨ j ∈ creates l ++ creates l2 := by
    intro j hj
    rcases mem_queued_after frozen v J rest v2 l2 hs j hj with h1 | h1 | h1
    · rcases hI.origin j (by simp only [queued_jobs, List.cons_append, List.mem_cons]
                             exact Or.inr h1) with h2 | h2
      · exact Or.inl h2
      · exact Or.inr (List.mem_append_left _ h2)
    · exact Or.inr (List.mem_append_right _ h1)
    · rw [h1]
      rcases hI.origin J hJmem with h2 | h2
      · exact Or.inl h2
      · exact Or.inr (List.mem_append_left _ h2)
  have hcreated : ∀ j, j ∈ queued_jobs w [] ∨ j ∈ creates l ++ creates l2 →
      j ∈ queued_jobs v2 rest ∨ j ∈ resumes l ++ [J] := by
    intro j hj
    have hj : (j ∈ queued_jobs w [] ∨ j ∈ creates l) ∨ j ∈ creates l2 := by
      rw [List.mem_append] at hj
      tauto
    rcases hj with hj | hj
    · rcases hI.created j hj with h1 | h1
      · rcases htail j h1 with h2 | h2
        · right
          rw [h2]
          simp
        · exact Or.inl (mem_queued_after_of frozen v J rest v2 l2 hs j (Or.inl h2))
      · exact Or.inr (List.mem_append_left _ h1)
    · exact Or.inl (mem_queued_after_of frozen v J rest v2 l2 hs j (Or.inr hj))
  have hmem := hs.core.mem c hc (lt_of_lt_of_le hcw hI.nmem)
  have hq := count_queued_after frozen v J rest v2 l2 hs c
  have hlive := hI.live
  rcases hcase with ⟨rfl, hno⟩ | ⟨c0, hc0, hend, rfl⟩
  · refine ⟨l ++ Event.resumed J :: l2, hlog, le_trans hI.nfibers hs.core.nfibers,
      le_trans hI.nmem hs.core.nmem, ?_, ?_, ?_, ?_, ?_, ?_, hended, hentries, hwait, ?_, ?_, ?_⟩
    · rw [hC, hD]
      exact hbal
    · intro j c1 h
      exact hdec j c1 (hev j c1 h)
    · rw [hD]
      exact hI.dec_nodup
    · rw [hR]
      exact hres
    · rw [hR]
      exact hentry
    · rw [hR, hD]
      intro j hj hst hcn
      have hjJ : j = J → False := by
        intro he
        rw [he] at hst hcn
        rcases hno with h | h
        · exact hcn h
        · exact h hst
      rcases List.mem_append.1 hj with hj | hj
      · by_cases he : j.fiber = J.fiber
        · exact (hjJ (hresJ j hj he)).elim
        · exact hold j hj he hst hcn
      · exact (hjJ (List.mem_singleton.1 hj)).elim
    · by_cases hst : (v1.fibers J.fiber).status = ZERO_FIBER_ENDED
      · have hn : J.status_counter = none := by
          rcases hno with h | h
          · exact h
          · exact absurd hst h
        rw [if_pos hst] at hq
        simp only [count_on_cons, count_on_nil, hn, reduceCtorEq, if_false] at hq
        exact counter_moved_congr _ _ _ _ (counter_moved_trans _ _ _ _ _ hlive hmem)
          (by linarith)
      · rw [if_neg hst] at hq
        exact counter_moved_congr _ _ _ _ (counter_moved_trans _ _ _ _ _ hlive hmem)
          (by linarith)
    · rw [hC]
      exact horigin
    · rw [hC, hR]
      exact hcreated
  · refine ⟨(l ++ Event.resumed J :: l2) ++ [Event.decremented J c0], ?_,
      le_trans hI.nfibers hs.core.nfibers, le_trans hI.nmem hs.core.nmem, ?_, ?_, ?_, ?_, ?_,
      ?_, hended, hentries, hwait, ?_, ?_, ?_⟩
    · show v2.log ++ [Event.decremented J c0] = _
      rw [hlog, List.append_assoc]
    · show counter_moved (w.mem c) (Function.update v2.mem c0 (int_wrap (v2.mem c0 - 1)) c) _
      rw [creates_append, decrements_append, hC, hD]
      simp only [creates, decrements, List.append_nil, count_on_append, count_on_cons,
        count_on_nil, hc0, Option.some.injEq]
      by_cases he : c0 = c
      · subst he
        rw [Function.update_same]
        refine counter_moved_congr _ _ _ _
          (counter_moved_trans _ _ _ _ _ hbal (counter_moved_decr _)) ?_
        rw [count_on_append]
        simp
        ring
      · rw [Function.update_noteq (Ne.symm he)]
        refine counter_moved_congr _ _ _ _ hbal ?_
        rw [count_on_append]
        simp [he]
    · intro j c1 h
      rcases List.mem_append.1 h with h | h
      · exact hdec j c1 (hev j c1 h)
      · simp only [List.mem_singleton, Event.decremented.injEq] at h
        obtain ⟨rfl, rfl⟩ := h
        exact ⟨hc0, hJ.1, hJ.2.1, hend, hJ.2.2⟩
    · rw [decrements_append, hD]
      simp only [decrements, List.map_append, List.map_cons, List.map_nil]
      rw [List.nodup_append]
      refine ⟨hI.dec_nodup, List.nodup_singleton _, ?_⟩
      intro a ha hb
      rw [List.mem_singleton] at hb
      obtain ⟨j, hj, rfl⟩ := List.mem_map.1 ha
      exact hdecJ j hj hb
    · rw [resumes_append, hR]
      simpa [resumes] using hres
    · rw [resumes_append, hR]
      simpa [resumes] using hentry
    · rw [resumes_append, hR, decrements_append, hD]
      simp only [resumes, decrements, List.append_nil]
      intro j hj hst hcn
      have hjJ : j = J → j ∈ decrements l ++ [J] := by
        intro he
        rw [he]
        simp
      rcases List.mem_append.1 hj with hj | hj
      · by_cases he : j.fiber = J.fiber
        · exact hjJ (hresJ j hj he)
        · exact List.mem_append_left _ (hold j hj he hst hcn)
      · exact hjJ (List.mem_singleton.1 hj)
    · show counter_moved (w.mem c) (Function.update v2.mem c0 (int_wrap (v2.mem c0 - 1)) c)
        (count_on c (queued_jobs v2 rest) - count_on c (queued_jobs w []))
      rw [if_pos hend] at hq
      simp only [count_on_cons, count_on_nil, hc0, Option.some.injEq] at hq
      by_cases he : c0 = c
      · subst he
        rw [Function.update_same]
        simp only [if_true] at hq
        exact counter_moved_congr _ _ _ _ (counter_moved_trans _ _ _ _ _
          (counter_moved_trans _ _ _ _ _ hlive hmem) (counter_moved_decr _)) (by linarith)
      · rw [Function.update_noteq (Ne.symm he)]
        simp only [he, if_false] at hq
        exact counter_moved_congr _ _ _ _ (counter_moved_trans _ _ _ _ _ hlive hmem)
          (by linarith)
    · rw [creates_append, hC]
      simpa [creates] using horigin
    · rw [creates_append, hC, resumes_append, hR]
      simpa [creates, resumes] using hcreated

/-- A move of entries between the queues, which changes nothing else, keeps the
bookkeeping of the counter `c`. -/
theorem counterInv_requeue (w : World) (c : Nat) (v v1 : World) (rest rest1 : List job_t)
    (l : List Event) (hI : CounterInv w c v rest l) (hlog : v1.log = v.log)
    (hf : v1.fibers = v.fibers) (hn : v1.nfibers = v.nfibers) (hm : v.nmem ≤ v1.nmem)
    (hmem : v1.mem c = v.mem c) (hw : ∀ x ∈ v1.waiting_jobs, x ∈ v.waiting_jobs)
    (hq : ∀ j, j ∈ queued_jobs v1 rest1 ↔ j ∈ queued_jobs v rest)
    (hcount : count_on c (queued_jobs v1 rest1) = count_on c (queued_jobs v rest)) :
    CounterInv w c v1 rest1 l := by
  refine ⟨by rw [hlog]; exact hI.log, by rw [hn]; exact hI.nfibers, le_trans hI.nmem hm,
    by rw [hmem]; exact hI.balance, ?_, hI.dec_nodup, ?_, ?_, ?_, ?_, ?_, ?_, ?_, ?_, ?_⟩
  · intro j c1 h
    rw [hn, hf]
    exact hI.dec j c1 h
  · intro j h
    rw [hn]
    exact hI.res j h
  · intro j h j1 h1 he
    exact hI.res_entry j h j1 ((hq j1).1 h1) he
  · intro j h
    rw [hf]
    exact hI.res_dec j h
  · intro f h1 h2 h3
    rw [hf]
    exact hI.ended f h1 h2 h3
  · intro j h
    exact hI.entries j ((hq j).1 h)
  · intro x hx
    exact hI.waiters x (hw x hx)
  · rw [hmem, hcount]
    exact hI.live
  · intro j h
    exact hI.origin j ((hq j).1 h)
  · intro j h
    rcases hI.created j h with h1 | h1
    · exact Or.inl ((hq j).2 h1)
    · exact Or.inr h1

/-- A waiting record of a timer or of a counter is pushed either on the batch or back on
the waiting queue. -/
theorem wait_requeued_eq (time : ℚ) (mem : Nat → Int) (x : job_waiting_t)
    (h : x.condition ≠ JOB_WAIT_DATA_ZERO) :
    wait_requeued time mem x = !wait_satisfied time mem x := by
  unfold wait_satisfied wait_requeued
  cases hc : x.condition
  · simp
  · cases ha : x.data_address <;> simp
  · exact absurd hc h

theorem count_on_filter_split (c : Nat) (p q : job_waiting_t → Bool) :
    ∀ (ws : List job_waiting_t), (∀ x ∈ ws, q x = !p x) →
      count_on c ((ws.filter p).map (fun x => x.job)) +
        count_on c ((ws.filter q).map (fun x => x.job)) =
      count_on c (ws.map (fun x => x.job))
  | [], _ => rfl
  | x :: ws, h => by
    have ih := count_on_filter_split c p q ws (fun y hy => h y (List.mem_cons_of_mem _ hy))
    have hx := h x (List.mem_cons_self _ _)
    cases hp : p x
    · simp only [hp, Bool.not_false] at hx
      simp only [List.filter_cons, hp, hx, if_true, List.map_cons, count_on_cons]
      simp only [Bool.false_eq_true, if_false]
      linarith
    · simp only [hp, Bool.not_true] at hx
      simp only [List.filter_cons, hp, hx, if_true, List.map_cons, count_on_cons]
      simp only [Bool.false_eq_true, if_false]
      linarith

/-- The drain of the ready queue and the waiting-queue pass keep the bookkeeping. -/
theorem counterInv_queueing (w : World) (c : Nat) (time : ℚ) (v v1 : World)
    (batch : List job_t) (l : List Event) (hI : CounterInv w c v [] l)
    (h : jobs_run_queueing time v = some (v1, batch)) : CounterInv w c v1 batch l := by
  rw [jobs_run_queueing_eq] at h
  injection h with h
  injection h with h1 h2
  subst h1
  subst h2
  have hsplit : ∀ x ∈ v.waiting_jobs, wait_requeued time v.mem x = !wait_satisfied time v.mem x :=
    fun x hx => wait_requeued_eq time v.mem x (hI.waiters x hx)
  refine counterInv_requeue w c v _ [] _ l hI rfl rfl rfl (le_refl _) rfl ?_ ?_ ?_
  · intro x hx
    exact (List.mem_filter.1 hx).1
  · intro j
    simp only [queued_jobs, List.nil_append, List.append_nil, List.mem_append, List.mem_map,
      List.mem_filter]
    constructor
    · rintro (((hj | ⟨x, ⟨hx, -⟩, rfl⟩) | hj) | ⟨x, ⟨hx, -⟩, rfl⟩)
      · exact Or.inl (Or.inl hj)
      · exact Or.inr ⟨x, hx, rfl⟩
      · exact Or.inl (Or.inr hj)
      · exact Or.inr ⟨x, hx, rfl⟩
    · rintro ((hj | hj) | ⟨x, hx, rfl⟩)
      · exact Or.inl (Or.inl (Or.inl hj))
      · exact Or.inl (Or.inr hj)
      · cases hp : wait_satisfied time v.mem x
        · have := hsplit x hx
          rw [hp] at this
          exact Or.inr ⟨x, ⟨hx, this⟩, rfl⟩
        · exact Or.inl (Or.inl (Or.inr ⟨x, ⟨hx, hp⟩, rfl⟩))
  · have := count_on_filter_split c (wait_satisfied time v.mem) (wait_requeued time v.mem)
      v.waiting_jobs hsplit
    simp only [queued_jobs, List.nil_append, List.append_nil, count_on_append, count_on_nil]
    linarith

/-- The move of the yielded queue to the ready queue at the end of `jobs_run` keeps the
bookkeeping. -/
theorem counterInv_finish (w : World) (c : Nat) (v : World) (l : List Event)
    (hI : CounterInv w c v [] l) :
    CounterInv w c { v with jobs := v.jobs ++ v.yielded_jobs, yielded_jobs := [] } [] l := by
  refine counterInv_requeue w c v _ [] [] l hI rfl rfl rfl (le_refl _) rfl (fun x hx => hx) ?_ ?_
  · intro j
    simp [queued_jobs]
  · simp [queued_jobs, count_on_append, count_on_nil]

/-- The bookkeeping of the counter `c` at the start of the observation. -/
theorem counterInv_init (frozen : Nat → Prop) (w : World) (c : Nat)
    (hinv : JobsInv frozen w [])
    (hw : ∀ x ∈ w.waiting_jobs, x.condition ≠ JOB_WAIT_DATA_ZERO) :
    CounterInv w c w [] [] := by
  refine ⟨by simp, le_refl _, le_refl _, by simp [creates, decrements, count_on], ?_,
    by simp [decrements], ?_, ?_, ?_, fun f _ _ h => h, ?_, hw,
    by rw [sub_self]; exact counter_moved_refl _, fun j hj => Or.inl hj, ?_⟩
  · intro j c1 h
    cases h
  · intro j h
    simp [resumes] at h
  · intro j h
    simp [resumes] at h
  · intro j h
    simp [resumes] at h
  · intro j hj
    have := hinv.queued j hj
    exact Or.inl ⟨this.2.1, this.2.2⟩
  · intro j h
    rcases h with h | h
    · exact Or.inl h
    · simp [creates] at h

/-- One Tick keeps the invariant of the scheduler and the bookkeeping of the counter `c`. -/
theorem counterInv_tick (frozen : Nat → Prop) (text : Nat → zero_userdata_t → Prog)
    (htext : ∀ e d, WellBehaved frozen (text e d)) (debug : Bool) (fuel : Nat) (now : ℚ)
    (w : World) (c : Nat) (hc : frozen c) (hcw : c < w.nmem) (v : World) (l : List Event)
    (hv : JobsInv frozen v []) (hI : CounterInv w c v [] l) (v1 : World)
    (h : jobs_run text debug fuel now v = some v1) :
    JobsInv frozen v1 [] ∧ ∃ l1, CounterInv w c v1 [] l1 := by
  obtain ⟨w2, hl, rfl⟩ := jobs_run_eq text debug fuel now v v1 h
  have key := jobs_run_loop_inv text debug fuel now
    (fun rest u => JobsInv frozen u rest ∧ ∃ l, CounterInv w c u rest l)
    (by
      intro J rest u u1 ⟨hu, l0, hI0⟩ hj
      obtain ⟨hu1, u2, l2, hs, hcase⟩ :=
        jobs_run_job_inv frozen text htext debug fuel u J rest hu u1 hj
      exact ⟨hu1, counterInv_job frozen w c hc hcw u J rest l0 hu hI0 u2 l2 hs u1 hcase⟩)
    (by
      intro u u1 batch ⟨hu, l0, hI0⟩ hq
      exact ⟨jobs_run_queueing_inv frozen now u u1 batch hu hq, l0,
        counterInv_queueing w c now u u1 batch l0 hI0 hq⟩)
    fuel { v with latest_time := now } w2
    ⟨⟨hv.nf, hv.host, hv.frames, hv.nodup, hv.queued⟩, l,
      counterInv_requeue w c v _ [] [] l hI rfl rfl rfl (le_refl _) rfl (fun x hx => hx)
        (fun j => Iff.rfl) rfl⟩ hl
  obtain ⟨w0, ⟨hv0, l0, hI0⟩, hq⟩ := key
  exact ⟨jobs_run_finish_inv frozen w2 (jobs_run_queueing_inv frozen now w0 w2 [] hv0 hq), l0,
    counterInv_finish w c w2 l0 (counterInv_queueing w c now w0 w2 [] l0 hI0 hq)⟩

/-- A call of `job_create` by the thread's own code keeps the bookkeeping of the
counter `c`. -/
theorem counterInv_job_create (w : World) (c : Nat) (v : World)
    (l : List Event) (e k : Option Nat) (hI : CounterInv w c v [] l) :
    CounterInv w c (job_create v e k) [] (l ++ [Event.created ⟨v.nfibers, k⟩]) := by
  have hjobs : (job_create v e k).jobs = v.jobs ++ [⟨v.nfibers, k⟩] := by
    cases k <;> simp [job_create, zero_fiber_make, ZERO_ATOMIC_INCREMENT]
  have hy : (job_create v e k).yielded_jobs = v.yielded_jobs := by
    cases k <;> simp [job_create, zero_fiber_make, ZERO_ATOMIC_INCREMENT]
  have hwq : (job_create v e k).waiting_jobs = v.waiting_jobs := by
    cases k <;> simp [job_create, zero_fiber_make, ZERO_ATOMIC_INCREMENT]
  have hn : (job_create v e k).nfibers = v.nfibers + 1 := by
    cases k <;> simp [job_create, zero_fiber_make, ZERO_ATOMIC_INCREMENT]
  have hm : (job_create v e k).nmem = v.nmem := by
    cases k <;> simp [job_create, zero_fiber_make, ZERO_ATOMIC_INCREMENT]
  have hlog : (job_create v e k).log = v.log ++ [Event.created ⟨v.nfibers, k⟩] := by
    cases k <;> simp [job_create, zero_fiber_make, ZERO_ATOMIC_INCREMENT]
  have hf : ∀ f, f < v.nfibers → (job_create v e k).fibers f = v.fibers f := by
    intro f hlt
    have hne : f ≠ v.nfibers := by omega
    cases k <;> simp [job_create, zero_fiber_make, ZERO_ATOMIC_INCREMENT, hne]
  have hmem : counter_moved (v.mem c) ((job_create v e k).mem c)
      (count_on c [⟨v.nfibers, k⟩]) := by
    cases k with
    | none => simp [job_create, zero_fiber_make, count_on]
    | some c0 =>
      by_cases he : c0 = c
      · subst he
        simp only [job_create, zero_fiber_make, ZERO_ATOMIC_INCREMENT, count_on,
          Function.update_same, if_true, List.map_cons, List.map_nil, List.sum_cons,
          List.sum_nil, add_zero]
        exact counter_moved_incr _
      · simp [job_create, zero_fiber_make, ZERO_ATOMIC_INCREMENT, count_on, he,
          Function.update_noteq (Ne.symm he)]
  have hq : ∀ j, j ∈ queued_jobs (job_create v e k) [] ↔
      j ∈ queued_jobs v [] ∨ j = ⟨v.nfibers, k⟩ := by
    intro j
    simp only [queued_jobs, hjobs, hy, hwq, List.nil_append, List.mem_append,
      List.mem_singleton]
    tauto
  have hC : creates (l ++ [Event.created ⟨v.nfibers, k⟩]) = creates l ++ [⟨v.nfibers, k⟩] := by
    rw [creates_append]
    rfl
  have hD : decrements (l ++ [Event.created ⟨v.nfibers, k⟩]) = decrements l := by
    rw [decrements_append]
    simp [decrements]
  have hR : resumes (l ++ [Event.created ⟨v.nfibers, k⟩]) = resumes l := by
    rw [resumes_append]
    simp [resumes]
  have hev : ∀ j c1, Event.decremented j c1 ∈ l ++ [Event.created ⟨v.nfibers, k⟩] →
      Event.decremented j c1 ∈ l := by
    intro j c1 h
    rcases List.mem_append.1 h with h | h
    · exact h
    · simp at h
  refine ⟨by rw [hlog, hI.log, List.append_assoc], by rw [hn]; exact Nat.le_succ_of_le hI.nfibers,
    by rw [hm]; exact hI.nmem, ?_, ?_, by rw [hD]; exact hI.dec_nodup, ?_, ?_, ?_, ?_, ?_,
    by rw [hwq]; exact hI.waiters, ?_, ?_, ?_⟩
  · rw [hC, hD, count_on_append]
    exact counter_moved_congr _ _ _ _ (counter_moved_trans _ _ _ _ _ hI.balance hmem)
      (by ring)
  · intro j c1 h
    obtain ⟨h1, h2, h3, h4, h5⟩ := hI.dec j c1 (hev j c1 h)
    exact ⟨h1, h2, by rw [hn]; omega, by rw [hf _ h3]; exact h4, h5⟩
  · rw [hR]
    intro j h
    obtain ⟨h1, h2, h3⟩ := hI.res j h
    exact ⟨h1, by rw [hn]; omega, h3⟩
  · rw [hR]
    intro j h j1 h1 he
    rcases (hq j1).1 h1 with h2 | h2
    · exact hI.res_entry j h j1 h2 he
    · have := (hI.res j h).2.1
      rw [h2] at he
      simp only at he
      omega
  · rw [hR, hD]
    intro j h hst
    rw [hf _ (hI.res j h).2.1] at hst
    exact hI.res_dec j h hst
  · intro f h1 h2 h3
    rw [hf _ (lt_of_lt_of_le h2 hI.nfibers)]
    exact hI.ended f h1 h2 h3
  · intro j h
    rcases (hq j).1 h with h2 | h2
    · exact hI.entries j h2
    · rw [h2]
      exact Or.inr hI.nfibers
  · have hcount : count_on c (queued_jobs (job_create v e k) []) =
        count_on c (queued_jobs v []) + count_on c [⟨v.nfibers, k⟩] := by
      simp only [queued_jobs, hjobs, hy, hwq, List.nil_append, count_on_append]
      ring
    rw [hcount]
    exact counter_moved_congr _ _ _ _ (counter_moved_trans _ _ _ _ _ hI.live hmem)
      (by ring)
  · rw [hC]
    intro j h
    rcases (hq j).1 h with h2 | h2
    · rcases hI.origin j h2 with h3 | h3
      · exact Or.inl h3
      · exact Or.inr (List.mem_append_left _ h3)
    · exact Or.inr (List.mem_append_right _ (by simp [h2]))
  · rw [hC, hR]
    intro j h
    have h : (j ∈ queued_jobs w [] ∨ j ∈ creates l) ∨ j = ⟨v.nfibers, k⟩ := by
      rw [List.mem_append, List.mem_singleton] at h
      tauto
    rcases h with h | h
    · rcases hI.created j h with h3 | h3
      · exact Or.inl ((hq j).2 (Or.inl h3))
      · exact Or.inr h3
    · exact Or.inl ((hq j).2 (Or.inr h))

/-- A call of `job_counter_make` by the thread's own code keeps the invariant of the
scheduler. -/
theorem jobsInv_job_counter_make (frozen : Nat → Prop) (w : World)
    (hinv : JobsInv frozen w []) : JobsInv frozen (job_counter_make w).1 [] :=
  ⟨hinv.nf, hinv.host, hinv.frames, hinv.nodup, hinv.queued⟩

/-- Every sequence of calls of `job_counter_make`, `job_create` and `jobs_run` by the
thread's own code keeps the invariant of the scheduler and the bookkeeping of the
counter `c`. -/
theorem counterInv_host_calls (frozen : Nat → Prop) (text : Nat → zero_userdata_t → Prog)
    (htext : ∀ e d, WellBehaved frozen (text e d)) (debug : Bool) (fuel : Nat)
    (w : World) (c : Nat) (hc : frozen c) (hcw : c < w.nmem) :
    ∀ (calls : List HostCall) (v : World) (l : List Event) (v1 : World),
      JobsInv frozen v [] → CounterInv w c v [] l →
      host_calls text debug fuel calls v = some v1 →
      JobsInv frozen v1 [] ∧ ∃ l1, CounterInv w c v1 [] l1
  | [], v, l, v1, hv, hI, h => by
    simp only [host_calls, Option.some.injEq] at h
    subst h
    exact ⟨hv, l, hI⟩
  | HostCall.job_counter_make :: cs, v, l, v1, hv, hI, h =>
    counterInv_host_calls frozen text htext debug fuel w c hc hcw cs (job_counter_make v).1
      l v1 (jobsInv_job_counter_make frozen v hv)
      (counterInv_requeue w c v _ [] [] l hI rfl rfl rfl (Nat.le_succ _)
        (Function.update_noteq (by have := hI.nmem; omega) _ _) (fun x hx => hx)
        (fun j => Iff.rfl) rfl) h
  | HostCall.job_create e k :: cs, v, l, v1, hv, hI, h =>
    counterInv_host_calls frozen text htext debug fuel w c hc hcw cs (job_create v e k)
      _ v1 (jobsInv_job_create frozen v e k hv)
      (counterInv_job_create w c v l e k hI) h
  | HostCall.jobs_run t :: cs, v, l, v1, hv, hI, h => by
    simp only [host_calls] at h
    split at h
    · cases h
    · rename_i v2 ht
      obtain ⟨hv2, l2, hI2⟩ :=
        counterInv_tick frozen text htext debug fuel t w c hc hcw v l hv hI v2 ht
      exact counterInv_host_calls frozen text htext debug fuel w c hc hcw cs v2 l2 v1 hv2 hI2 h

theorem count_on_eq_zero (c : Nat) (js : List job_t)
    (h : ∀ j ∈ js, j.status_counter ≠ some c) : count_on c js = 0 := by
  induction js with
  | nil => rfl
  | cons j js ih =>
    rw [count_on_cons, ih (fun x hx => h x (List.mem_cons_of_mem _ hx)),
      if_neg (h j (List.mem_cons_self _ _))]
    rfl

/-- One Tick keeps the invariant of the scheduler and pushes no waiting record of the
reserved kind. -/
theorem jobs_run_waiters (frozen : Nat → Prop) (text : Nat → zero_userdata_t → Prog)
    (htext : ∀ e d, WellBehaved frozen (text e d)) (debug : Bool) (fuel : Nat) (now : ℚ)
    (v v1 : World) (hv : JobsInv frozen v [])
    (hw : ∀ x ∈ v.waiting_jobs, x.condition ≠ JOB_WAIT_DATA_ZERO)
    (h : jobs_run text debug fuel now v = some v1) :
    JobsInv frozen v1 [] ∧ ∀ x ∈ v1.waiting_jobs, x.condition ≠ JOB_WAIT_DATA_ZERO := by
  obtain ⟨w2, hl, rfl⟩ := jobs_run_eq text debug fuel now v v1 h
  have key := jobs_run_loop_inv text debug fuel now
    (fun rest u => JobsInv frozen u rest ∧
      ∀ x ∈ u.waiting_jobs, x.condition ≠ JOB_WAIT_DATA_ZERO)
    (by
      intro J rest u u1 ⟨hu, hwu⟩ hj
      obtain ⟨hu1, u2, l2, hs, hcase⟩ :=
        jobs_run_job_inv frozen text htext debug fuel u J rest hu u1 hj
      refine ⟨hu1, ?_⟩
      have h2 : ∀ x ∈ u2.waiting_jobs, x.condition ≠ JOB_WAIT_DATA_ZERO := by
        intro x hx
        rcases hs.kind with ⟨-, -, hq, -⟩ | ⟨-, -, ⟨y, -, hy, hq⟩, -⟩ | ⟨-, -, hq, -⟩
        · rw [hq] at hx
          exact hwu x hx
        · rw [hq] at hx
          rcases List.mem_append.1 hx with hx | hx
          · exact hwu x hx
          · rw [List.mem_singleton.1 hx]
            exact hy
        · rw [hq] at hx
          exact hwu x hx
      rcases hcase with ⟨rfl, -⟩ | ⟨c0, -, -, rfl⟩
      · exact h2
      · exact h2)
    (by
      intro u u1 batch ⟨hu, hwu⟩ hq
      refine ⟨jobs_run_queueing_inv frozen now u u1 batch hu hq, ?_⟩
      rw [jobs_run_queueing_eq] at hq
      injection hq with hq
      injection hq with hq1 hq2
      subst hq1
      intro x hx
      exact hwu x (List.mem_filter.1 hx).1)
    fuel { v with latest_time := now } w2
    ⟨⟨hv.nf, hv.host, hv.frames, hv.nodup, hv.queued⟩, hw⟩ hl
  obtain ⟨w0, ⟨hv0, hw0⟩, hq⟩ := key
  refine ⟨jobs_run_finish_inv frozen w2 (jobs_run_queueing_inv frozen now w0 w2 [] hv0 hq), ?_⟩
  rw [jobs_run_queueing_eq] at hq
  injection hq with hq
  injection hq with hq1 hq2
  subst hq1
  intro x hx
  exact hw0 x (List.mem_filter.1 hx).1

/-- Every state that the thread's own code reaches from a fresh thread by calls of
`job_counter_make`, `job_create` and `jobs_run` satisfies the invariant of the scheduler
and has no waiting record of the reserved kind. -/
theorem host_calls_inv (frozen : Nat → Prop) (text : Nat → zero_userdata_t → Prog)
    (htext : ∀ e d, WellBehaved frozen (text e d)) (debug : Bool) (fuel : Nat) :
    ∀ (calls : List HostCall) (v v1 : World), JobsInv frozen v [] →
      (∀ x ∈ v.waiting_jobs, x.condition ≠ JOB_WAIT_DATA_ZERO) →
      host_calls text debug fuel calls v = some v1 →
      JobsInv frozen v1 [] ∧ ∀ x ∈ v1.waiting_jobs, x.condition ≠ JOB_WAIT_DATA_ZERO
  | [], v, v1, hv, hw, h => by
    simp only [host_calls, Option.some.injEq] at h
    subst h
    exact ⟨hv, hw⟩
  | HostCall.job_counter_make :: cs, v, v1, hv, hw, h =>
    host_calls_inv frozen text htext debug fuel cs (job_counter_make v).1 v1
      (jobsInv_job_counter_make frozen v hv) hw h
  | HostCall.job_create e k :: cs, v, v1, hv, hw, h =>
    host_calls_inv frozen text htext debug fuel cs (job_create v e k) v1
      (jobsInv_job_create frozen v e k hv)
      (by
        have hwq : (job_create v e k).waiting_jobs = v.waiting_jobs := by
          cases k <;> simp [job_create, zero_fiber_make, ZERO_ATOMIC_INCREMENT]
        rw [hwq]
        exact hw) h
  | HostCall.jobs_run t :: cs, v, v1, hv, hw, h => by
    simp only [host_calls] at h
    split at h
    · cases h
    · rename_i v2 ht
      obtain ⟨hv2, hw2⟩ := jobs_run_waiters frozen text htext debug fuel t v v2 hv hw ht
      exact host_calls_inv frozen text htext debug fuel cs v2 v1 hv2 hw2 h

/-- C8 (amended): counter bookkeeping is balanced for jobs that use the job API only.
`job_create` with the counter `c` increments `c` by exactly 1, with the wrap-around of an
`int` (from `INT_MAX` to `INT_MIN`).  Take a thread whose own code makes calls of
`job_counter_make`, `job_create` and `jobs_run` only, and fibers whose code calls
`zero_fiber_make`, `zero_fiber_is_active`, `job_create` and `job_counter_make`, reads
and writes variables other than `c`, and suspends through `job_yield`, `job_wait`,
`job_wait_on_condition` or by returning only.  From any state `w` the thread reaches in
which `c` is allocated and holds an `int`, over every further sequence of such calls,
with trace `l`: the value of `c` is its value in `w` plus the number of jobs created on
`c` minus the number of decrements for jobs on `c`, wrapped to an `int`; every decrement
is for a job whose fiber is Ended, on that job's own counter; no fiber gets two
decrements; every job with a counter whose fiber is Ended has got its decrement; the value
of `c` follows the number of queue entries on `c`; so when no queue entry was on `c` in
`w` and every job created on `c` since has Ended, `c` is back at its value in `w`. -/
theorem counter_bookkeeping_balanced (frozen : Nat → Prop)
    (text : Nat → zero_userdata_t → Prog) (htext : ∀ e d, WellBehaved frozen (text e d))
    (debug : Bool) (fuel : Nat) (calls0 calls : List HostCall) (w w1 : World) (c : Nat)
    (hc : frozen c) (hreach : host_calls text debug fuel calls0 World.init = some w)
    (hcw : c < w.nmem) (hint : is_int (w.mem c))
    (h : host_calls text debug fuel calls w = some w1) :
    (∀ (v : World) (e : Option Nat),
      (job_create v e (some c)).mem c = int_wrap (v.mem c + 1) ∧
      (is_int (v.mem c) → v.mem c ≠ 2147483647 →
        (job_create v e (some c)).mem c = v.mem c + 1)) ∧
    ∃ l, w1.log = w.log ++ l ∧
      w1.mem c = int_wrap (w.mem c + (count_on c (creates l) - count_on c (decrements l))) ∧
      (∀ j c1, Event.decremented j c1 ∈ l →
        j.status_counter = some c1 ∧ (w1.fibers j.fiber).status = ZERO_FIBER_ENDED) ∧
      ((decrements l).map (fun j => j.fiber)).Nodup ∧
      (∀ j, j ∈ queued_jobs w [] ∨ j ∈ creates l →
        (w1.fibers j.fiber).status = ZERO_FIBER_ENDED → j.status_counter ≠ none →
        j ∈ decrements l) ∧
      w1.mem c =
        int_wrap (w.mem c + (count_on c (queued_jobs w1 []) - count_on c (queued_jobs w []))) ∧
      ((∀ j ∈ queued_jobs w [], j.status_counter ≠ some c) →
        (∀ j ∈ creates l, j.status_counter = some c →
          (w1.fibers j.fiber).status = ZERO_FIBER_ENDED) →
        w1.mem c = w.mem c) := by
  constructor
  · intro v e
    have hval : (job_create v e (some c)).mem c = int_wrap (v.mem c + 1) := by
      simp [job_create, zero_fiber_make, ZERO_ATOMIC_INCREMENT]
    refine ⟨hval, fun h1 h2 => ?_⟩
    rw [hval]
    exact int_wrap_of_is_int _ ⟨by have := h1.1; omega, by have := h1.2; omega⟩
  obtain ⟨hinv, hwait⟩ := host_calls_inv frozen text htext debug fuel calls0 World.init w
    (jobsInv_init frozen) (by intro x hx; cases hx) hreach
  obtain ⟨hv1, l, hI⟩ := counterInv_host_calls frozen text htext debug fuel w c hc hcw calls
    w [] w1 hinv (counterInv_init frozen w c hinv hwait) h
  refine ⟨l, hI.log, counter_moved_value _ _ _ hint hI.balance, ?_, hI.dec_nodup, ?_,
    counter_moved_value _ _ _ hint hI.live, ?_⟩
  · intro j c1 hj
    have := hI.dec j c1 hj
    exact ⟨this.1, this.2.2.2.1⟩
  · intro j hj hst hcn
    rcases hI.created j hj with h1 | h1
    · exact absurd hst (hv1.queued j h1).2.2
    · exact hI.res_dec j h1 hst hcn
  · intro h0 hend
    have hlive := hI.live
    rw [count_on_eq_zero c _ h0] at hlive
    rw [count_on_eq_zero c (queued_jobs w1 [])] at hlive
    · exact counter_moved_zero _ _ hint (counter_moved_congr _ _ _ _ hlive (sub_self 0))
    · intro j hj hjc
      rcases hI.origin j hj with h1 | h1
      · exact h0 j h1 hjc
      · exact (hv1.queued j hj).2.2 (hend j h1 hjc)

/-- Witness for C8: after `job_counter_make()`, a job created on the counter at address 0
yields in the first Tick and returns in the second one; the counter is back at 0 at the
end. -/
theorem counter_bookkeeping_balanced_witness :
    (∀ e d, WellBehaved (fun a => a = 0) (group_text e d)) ∧
    host_calls group_text false 8 [HostCall.job_counter_make] World.init =
      some counted_job_start ∧
    0 < counted_job_start.nmem ∧ is_int (counted_job_start.mem 0) ∧
    host_calls group_text false 8 counted_job_calls counted_job_start =
      some counted_job_world ∧
    counted_job_start.mem 0 = 0 ∧ counted_job_world.mem 0 = 0 ∧
    (∀ (v : World) (e : Option Nat),
      (job_create v e (some 0)).mem 0 = int_wrap (v.mem 0 + 1) ∧
      (is_int (v.mem 0) → v.mem 0 ≠ 2147483647 →
        (job_create v e (some 0)).mem 0 = v.mem 0 + 1)) ∧
    ∃ l, counted_job_world.log = counted_job_start.log ++ l ∧
      counted_job_world.mem 0 =
        int_wrap (counted_job_start.mem 0 +
          (count_on 0 (creates l) - count_on 0 (decrements l))) ∧
      (∀ j c1, Event.decremented j c1 ∈ l →
        j.status_counter = some c1 ∧
          (counted_job_world.fibers j.fiber).status = ZERO_FIBER_ENDED) ∧
      ((decrements l).map (fun j => j.fiber)).Nodup ∧
      (∀ j, j ∈ queued_jobs counted_job_start [] ∨ j ∈ creates l →
        (counted_job_world.fibers j.fiber).status = ZERO_FIBER_ENDED →
        j.status_counter ≠ none → j ∈ decrements l) ∧
      counted_job_world.mem 0 =
        int_wrap (counted_job_start.mem 0 +
          (count_on 0 (queued_jobs counted_job_world []) -
            count_on 0 (queued_jobs counted_job_start []))) ∧
      ((∀ j ∈ queued_jobs counted_job_start [], j.status_counter ≠ some 0) →
        (∀ j ∈ creates l, j.status_counter = some 0 →
          (counted_job_world.fibers j.fiber).status = ZERO_FIBER_ENDED) →
        counted_job_world.mem 0 = counted_job_start.mem 0) := by
  have hwb : ∀ e d, WellBehaved (fun a => a = 0) (group_text e d) := by
    intro e d
    cases e with
    | zero =>
      exact WellBehaved.job_counter_make _ (fun c => WellBehaved.job_create _ _ _
        (WellBehaved.job_wait_on_condition _ _ (WellBehaved.ret _)))
    | succ n => exact WellBehaved.job_yield _ (WellBehaved.ret _)
  have hrun : host_calls group_text false 8 counted_job_calls counted_job_start =
      some counted_job_world := eq_some_getD_of_isSome _ World.init (by decide!)
  have hint : is_int (counted_job_start.mem 0) := ⟨by decide, by decide⟩
  have hthm := counter_bookkeeping_balanced (fun a => a = 0) group_text hwb false 8
    [HostCall.job_counter_make] counted_job_calls counted_job_start counted_job_world 0 rfl
    rfl (by decide) hint hrun
  exact ⟨hwb, rfl, by decide, hint, hrun, by decide!, by decide!, hthm.1, hthm.2⟩

/-! ## C11 -/

/-- A call of `job_alloc` that returns a job has installed the entrypoint and the
userdata in its fiber, set its status to Started and primed its context again. -/
theorem job_alloc_loop_post (e : Option Nat) (d : zero_userdata_t) :
    ∀ (n slot : Nat) (w w1 : World) (j : Nat),
      job_alloc_loop e d n slot w = some (w1, some j) →
      (w1.fibers (w.job_heap j).fiber).entrypoint = e ∧
      (w1.fibers (w.job_heap j).fiber).userdata = d ∧
      (w1.fibers (w.job_heap j).fiber).status = ZERO_FIBER_STARTED ∧
      w1.context (w.job_heap j).fiber = Frame.entry ∧ w1.job_heap = w.job_heap
  | 0, slot, w, w1, j, h => by simp [job_alloc_loop] at h
  | n + 1, slot, w, w1, j, h => by
    simp only [job_alloc_loop] at h
    split at h
    · cases h
    · rename_i table ht
      split at h
      · cases h
      · rename_i job hj
        split at h
        · exact job_alloc_loop_post e d n (slot + 1) w w1 j h
        · rename_i j0
          simp only [ZERO_ATOMIC_CAS, if_true, ne_eq, reduceCtorEq, not_false_eq_true,
            Option.some.injEq, Prod.mk.injEq] at h
          obtain ⟨rfl, rfl⟩ := h
          simp [set_status, set_userdata, set_entrypoint, save_context]

/-- The postcondition of the small variant of Claim. -/
theorem job_alloc_post (cfg : zero_jobs_config) (w w1 : World) (e : Option Nat)
    (d : zero_userdata_t) (j : Nat) (h : job_alloc cfg w e d = some (w1, some j)) :
    (w1.fibers (w1.job_heap j).fiber).entrypoint = e ∧
    (w1.fibers (w1.job_heap j).fiber).userdata = d ∧
    (w1.fibers (w1.job_heap j).fiber).status = ZERO_FIBER_STARTED := by
  obtain ⟨h1, h2, h3, -, h5⟩ := job_alloc_loop_post e d _ 0 w w1 j h
  rw [h5]
  exact ⟨h1, h2, h3⟩

/-- A call of `job_alloc_large` that returns a job has installed the entrypoint and the
userdata in its fiber and has left its status and its context as they were. -/
theorem job_alloc_large_loop_post (e : Option Nat) (d : zero_userdata_t) :
    ∀ (n slot : Nat) (w w1 : World) (j : Nat),
      job_alloc_large_loop e d n slot w = some (w1, some j) →
      (w1.fibers (w.job_heap j).fiber).entrypoint = e ∧
      (w1.fibers (w.job_heap j).fiber).userdata = d ∧
      (w1.fibers (w.job_heap j).fiber).status = (w.fibers (w.job_heap j).fiber).status ∧
      w1.context = w.context ∧ w1.job_heap = w.job_heap
  | 0, slot, w, w1, j, h => by simp [job_alloc_large_loop] at h
  | n + 1, slot, w, w1, j, h => by
    simp only [job_alloc_large_loop] at h
    split at h
    · cases h
    · rename_i table ht
      split at h
      · cases h
      · rename_i job hj
        split at h
        · exact job_alloc_large_loop_post e d n (slot + 1) w w1 j h
        · rename_i j0
          simp only [ZERO_ATOMIC_CAS, if_true, ne_eq, reduceCtorEq, not_false_eq_true,
            Option.some.injEq, Prod.mk.injEq] at h
          obtain ⟨rfl, rfl⟩ := h
          simp [set_userdata, set_entrypoint]

/-- C11, failing input.  In the pool state after `job_pool_init` in which the pooled fiber
of slot 0 of the large pool was left Ended (the cell of the slot is non-null),
`job_alloc_large(e, u)` returns the job of that slot with the entrypoint and the userdata
installed and with status Ended, not Started; in the same state of the small pool,
`job_alloc(e, u)` returns a job whose status is Started. -/
theorem job_alloc_large_leaves_ended :
    (large_ended_world.zero_jobs_large_free_table.bind (fun t => t.get? 0) = some (some 4)) ∧
    ((large_ended_world.fibers (large_ended_world.job_heap 4).fiber).status =
      ZERO_FIBER_ENDED) ∧
    ((job_alloc_large zero_jobs_config_s5 large_ended_world (some 1) 5).map
      (fun r => (r.2, (r.1.fibers (r.1.job_heap 4).fiber).entrypoint,
        (r.1.fibers (r.1.job_heap 4).fiber).userdata,
        (r.1.fibers (r.1.job_heap 4).fiber).status)) =
      some (some 4, some 1, 5, ZERO_FIBER_ENDED)) ∧
    ((small_ended_world.fibers (small_ended_world.job_heap 0).fiber).status =
      ZERO_FIBER_ENDED) ∧
    ((job_alloc zero_jobs_config_s5 small_ended_world (some 1) 5).map
      (fun r => (r.2, (r.1.fibers (r.1.job_heap 0).fiber).entrypoint,
        (r.1.fibers (r.1.job_heap 0).fiber).userdata,
        (r.1.fibers (r.1.job_heap 0).fiber).status)) =
      some (some 0, some 1, 5, ZERO_FIBER_STARTED)) := by
  decide

theorem job_alloc_loop_some (e : Option Nat) (d : zero_userdata_t) (table : List (Option Nat)) :
    ∀ (n slot : Nat) (w : World), w.zero_jobs_small_free_table = some table →
      slot + n ≤ table.length →
      (∃ i j, slot ≤ i ∧ i < slot + n ∧ table.get? i = some (some j)) →
      ∃ w1 j, job_alloc_loop e d n slot w = some (w1, some j)
  | 0, slot, w, _, _, ⟨i, j, h1, h2, _⟩ => by omega
  | n + 1, slot, w, ht, hlen, ⟨i, j, h1, h2, h3⟩ => by
    have hslot : slot < table.length := by omega
    obtain ⟨cell, hcell⟩ : ∃ cell, table.get? slot = some cell :=
      ⟨table.get ⟨slot, hslot⟩, List.get?_eq_get hslot⟩
    cases cell with
    | none =>
      have hne : i ≠ slot := by
        intro he
        rw [he, hcell] at h3
        cases h3
      have := job_alloc_loop_some e d table n (slot + 1) w ht (by omega)
        ⟨i, j, by omega, by omega, h3⟩
      simpa only [job_alloc_loop, ht, hcell] using this
    | some j0 =>
      rw [job_alloc_loop_hit e d w table ht slot n j0 hcell]
      exact ⟨_, _, rfl⟩

/-! ## C12 -/

/-- A Tick in which the ready queue is empty and no waiting record is satisfied resumes
nothing: it records the time and moves the yielded queue to the ready queue. -/
theorem jobs_run_idle (text : Nat → zero_userdata_t → Prog) (debug : Bool) (fuel : Nat)
    (now : ℚ) (w : World) (hj : w.jobs = [])
    (hs : ∀ x ∈ w.waiting_jobs, wait_satisfied now w.mem x = false)
    (hr : ∀ x ∈ w.waiting_jobs, wait_requeued now w.mem x = true) :
    jobs_run text debug (fuel + 1) now w =
      some { w with latest_time := now, jobs := w.yielded_jobs, yielded_jobs := [] } := by
  have h1 : w.waiting_jobs.filter (wait_satisfied now w.mem) = [] :=
    List.filter_eq_nil_iff.2 (fun x hx => by rw [hs x hx]; simp)
  have h2 : w.waiting_jobs.filter (wait_requeued now w.mem) = w.waiting_jobs :=
    List.filter_eq_self.2 hr
  simp only [jobs_run, jobs_run_loop, jobs_run_queueing_eq, hj, h1, h2, List.map_nil,
    List.append_nil, List.nil_append]

/-- C12, counterexample.  A record of `job_wait_on_condition(nullptr)` is never satisfied
and always pushed back, whatever the time and the memory.  The job that calls
`job_wait_on_condition(nullptr)` in the Tick `jobs_run(0)` is not resumed in any of the
Ticks that follow, whatever their number and their times: the trace stays what it was
after the first Tick, with one resume, and the record stays in the waiting queue. -/
theorem null_counter_waits_forever :
    (∀ (time : ℚ) (mem : Nat → Int) (j : job_t) (t : ℚ),
      wait_satisfied time mem ⟨j, JOB_WAIT_COUNTER_ZERO, t, none⟩ = false ∧
      wait_requeued time mem ⟨j, JOB_WAIT_COUNTER_ZERO, t, none⟩ = true) ∧
    null_wait_world.waiting_jobs = [null_wait_record] ∧
    resumes null_wait_world.log = [⟨1, none⟩] ∧
    ∀ (times : List ℚ) (fuel : Nat), ∃ w1,
      host_calls null_wait_text false (fuel + 1) (times.map HostCall.jobs_run)
        null_wait_world = some w1 ∧
      w1.log = null_wait_world.log ∧ w1.waiting_jobs = [null_wait_record] ∧
      w1.jobs = [] ∧ (w1.fibers 1).status = ZERO_FIBER_SUSPENDED := by
  refine ⟨fun time mem j t => by simp [wait_satisfied, wait_requeued], by decide!,
    by decide!, ?_⟩
  intro times fuel
  have key : ∀ (times : List ℚ) (w : World), w.jobs = [] → w.yielded_jobs = [] →
      w.waiting_jobs = [null_wait_record] → ∃ w1,
        host_calls null_wait_text false (fuel + 1) (times.map HostCall.jobs_run) w = some w1 ∧
        w1.log = w.log ∧ w1.waiting_jobs = [null_wait_record] ∧ w1.jobs = [] ∧
        w1.fibers = w.fibers := by
    intro times
    induction times with
    | nil => intro w h1 h2 h3; exact ⟨w, rfl, rfl, h3, h1, rfl⟩
    | cons t ts ih =>
      intro w h1 h2 h3
      have hidle := jobs_run_idle null_wait_text false fuel t w h1
        (by intro x hx; rw [h3] at hx; simp at hx; subst hx
            simp [wait_satisfied, null_wait_record])
        (by intro x hx; rw [h3] at hx; simp at hx; subst hx
            simp [wait_requeued, null_wait_record])
      obtain ⟨w1, h4, h5, h6, h7, h8⟩ :=
        ih { w with latest_time := t, jobs := w.yielded_jobs, yielded_jobs := [] } h2 rfl h3
      refine ⟨w1, ?_, h5, h6, h7, h8⟩
      simp only [List.map_cons, host_calls, hidle]
      exact h4
  obtain ⟨w1, h1, h2, h3, h4, h5⟩ := key times null_wait_world (by decide!) (by decide!)
    (by decide!)
  exact ⟨w1, h1, h2, h3, h4, by rw [h5]; decide!⟩

/-! ## C18 -/

/-- C18, failing input.  Release build (`ZERO_FIBER_DEBUG` off): when the main fiber is
the current fiber (or no fiber has been made current yet), is not Ended and has no
caller, `zero_fiber_yield(P)` faults for every `P`: the two checks that return null are
compiled in the debug build only, and `current_fiber->caller->userdata = userdata`
dereferences the null caller. -/
theorem root_yield_release_faults (text : Nat → zero_userdata_t → Prog) (w : World)
    (P : zero_userdata_t) (k : zero_userdata_t → Prog)
    (hcur : w.zero_fiber_current = none ∨ w.zero_fiber_current = some 0)
    (hcaller : (w.fibers 0).caller = none)
    (hst : (w.fibers 0).status ≠ ZERO_FIBER_ENDED) :
    step text false w (Prog.fiber_yield P k) = Outcome.fault := by
  rcases hcur with h | h
  · simp [step, zero_fiber_yield, zero_fiber_active, h, set_status, hcaller]
  · simp [step, zero_fiber_yield, zero_fiber_active, h, hcaller, hst]

/-- Witness for C18: the first library call of a fresh thread is `zero_fiber_yield(7)`;
in the debug build the same call returns null. -/
theorem root_yield_release_faults_witness :
    (World.init.zero_fiber_current = none ∨ World.init.zero_fiber_current = some 0) ∧
    (World.init.fibers 0).caller = none ∧
    (World.init.fibers 0).status ≠ ZERO_FIBER_ENDED ∧
    step test_fibers_text false World.init (Prog.fiber_yield 7 Prog.done) = Outcome.fault ∧
    step test_fibers_text true World.init (Prog.fiber_yield 7 Prog.done) =
      Outcome.next (zero_fiber_active World.init).1 (Prog.done NULL) :=
  ⟨Or.inl rfl, rfl, by decide,
    root_yield_release_faults test_fibers_text World.init 7 Prog.done (Or.inl rfl) rfl
      (by decide),
    by simp [step, zero_fiber_yield, zero_fiber_active, World.init, set_status]⟩

/-! ## C19 -/

/-- The loop of `job_free` on the null table faults at its first iteration. -/
theorem job_free_loop_null (n slot : Nat) (w : World) :
    job_free_loop job_free_table.null (n + 1) slot w = none := by
  simp [job_free_loop, job_free_table.read]

/-- C19, failing input.  For every job whose fiber's stack size is neither
`ZERO_JOBS_SMALL_SIZE` nor `ZERO_JOBS_LARGE_SIZE`, when `ZERO_JOBS_SMALL_COUNT` is not 0,
`job_free` faults: `table` stays null and the loop loads `table[0]`. -/
theorem job_free_size_mismatch_faults (cfg : zero_jobs_config) (w : World) (job : Nat)
    (hcount : 0 < cfg.ZERO_JOBS_SMALL_COUNT)
    (hsmall : (w.fibers (w.job_heap job).fiber).stack_size ≠ cfg.ZERO_JOBS_SMALL_SIZE)
    (hlarge : (w.fibers (w.job_heap job).fiber).stack_size ≠ cfg.ZERO_JOBS_LARGE_SIZE) :
    job_free cfg w job = none := by
  obtain ⟨n, hn⟩ : ∃ n, cfg.ZERO_JOBS_SMALL_COUNT = n + 1 :=
    ⟨cfg.ZERO_JOBS_SMALL_COUNT - 1, by omega⟩
  simp only [job_free, if_neg hsmall, if_neg hlarge, hn]
  exact job_free_loop_null n 0 _

/-- Witness for C19: default constants, pools initialised, a job whose fiber has a stack
of 4 KiB. -/
theorem job_free_size_mismatch_faults_witness :
    0 < zero_jobs_config_default.ZERO_JOBS_SMALL_COUNT ∧
    (adhoc_job_world.fibers (adhoc_job_world.job_heap 160).fiber).stack_size = 4 * 1024 ∧
    adhoc_job_world.zero_jobs_small_free_table ≠ none ∧
    adhoc_job_world.zero_jobs_large_free_table ≠ none ∧
    job_free zero_jobs_config_default adhoc_job_world 160 = none :=
  ⟨by decide, by decide!, by decide!, by decide!,
    job_free_size_mismatch_faults zero_jobs_config_default adhoc_job_world 160 (by decide)
      (by decide!) (by decide!)⟩

/-! ## C17 -/

/-- When the current-fiber pointer moves from `c` to `g`, `c` is left with a status
other than Running and no other status changes, Running still implies current. -/
theorem runningIsCurrent_move (w w1 : World) (c g : Nat) (hw : RunningIsCurrent w)
    (hc : w.zero_fiber_current = some c) (hg : w1.zero_fiber_current = some g)
    (hother : ∀ f, f ≠ g → f ≠ c → (w1.fibers f).status = (w.fibers f).status)
    (hleft : c ≠ g → (w1.fibers c).status ≠ ZERO_FIBER_RUNNING) : RunningIsCurrent w1 := by
  intro f hf
  by_cases h1 : f = g
  · rw [hg, h1]
  · by_cases h2 : f = c
    · subst h2
      exact absurd hf (hleft h1)
    · rw [hother f h1 h2] at hf
      have := hw f hf
      rw [hc] at this
      exact absurd (Option.some.inj this).symm h2

/-- A world that differs in no status and not in the current-fiber pointer. -/
theorem runningIsCurrent_same (w w1 : World) (hw : RunningIsCurrent w)
    (hc : w1.zero_fiber_current = w.zero_fiber_current)
    (hs : ∀ f, (w1.fibers f).status = ZERO_FIBER_RUNNING →
      (w.fibers f).status = ZERO_FIBER_RUNNING) : RunningIsCurrent w1 := by
  intro f hf
  rw [hc]
  exact hw f (hs f hf)

theorem runningIsCurrent_active (w : World) (hw : RunningIsCurrent w) :
    RunningIsCurrent (zero_fiber_active w).1 := by
  unfold zero_fiber_active
  cases hc : w.zero_fiber_current with
  | some c => exact hw
  | none =>
    intro f hf
    by_cases h0 : f = 0
    · simp [h0]
    · simp only [set_status, Function.update_noteq h0] at hf
      have := hw f hf
      rw [hc] at this
      cases this

theorem runningIsCurrent_switch (text : Nat → zero_userdata_t → Prog) (w : World)
    (target : Nat) (hw : RunningIsCurrent w) :
    RunningIsCurrent (zero_context_switch text w target).world := by
  unfold zero_context_switch
  split
  · have := runningIsCurrent_active w hw
    simp only
    split
    · intro f hf; simp [Outcome.world, World.init, zero_fiber_zeroed] at hf
    · exact this
  · split
    · intro f hf; simp [Outcome.world, World.init, zero_fiber_zeroed] at hf
    · exact hw
  · exact hw
  · intro f hf; simp [Outcome.world, World.init, zero_fiber_zeroed] at hf

theorem runningIsCurrent_init : RunningIsCurrent World.init := by
  intro f hf
  simp [World.init, zero_fiber_zeroed] at hf

theorem runningIsCurrent_fault : RunningIsCurrent Outcome.fault.world := by
  intro f hf
  simp [Outcome.world, World.init, zero_fiber_zeroed] at hf

theorem runningIsCurrent_resume (text : Nat → zero_userdata_t → Prog) (w : World)
    (coroutine : Nat) (userdata : zero_userdata_t) (k : zero_userdata_t → Prog)
    (hw : RunningIsCurrent w) :
    RunningIsCurrent (zero_fiber_resume text w coroutine userdata k).world := by
  have h1 := runningIsCurrent_active w hw
  have h2 := zero_fiber_active_current w
  simp only [zero_fiber_resume]
  split
  · exact h1
  · apply runningIsCurrent_switch
    refine runningIsCurrent_move (zero_fiber_active w).1 _ (zero_fiber_active w).2 coroutine
      h1 h2 rfl ?_ ?_
    · intro f hf hc
      simp [save_context, set_status, set_userdata, set_caller, Function.update_noteq hf,
        Function.update_noteq hc]
    · intro hne
      simp [save_context, set_status, set_userdata, set_caller, Function.update_noteq hne]

theorem runningIsCurrent_yield (text : Nat → zero_userdata_t → Prog) (debug : Bool)
    (w : World) (userdata : zero_userdata_t) (k : zero_userdata_t → Prog)
    (hw : RunningIsCurrent w) :
    RunningIsCurrent (zero_fiber_yield text debug w userdata k).world := by
  have h1 := runningIsCurrent_active w hw
  have h2 := zero_fiber_active_current w
  simp only [zero_fiber_yield]
  split
  · exact h1
  · split
    · exact h1
    · split
      · exact h1
      · split
        · exact runningIsCurrent_fault
        · rename_i caller hcaller
          apply runningIsCurrent_switch
          refine runningIsCurrent_move (zero_fiber_active w).1 _ (zero_fiber_active w).2 caller
            h1 h2 rfl ?_ ?_
          · intro f hf hc
            simp [save_context, set_status, set_userdata, Function.update_noteq hf,
              Function.update_noteq hc]
          · intro hne
            simp [save_context, set_status, set_userdata, Function.update_noteq hne]

theorem runningIsCurrent_return (text : Nat → zero_userdata_t → Prog) (w : World)
    (userdata : zero_userdata_t) (hw : RunningIsCurrent w) :
    RunningIsCurrent (zero_fiber_return text w userdata).world := by
  have h1 := runningIsCurrent_active w hw
  have h2 := zero_fiber_active_current w
  simp only [zero_fiber_return]
  split
  · exact runningIsCurrent_fault
  · rename_i g hg
    apply runningIsCurrent_switch
    intro f hf
    by_cases hc : f = (zero_fiber_active w).2
    · by_cases hfg : f = g
      · simp [save_context, set_userdata, hfg]
      · rw [hc] at hfg
        simp [save_context, set_status, set_userdata, hc, Function.update_noteq hfg] at hf
    · exfalso
      have hst : ((zero_fiber_active w).1.fibers f).status = ZERO_FIBER_RUNNING := by
        by_cases hfg : f = g
        · subst hfg
          simpa [save_context, set_status, set_userdata, Function.update_noteq hc] using hf
        · simpa [save_context, set_status, set_userdata, Function.update_noteq hc,
            Function.update_noteq hfg] using hf
      have := h1 f hst
      rw [h2] at this
      exact hc (Option.some.inj this).symm

theorem runningIsCurrent_make (w : World) (size : Nat) (e : Option Nat) (d : zero_userdata_t)
    (hw : RunningIsCurrent w) : RunningIsCurrent (zero_fiber_make w size e d).1 := by
  refine runningIsCurrent_same w _ hw rfl ?_
  intro f hf
  by_cases h : f = w.nfibers
  · simp [zero_fiber_make, h] at hf
  · simpa [zero_fiber_make, Function.update_noteq h] using hf

theorem runningIsCurrent_job_create (w : World) (e c : Option Nat)
    (hw : RunningIsCurrent w) : RunningIsCurrent (job_create w e c) := by
  have h1 := runningIsCurrent_make w (4 * 1024) e NULL hw
  refine runningIsCurrent_same _ _ h1 ?_ ?_
  · cases c <;> rfl
  · intro f hf
    cases c <;> exact hf

/-- Every library call keeps the property that Running implies current. -/
theorem step_running_is_current (text : Nat → zero_userdata_t → Prog) (debug : Bool)
    (w : World) (p : Prog) (hw : RunningIsCurrent w) :
    RunningIsCurrent (step text debug w p).world := by
  cases p with
  | ret v => exact runningIsCurrent_return text w v hw
  | done v => exact hw
  | fiber_yield q k => exact runningIsCurrent_yield text debug w q k hw
  | fiber_resume f q k => exact runningIsCurrent_resume text w f q k hw
  | fiber_make size e d k => exact runningIsCurrent_make w size e d hw
  | fiber_is_active f k => exact hw
  | job_create e c k => exact runningIsCurrent_job_create w e c hw
  | job_yield k =>
    simp only [step, job_yield_push]
    cases w.job_current with
    | none => exact runningIsCurrent_fault
    | some j => exact runningIsCurrent_yield text debug _ NULL _ hw
  | job_wait d k =>
    simp only [step, job_wait_push]
    cases w.job_current with
    | none => exact runningIsCurrent_fault
    | some j => exact runningIsCurrent_yield text debug _ NULL _ hw
  | job_wait_on_condition c k =>
    simp only [step, job_wait_on_condition_push]
    cases w.job_current with
    | none => exact runningIsCurrent_fault
    | some j => exact runningIsCurrent_yield text debug _ NULL _ hw
  | job_counter_make k => exact hw
  | load a k => exact hw
  | store a v k => exact hw
  | jump e d => exact hw

/-- Running implies current in every state that the executing code reaches. -/
theorem steps_running_is_current (text : Nat → zero_userdata_t → Prog) (debug : Bool) :
    ∀ (n : Nat) (w : World) (p : Prog), RunningIsCurrent w →
      RunningIsCurrent (steps text debug n w p).1
  | 0, w, p, hw => hw
  | n + 1, w, p, hw => by
    have h := step_running_is_current text debug w p hw
    simp only [steps]
    split
    · rename_i w1 p1 hs
      rw [hs] at h
      exact steps_running_is_current text debug n w1 p1 h
    · exact hw

/-- C17: Running implies current.  In every state that a thread reaches from its start
through library calls (of the thread's own code and of the code of its fibers: calls of
`zero_fiber_make`, `zero_fiber_resume`, `zero_fiber_yield`, the job API built on them,
and returns from entrypoints), every fiber whose status is Running is the one that the
current-fiber pointer designates. -/
theorem running_implies_current (text : Nat → zero_userdata_t → Prog) (debug : Bool)
    (n : Nat) (p : Prog) (f : Nat)
    (h : ((steps text debug n World.init p).1.fibers f).status = ZERO_FIBER_RUNNING) :
    (steps text debug n World.init p).1.zero_fiber_current = some f :=
  steps_running_is_current text debug n World.init p runningIsCurrent_init f h

/-- Witness for C17: in the test `Run basic fiber`, once the first resume has entered
`fiber_basic`, the fiber (address 1) is Running and is the current fiber. -/
theorem running_implies_current_witness :
    ((steps test_fibers_text true 2 World.init test_fibers_main).1.fibers 1).status =
      ZERO_FIBER_RUNNING ∧
    (steps test_fibers_text true 2 World.init test_fibers_main).1.zero_fiber_current = some 1 :=
  ⟨by decide, running_implies_current test_fibers_text true 2 test_fibers_main 1 (by decide)⟩

/-! ## C16 -/

/-- C16, failing input: the test `Run basic fiber`.  When the fourth resume has returned,
after the natural return of `fiber_basic`, the current-fiber pointer designates the main
fiber, whose status is still Suspended; the fiber is Ended; no fiber has status Running.
`zero_fiber_return` sets `zero_fiber_current` and does not set the status of the fiber it
switches to. -/
theorem natural_return_leaves_no_running :
    test_fibers_world_5.zero_fiber_current = some 0 ∧
    (test_fibers_world_5.fibers 0).status = ZERO_FIBER_SUSPENDED ∧
    (test_fibers_world_5.fibers 1).status = ZERO_FIBER_ENDED ∧
    (steps test_fibers_text true 9 World.init test_fibers_main).2 = test_fibers_k4 1 ∧
    ∀ f, (test_fibers_world_5.fibers f).status ≠ ZERO_FIBER_RUNNING := by
  refine ⟨by decide, by decide, by decide, rfl, ?_⟩
  intro f hf
  have h := steps_running_is_current test_fibers_text true 9 World.init test_fibers_main
    runningIsCurrent_init f hf
  have h0 : (steps test_fibers_text true 9 World.init test_fibers_main).1.zero_fiber_current =
      some 0 := by decide
  rw [h0] at h
  have hf0 : f = 0 := (Option.some.inj h).symm
  rw [hf0] at hf
  revert hf
  decide

/-! ## C13 -/

/-- C13: scenario S2 in exact arithmetic.  After `job_create(basic_job, nullptr)` on a
fresh thread, the 360 Ticks `jobs_run(k/120)`, `k = 0..359`, all return; `basic_job` is
resumed in the Ticks 0, 60, 120, 180 and 240, once in each, and in no other Tick; each
of its four waits has the deadline of the time of the Tick plus 1/2; its fiber is
Suspended after the Ticks before 240 and Ended after Tick 240 and every later one. -/
theorem s2_basic_job_ticks :
    (run_ticks basic_job_text false 8 (tick_times 360) basic_job_created).map
      (fun r => r.map s2_observation) = some ((List.range 360).map s2_expected) := by
  decide!

/-! ## C15 -/

/-- C15, counterexample: scenario S4 itself.  The first invocation `jobs_run(0)` leaves
the counter at 10 and the parent waiting.  In the second invocation `jobs_run(1/120)` the
ten children end, the counter goes from 10 to 0, and the parent is resumed in that same
invocation, after the tenth decrement: it is not promoted in the invocation that
follows. -/
theorem s4_parent_resumed_in_same_tick :
    (run_ticks s4_text false 16 (tick_times 3) s4_created).map
      (fun r => r.map (fun x => (x.1, x.2.mem 0))) =
    some [(s4_trace_1, 10), (s4_trace_2, 0), ([], 0)] := by
  decide!

/-- C15, amended: scenario S4 pass by pass.  After the first invocation the parent has
been resumed once, before the creations, the counter is 10 and the record of the parent
is the waiting queue.  In the second invocation, the first waiting-queue pass (counter
10) pushes the record back and the batch is the ten children; when that batch has run,
the counter is 0 and the parent has not been resumed; the waiting-queue pass of the next
iteration of the outer loop, in the same invocation, moves the parent to the batch; the
invocation returns with the parent resumed last and Ended. -/
theorem s4_parent_promoted_at_next_pass :
    jobs_run s4_text false 16 0 s4_created = some s4_world_1 ∧
    s4_world_1.log = s4_created.log ++ s4_trace_1 ∧
    s4_world_1.mem 0 = 10 ∧ s4_world_1.waiting_jobs = [s4_wait] ∧
    (jobs_run_queueing (1 / 120) { s4_world_1 with latest_time := 1 / 120 }).map
      (fun r => (r.2, r.1.waiting_jobs)) = some (s4_children, [s4_wait]) ∧
    ((jobs_run_queueing (1 / 120) { s4_world_1 with latest_time := 1 / 120 }).bind
      (fun r => jobs_run_running s4_text false 16 r.2 r.1)).map
      (fun w => (w.mem 0, resumes (w.log.drop s4_world_1.log.length))) =
        some (0, s4_children) ∧
    (((jobs_run_queueing (1 / 120) { s4_world_1 with latest_time := 1 / 120 }).bind
      (fun r => jobs_run_running s4_text false 16 r.2 r.1)).bind
      (fun w => jobs_run_queueing (1 / 120) w)).map
      (fun r => (r.2, r.1.waiting_jobs)) = some ([s4_parent_job], []) ∧
    (jobs_run s4_text false 16 (1 / 120) s4_world_1).map
      (fun w => (w.log.drop s4_world_1.log.length, (w.fibers 1).status, w.mem 0)) =
        some (s4_trace_2, ZERO_FIBER_ENDED, 0) := by
  refine ⟨eq_some_getD_of_isSome _ World.init (by decide!), by decide!, by decide!,
    by decide!, by decide!, by decide!, by decide!, by decide!⟩

/-! ## The resume of a job, step by step -/

theorem localEffect_trans (frozen : Nat → Prop) (w1 w2 w3 : World) (l1 l2 : List Event)
    (h1 : LocalEffect frozen w1 w2 l1) (h2 : LocalEffect frozen w2 w3 l2) :
    LocalEffect frozen w1 w3 (l1 ++ l2) where
  current := h2.current.trans h1.current
  job_current := h2.job_current.trans h1.job_current
  log := by rw [h2.log, h1.log, List.append_assoc]
  no_resumes := by rw [resumes_append, h1.no_resumes, h2.no_resumes]; rfl
  no_decrements := by rw [decrements_append, h1.no_decrements, h2.no_decrements]; rfl
  no_yields := by rw [yields_append, h1.no_yields, h2.no_yields]; rfl
  jobs := by rw [h2.jobs, h1.jobs, creates_append, List.append_assoc]
  fresh := fun j hj => by
    rw [creates_append, List.mem_append] at hj
    rcases hj with hj | hj
    · exact ⟨(h1.fresh j hj).1, lt_of_lt_of_le (h1.fresh j hj).2 h2.nfibers⟩
    · exact ⟨le_trans h1.nfibers (h2.fresh j hj).1, (h2.fresh j hj).2⟩
  fresh_nodup := by
    rw [creates_append, List.map_append, List.nodup_append]
    refine ⟨h1.fresh_nodup, h2.fresh_nodup, ?_⟩
    intro a ha hb
    obtain ⟨j, hj, rfl⟩ := List.mem_map.1 ha
    obtain ⟨j2, hj2, he⟩ := List.mem_map.1 hb
    have := (h1.fresh j hj).2
    have := (h2.fresh j2 hj2).1
    omega
  yielded_jobs := h2.yielded_jobs.trans h1.yielded_jobs
  waiting_jobs := h2.waiting_jobs.trans h1.waiting_jobs
  latest_time := h2.latest_time.trans h1.latest_time
  nfibers := le_trans h1.nfibers h2.nfibers
  nmem := le_trans h1.nmem h2.nmem
  fibers := fun f hf => by
    rw [h2.fibers f (lt_of_lt_of_le hf h1.nfibers), h1.fibers f hf]
  started := fun f hge hlt => by
    by_cases h : f < w2.nfibers
    · rw [h2.fibers f h]
      exact h1.started f hge h
    · exact h2.started f (by omega) hlt
  context := fun f => by
    rcases h2.context f with h | ⟨h, h'⟩
    · rw [h]
      exact h1.context f
    · exact Or.inr ⟨le_trans h1.nfibers h, h'⟩
  mem := fun c hc hlt => by
    rw [creates_append, count_on_append]
    exact counter_moved_trans _ _ _ _ _ (h1.mem c hc hlt)
      (h2.mem c hc (lt_of_lt_of_le hlt h1.nmem))

/-- The run of a well-behaved job from a point where it is executing: library calls that
do not switch contexts, then the call in which it suspends or ends, which returns
control to `jobs_run`. -/
theorem run_job_quiet (frozen : Nat → Prop) (text : Nat → zero_userdata_t → Prog)
    (htext : ∀ e d, WellBehaved frozen (text e d)) (debug : Bool) (w : World) (J : job_t)
    (hJ : J.fiber < w.nfibers) (w2 : World) (v : zero_userdata_t) (n : Nat) :
    ∀ (w1 : World) (p : Prog) (l : List Event), WellBehaved frozen p →
      JobRunning frozen w J w1 l → run text debug n w1 p = some (w2, v) →
      ∃ w3 l3 p3, Quiet text debug w1 p w3 p3 ∧ LocalEffect frozen w1 w3 l3 ∧
        JobRunning frozen w J w3 (l ++ l3) ∧ WellBehaved frozen p3 ∧ p3.is_local = false ∧
        step text debug w3 p3 = Outcome.next w2 (Prog.done v) := by
  induction n with
  | zero => intro w1 p l _ _ h; simp [run] at h
  | succ n ih =>
    intro w1 p l hwb hr h
    simp only [run] at h
    split at h
    · rename_i w3 p3 hs
      by_cases hl : p.is_local = true
      · obtain ⟨l2, he, hwb3⟩ := local_step_effect frozen text htext debug w1 w3 p p3 hwb hl hs
        obtain ⟨w4, l4, p4, hq, he4, hr4, hwb4, hl4, hs4⟩ :=
          ih w3 p3 (l ++ l2) hwb3 (jobRunning_local frozen w J w1 w3 l l2 hr he) h
        refine ⟨w4, l2 ++ l4, p4, Quiet.call w1 p w3 p3 w4 p4 hl hs hq,
          localEffect_trans frozen w1 w3 w4 l2 l4 he he4, ?_, hwb4, hl4, hs4⟩
        rw [← List.append_assoc]
        exact hr4
      · have hl' : p.is_local = false := by simpa using hl
        obtain ⟨l2, v3, hp3, -⟩ :=
          job_running_terminal frozen text debug w J w1 w3 l p p3 hJ hr hwb hl' hs
        subst hp3
        cases n with
        | zero => simp [run] at h
        | succ n =>
          simp only [run, step] at h
          injection h with h
          injection h with h1 h2
          subst h1
          subst h2
          refine ⟨w1, [], p, Quiet.refl _ _, localEffect_refl frozen w1, ?_, hwb, hl', hs⟩
          rw [List.append_nil]
          exact hr
    · rename_i w3 v3 hs
      obtain ⟨-, hp⟩ := step_done text debug w1 w3 p v3 hs
      subst hp
      cases hwb
    · cases h

theorem quiet_closed (text : Nat → zero_userdata_t → Prog) (debug : Bool) (Y : Prog → Prop)
    (hY : ∀ p w w2 p2, Y p → p.is_local = true → step text debug w p = Outcome.next w2 p2 →
      Y p2) (w : World) (p : Prog) (w1 : World) (p1 : Prog)
    (hq : Quiet text debug w p w1 p1) (hp : Y p) : Y p1 := by
  induction hq with
  | refl w p => exact hp
  | call w p w1 p1 w2 p2 hl hs _ ih => exact ih (hY p w w1 p1 hp hl hs)

/-- The first library call of the resume of a queued job by `jobs_run`: the world in
which the job starts to execute and the code it executes, which is its entrypoint
applied to null for a fresh fiber and the continuation of its last `zero_fiber_yield`
otherwise. -/
theorem job_resume_start_eq (frozen : Nat → Prop) (text : Nat → zero_userdata_t → Prog)
    (debug : Bool) (w : World) (J : job_t)
    (rest : List job_t) (hinv : JobsInv frozen w (J :: rest)) (w1 : World) (p : Prog)
    (h : step text debug { w with job_current := some J, log := w.log ++ [Event.resumed J] }
      (Prog.fiber_resume J.fiber NULL Prog.done) = Outcome.next w1 p) :
    w1 = resume_world (zero_fiber_active
      { w with job_current := some J, log := w.log ++ [Event.resumed J] }).1 0 J.fiber NULL
      Prog.done ∧
    ((w.context J.fiber = Frame.entry ∧
        ∃ e, (w.fibers J.fiber).entrypoint = some e ∧ p = text e NULL) ∨
      ∃ k, w.context J.fiber = Frame.in_yield J.fiber k ∧ p = k NULL) := by
  obtain ⟨hJ1, hJ2, hJ3⟩ := hinv.queued J (by simp [queued_jobs])
  have hJ0 : J.fiber ≠ 0 := by omega
  have hhost : ({ w with job_current := some J, log := w.log ++ [Event.resumed J] } :
      World).zero_fiber_current = none ∨
      ({ w with job_current := some J, log := w.log ++ [Event.resumed J] } :
      World).zero_fiber_current = some 0 := hinv.host
  rw [step_resume_host text debug _ J.fiber NULL Prog.done hhost hJ3 hJ0] at h
  have hfib : ∀ f, f ≠ 0 → (zero_fiber_active
      { w with job_current := some J, log := w.log ++ [Event.resumed J] }).1.fibers f =
      w.fibers f := fun f hf => zero_fiber_active_fibers _ f hf
  have hctx := zero_fiber_active_context
    { w with job_current := some J, log := w.log ++ [Event.resumed J] }
  have hframe := hinv.frames J.fiber hJ1
  unfold zero_context_switch at h
  have hc : (resume_world (zero_fiber_active
      { w with job_current := some J, log := w.log ++ [Event.resumed J] }).1 0 J.fiber NULL
      Prog.done).context J.fiber = w.context J.fiber := by
    simp [resume_world, save_context, set_status, set_userdata, set_caller, hctx,
      Function.update_noteq hJ0]
  rw [hc] at h
  cases hcf : w.context J.fiber with
  | entry =>
    simp only [hcf] at h
    rw [zero_fiber_active_some _ J.fiber (by simp [resume_world, save_context])] at h
    simp only at h
    have he : ((resume_world (zero_fiber_active
        { w with job_current := some J, log := w.log ++ [Event.resumed J] }).1 0 J.fiber NULL
        Prog.done).fibers J.fiber).entrypoint = (w.fibers J.fiber).entrypoint := by
      simp [resume_world, save_context, set_status, set_userdata, set_caller,
        Function.update_noteq hJ0, hfib J.fiber hJ0]
    have hu : ((resume_world (zero_fiber_active
        { w with job_current := some J, log := w.log ++ [Event.resumed J] }).1 0 J.fiber NULL
        Prog.done).fibers J.fiber).userdata = NULL := by
      simp [resume_world, save_context, set_status, set_userdata, set_caller]
    rw [he, hu] at h
    split at h
    · cases h
    · rename_i e hent
      injection h with h1 h2
      exact ⟨h1.symm, Or.inl ⟨rfl, e, hent, h2.symm⟩⟩
  | in_resume c k =>
    rw [hcf] at hframe
    exact absurd hframe (by simp [FrameOK])
  | in_yield previous k =>
    rw [hcf] at hframe
    simp only [hcf] at h
    injection h with h1 h2
    obtain ⟨hprev, -⟩ := hframe
    subst hprev
    refine ⟨h1.symm, Or.inr ⟨k, rfl, ?_⟩⟩
    rw [← h2]
    simp [resume_world, save_context, set_status, set_userdata, set_caller]
  | in_return =>
    simp only [hcf] at h
    cases h

/-- The library call in which a well-behaved job suspends or ends, with the world it
leaves. -/
theorem job_terminal_world (frozen : Nat → Prop) (text : Nat → zero_userdata_t → Prog)
    (debug : Bool) (w : World) (J : job_t) (w1 w2 : World) (l : List Event) (p p2 : Prog)
    (hr : JobRunning frozen w J w1 l) (hwb : WellBehaved frozen p)
    (hl : p.is_local = false) (h : step text debug w1 p = Outcome.next w2 p2) :
    (∃ k, p = Prog.job_yield k ∧
      w2 = yield_world { w1 with yielded_jobs := w1.yielded_jobs ++ [J]
                                 log := w1.log ++ [Event.yielded J] }
        J.fiber 0 NULL (fun _ => k)) ∨
    (∃ d k, p = Prog.job_wait d k ∧
      w2 = yield_world { w1 with waiting_jobs := w1.waiting_jobs ++
          [(⟨J, JOB_WAIT_TIMER, w1.latest_time + d, none⟩ : job_waiting_t)] }
        J.fiber 0 NULL (fun _ => k)) ∨
    (∃ c k, p = Prog.job_wait_on_condition c k ∧
      w2 = yield_world { w1 with waiting_jobs := w1.waiting_jobs ++
          [(⟨J, JOB_WAIT_COUNTER_ZERO, 0, c⟩ : job_waiting_t)] }
        J.fiber 0 NULL (fun _ => k)) ∨
    (∃ v, p = Prog.ret v ∧ w2 = return_world w1 J.fiber 0 v) := by
  obtain ⟨core, under, ny, hy, hw⟩ := hr
  have hne : J.fiber ≠ 0 := under.ne
  have hmain : debug = true → J.fiber ≠ 0 := fun _ => hne
  cases hwb with
  | fiber_make size e d k hk => simp [Prog.is_local] at hl
  | fiber_is_active f k hk => simp [Prog.is_local] at hl
  | job_create e c k hk => simp [Prog.is_local] at hl
  | job_counter_make k hk => simp [Prog.is_local] at hl
  | load a k hk => simp [Prog.is_local] at hl
  | store a v k ha hk => simp [Prog.is_local] at hl
  | jump e d => simp [Prog.is_local] at hl
  | ret v =>
    rw [step_ret_running_under text debug w1 J.fiber 0 v Prog.done under] at h
    injection h with h1 h2
    exact Or.inr (Or.inr (Or.inr ⟨v, rfl, h1.symm⟩))
  | job_yield k hk =>
    have hstep : step text debug w1 (Prog.job_yield k) =
        step text debug { w1 with yielded_jobs := w1.yielded_jobs ++ [J]
                                  log := w1.log ++ [Event.yielded J] }
          (Prog.fiber_yield NULL (fun _ => k)) := by
      simp [step, job_yield_push, core.cur]
    have hu : RunningUnder ({ w1 with yielded_jobs := w1.yielded_jobs ++ [J]
                                      log := w1.log ++ [Event.yielded J] } : World)
        J.fiber 0 Prog.done :=
      ⟨under.cur, under.caller, under.status, under.parked, under.rstatus, under.ne, under.hF,
        under.hR⟩
    rw [hstep, step_yield_running_under text debug _ J.fiber 0 NULL Prog.done _ hmain hu] at h
    injection h with h1 h2
    exact Or.inl ⟨k, rfl, h1.symm⟩
  | job_wait d k hk =>
    have hstep : step text debug w1 (Prog.job_wait d k) =
        step text debug { w1 with waiting_jobs := w1.waiting_jobs ++ [(⟨J, JOB_WAIT_TIMER, w1.latest_time + d, none⟩ : job_waiting_t)] }
          (Prog.fiber_yield NULL (fun _ => k)) := by
      simp [step, job_wait_push, core.cur]
    have hu : RunningUnder ({ w1 with waiting_jobs := w1.waiting_jobs ++
          [(⟨J, JOB_WAIT_TIMER, w1.latest_time + d, none⟩ : job_waiting_t)] } : World)
        J.fiber 0 Prog.done :=
      ⟨under.cur, under.caller, under.status, under.parked, under.rstatus, under.ne, under.hF,
        under.hR⟩
    rw [hstep, step_yield_running_under text debug _ J.fiber 0 NULL Prog.done _ hmain hu] at h
    injection h with h1 h2
    exact Or.inr (Or.inl ⟨d, k, rfl, h1.symm⟩)
  | job_wait_on_condition c k hk =>
    have hstep : step text debug w1 (Prog.job_wait_on_condition c k) =
        step text debug { w1 with waiting_jobs := w1.waiting_jobs ++ [(⟨J, JOB_WAIT_COUNTER_ZERO, 0, c⟩ : job_waiting_t)] }
          (Prog.fiber_yield NULL (fun _ => k)) := by
      simp [step, job_wait_on_condition_push, core.cur]
    have hu : RunningUnder ({ w1 with waiting_jobs := w1.waiting_jobs ++
          [(⟨J, JOB_WAIT_COUNTER_ZERO, 0, c⟩ : job_waiting_t)] } : World)
        J.fiber 0 Prog.done :=
      ⟨under.cur, under.caller, under.status, under.parked, under.rstatus, under.ne, under.hF,
        under.hR⟩
    rw [hstep, step_yield_running_under text debug _ J.fiber 0 NULL Prog.done _ hmain hu] at h
    injection h with h1 h2
    exact Or.inr (Or.inr (Or.inl ⟨c, k, rfl, h1.symm⟩))

theorem yield_world_context (w : World) (F R : Nat) (Q : zero_userdata_t)
    (kF : zero_userdata_t → Prog) (f : Nat) (hf : f ≠ F) :
    (yield_world w F R Q kF).context f = w.context f := by
  simp [yield_world, save_context, set_status, set_userdata, Function.update_noteq hf]

theorem set_status_entrypoint (w : World) (f : Nat) (s : zero_coroutine_status) (g : Nat) :
    ((set_status w f s).fibers g).entrypoint = (w.fibers g).entrypoint := by
  unfold set_status
  by_cases h : g = f
  · subst h; simp
  · simp [Function.update_noteq h]

theorem set_userdata_entrypoint (w : World) (f : Nat) (d : zero_userdata_t) (g : Nat) :
    ((set_userdata w f d).fibers g).entrypoint = (w.fibers g).entrypoint := by
  unfold set_userdata
  by_cases h : g = f
  · subst h; simp
  · simp [Function.update_noteq h]

theorem yield_world_entrypoint (w : World) (F R : Nat) (Q : zero_userdata_t)
    (kF : zero_userdata_t → Prog) (f : Nat) :
    ((yield_world w F R Q kF).fibers f).entrypoint = (w.fibers f).entrypoint := by
  show ((set_status (set_status (set_userdata w R Q) F ZERO_FIBER_SUSPENDED) R
    ZERO_FIBER_RUNNING).fibers f).entrypoint = _
  rw [set_status_entrypoint, set_status_entrypoint, set_userdata_entrypoint]

theorem return_world_context (w : World) (F R : Nat) (v : zero_userdata_t) (f : Nat)
    (hf : f ≠ F) : (return_world w F R v).context f = w.context f := by
  simp [return_world, save_context, set_status, set_userdata, Function.update_noteq hf]

theorem return_world_entrypoint (w : World) (F R : Nat) (v : zero_userdata_t) (f : Nat) :
    ((return_world w F R v).fibers f).entrypoint = (w.fibers f).entrypoint := by
  show ((set_userdata { set_status w F ZERO_FIBER_ENDED with zero_fiber_current := some R }
    R v).fibers f).entrypoint = _
  rw [set_userdata_entrypoint]
  exact set_status_entrypoint w F ZERO_FIBER_ENDED f

/-- The call in which a job suspends or ends changes the saved context of that job only,
and no entrypoint. -/
theorem job_terminal_kept (frozen : Nat → Prop) (text : Nat → zero_userdata_t → Prog)
    (debug : Bool) (w : World) (J : job_t) (w1 w2 : World) (l : List Event) (p p2 : Prog)
    (hr : JobRunning frozen w J w1 l) (hwb : WellBehaved frozen p)
    (hl : p.is_local = false) (h : step text debug w1 p = Outcome.next w2 p2) (f : Nat)
    (hf : f ≠ J.fiber) :
    w2.context f = w1.context f ∧ (w2.fibers f).entrypoint = (w1.fibers f).entrypoint := by
  rcases job_terminal_world frozen text debug w J w1 w2 l p p2 hr hwb hl h with
    ⟨k, -, rfl⟩ | ⟨d, k, -, rfl⟩ | ⟨c, k, -, rfl⟩ | ⟨v, -, rfl⟩
  · exact ⟨yield_world_context _ _ _ _ _ f hf, yield_world_entrypoint _ _ _ _ _ f⟩
  · exact ⟨yield_world_context _ _ _ _ _ f hf, yield_world_entrypoint _ _ _ _ _ f⟩
  · exact ⟨yield_world_context _ _ _ _ _ f hf, yield_world_entrypoint _ _ _ _ _ f⟩
  · exact ⟨return_world_context _ _ _ _ f hf, return_world_entrypoint _ _ _ _ f⟩

/-- The resume of a queued well-behaved job by `jobs_run`, taken apart: the code the job
starts with, the library calls that do not switch contexts, and the call in which it
suspends or ends; up to that call, no saved context and no entrypoint of another
allocated fiber has changed. -/
theorem jobs_run_job_split (frozen : Nat → Prop) (text : Nat → zero_userdata_t → Prog)
    (htext : ∀ e d, WellBehaved frozen (text e d)) (debug : Bool) (fuel : Nat) (v : World)
    (J : job_t) (rest : List job_t) (hinv : JobsInv frozen v (J :: rest)) (v1 : World)
    (h : jobs_run_job text debug fuel J v = some v1) :
    ∃ (p0 : Prog) (w0 w3 : World) (l3 : List Event) (p3 : Prog) (w2 : World)
      (r : zero_userdata_t),
      ((v.context J.fiber = Frame.entry ∧
          ∃ e, (v.fibers J.fiber).entrypoint = some e ∧ p0 = text e NULL) ∨
        ∃ k, v.context J.fiber = Frame.in_yield J.fiber k ∧ p0 = k NULL) ∧
      Quiet text debug w0 p0 w3 p3 ∧
      JobRunning frozen v J w3 l3 ∧ WellBehaved frozen p3 ∧ p3.is_local = false ∧
      step text debug w3 p3 = Outcome.next w2 (Prog.done r) ∧
      (∃ l2, JobSuspended frozen v J w2 (l3 ++ l2)) ∧
      (∀ f, f ≠ J.fiber → 1 ≤ f → f < v.nfibers →
        w3.context f = v.context f ∧ (w3.fibers f).entrypoint = (v.fibers f).entrypoint) ∧
      (v1 = w2 ∨ ∃ c, v1 = { ZERO_ATOMIC_DECREMENT w2 c with
        log := w2.log ++ [Event.decremented J c] }) := by
  obtain ⟨hJ1, hJ2, hJ3⟩ := hinv.queued J (by simp [queued_jobs])
  have hJ0 : J.fiber ≠ 0 := by omega
  unfold jobs_run_job at h
  simp only at h
  split at h
  · cases h
  · rename_i w2 r hrun
    have hv1 : v1 = w2 ∨ ∃ c, v1 = { ZERO_ATOMIC_DECREMENT w2 c with
        log := w2.log ++ [Event.decremented J c] } := by
      split at h
      · rename_i c hc
        split at h
        · injection h with h
          exact Or.inr ⟨c, h.symm⟩
        · injection h with h
          exact Or.inl h.symm
      · injection h with h
        exact Or.inl h.symm
    cases fuel with
    | zero => simp [run] at hrun
    | succ n =>
      simp only [run] at hrun
      split at hrun
      · rename_i w0 p0 hs
        obtain ⟨hwb, hr0⟩ := job_resume_start frozen text htext debug v J rest hinv w0 p0 hs
        obtain ⟨hw0, hp0⟩ := job_resume_start_eq frozen text debug v J rest hinv w0 p0 hs
        obtain ⟨w3, l3, p3, hq, he, hr3, hwb3, hl3, hs3⟩ :=
          run_job_quiet frozen text htext debug v J hJ2 w2 r n w0 p0 [] hwb hr0 hrun
        rw [List.nil_append] at hr3
        obtain ⟨l2, -, -, hsusp⟩ :=
          job_running_terminal frozen text debug v J w3 w2 l3 p3 _ hJ2 hr3 hwb3 hl3 hs3
        refine ⟨p0, w0, w3, l3, p3, w2, r, hp0, hq, hr3, hwb3, hl3, hs3, ⟨l2, hsusp⟩, ?_, hv1⟩
        intro f hf h1 hlt
        have hf0 : f ≠ 0 := by omega
        have hn0 : v.nfibers ≤ w0.nfibers := hr0.core.nfibers
        have hc0 : w0.context f = v.context f := by
          rw [hw0]
          simp [resume_world, save_context, set_status, set_userdata, set_caller,
            zero_fiber_active_context, Function.update_noteq hf0]
        have he0 : (w0.fibers f).entrypoint = (v.fibers f).entrypoint := by
          rw [hw0]
          simp [resume_world, save_context, set_status, set_userdata, set_caller,
            Function.update_noteq hf, Function.update_noteq hf0,
            zero_fiber_active_fibers _ f hf0]
        constructor
        · rcases he.context f with hc | ⟨hc, -⟩
          · rw [hc, hc0]
          · omega
        · rw [he.fibers f (by omega), he0]
      · rename_i w0 v0 hs
        have := (step_done text debug _ w0 _ v0 hs).2
        cases this
      · cases hrun

/-- The resume of a queued job whose next code is in a locally closed set `Y`: the call
in which it suspends or ends is made by code of `Y`. -/
theorem jobs_run_job_code (frozen : Nat → Prop) (text : Nat → zero_userdata_t → Prog)
    (htext : ∀ e d, WellBehaved frozen (text e d)) (debug : Bool) (fuel : Nat)
    (Y : Prog → Prop) (hY : LocallyClosed text debug Y) (v : World)
    (J : job_t) (rest : List job_t) (hinv : JobsInv frozen v (J :: rest))
    (hcode : NextCode text Y v J.fiber) (v1 : World)
    (h : jobs_run_job text debug fuel J v = some v1) :
    ∃ (w3 : World) (l3 : List Event) (p3 : Prog) (w2 : World) (r : zero_userdata_t),
      JobRunning frozen v J w3 l3 ∧ Y p3 ∧ WellBehaved frozen p3 ∧ p3.is_local = false ∧
      step text debug w3 p3 = Outcome.next w2 (Prog.done r) ∧
      (∃ l2, JobSuspended frozen v J w2 (l3 ++ l2)) ∧
      (v1 = w2 ∨ ∃ c, v1 = { ZERO_ATOMIC_DECREMENT w2 c with
        log := w2.log ++ [Event.decremented J c] }) := by
  obtain ⟨p0, w0, w3, l3, p3, w2, r, hp0, hq, hr3, hwb3, hl3, hs3, hsusp, -, hv1⟩ :=
    jobs_run_job_split frozen text htext debug fuel v J rest hinv v1 h
  have hYp0 : Y p0 := by
    rcases hp0 with ⟨hc, e, he, rfl⟩ | ⟨k, hc, rfl⟩
    · rcases hcode with ⟨-, e2, he2, hy⟩ | ⟨k2, hc2, -⟩
      · rw [he] at he2
        cases he2
        exact hy
      · rw [hc] at hc2
        cases hc2
    · rcases hcode with ⟨hc2, -⟩ | ⟨k2, hc2, hy⟩
      · rw [hc] at hc2
        cases hc2
      · rw [hc] at hc2
        cases hc2
        exact hy
  exact ⟨w3, l3, p3, w2, r, hr3, quiet_closed text debug Y hY w0 p0 w3 p3 hq hYp0, hwb3, hl3,
    hs3, hsusp, hv1⟩

/-- The resume of a queued job leaves the next code of every other queued fiber as it
is. -/
theorem jobs_run_job_other (frozen : Nat → Prop) (text : Nat → zero_userdata_t → Prog)
    (htext : ∀ e d, WellBehaved frozen (text e d)) (debug : Bool) (fuel : Nat)
    (Y : Prog → Prop) (v : World)
    (J : job_t) (rest : List job_t) (hinv : JobsInv frozen v (J :: rest)) (v1 : World)
    (h : jobs_run_job text debug fuel J v = some v1) (F : Nat) (hF : F ≠ J.fiber)
    (h1 : 1 ≤ F) (hlt : F < v.nfibers) (hcode : NextCode text Y v F) :
    NextCode text Y v1 F := by
  obtain ⟨p0, w0, w3, l3, p3, w2, r, -, -, hr3, hwb3, hl3, hs3, -, hkept, hv1⟩ :=
    jobs_run_job_split frozen text htext debug fuel v J rest hinv v1 h
  obtain ⟨hc3, he3⟩ := hkept F hF h1 hlt
  obtain ⟨hc2, he2⟩ :=
    job_terminal_kept frozen text debug v J w3 w2 l3 p3 _ hr3 hwb3 hl3 hs3 F hF
  have hc1 : v1.context F = v.context F := by
    rcases hv1 with rfl | ⟨c, rfl⟩
    · rw [hc2, hc3]
    · show w2.context F = _
      rw [hc2, hc3]
  have he1 : (v1.fibers F).entrypoint = (v.fibers F).entrypoint := by
    rcases hv1 with rfl | ⟨c, rfl⟩
    · rw [he2, he3]
    · show (w2.fibers F).entrypoint = _
      rw [he2, he3]
  unfold NextCode
  rw [hc1, he1]
  exact hcode

theorem resumes_of_append (F : Nat) (l1 l2 : List Event) :
    resumes_of F (l1 ++ l2) = resumes_of F l1 ++ resumes_of F l2 := by
  simp [resumes_of, resumes_append]

theorem resumes_of_nil (F : Nat) (l : List Event) (h : resumes l = []) :
    resumes_of F l = [] := by
  simp [resumes_of, h]

/-- What the resume of `J` by `jobs_run_job` adds to the trace holds one resume, of
`J`. -/
theorem jobs_run_job_log (frozen : Nat → Prop) (v : World) (J : job_t) (w2 : World)
    (l : List Event) (hs : JobSuspended frozen v J w2 l) (v1 : World)
    (hv1 : v1 = w2 ∨ ∃ c, v1 = { ZERO_ATOMIC_DECREMENT w2 c with
      log := w2.log ++ [Event.decremented J c] }) :
    ∃ l1, v1.log = v.log ++ l1 ∧ resumes l1 = [J] := by
  rcases hv1 with rfl | ⟨c, rfl⟩
  · exact ⟨Event.resumed J :: l, hs.core.log, by simp [resumes, hs.core.no_resumes]⟩
  · refine ⟨Event.resumed J :: l ++ [Event.decremented J c], ?_, ?_⟩
    · show w2.log ++ _ = _
      rw [hs.core.log]
      simp
    · rw [resumes_append]
      simp [resumes, hs.core.no_resumes]

/-- The resume of one job of the running batch keeps the state of a job that yields
every time. -/
theorem yieldingInv_job (frozen : Nat → Prop) (text : Nat → zero_userdata_t → Prog)
    (htext : ∀ e d, WellBehaved frozen (text e d)) (debug : Bool) (fuel : Nat)
    (Y : Prog → Prop) (hY : YieldsEveryTime text debug Y) (J : job_t) (base : List Event)
    (v : World) (J1 : job_t) (rest : List job_t) (hinv : JobsInv frozen v (J1 :: rest))
    (hI : YieldingInv text Y J base v (J1 :: rest)) (v1 : World)
    (h : jobs_run_job text debug fuel J1 v = some v1) :
    YieldingInv text Y J base v1 rest := by
  obtain ⟨hcode, l, hlog, hJ⟩ := hI
  have hnd := hinv.nodup
  simp only [queued_jobs, List.cons_append, List.map_cons, List.nodup_cons, List.mem_map,
    not_exists, not_and] at hnd
  have htail : ∀ j ∈ rest ++ v.jobs ++ v.yielded_jobs ++ v.waiting_jobs.map (fun x => x.job),
      j.fiber ≠ J1.fiber := fun j hj he => hnd.1 j hj he
  have hJq : J ∈ queued_jobs v (J1 :: rest) := by
    simp only [queued_jobs, List.cons_append, List.mem_cons, List.mem_append] at hJ ⊢
    tauto
  obtain ⟨hb1, hb2, -⟩ := hinv.queued J hJq
  by_cases hF : J.fiber = J1.fiber
  · -- the job itself is resumed
    have hJ1 : J ∈ (J1 :: rest) ++ v.jobs ∧ resumes_of J.fiber l = [] := by
      rcases hJ with hJ | ⟨hJ, -⟩
      · exact hJ
      · exact absurd hF (htail J (by simp [hJ]))
    have hJeq : J = J1 := by
      rcases List.mem_append.1 hJ1.1 with hm | hm
      · rcases List.mem_cons.1 hm with hm | hm
        · exact hm
        · exact absurd hF (htail J (by simp [hm]))
      · exact absurd hF (htail J (by simp [hm]))
    subst hJeq
    obtain ⟨w3, l3, p3, w2, r, hr3, hYp3, hwb3, hl3, hs3, ⟨l2, hsusp⟩, hv1⟩ :=
      jobs_run_job_code frozen text htext debug fuel Y hY.closed v J rest hinv hcode v1 h
    obtain ⟨k, hk, hYk⟩ := hY.suspend p3 hYp3 hl3
    subst hk
    have hw2 : w2 = yield_world { w3 with yielded_jobs := w3.yielded_jobs ++ [J]
                                          log := w3.log ++ [Event.yielded J] }
        J.fiber 0 NULL (fun _ => k) := by
      rcases job_terminal_world frozen text debug v J w3 w2 l3 _ _ hr3 hwb3 hl3 hs3 with
        ⟨k2, hk2, hw⟩ | ⟨d, k2, hk2, -⟩ | ⟨c, k2, hk2, -⟩ | ⟨r2, hk2, -⟩
      · cases hk2
        exact hw
      · cases hk2
      · cases hk2
      · cases hk2
    have hctx : v1.context J.fiber = Frame.in_yield J.fiber (fun _ => k) := by
      rcases hv1 with rfl | ⟨c, rfl⟩
      · rw [hw2]; simp [yield_world, save_context]
      · show w2.context J.fiber = _
        rw [hw2]; simp [yield_world, save_context]
    have hyl : J ∈ v1.yielded_jobs := by
      rcases hv1 with rfl | ⟨c, rfl⟩
      · rw [hw2]; simp [yield_world, save_context, set_status, set_userdata]
      · show J ∈ w2.yielded_jobs
        rw [hw2]; simp [yield_world, save_context, set_status, set_userdata]
    obtain ⟨l1, hl1, hr1⟩ := jobs_run_job_log frozen v J w2 _ hsusp v1 hv1
    refine ⟨Or.inr ⟨_, hctx, hYk⟩, l ++ l1, by rw [hl1, hlog, List.append_assoc],
      Or.inr ⟨hyl, ?_⟩⟩
    rw [resumes_of_append, hJ1.2]
    simp [resumes_of, hr1]
  · -- another job is resumed
    obtain ⟨p0, w0, w3, l3, p3, w2, r, -, -, hr3, hwb3, hl3, hs3, ⟨l2, hsusp⟩, -, hv1⟩ :=
      jobs_run_job_split frozen text htext debug fuel v J1 rest hinv v1 h
    have hcode1 := jobs_run_job_other frozen text htext debug fuel Y v J1 rest hinv v1 h
      J.fiber hF hb1 hb2 hcode
    obtain ⟨l1, hl1, hr1⟩ := jobs_run_job_log frozen v J1 w2 _ hsusp v1 hv1
    have hjobs : ∀ j ∈ v.jobs, j ∈ v1.jobs := by
      intro j hj
      have : j ∈ w2.jobs := by rw [hsusp.core.jobs]; exact List.mem_append_left _ hj
      rcases hv1 with rfl | ⟨c, rfl⟩
      · exact this
      · exact this
    have hyld : ∀ j ∈ v.yielded_jobs, j ∈ v1.yielded_jobs := by
      intro j hj
      have : j ∈ w2.yielded_jobs := by
        rcases hsusp.kind with ⟨-, hy, -, -⟩ | ⟨-, hy, -, -⟩ | ⟨-, hy, -, -⟩
        · rw [hy]; exact List.mem_append_left _ hj
        · rw [hy]; exact hj
        · rw [hy]; exact hj
      rcases hv1 with rfl | ⟨c, rfl⟩
      · exact this
      · exact this
    have hres : resumes_of J.fiber (l ++ l1) = resumes_of J.fiber l := by
      rw [resumes_of_append]
      simp [resumes_of, hr1, Ne.symm hF]
    refine ⟨hcode1, l ++ l1, by rw [hl1, hlog, List.append_assoc], ?_⟩
    rcases hJ with ⟨hJ, hr⟩ | ⟨hJ, hr⟩
    · left
      refine ⟨?_, by rw [hres, hr]⟩
      rcases List.mem_append.1 hJ with hm | hm
      · rcases List.mem_cons.1 hm with hm | hm
        · exact absurd (by rw [hm]) hF
        · exact List.mem_append_left _ hm
      · exact List.mem_append_right _ (hjobs J hm)
    · right
      exact ⟨hyld J hJ, by rw [hres, hr]⟩

/-- A job that yields every time it is resumed and is in the ready queue when `jobs_run`
is called is resumed exactly once by that call and is in the ready queue again when it
returns. -/
theorem yielding_job_tick (frozen : Nat → Prop) (text : Nat → zero_userdata_t → Prog)
    (htext : ∀ e d, WellBehaved frozen (text e d)) (debug : Bool) (fuel : Nat) (now : ℚ)
    (Y : Prog → Prop) (hY : YieldsEveryTime text debug Y) (J : job_t) (w w1 : World)
    (hinv : JobsInv frozen w []) (hJ : J ∈ w.jobs) (hcode : NextCode text Y w J.fiber)
    (h : jobs_run text debug fuel now w = some w1) :
    JobsInv frozen w1 [] ∧ J ∈ w1.jobs ∧ NextCode text Y w1 J.fiber ∧
      ∃ l, w1.log = w.log ++ l ∧ resumes_of J.fiber l = [J] := by
  obtain ⟨w2, hl, rfl⟩ := jobs_run_eq text debug fuel now w w1 h
  have key := jobs_run_loop_inv text debug fuel now
    (fun rest v => JobsInv frozen v rest ∧ YieldingInv text Y J w.log v rest)
    (by
      intro J1 rest v v1 ⟨hv, hI⟩ hj
      exact ⟨(jobs_run_job_inv frozen text htext debug fuel v J1 rest hv v1 hj).1,
        yieldingInv_job frozen text htext debug fuel Y hY J w.log v J1 rest hv hI v1 hj⟩)
    (by
      intro v v1 batch ⟨hv, hcode, l, hlog, hI⟩ hq
      refine ⟨jobs_run_queueing_inv frozen now v v1 batch hv hq, ?_⟩
      rw [jobs_run_queueing_eq] at hq
      injection hq with hq
      injection hq with hq1 hq2
      subst hq1
      subst hq2
      refine ⟨hcode, l, hlog, ?_⟩
      rcases hI with ⟨hm, hr⟩ | ⟨hm, hr⟩
      · left
        refine ⟨?_, hr⟩
        simp only [List.nil_append] at hm
        simp [hm]
      · right
        exact ⟨hm, hr⟩)
    fuel { w with latest_time := now } w2
    ⟨⟨hinv.nf, hinv.host, hinv.frames, hinv.nodup, hinv.queued⟩, hcode, [], by simp,
      Or.inl ⟨by simpa using hJ, rfl⟩⟩ hl
  obtain ⟨w0, ⟨hv0, hcode0, l, hlog, hI⟩, hq⟩ := key
  have hv2 := jobs_run_queueing_inv frozen now w0 w2 [] hv0 hq
  rw [jobs_run_queueing_eq] at hq
  injection hq with hq
  injection hq with hq1 hq2
  subst hq1
  have hjobs : w0.jobs = [] := by
    have := List.append_eq_nil.1 hq2
    exact this.1
  refine ⟨jobs_run_finish_inv frozen _ hv2, ?_, hcode0, l, hlog, ?_⟩
  · rcases hI with ⟨hm, -⟩ | ⟨hm, -⟩
    · rw [hjobs] at hm
      simp at hm
    · simp [hm]
  · rcases hI with ⟨hm, -⟩ | ⟨-, hr⟩
    · rw [hjobs] at hm
      simp at hm
    · exact hr

/-- C14 (amended): a job that calls `job_yield` every time it is resumed is resumed
exactly once in every invocation of `jobs_run` after its creation, when the fibers of the
thread use the job API only.  The jobs suspend through the job API
only and every fiber has at most one queue entry; the job `J` is in the ready queue and
the code of its fiber is in a set `Y` of code that suspends in `job_yield` only.  Then in
each of the Ticks at the times `times`, whatever they are, the trace of the Tick holds
exactly one resume of the fiber of `J`, and `J` is in the ready queue when the Tick
returns; so the number of its resumes over the Ticks is their number. -/
theorem yielding_job_once_per_tick (frozen : Nat → Prop)
    (text : Nat → zero_userdata_t → Prog) (htext : ∀ e d, WellBehaved frozen (text e d))
    (debug : Bool) (fuel : Nat) (Y : Prog → Prop) (hY : YieldsEveryTime text debug Y)
    (J : job_t) (times : List ℚ) (w : World) (r : List (List Event × World))
    (hinv : JobsInv frozen w []) (hJ : J ∈ w.jobs) (hcode : NextCode text Y w J.fiber)
    (h : run_ticks text debug fuel times w = some r) :
    r.length = times.length ∧
    (∀ x ∈ r, resumes_of J.fiber x.1 = [J] ∧ J ∈ x.2.jobs) ∧
    (r.map (fun x => (resumes_of J.fiber x.1).length)).sum = times.length := by
  induction times generalizing w r with
  | nil =>
    simp only [run_ticks, Option.some.injEq] at h
    subst h
    simp
  | cons t ts ih =>
    simp only [run_ticks] at h
    split at h
    · cases h
    · rename_i w1 ht
      split at h
      · cases h
      · rename_i r1 hr1
        injection h with h
        subst h
        obtain ⟨hinv1, hJ1, hcode1, l, hlog, hres⟩ :=
          yielding_job_tick frozen text htext debug fuel t Y hY J w w1 hinv hJ hcode ht
        obtain ⟨h1, h2, h3⟩ := ih w1 r1 hinv1 hJ1 hcode1 hr1
        have hdrop : w1.log.drop w.log.length = l := by
          rw [hlog, List.drop_left]
        refine ⟨by simp [h1], ?_, ?_⟩
        · intro x hx
          rcases List.mem_cons.1 hx with hx | hx
          · subst hx
            exact ⟨by rw [hdrop]; exact hres, hJ1⟩
          · exact h2 x hx
        · simp only [List.map_cons, List.sum_cons, hdrop, hres, h3, List.length_cons,
            List.length_singleton, List.length_nil]
          omega

theorem test_jobs_text_wellBehaved (e : Nat) (d : zero_userdata_t) :
    WellBehaved (fun _ => False) (test_jobs_text e d) := by
  match e with
  | 0 =>
    exact WellBehaved.job_wait _ _ (WellBehaved.job_wait _ _ (WellBehaved.job_wait _ _
      (WellBehaved.job_wait _ _ (WellBehaved.ret _))))
  | 1 =>
    exact WellBehaved.job_yield _ (WellBehaved.load _ _ (fun v =>
      WellBehaved.store _ _ _ (fun h => h) (WellBehaved.jump _ _)))
  | n + 2 =>
    exact WellBehaved.job_wait _ _ (WellBehaved.load _ _ (fun v =>
      WellBehaved.store _ _ _ (fun h => h) (WellBehaved.store _ _ _ (fun h => h)
        (WellBehaved.jump _ _))))

theorem counter_job_yields (debug : Bool) :
    YieldsEveryTime test_jobs_text debug counter_job_code := by
  constructor
  · intro p w w2 p2 hp hl hs
    rcases hp with rfl | rfl | ⟨v, rfl⟩ | rfl
    · simp [counter_job, Prog.is_local] at hl
    · simp only [counter_job_body, step] at hs
      injection hs with h1 h2
      exact Or.inr (Or.inr (Or.inl ⟨w.mem 0, h2.symm⟩))
    · simp only [step] at hs
      injection hs with h1 h2
      exact Or.inr (Or.inr (Or.inr h2.symm))
    · simp only [step] at hs
      injection hs with h1 h2
      exact Or.inl h2.symm
  · intro p hp hl
    rcases hp with rfl | rfl | ⟨v, rfl⟩ | rfl
    · exact ⟨counter_job_body, rfl, Or.inr (Or.inl rfl)⟩
    · simp [counter_job_body, Prog.is_local] at hl
    · simp [Prog.is_local] at hl
    · simp [Prog.is_local] at hl

theorem option_map_eq_some_elim {α β : Type} (o : Option α) (f : α → β) (b : β)
    (h : o.map f = some b) : ∃ a, o = some a ∧ f a = b := by
  cases o with
  | none => cases h
  | some a => exact ⟨a, rfl, Option.some.inj h⟩

/-- The test `Run basic job`, evaluated in exact arithmetic: the 360 Ticks return and the
observations after each of them are the expected ones. -/
theorem test_jobs_observations :
    (run_ticks test_jobs_text false 16 (tick_times 360) test_jobs_created).map
      (fun r => r.map test_jobs_observation) =
        some ((List.range 360).map test_jobs_expected) := by
  decide!

/-- Witness for C14: the test `Run basic job` over its 360 Ticks at 120 Ticks per second,
in exact arithmetic.  `counter_job` is resumed exactly once in every Tick; every time the
lambda wakes from `job_wait(1.0)`, in the Ticks 120 and 240, it reads `counter == 120`. -/
theorem yielding_job_once_per_tick_witness :
    (∀ e d, WellBehaved (fun _ => False) (test_jobs_text e d)) ∧
    YieldsEveryTime test_jobs_text false counter_job_code ∧
    JobsInv (fun _ => False) test_jobs_created [] ∧
    (⟨2, none⟩ : job_t) ∈ test_jobs_created.jobs ∧
    NextCode test_jobs_text counter_job_code test_jobs_created 2 ∧
    ∃ r, run_ticks test_jobs_text false 16 (tick_times 360) test_jobs_created = some r ∧
      r.map test_jobs_observation = (List.range 360).map test_jobs_expected ∧
      r.length = (tick_times 360).length ∧
      (∀ x ∈ r, resumes_of 2 x.1 = [⟨2, none⟩] ∧ (⟨2, none⟩ : job_t) ∈ x.2.jobs) ∧
      (r.map (fun x => (resumes_of 2 x.1).length)).sum = (tick_times 360).length := by
  obtain ⟨r, hr, hobs⟩ := option_map_eq_some_elim _ _ _ test_jobs_observations
  have hinv : JobsInv (fun _ => False) test_jobs_created [] :=
    jobsInv_job_create _ _ (some 2) none (jobsInv_job_create _ _ (some 1) none
      (jobsInv_job_create _ World.init (some 0) none (jobsInv_init _)))
  have hJ : (⟨2, none⟩ : job_t) ∈ test_jobs_created.jobs := by decide
  have hcode : NextCode test_jobs_text counter_job_code test_jobs_created 2 :=
    Or.inl ⟨rfl, 1, by decide, Or.inl rfl⟩
  exact ⟨test_jobs_text_wellBehaved, counter_job_yields false, hinv, hJ, hcode, r, hr, hobs,
    yielding_job_once_per_tick (fun _ => False) test_jobs_text test_jobs_text_wellBehaved false
      16 counter_job_code (counter_job_yields false) ⟨2, none⟩ (tick_times 360)
      test_jobs_created r hinv hJ hcode hr⟩

/-- The resume of one job of the running batch keeps the state of a job that waits for a
short time every time. -/
theorem shortWaitInv_job (frozen : Nat → Prop) (text : Nat → zero_userdata_t → Prog)
    (htext : ∀ e d, WellBehaved frozen (text e d)) (debug : Bool) (fuel : Nat)
    (Y : Prog → Prop) (hY : WaitsShortEveryTime text debug Y) (J : job_t) (now : ℚ)
    (v : World) (J1 : job_t) (rest : List job_t) (hinv : JobsInv frozen v (J1 :: rest))
    (hI : ShortWaitInv text Y J now v (J1 :: rest)) (v1 : World)
    (h : jobs_run_job text debug fuel J1 v = some v1) :
    ShortWaitInv text Y J now v1 rest := by
  obtain ⟨htime, hcode, hJ⟩ := hI
  have hnd := hinv.nodup
  simp only [queued_jobs, List.cons_append, List.map_cons, List.nodup_cons, List.mem_map,
    not_exists, not_and] at hnd
  have htail : ∀ j ∈ rest ++ v.jobs ++ v.yielded_jobs ++ v.waiting_jobs.map (fun x => x.job),
      j.fiber ≠ J1.fiber := fun j hj he => hnd.1 j hj he
  have hJq : J ∈ queued_jobs v (J1 :: rest) := by
    rcases hJ with hJ | ⟨x, hx, hxJ, -, -⟩
    · simp only [queued_jobs, List.cons_append, List.mem_cons, List.mem_append] at hJ ⊢
      tauto
    · simp only [queued_jobs, List.cons_append, List.mem_cons, List.mem_append, List.mem_map]
      exact Or.inr (Or.inr ⟨x, hx, hxJ⟩)
  obtain ⟨hb1, hb2, -⟩ := hinv.queued J hJq
  obtain ⟨p0, w0, w3, l3, p3, w2, r, -, -, hr3, hwb3, hl3, hs3, ⟨l2, hsusp⟩, -, hv1⟩ :=
    jobs_run_job_split frozen text htext debug fuel v J1 rest hinv v1 h
  have htime1 : v1.latest_time = now := by
    have : w2.latest_time = now := by rw [hsusp.core.latest_time, htime]
    rcases hv1 with rfl | ⟨c, rfl⟩
    · exact this
    · exact this
  by_cases hF : J.fiber = J1.fiber
  · -- the job itself is resumed
    have hJeq : J = J1 := by
      rcases hJ with hJ | ⟨x, hx, hxJ, -, -⟩
      · rcases List.mem_append.1 hJ with hm | hm
        · rcases List.mem_cons.1 hm with hm | hm
          · exact hm
          · exact absurd hF (htail J (by simp [hm]))
        · exact absurd hF (htail J (by simp [hm]))
      · exact absurd hF (htail J (by
          simp only [List.mem_append, List.mem_map]
          exact Or.inr ⟨x, hx, hxJ⟩))
    subst hJeq
    obtain ⟨w3, l3, p3, w2, r, hr3, hYp3, hwb3, hl3, hs3, -, hv1⟩ :=
      jobs_run_job_code frozen text htext debug fuel Y hY.closed v J rest hinv hcode v1 h
    obtain ⟨d, k, hk, hd, hYk⟩ := hY.suspend p3 hYp3 hl3
    subst hk
    have hw2 : w2 = yield_world { w3 with waiting_jobs := w3.waiting_jobs ++
          [(⟨J, JOB_WAIT_TIMER, w3.latest_time + d, none⟩ : job_waiting_t)] }
        J.fiber 0 NULL (fun _ => k) := by
      rcases job_terminal_world frozen text debug v J w3 w2 l3 _ _ hr3 hwb3 hl3 hs3 with
        ⟨k2, hk2, -⟩ | ⟨d2, k2, hk2, hw⟩ | ⟨c, k2, hk2, -⟩ | ⟨r2, hk2, -⟩
      · cases hk2
      · cases hk2
        exact hw
      · cases hk2
      · cases hk2
    have hctx : v1.context J.fiber = Frame.in_yield J.fiber (fun _ => k) := by
      rcases hv1 with rfl | ⟨c, rfl⟩
      · rw [hw2]; simp [yield_world, save_context]
      · show w2.context J.fiber = _
        rw [hw2]; simp [yield_world, save_context]
    have hrec : (⟨J, JOB_WAIT_TIMER, w3.latest_time + d, none⟩ : job_waiting_t) ∈
        v1.waiting_jobs := by
      rcases hv1 with rfl | ⟨c, rfl⟩
      · rw [hw2]; simp [yield_world, save_context, set_status, set_userdata]
      · show _ ∈ w2.waiting_jobs
        rw [hw2]; simp [yield_world, save_context, set_status, set_userdata]
    refine ⟨htime1, Or.inr ⟨_, hctx, hYk⟩, Or.inr ⟨_, hrec, rfl, rfl, ?_⟩⟩
    show w3.latest_time + d ≤ now + ZERO_JOBS_TIMING_ERROR
    rw [hr3.core.latest_time, htime]
    linarith
  · -- another job is resumed
    have hcode1 := jobs_run_job_other frozen text htext debug fuel Y v J1 rest hinv v1 h
      J.fiber hF hb1 hb2 hcode
    refine ⟨htime1, hcode1, ?_⟩
    rcases hJ with hJ | ⟨x, hx, hxJ, hxc, hxe⟩
    · left
      have hjobs : ∀ j ∈ v.jobs, j ∈ v1.jobs := by
        intro j hj
        have : j ∈ w2.jobs := by rw [hsusp.core.jobs]; exact List.mem_append_left _ hj
        rcases hv1 with rfl | ⟨c, rfl⟩
        · exact this
        · exact this
      rcases List.mem_append.1 hJ with hm | hm
      · rcases List.mem_cons.1 hm with hm | hm
        · exact absurd (by rw [hm]) hF
        · exact List.mem_append_left _ hm
      · exact List.mem_append_right _ (hjobs J hm)
    · right
      refine ⟨x, ?_, hxJ, hxc, hxe⟩
      have : x ∈ w2.waiting_jobs := by
        rcases hsusp.kind with ⟨-, -, hw, -⟩ | ⟨-, -, ⟨y, -, -, hw⟩, -⟩ | ⟨-, -, hw, -⟩
        · rw [hw]; exact hx
        · rw [hw]; exact List.mem_append_left _ hx
        · rw [hw]; exact hx
      rcases hv1 with rfl | ⟨c, rfl⟩
      · exact this
      · exact this

/-- The waiting pass of `jobs_run` puts a job that waits for a short time every time back
in the running batch. -/
theorem shortWaitInv_queueing (text : Nat → zero_userdata_t → Prog) (Y : Prog → Prop)
    (J : job_t) (now : ℚ) (v v1 : World) (batch : List job_t)
    (hI : ShortWaitInv text Y J now v [])
    (h : jobs_run_queueing now v = some (v1, batch)) :
    ShortWaitInv text Y J now v1 batch ∧ J ∈ batch := by
  obtain ⟨htime, hcode, hJ⟩ := hI
  rw [jobs_run_queueing_eq] at h
  injection h with h
  injection h with h1 h2
  subst h1
  subst h2
  have hm : J ∈ v.jobs ++ (v.waiting_jobs.filter (wait_satisfied now v.mem)).map
      (fun x => x.job) := by
    rcases hJ with hJ | ⟨x, hx, hxJ, hxc, hxe⟩
    · exact List.mem_append_left _ (by simpa using hJ)
    · refine List.mem_append_right _ (List.mem_map.2 ⟨x, List.mem_filter.2 ⟨hx, ?_⟩, hxJ⟩)
      rw [wait_satisfied_timer now v.mem x hxc]
      simp only [ge_iff_le, decide_eq_true_eq]
      linarith
  exact ⟨⟨htime, hcode, Or.inl (List.mem_append_left _ hm)⟩, hm⟩

/-- C20: `jobs_run` does not always return.  The jobs suspend through the job API only and
every fiber has at most one queue entry; a job `J` of the ready queue runs code of a set
`Y` that suspends in `job_wait(d)` with `d ≤ ZERO_JOBS_TIMING_ERROR` only, as
`while(true) job_wait(0.0);` does.  Then the call `jobs_run(now)` returns after no number
of iterations of its outer loop and no number of library calls, whatever `now` is: each
waiting pass of the same call finds the Timer record of `J` satisfied and resumes `J`
again. -/
theorem short_wait_never_returns (frozen : Nat → Prop)
    (text : Nat → zero_userdata_t → Prog) (htext : ∀ e d, WellBehaved frozen (text e d))
    (debug : Bool) (Y : Prog → Prop) (hY : WaitsShortEveryTime text debug Y)
    (J : job_t) (w : World) (hinv : JobsInv frozen w []) (hJ : J ∈ w.jobs)
    (hcode : NextCode text Y w J.fiber) (fuel : Nat) (now : ℚ) :
    jobs_run text debug fuel now w = none := by
  cases h : jobs_run text debug fuel now w with
  | none => rfl
  | some w1 =>
    exfalso
    obtain ⟨w2, hl, -⟩ := jobs_run_eq text debug fuel now w w1 h
    have key := jobs_run_loop_inv text debug fuel now
      (fun rest v => JobsInv frozen v rest ∧ ShortWaitInv text Y J now v rest)
      (by
        intro J1 rest v v1 ⟨hv, hI⟩ hj
        exact ⟨(jobs_run_job_inv frozen text htext debug fuel v J1 rest hv v1 hj).1,
          shortWaitInv_job frozen text htext debug fuel Y hY J now v J1 rest hv hI v1 hj⟩)
      (by
        intro v v1 batch ⟨hv, hI⟩ hq
        exact ⟨jobs_run_queueing_inv frozen now v v1 batch hv hq,
          (shortWaitInv_queueing text Y J now v v1 batch hI hq).1⟩)
      fuel { w with latest_time := now } w2
      ⟨⟨hinv.nf, hinv.host, hinv.frames, hinv.nodup, hinv.queued⟩, rfl, hcode,
        Or.inl (by simpa using hJ)⟩ hl
    obtain ⟨w0, ⟨-, hI⟩, hq⟩ := key
    have := (shortWaitInv_queueing text Y J now w0 w2 [] hI hq).2
    simp at this

theorem wait_forever_text_wellBehaved (e : Nat) (d : zero_userdata_t) :
    WellBehaved (fun _ => False) (wait_forever_text e d) :=
  WellBehaved.job_wait _ _ (WellBehaved.jump _ _)

theorem wait_forever_waits_short (debug : Bool) :
    WaitsShortEveryTime wait_forever_text debug wait_forever_code := by
  refine ⟨?_, ?_⟩
  · intro p w w1 p1 hp hl hs
    rcases hp with rfl | rfl
    · cases hl
    · simp only [step] at hs
      injection hs with h1 h2
      subst h2
      exact Or.inl rfl
  · intro p hp hl
    rcases hp with rfl | rfl
    · exact ⟨0, Prog.jump 0 NULL, rfl, by decide!, Or.inr rfl⟩
    · cases hl

theorem short_wait_never_returns_witness :
    (∀ e d, WellBehaved (fun _ => False) (wait_forever_text e d)) ∧
    WaitsShortEveryTime wait_forever_text false wait_forever_code ∧
    JobsInv (fun _ => False) wait_forever_created [] ∧
    (⟨1, none⟩ : job_t) ∈ wait_forever_created.jobs ∧
    NextCode wait_forever_text wait_forever_code wait_forever_created 1 ∧
    jobs_run wait_forever_text false 1000 0 wait_forever_created = none :=
  have hinv : JobsInv (fun _ => False) wait_forever_created [] :=
    jobsInv_job_create _ World.init (some 0) none (jobsInv_init _)
  have hJ : (⟨1, none⟩ : job_t) ∈ wait_forever_created.jobs := by decide
  have hcode : NextCode wait_forever_text wait_forever_code wait_forever_created 1 :=
    Or.inl ⟨rfl, 0, by decide, Or.inl rfl⟩
  ⟨wait_forever_text_wellBehaved, wait_forever_waits_short false, hinv, hJ, hcode,
    short_wait_never_returns (fun _ => False) wait_forever_text wait_forever_text_wellBehaved
      false wait_forever_code (wait_forever_waits_short false) ⟨1, none⟩ wait_forever_created
      hinv hJ hcode 1000 0⟩

/-! ## C23 -/

theorem wait_requeued_of_kind (time : ℚ) (mem : Nat → Int) (x : job_waiting_t)
    (h : x.condition = JOB_WAIT_TIMER ∨ x.condition = JOB_WAIT_COUNTER_ZERO) :
    wait_requeued time mem x = !wait_satisfied time mem x := by
  rcases h with h | h
  · simp [wait_requeued, wait_satisfied, h]
  · cases ha : x.data_address <;> simp [wait_requeued, wait_satisfied, h, ha]

/-- C23 (amended): the waiting-queue pass is a stable partition.  For every ready queue and
every waiting queue of Timer and CounterZero records, the first half of an iteration of the
outer loop of `jobs_run(time)` returns; the running batch is the ready queue in its order
followed by the jobs of the records that pass the test of the pass, in their order in the
waiting queue, and the waiting queue is left as the records that fail the test, in their
order; the ready queue is left empty.  The inner loop then resumes the jobs of the batch in
that order, when it returns. -/
theorem waiting_pass_stable_partition (text : Nat → zero_userdata_t → Prog) (debug : Bool)
    (fuel : Nat) (time : ℚ) (w : World)
    (hW : ∀ x ∈ w.waiting_jobs,
      x.condition = JOB_WAIT_TIMER ∨ x.condition = JOB_WAIT_COUNTER_ZERO) :
    jobs_run_queueing time w =
      some ({ w with
          jobs := []
          waiting_jobs := w.waiting_jobs.filter (fun x => !wait_satisfied time w.mem x) },
        w.jobs ++ (w.waiting_jobs.filter (wait_satisfied time w.mem)).map (fun x => x.job)) ∧
    ∀ (w1 w2 : World) (batch : List job_t), jobs_run_queueing time w = some (w1, batch) →
      jobs_run_running text debug fuel batch w1 = some w2 →
      ∃ l, w2.log = w1.log ++ l ∧ resumes l = batch := by
  refine ⟨?_, fun w1 w2 batch _ h => jobs_run_running_resumes text debug fuel batch w1 w2 h⟩
  rw [jobs_run_queueing_eq]
  have : w.waiting_jobs.filter (wait_requeued time w.mem) =
      w.waiting_jobs.filter (fun x => !wait_satisfied time w.mem x) :=
    List.filter_congr (fun x hx => wait_requeued_of_kind time w.mem x (hW x hx))
  rw [this]

/-- The state `partition_world` is reached by the calls `partition_calls`; its ready queue
is the fibers 1 and 2 and its waiting queue the records of the fibers 3 to 7 with the
deadlines 1, 2, 1/2 and the counters at 0 and 1, which are both 1. -/
theorem partition_world_eq :
    (host_calls partition_text false 8 partition_calls World.init).isSome = true ∧
    partition_world.jobs.map (fun j => j.fiber) = [1, 2] ∧
    partition_world.waiting_jobs.map
      (fun x => (x.job.fiber, x.condition, x.end_time, x.data_address)) =
      [(3, JOB_WAIT_TIMER, 1, none), (4, JOB_WAIT_TIMER, 2, none),
       (5, JOB_WAIT_COUNTER_ZERO, 0, some 0), (6, JOB_WAIT_COUNTER_ZERO, 0, some 1),
       (7, JOB_WAIT_TIMER, 1 / 2, none)] ∧
    partition_world.mem 0 = 1 ∧ partition_world.mem 1 = 1 := by
  decide!

/-- The first pass of the Tick at time 1 on the state `partition_world`: the batch is the
fibers 1, 2, 3 and 7, and the records of the fibers 4, 5 and 6 stay in the waiting
queue. -/
theorem partition_world_pass :
    (jobs_run_queueing 1 partition_world).map
      (fun r => (r.1.jobs, r.1.waiting_jobs.map (fun x => x.job.fiber),
        r.2.map (fun j => j.fiber))) = some ([], [4, 5, 6], [1, 2, 3, 7]) := by
  decide!

/-- The Tick at time 1 on the state `partition_world` returns.  It resumes the fibers 1,
2, 3 and 7 of the first batch in this order, then the fibers 5 and 6, whose counters the
first batch has brought to zero and which the second pass finds satisfied, in the order
of their records; the record of fiber 4 stays in the waiting queue. -/
theorem partition_world_tick :
    (jobs_run partition_text false 8 1 partition_world).map
      (fun w1 => ((resumes (w1.log.drop partition_world.log.length)).map (fun j => j.fiber),
        w1.waiting_jobs.map (fun x => x.job.fiber))) = some ([1, 2, 3, 7, 5, 6], [4]) := by
  decide!

/-- Witness for C23: the first pass of the Tick at time 1 on the state `partition_world`,
which the calls `partition_calls` reach. -/
theorem waiting_pass_stable_partition_witness :
    (∀ x ∈ partition_world.waiting_jobs,
      x.condition = JOB_WAIT_TIMER ∨ x.condition = JOB_WAIT_COUNTER_ZERO) ∧
    (jobs_run_queueing 1 partition_world =
      some ({ partition_world with
          jobs := []
          waiting_jobs := partition_world.waiting_jobs.filter
            (fun x => !wait_satisfied 1 partition_world.mem x) },
        partition_world.jobs ++
          (partition_world.waiting_jobs.filter (wait_satisfied 1 partition_world.mem)).map
            (fun x => x.job)) ∧
    ∀ (w1 w2 : World) (batch : List job_t),
      jobs_run_queueing 1 partition_world = some (w1, batch) →
      jobs_run_running partition_text false 8 batch w1 = some w2 →
      ∃ l, w2.log = w1.log ++ l ∧ resumes l = batch) :=
  ⟨by decide!, waiting_pass_stable_partition partition_text false 8 1
    partition_world (by decide!)⟩

/-! ## C24 -/

/-- The first switch to a fiber that has a fresh context: the resume call of another
fiber enters the entrypoint with the payload of the resume. -/
theorem resume_enters_entrypoint (text : Nat → zero_userdata_t → Prog) (debug : Bool)
    (w : World) (F e : Nat) (P : zero_userdata_t) (k : zero_userdata_t → Prog)
    (hctx : w.context F = Frame.entry) (he : (w.fibers F).entrypoint = some e)
    (hst : (w.fibers F).status ≠ ZERO_FIBER_ENDED) (hcur : (zero_fiber_active w).2 ≠ F) :
    ∃ w2, step text debug w (Prog.fiber_resume F P k) = Outcome.next w2 (text e P) ∧
      w2.zero_fiber_current = some F ∧ (w2.fibers F).userdata = P ∧
      (w2.fibers F).status = ZERO_FIBER_RUNNING := by
  have hst1 : ((zero_fiber_active w).1.fibers F).status ≠ ZERO_FIBER_ENDED := by
    rw [zero_fiber_active_status w F (Ne.symm hcur)]; exact hst
  have he1 : ((zero_fiber_active w).1.fibers F).entrypoint = some e := by
    unfold zero_fiber_active at hcur ⊢
    split
    · rename_i hc
      simp only [hc] at hcur
      simp [set_status, Function.update_noteq (Ne.symm hcur), he]
    · exact he
  have hctx1 : (zero_fiber_active w).1.context F = Frame.entry := by
    rw [zero_fiber_active_context]; exact hctx
  have h : step text debug w (Prog.fiber_resume F P k) = Outcome.next
      (resume_world (zero_fiber_active w).1 (zero_fiber_active w).2 F P k) (text e P) := by
    simp only [step, zero_fiber_resume, if_neg hst1]
    generalize zero_fiber_active w = a at hcur hst1 he1 hctx1
    obtain ⟨w1, R⟩ := a
    simp only at hcur hst1 he1 hctx1
    simp [zero_context_switch, resume_world, save_context, Function.update_noteq (Ne.symm hcur),
      hctx1, zero_fiber_active, set_status, set_userdata, set_caller, he1]
  refine ⟨_, h, ?_⟩
  simp [resume_world, save_context, set_status, set_userdata, set_caller]

theorem zero_fiber_active_ne (w : World) (F : Nat) (h0 : F ≠ 0)
    (hc : w.zero_fiber_current ≠ some F) : (zero_fiber_active w).2 ≠ F := by
  unfold zero_fiber_active
  split
  · exact Ne.symm h0
  · rename_i f hf
    intro h
    exact hc (hf.trans (congrArg some h))

/-- C24: the argument of the entrypoint is the payload of the first resume.  A fiber `F`
whose context is fresh (created by `zero_fiber_make` or derived again by `job_alloc`, and
not switched to since), whose entrypoint is `e` and which is not Ended is resumed by
another fiber with the payload `P`: the call enters the entrypoint `e` with the argument
`P`, whatever the userdata of `F` was, and `F` is the current fiber with the userdata
`P`.  In particular the resume that the inner loop of `jobs_run` makes for a job `J` on
such a fiber, which has a null payload, enters the entrypoint with null. -/
theorem entrypoint_receives_resume_payload (text : Nat → zero_userdata_t → Prog)
    (debug : Bool) (w : World) (F e : Nat) (P : zero_userdata_t)
    (k : zero_userdata_t → Prog)
    (hctx : w.context F = Frame.entry) (he : (w.fibers F).entrypoint = some e)
    (hst : (w.fibers F).status ≠ ZERO_FIBER_ENDED) (hcur : (zero_fiber_active w).2 ≠ F) :
    (∃ w2, step text debug w (Prog.fiber_resume F P k) = Outcome.next w2 (text e P) ∧
      w2.zero_fiber_current = some F ∧ (w2.fibers F).userdata = P) ∧
    ∀ (J : job_t), J.fiber = F → ∃ w3, ∀ (fuel : Nat),
      run text debug (fuel + 1)
          { w with job_current := some J, log := w.log ++ [Event.resumed J] }
          (Prog.fiber_resume J.fiber NULL Prog.done) =
        run text debug fuel w3 (text e NULL) := by
  constructor
  · obtain ⟨w2, h1, h2, h3, -⟩ := resume_enters_entrypoint text debug w F e P k hctx he hst hcur
    exact ⟨w2, h1, h2, h3⟩
  · intro J hJ
    subst hJ
    have hcur1 : (zero_fiber_active
        { w with job_current := some J, log := w.log ++ [Event.resumed J] }).2 ≠ J.fiber := by
      cases hc : w.zero_fiber_current with
      | none => simpa [zero_fiber_active, hc] using hcur
      | some c => simpa [zero_fiber_active, hc] using hcur
    obtain ⟨w3, h1, -⟩ := resume_enters_entrypoint text debug
      { w with job_current := some J, log := w.log ++ [Event.resumed J] } J.fiber e NULL
      Prog.done hctx he hst hcur1
    refine ⟨w3, fun fuel => ?_⟩
    simp only [run, h1]

/-- Witness for C24: a fiber made with the userdata 7 and resumed with the payload 3 has
its entrypoint called with 3. -/
theorem entrypoint_receives_resume_payload_witness :
    payload_world.context 1 = Frame.entry ∧ (payload_world.fibers 1).entrypoint = some 0 ∧
    (payload_world.fibers 1).status ≠ ZERO_FIBER_ENDED ∧
    (zero_fiber_active payload_world).2 ≠ 1 ∧ (payload_world.fibers 1).userdata = 7 ∧
    step payload_text false World.init payload_main =
      Outcome.next payload_world (Prog.fiber_resume 1 3 Prog.done) ∧
    ((∃ w2, step payload_text false payload_world (Prog.fiber_resume 1 3 Prog.done) =
        Outcome.next w2 (payload_text 0 3) ∧
      w2.zero_fiber_current = some 1 ∧ (w2.fibers 1).userdata = 3) ∧
    ∀ (J : job_t), J.fiber = 1 → ∃ w3, ∀ (fuel : Nat),
      run payload_text false (fuel + 1)
          { payload_world with
            job_current := some J, log := payload_world.log ++ [Event.resumed J] }
          (Prog.fiber_resume J.fiber NULL Prog.done) =
        run payload_text false fuel w3 (payload_text 0 NULL)) :=
  ⟨rfl, by decide, by decide, by decide, by decide, rfl,
    entrypoint_receives_resume_payload payload_text false payload_world 1 0 3 Prog.done rfl
      (by decide) (by decide) (by decide)⟩

/-- The thread's code `payload_main` ends with the payload 3 of the resume, which the
entrypoint has returned, not with the userdata 7 of the creation. -/
theorem payload_main_run :
    (run payload_text false 4 World.init payload_main).map (fun r => r.2) = some 3 := by
  decide

/-- A fiber claimed by `job_alloc(e, d)` and resumed next by another fiber with the
payload `P` has its entrypoint called with `P`. -/
theorem job_alloc_then_resume (text : Nat → zero_userdata_t → Prog) (debug : Bool)
    (cfg : zero_jobs_config) (w w1 : World) (e : Nat) (d P : zero_userdata_t) (j : Nat)
    (k : zero_userdata_t → Prog) (h : job_alloc cfg w (some e) d = some (w1, some j))
    (hcur : (zero_fiber_active w1).2 ≠ (w1.job_heap j).fiber) :
    ((w1.fibers (w1.job_heap j).fiber).userdata = d) ∧
    ∃ w2, step text debug w1 (Prog.fiber_resume (w1.job_heap j).fiber P k) =
      Outcome.next w2 (text e P) := by
  obtain ⟨h1, h2, h3, h4, h5⟩ := job_alloc_loop_post (some e) d _ 0 w w1 j h
  rw [← h5] at h1 h2 h3 h4
  obtain ⟨w2, hs, -⟩ := resume_enters_entrypoint text debug w1 _ e P k h4 h1
    (by rw [h3]; decide) hcur
  exact ⟨h2, w2, hs⟩

/-! ## A fiber stays unentered until its first resume -/

theorem unentered_congr (w w1 : World) (F e : Nat) (h : Unentered w F e)
    (hctx : w1.context F = w.context F) (hfib : w1.fibers F = w.fibers F)
    (hn : w.nfibers ≤ w1.nfibers) (hcur : w1.zero_fiber_current ≠ some F)
    (hcal : ∀ g, (w1.fibers g).caller ≠ some F) : Unentered w1 F e :=
  ⟨hctx.trans h.ctx, by rw [hfib]; exact h.entrypoint, by rw [hfib]; exact h.status,
    Nat.lt_of_lt_of_le h.allocated hn, h.ne_main, hcur, hcal⟩

theorem unentered_active (w : World) (F e : Nat) (h : Unentered w F e) :
    Unentered (zero_fiber_active w).1 F e := by
  unfold zero_fiber_active
  split
  · refine unentered_congr w _ F e h rfl ?_ (Nat.le_refl _)
      (fun hh => h.ne_main (Option.some.inj hh).symm) ?_
    · simp [set_status, Function.update_noteq h.ne_main]
    · intro g
      by_cases hg : g = 0
      · subst hg; simpa [set_status] using h.not_caller 0
      · simpa [set_status, Function.update_noteq hg] using h.not_caller g
  · exact h

theorem unentered_active_ne (w : World) (F e : Nat) (h : Unentered w F e) :
    (zero_fiber_active w).2 ≠ F :=
  zero_fiber_active_ne w F h.ne_main h.not_current

theorem unentered_switch (text : Nat → zero_userdata_t → Prog) (w w1 : World) (target : Nat)
    (p1 : Prog) (F e : Nat) (h : Unentered w F e)
    (hs : zero_context_switch text w target = Outcome.next w1 p1) : Unentered w1 F e := by
  unfold zero_context_switch at hs
  split at hs
  · simp only at hs
    split at hs
    · cases hs
    · injection hs with h1 h2
      subst h1
      exact unentered_active w F e h
  · split at hs
    · cases hs
    · injection hs with h1 h2
      subst h1
      exact h
  · injection hs with h1 h2
    subst h1
    exact h
  · cases hs

/-- The walk of `zero_fiber_return` ends at the fiber it started from or at the caller of
some fiber. -/
theorem zero_fiber_return_walk_result (w : World) :
    ∀ (n f g : Nat), zero_fiber_return_walk w n f = some g →
      g = f ∨ ∃ h, (w.fibers h).caller = some g := by
  intro n
  induction n with
  | zero => intro f g h; simp [zero_fiber_return_walk] at h
  | succ n ih =>
    intro f g h
    simp only [zero_fiber_return_walk] at h
    split at h
    · split at h
      · cases h
      · rename_i c hc
        rcases ih c g h with rfl | hh
        · exact Or.inr ⟨f, hc⟩
        · exact Or.inr hh
    · injection h with h
      exact Or.inl h.symm

theorem unentered_resume (text : Nat → zero_userdata_t → Prog) (w w1 : World)
    (coroutine : Nat) (P : zero_userdata_t) (k : zero_userdata_t → Prog) (p1 : Prog)
    (F e : Nat) (h : Unentered w F e) (hne : coroutine ≠ F)
    (hs : zero_fiber_resume text w coroutine P k = Outcome.next w1 p1) :
    Unentered w1 F e := by
  have ha := unentered_active w F e h
  have hc := unentered_active_ne w F e h
  simp only [zero_fiber_resume] at hs
  generalize zero_fiber_active w = a at hs ha hc
  obtain ⟨wa, R⟩ := a
  simp only at hs ha hc
  split at hs
  · injection hs with h1 h2
    subst h1
    exact ha
  · refine unentered_switch text _ w1 coroutine p1 F e ?_ hs
    refine unentered_congr wa _ F e ha ?_ ?_ (Nat.le_refl _) ?_ ?_
    · simp [save_context, set_status, set_userdata, set_caller, Function.update_noteq (Ne.symm hc)]
    · simp [save_context, set_status, set_userdata, set_caller, Function.update_noteq (Ne.symm hc),
        Function.update_noteq (Ne.symm hne)]
    · simp [save_context, hne]
    · intro g
      have hg := ha.not_caller g
      by_cases h1 : g = coroutine
      · subst h1
        simp only [save_context, set_status, set_userdata, set_caller, Function.update_same]
        by_cases h2 : g = R
        · subst h2
          simp [hc]
        · simp [Function.update_noteq h2, hc]
      · simp only [save_context, set_status, set_userdata, set_caller,
          Function.update_noteq h1]
        by_cases h2 : g = R
        · subst h2
          simpa [Function.update_noteq h1] using hg
        · simpa [Function.update_noteq h2, Function.update_noteq h1] using hg

theorem unentered_yield (text : Nat → zero_userdata_t → Prog) (debug : Bool) (w w1 : World)
    (Q : zero_userdata_t) (k : zero_userdata_t → Prog) (p1 : Prog)
    (F e : Nat) (h : Unentered w F e)
    (hs : zero_fiber_yield text debug w Q k = Outcome.next w1 p1) :
    Unentered w1 F e := by
  have ha := unentered_active w F e h
  have hc := unentered_active_ne w F e h
  simp only [zero_fiber_yield] at hs
  generalize zero_fiber_active w = a at hs ha hc
  obtain ⟨wa, R⟩ := a
  simp only at hs ha hc
  split at hs
  · injection hs with h1 h2
    subst h1
    exact ha
  · split at hs
    · injection hs with h1 h2
      subst h1
      exact ha
    · split at hs
      · injection hs with h1 h2
        subst h1
        exact ha
      · split at hs
        · cases hs
        · rename_i caller hcaller
          have hcF : caller ≠ F := fun hh => ha.not_caller R (by rw [hcaller, hh])
          refine unentered_switch text _ w1 caller p1 F e ?_ hs
          refine unentered_congr wa _ F e ha ?_ ?_ (Nat.le_refl _) ?_ ?_
          · simp [save_context, set_status, set_userdata, Function.update_noteq (Ne.symm hc)]
          · simp [save_context, set_status, set_userdata, Function.update_noteq (Ne.symm hc),
              Function.update_noteq (Ne.symm hcF)]
          · simp [save_context, hcF]
          · intro g
            have hg := ha.not_caller g
            by_cases h1 : g = caller
            · subst h1
              by_cases h2 : g = R
              · subst h2
                simpa [save_context, set_status, set_userdata] using hg
              · simpa [save_context, set_status, set_userdata, Function.update_noteq h2,
                  Function.update_noteq (Ne.symm h2)] using hg
            · by_cases h2 : g = R
              · subst h2
                simpa [save_context, set_status, set_userdata, Function.update_noteq h1,
                  Function.update_noteq (Ne.symm h1)] using hg
              · simpa [save_context, set_status, set_userdata, Function.update_noteq h1,
                  Function.update_noteq h2] using hg

theorem unentered_return (text : Nat → zero_userdata_t → Prog) (w w1 : World)
    (v : zero_userdata_t) (p1 : Prog) (F e : Nat) (h : Unentered w F e)
    (hs : zero_fiber_return text w v = Outcome.next w1 p1) : Unentered w1 F e := by
  have ha := unentered_active w F e h
  have hc := unentered_active_ne w F e h
  simp only [zero_fiber_return] at hs
  generalize zero_fiber_active w = a at hs ha hc
  obtain ⟨wa, R⟩ := a
  simp only at hs ha hc
  split at hs
  · cases hs
  · rename_i g hg
    have hcal : ∀ x, ((set_status wa R ZERO_FIBER_ENDED).fibers x).caller ≠ some F := by
      intro x
      by_cases hx : x = R
      · subst hx
        simpa [set_status] using ha.not_caller x
      · simpa [set_status, Function.update_noteq hx] using ha.not_caller x
    have hgF : g ≠ F := by
      rcases zero_fiber_return_walk_result _ _ _ _ hg with rfl | ⟨x, hx⟩
      · exact hc
      · intro hh
        exact hcal x (by rw [hx, hh])
    refine unentered_switch text _ w1 g p1 F e ?_ hs
    refine unentered_congr wa _ F e ha ?_ ?_ (Nat.le_refl _) ?_ ?_
    · simp [save_context, set_status, set_userdata, Function.update_noteq (Ne.symm hc)]
    · simp [save_context, set_status, set_userdata, Function.update_noteq (Ne.symm hc),
        Function.update_noteq (Ne.symm hgF)]
    · simp [save_context, set_userdata, hgF]
    · intro x
      have hx := hcal x
      by_cases h1 : x = g
      · subst h1
        simpa [save_context, set_userdata] using hx
      · simpa [save_context, set_userdata, Function.update_noteq h1] using hx

theorem unentered_make (w : World) (size : Nat) (e1 : Option Nat) (d : zero_userdata_t)
    (F e : Nat) (h : Unentered w F e) : Unentered (zero_fiber_make w size e1 d).1 F e := by
  have hF : F ≠ w.nfibers := Nat.ne_of_lt h.allocated
  refine unentered_congr w _ F e h ?_ ?_ (Nat.le_succ _) h.not_current ?_
  · simp [zero_fiber_make, Function.update_noteq hF]
  · simp [zero_fiber_make, Function.update_noteq hF]
  · intro g
    by_cases hg : g = w.nfibers
    · subst hg
      simp [zero_fiber_make]
    · simpa [zero_fiber_make, Function.update_noteq hg] using h.not_caller g

theorem unentered_job_create (w : World) (e1 c : Option Nat) (F e : Nat)
    (h : Unentered w F e) : Unentered (job_create w e1 c) F e := by
  have h1 := unentered_make w (4 * 1024) e1 NULL F e h
  refine unentered_congr _ _ F e h1 ?_ ?_ ?_ ?_ ?_
  · cases c <;> rfl
  · cases c <;> rfl
  · cases c <;> exact Nat.le_refl _
  · cases c <;> exact h1.not_current
  · cases c <;> exact h1.not_caller

/-- A fresh fiber made by `zero_fiber_make` is unentered, in a world whose current fiber
and callers are allocated fibers. -/
theorem unentered_of_make (w : World) (size e : Nat) (d : zero_userdata_t)
    (hn : 1 ≤ w.nfibers) (hcur : ∀ c, w.zero_fiber_current = some c → c < w.nfibers)
    (hcal : ∀ g c, (w.fibers g).caller = some c → c < w.nfibers) :
    Unentered (zero_fiber_make w size (some e) d).1 w.nfibers e := by
  refine ⟨by simp [zero_fiber_make], by simp [zero_fiber_make], by simp [zero_fiber_make],
    by simp [zero_fiber_make], by omega, ?_, ?_⟩
  · intro hh
    exact absurd (hcur _ hh) (Nat.lt_irrefl _)
  · intro g
    by_cases hg : g = w.nfibers
    · subst hg
      simp [zero_fiber_make]
    · intro hh
      simp only [zero_fiber_make, Function.update_noteq hg] at hh
      exact absurd (hcal g _ hh) (Nat.lt_irrefl _)

/-- Every library call other than a resume of `F` leaves `F` unentered. -/
theorem unentered_step (text : Nat → zero_userdata_t → Prog) (debug : Bool) (w w1 : World)
    (p p1 : Prog) (F e : Nat) (h : Unentered w F e)
    (hp : ∀ P k, p ≠ Prog.fiber_resume F P k)
    (hs : step text debug w p = Outcome.next w1 p1) : Unentered w1 F e := by
  have hpush : ∀ (w0 : World), w0.fibers = w.fibers → w0.context = w.context →
      w0.nfibers = w.nfibers → w0.zero_fiber_current = w.zero_fiber_current →
      Unentered w0 F e := fun w0 h1 h2 h3 h4 =>
    unentered_congr w w0 F e h (by rw [h2]) (by rw [h1]) (by rw [h3])
      (by rw [h4]; exact h.not_current) (by rw [h1]; exact h.not_caller)
  cases p with
  | ret v => exact unentered_return text w w1 v p1 F e h hs
  | done v => cases hs
  | fiber_yield q k => exact unentered_yield text debug w w1 q k p1 F e h hs
  | fiber_resume f q k =>
    have hf : f ≠ F := fun hh => hp q k (by rw [hh])
    exact unentered_resume text w w1 f q k p1 F e h hf hs
  | fiber_make size e1 d k =>
    simp only [step] at hs
    injection hs with h1 h2
    subst h1
    exact unentered_make w size e1 d F e h
  | fiber_is_active f k =>
    simp only [step] at hs
    injection hs with h1 h2
    subst h1
    exact h
  | job_create e1 c k =>
    simp only [step] at hs
    injection hs with h1 h2
    subst h1
    exact unentered_job_create w e1 c F e h
  | job_yield k =>
    simp only [step, job_yield_push] at hs
    cases hj : w.job_current with
    | none => simp [hj] at hs
    | some j =>
      simp only [hj] at hs
      refine unentered_yield text debug _ w1 NULL _ p1 F e ?_ hs
      exact hpush _ rfl rfl rfl rfl
  | job_wait d k =>
    simp only [step, job_wait_push] at hs
    cases hj : w.job_current with
    | none => simp [hj] at hs
    | some j =>
      simp only [hj] at hs
      refine unentered_yield text debug _ w1 NULL _ p1 F e ?_ hs
      exact hpush _ rfl rfl rfl rfl
  | job_wait_on_condition c k =>
    simp only [step, job_wait_on_condition_push] at hs
    cases hj : w.job_current with
    | none => simp [hj] at hs
    | some j =>
      simp only [hj] at hs
      refine unentered_yield text debug _ w1 NULL _ p1 F e ?_ hs
      exact hpush _ rfl rfl rfl rfl
  | job_counter_make k =>
    simp only [step, job_counter_make] at hs
    injection hs with h1 h2
    subst h1
    exact hpush _ rfl rfl rfl rfl
  | load a k =>
    simp only [step] at hs
    injection hs with h1 h2
    subst h1
    exact h
  | store a v k =>
    simp only [step] at hs
    injection hs with h1 h2
    subst h1
    exact hpush _ rfl rfl rfl rfl
  | jump e1 d =>
    simp only [step] at hs
    injection hs with h1 h2
    subst h1
    exact h

/-- A fiber stays unentered through any number of library calls, as long as none of them
is a resume of it. -/
theorem unentered_steps (text : Nat → zero_userdata_t → Prog) (debug : Bool) (F e : Nat) :
    ∀ (n : Nat) (w : World) (p : Prog), Unentered w F e →
      (∀ m, m < n → ∀ P k, (steps text debug m w p).2 ≠ Prog.fiber_resume F P k) →
      Unentered (steps text debug n w p).1 F e
  | 0, w, p, h, _ => h
  | n + 1, w, p, h, hno => by
    simp only [steps]
    split
    · rename_i w1 p1 hs
      have h1 := unentered_step text debug w w1 p p1 F e h (hno 0 (Nat.succ_pos n)) hs
      refine unentered_steps text debug F e n w1 p1 h1 ?_
      intro m hm P k
      have := hno (m + 1) (Nat.succ_lt_succ hm) P k
      simpa only [steps, hs] using this
    · exact h

/-- The first resume after `zero_fiber_make`.  The current fiber calls
`zero_fiber_make(name, size, e, d)` in a world whose current fiber and callers are
allocated fibers; after `n` more library calls of the thread, none of which is a resume
of the new fiber `F`, the executing code calls `zero_fiber_resume(F, P)`.  Then the
entrypoint `e` is entered with the argument `P`. -/
theorem first_resume_after_make (text : Nat → zero_userdata_t → Prog) (debug : Bool)
    (w : World) (size e : Nat) (d P : zero_userdata_t) (k0 : Nat → Prog)
    (k : zero_userdata_t → Prog) (n : Nat)
    (hn : 1 ≤ w.nfibers) (hcur : ∀ c, w.zero_fiber_current = some c → c < w.nfibers)
    (hcal : ∀ g c, (w.fibers g).caller = some c → c < w.nfibers)
    (hfirst : ∀ m, m < n → ∀ P1 k1,
      (steps text debug m (zero_fiber_make w size (some e) d).1 (k0 w.nfibers)).2 ≠
        Prog.fiber_resume w.nfibers P1 k1)
    (hres : (steps text debug n (zero_fiber_make w size (some e) d).1 (k0 w.nfibers)).2 =
      Prog.fiber_resume w.nfibers P k) :
    step text debug w (Prog.fiber_make size (some e) d k0) =
      Outcome.next (zero_fiber_make w size (some e) d).1 (k0 w.nfibers) ∧
    ∃ w2, step text debug
        (steps text debug n (zero_fiber_make w size (some e) d).1 (k0 w.nfibers)).1
        (steps text debug n (zero_fiber_make w size (some e) d).1 (k0 w.nfibers)).2 =
      Outcome.next w2 (text e P) := by
  refine ⟨rfl, ?_⟩
  have h := unentered_steps text debug w.nfibers e n _ (k0 w.nfibers)
    (unentered_of_make w size e d hn hcur hcal) hfirst
  obtain ⟨w2, hs, -⟩ := resume_enters_entrypoint text debug _ w.nfibers e P k h.ctx
    h.entrypoint (by rw [h.status]; decide) (unentered_active_ne _ _ e h)
  rw [hres]
  exact ⟨w2, hs⟩

/-! ## C21 -/

theorem skip_world_eq :
    (steps skip_text false 9 World.init skip_main).2 = Prog.ret 9 ∧
    skip_world.zero_fiber_current = some 2 ∧
    (skip_world.fibers 2).caller = some 1 ∧
    (skip_world.fibers 1).status = ZERO_FIBER_ENDED ∧
    (skip_world.fibers 1).caller = some 3 ∧
    (skip_world.fibers 3).status = ZERO_FIBER_SUSPENDED ∧
    (skip_world.fibers 0).status = ZERO_FIBER_SUSPENDED ∧ skip_world.nfibers = 4 :=
  ⟨rfl, by decide, by decide, by decide, by decide, by decide, by decide, by decide⟩

/-- Scenario S6 returns: the resume of B by A returns 22, the value that B returns, and the
resume of A by the thread returns 11, the value that A returns. -/
theorem s6_run :
    (run s6_text false 8 World.init s6_main).map (fun r => (r.1.mem 0, r.2)) =
      some (22, 11) := by
  decide

/-- The number of fibers that the walk passes is determined by its start. -/
theorem returnWalk_det (w : World) (a f g : Nat) (h : ReturnWalk w a f g) :
    ∀ (b g1 : Nat), ReturnWalk w b f g1 → a = b := by
  induction h with
  | here g hg =>
    intro b g1 h1
    cases h1 with
    | here _ _ => rfl
    | skip n _ c _ _ hs _ _ => exact absurd hs hg
  | skip n f c g hf hs hc _ ih =>
    intro b g1 h1
    cases h1 with
    | here _ hg => exact absurd hs hg
    | skip m _ c1 _ _ _ hc1 hw1 =>
      rw [hc] at hc1
      injection hc1 with hc1
      subst hc1
      rw [ih m g1 hw1]

/-- The fibers that the walk passes are distinct allocated fibers. -/
theorem returnWalk_passed (w : World) (n f g : Nat) (h : ReturnWalk w n f g) :
    ∃ l : List Nat, l.length = n ∧ l.Nodup ∧
      ∀ x ∈ l, x < w.nfibers ∧ ∃ m g1, m < n ∧ ReturnWalk w (m + 1) x g1 := by
  induction h with
  | here g hg => exact ⟨[], rfl, List.nodup_nil, by simp⟩
  | skip n f c g hf hs hc hw ih =>
    obtain ⟨l, hl, hnd, hall⟩ := ih
    have hfw : ReturnWalk w (n + 1) f g := ReturnWalk.skip n f c g hf hs hc hw
    refine ⟨f :: l, by simp [hl], List.nodup_cons.2 ⟨?_, hnd⟩, ?_⟩
    · intro hmem
      obtain ⟨-, m, g1, hm, hw1⟩ := hall f hmem
      have := returnWalk_det w (n + 1) f g hfw (m + 1) g1 hw1
      omega
    · intro x hx
      rcases List.mem_cons.1 hx with rfl | hx
      · exact ⟨hf, n, g, Nat.lt_succ_self n, hfw⟩
      · obtain ⟨h1, m, g1, hm, hw1⟩ := hall x hx
        exact ⟨h1, m, g1, Nat.lt_succ_of_lt hm, hw1⟩

/-- A walk passes at most as many fibers as are allocated. -/
theorem returnWalk_le (w : World) (n f g : Nat) (h : ReturnWalk w n f g) :
    n ≤ w.nfibers := by
  obtain ⟨l, hl, hnd, hall⟩ := returnWalk_passed w n f g h
  have hsub : l.toFinset ⊆ Finset.range w.nfibers := by
    intro x hx
    rw [List.mem_toFinset] at hx
    exact Finset.mem_range.2 (hall x hx).1
  have := Finset.card_le_card hsub
  rw [List.toFinset_card_of_nodup hnd, Finset.card_range, hl] at this
  exact this

/-- The loop of `zero_fiber_return` computes the walk, given more iterations than the
walk passes fibers. -/
theorem zero_fiber_return_walk_of (w : World) (n f g : Nat) (h : ReturnWalk w n f g) :
    ∀ m, n < m → zero_fiber_return_walk w m f = some g := by
  induction h with
  | here g hg =>
    intro m hm
    obtain ⟨m, rfl⟩ : ∃ k, m = k + 1 := ⟨m - 1, by omega⟩
    simp [zero_fiber_return_walk, hg]
  | skip n f c g hf hs hc hw ih =>
    intro m hm
    obtain ⟨m, rfl⟩ : ∃ k, m = k + 1 := ⟨m - 1, by omega⟩
    simp only [zero_fiber_return_walk, hs, if_true, hc]
    exact ih m (by omega)

/-- The fiber that the walk reaches is not Ended. -/
theorem returnWalk_live (w : World) (n f g : Nat) (h : ReturnWalk w n f g) :
    (w.fibers g).status ≠ ZERO_FIBER_ENDED := by
  induction h with
  | here g hg => exact hg
  | skip n f c g hf hs hc hw ih => exact ih

/-- C21: a natural return walks to the nearest live ancestor.  The entrypoint of the
current fiber `F` returns `v`.  `zero_fiber_return` sets the status of `F` to Ended; in
the world so obtained, the walk from `F` along the caller links, past `n` allocated fibers
that are Ended (`F` is the first of them), reaches a first fiber `G` that is not Ended.
Then the call switches to the context of `G` in the world `return_world w F G v`: there
the status of `F` is Ended, the userdata of `G` is `v`, `G` is the current fiber, the
userdata of no other fiber has changed, and no caller link and no status other than that
of `F` has changed.  When `G` is parked in `zero_fiber_resume(C, _)` for a fiber `C` whose
caller is `G` (as in scenario S6, where `C` is `F`), that resume call returns `v`. -/
theorem natural_return_walks_to_live_ancestor (text : Nat → zero_userdata_t → Prog)
    (debug : Bool) (w : World) (F G : Nat) (v : zero_userdata_t) (n : Nat)
    (hcur : w.zero_fiber_current = some F)
    (hwalk : ReturnWalk (set_status w F ZERO_FIBER_ENDED) n F G) :
    step text debug w (Prog.ret v) = zero_context_switch text (return_world w F G v) G ∧
    ((return_world w F G v).fibers F).status = ZERO_FIBER_ENDED ∧
    ((return_world w F G v).fibers G).userdata = v ∧
    (return_world w F G v).zero_fiber_current = some G ∧
    (∀ f, f ≠ G → ((return_world w F G v).fibers f).userdata = (w.fibers f).userdata) ∧
    (∀ f, ((return_world w F G v).fibers f).caller = (w.fibers f).caller) ∧
    (∀ f, f ≠ F → ((return_world w F G v).fibers f).status = (w.fibers f).status) ∧
    ∀ (C : Nat) (k : zero_userdata_t → Prog), w.context G = Frame.in_resume C k →
      (w.fibers C).caller = some G →
      step text debug w (Prog.ret v) = Outcome.next (return_world w F G v) (k v) := by
  have hlive := returnWalk_live _ n F G hwalk
  have hGF : G ≠ F := by
    intro h
    rw [h] at hlive
    simp [set_status] at hlive
  have hle := returnWalk_le _ n F G hwalk
  have hw := zero_fiber_return_walk_of _ n F G hwalk (w.nfibers + 1)
    (Nat.lt_succ_of_le hle)
  have hstep : step text debug w (Prog.ret v) =
      zero_context_switch text (return_world w F G v) G := by
    simp only [step, zero_fiber_return, zero_fiber_active_some w F hcur]
    have hnf : (set_status w F ZERO_FIBER_ENDED).nfibers = w.nfibers := rfl
    rw [hnf, hw]
    rfl
  have hcaller : ∀ f, ((return_world w F G v).fibers f).caller = (w.fibers f).caller := by
    intro f
    by_cases h1 : f = G
    · subst h1
      simp [return_world, save_context, set_userdata, set_status, Function.update_noteq hGF]
    · by_cases h2 : f = F
      · subst h2
        simp [return_world, save_context, set_userdata, set_status, Function.update_noteq h1]
      · simp [return_world, save_context, set_userdata, set_status, Function.update_noteq h1,
          Function.update_noteq h2]
  refine ⟨hstep, ?_, ?_, rfl, ?_, hcaller, ?_, ?_⟩
  · simp [return_world, save_context, set_userdata, set_status,
      Function.update_noteq (Ne.symm hGF)]
  · simp [return_world, save_context, set_userdata, set_status]
  · intro f hf
    by_cases h2 : f = F
    · subst h2
      simp [return_world, save_context, set_userdata, set_status, Function.update_noteq hf]
    · simp [return_world, save_context, set_userdata, set_status, Function.update_noteq hf,
        Function.update_noteq h2]
  · intro f hf
    by_cases h1 : f = G
    · subst h1
      simp [return_world, save_context, set_userdata, set_status, Function.update_noteq hf]
    · simp [return_world, save_context, set_userdata, set_status, Function.update_noteq h1,
        Function.update_noteq hf]
  · intro C k hctx hC
    rw [hstep]
    have h1 : (return_world w F G v).context G = Frame.in_resume C k := by
      simp [return_world, save_context, Function.update_noteq hGF, set_userdata, set_status,
        hctx]
    have h2 := hcaller C
    rw [hC] at h2
    simp only [zero_context_switch, h1, h2]
    simp [return_world, save_context, set_userdata, set_status]

/-- Witness for C21: in the world `skip_world`, X (fiber 2) returns 9; the walk passes X
and its caller C (fiber 1), which is Ended, and reaches Y (fiber 3), the caller of C, which
gets the value 9 and becomes the current fiber.  Scenario S6 is evaluated beside it. -/
theorem natural_return_walks_to_live_ancestor_witness :
    (run s6_text false 8 World.init s6_main).map (fun r => (r.1.mem 0, r.2)) =
      some (22, 11) ∧
    skip_world.zero_fiber_current = some 2 ∧
    ReturnWalk (set_status skip_world 2 ZERO_FIBER_ENDED) 2 2 3 ∧
    (step skip_text false skip_world (Prog.ret 9) =
      zero_context_switch skip_text (return_world skip_world 2 3 9) 3 ∧
    ((return_world skip_world 2 3 9).fibers 2).status = ZERO_FIBER_ENDED ∧
    ((return_world skip_world 2 3 9).fibers 3).userdata = 9 ∧
    (return_world skip_world 2 3 9).zero_fiber_current = some 3 ∧
    (∀ f, f ≠ 3 →
      ((return_world skip_world 2 3 9).fibers f).userdata = (skip_world.fibers f).userdata) ∧
    (∀ f, ((return_world skip_world 2 3 9).fibers f).caller = (skip_world.fibers f).caller) ∧
    (∀ f, f ≠ 2 →
      ((return_world skip_world 2 3 9).fibers f).status = (skip_world.fibers f).status) ∧
    ∀ (C : Nat) (k : zero_userdata_t → Prog), skip_world.context 3 = Frame.in_resume C k →
      (skip_world.fibers C).caller = some 3 →
      step skip_text false skip_world (Prog.ret 9) =
        Outcome.next (return_world skip_world 2 3 9) (k 9)) :=
  have hwalk : ReturnWalk (set_status skip_world 2 ZERO_FIBER_ENDED) 2 2 3 :=
    ReturnWalk.skip 1 2 1 3 (by decide) (by decide) (by decide)
      (ReturnWalk.skip 0 1 3 3 (by decide) (by decide) (by decide)
        (ReturnWalk.here 3 (by decide)))
  ⟨s6_run, by decide, hwalk,
    natural_return_walks_to_live_ancestor skip_text false skip_world 2 3 9 2 (by decide) hwalk⟩

/-- In the world `skip_world` the return of X hands control to Y, whose yield call returns
the value 9. -/
theorem skip_world_return :
    (steps skip_text false 10 World.init skip_main).2 = Prog.ret 9 ∧
    (steps skip_text false 10 World.init skip_main).1.zero_fiber_current = some 3 ∧
    ((steps skip_text false 10 World.init skip_main).1.fibers 0).userdata = NULL :=
  ⟨rfl, by decide, by decide⟩

/-! ## C22 -/

/-- The scan of `job_alloc` accesses slots below its bound only. -/
theorem job_alloc_slots_lt :
    ∀ (n slot : Nat) (w : World), ∀ x ∈ job_alloc_slots n slot w, slot ≤ x ∧ x < slot + n
  | 0, slot, w, x, hx => by simp [job_alloc_slots] at hx
  | n + 1, slot, w, x, hx => by
    simp only [job_alloc_slots] at hx
    split at hx
    · simp only [List.mem_singleton] at hx; omega
    · split at hx
      · simp only [List.mem_singleton] at hx; omega
      · split at hx
        · rcases List.mem_cons.1 hx with h | h
          · omega
          · have := job_alloc_slots_lt n (slot + 1) w x h
            omega
        · simp only [ZERO_ATOMIC_CAS] at hx
          split at hx
          · simp only [List.mem_singleton] at hx; omega
          · rcases List.mem_cons.1 hx with h | h
            · omega
            · have := job_alloc_slots_lt n (slot + 1) _ x h
              omega

/-- The loop of `job_alloc` returns when its slots are cells of the table. -/
theorem job_alloc_loop_inside (e : Option Nat) (d : zero_userdata_t) (w : World)
    (cells : List (Option Nat)) (ht : w.zero_jobs_small_free_table = some cells) :
    ∀ (n slot : Nat), slot + n ≤ cells.length → job_alloc_loop e d n slot w ≠ none
  | 0, slot, _ => by simp [job_alloc_loop]
  | n + 1, slot, h => by
    have hs : slot < cells.length := by omega
    simp only [job_alloc_loop, ht, List.get?_eq_getElem?, List.getElem?_eq_getElem hs]
    cases hc : cells[slot] with
    | none => exact job_alloc_loop_inside e d w cells ht n (slot + 1) (by omega)
    | some j => simp [ZERO_ATOMIC_CAS]

/-- The scan of `job_alloc` stays inside a small table of `ZERO_JOBS_SMALL_COUNT` cells,
and the call returns. -/
theorem job_alloc_stays_inside (cfg : zero_jobs_config) (w : World)
    (cells : List (Option Nat)) (ht : w.zero_jobs_small_free_table = some cells)
    (hlen : cells.length = cfg.ZERO_JOBS_SMALL_COUNT) :
    (∀ x ∈ job_alloc_slots cfg.ZERO_JOBS_SMALL_COUNT 0 w, x < cells.length) ∧
    ∀ e d, job_alloc cfg w e d ≠ none := by
  constructor
  · intro x hx
    have := job_alloc_slots_lt _ 0 w x hx
    omega
  · intro e d
    exact job_alloc_loop_inside e d w cells ht _ 0 (by omega)

/-- The loop of `job_alloc_large` faults exactly when it accesses a slot that is not a
cell of the large table. -/
theorem job_alloc_large_loop_none_iff (e : Option Nat) (d : zero_userdata_t) (w : World)
    (cells : List (Option Nat)) (ht : w.zero_jobs_large_free_table = some cells) :
    ∀ (n slot : Nat), job_alloc_large_loop e d n slot w = none ↔
      ∃ x ∈ job_alloc_large_slots n slot w, cells.length ≤ x
  | 0, slot => by simp [job_alloc_large_loop, job_alloc_large_slots]
  | n + 1, slot => by
    simp only [job_alloc_large_loop, job_alloc_large_slots, ht, List.get?_eq_getElem?]
    by_cases hs : slot < cells.length
    · rw [List.getElem?_eq_getElem hs]
      cases hc : cells[slot] with
      | none =>
        simp only [List.mem_cons, exists_eq_or_imp]
        rw [job_alloc_large_loop_none_iff e d w cells ht n (slot + 1)]
        constructor
        · exact fun h => Or.inr h
        · rintro (h | h)
          · omega
          · exact h
      | some j =>
        simp only [ZERO_ATOMIC_CAS, if_true, ne_eq, reduceCtorEq, not_false_eq_true,
          List.mem_singleton, exists_eq_left]
        simp
        omega
    · rw [List.getElem?_eq_none (by omega)]
      simp only [List.mem_singleton, exists_eq_left, true_iff]
      omega

/-- On an exhausted large table of `L` cells, a scan that runs past `L` accesses the slot
`L`, which is not a cell of the table. -/
theorem job_alloc_large_slots_exhausted (w : World) (cells : List (Option Nat))
    (ht : w.zero_jobs_large_free_table = some cells) (hnull : ∀ c ∈ cells, c = none) :
    ∀ (n slot : Nat), slot ≤ cells.length → cells.length < slot + n →
      cells.length ∈ job_alloc_large_slots n slot w
  | 0, slot, h1, h2 => by omega
  | n + 1, slot, h1, h2 => by
    simp only [job_alloc_large_slots, ht, List.get?_eq_getElem?]
    by_cases hs : slot < cells.length
    · rw [List.getElem?_eq_getElem hs]
      have hc : cells[slot] = none := hnull _ (List.getElem_mem hs)
      simp only [hc, List.mem_cons]
      exact Or.inr (job_alloc_large_slots_exhausted w cells ht hnull n (slot + 1) (by omega)
        (by omega))
    · rw [List.getElem?_eq_none (by omega)]
      simp only [List.mem_singleton]
      omega

theorem job_free_table_read_write (w : World) (cells : List (Option Nat))
    (table : job_free_table) (h : table ≠ job_free_table.null) :
    table.read (table.write w cells) = some cells := by
  cases table
  · rfl
  · rfl
  · exact absurd rfl h

/-- The loop of `job_free` never returns early: on a table of `L` cells, a scan that runs
past `L` accesses the slot `L`, which is not a cell of the table, and faults. -/
theorem job_free_slots_past (table : job_free_table) (htable : table ≠ job_free_table.null)
    (L : Nat) :
    ∀ (n slot : Nat) (w : World) (cells : List (Option Nat)), table.read w = some cells →
      cells.length = L → slot ≤ L → L < slot + n →
      L ∈ job_free_slots table n slot w ∧ job_free_loop table n slot w = none
  | 0, slot, w, cells, ht, hlen, h1, h2 => by omega
  | n + 1, slot, w, cells, ht, hlen, h1, h2 => by
    simp only [job_free_slots, job_free_loop, ht, List.get?_eq_getElem?]
    by_cases hs : slot < cells.length
    · rw [List.getElem?_eq_getElem hs]
      have hrec := fun (w1 : World) (c1 : List (Option Nat)) (hr : table.read w1 = some c1)
        (hl : c1.length = L) =>
        job_free_slots_past table htable L n (slot + 1) w1 c1 hr hl (by omega) (by omega)
      cases hc : cells[slot] with
      | none =>
        simp only [ZERO_ATOMIC_CAS, if_true, ne_eq, not_true_eq_false, if_false,
          List.mem_cons]
        have := hrec (table.write w (cells.set slot none)) (cells.set slot none)
          (job_free_table_read_write w _ table htable) (by simp [hlen])
        exact ⟨Or.inr this.1, this.2⟩
      | some j =>
        simp only [reduceCtorEq, if_false, List.mem_cons]
        have := hrec w cells ht hlen
        exact ⟨Or.inr this.1, this.2⟩
    · rw [List.getElem?_eq_none (by omega)]
      simp only [List.mem_singleton, and_true]
      omega

/-- C22, failing input.  The large free-table has `ZERO_JOBS_LARGE_COUNT` cells and
`ZERO_JOBS_LARGE_COUNT < ZERO_JOBS_SMALL_COUNT`, as with the default constants 32 and
128.  When the large pool is exhausted (every cell is null), `job_alloc_large` accesses
the slot `ZERO_JOBS_LARGE_COUNT`, which is outside the table: its loop runs to
`ZERO_JOBS_SMALL_COUNT`.  And `job_free` of any job of the large pool accesses that slot
as well, whatever the cells hold: its loop runs to `ZERO_JOBS_SMALL_COUNT` too and never
returns early.  With bounds-checked accesses both calls fault. -/
theorem large_pool_scans_leave_table (cfg : zero_jobs_config) (w : World)
    (cells : List (Option Nat)) (ht : w.zero_jobs_large_free_table = some cells)
    (hlen : cells.length = cfg.ZERO_JOBS_LARGE_COUNT)
    (hlt : cfg.ZERO_JOBS_LARGE_COUNT < cfg.ZERO_JOBS_SMALL_COUNT) :
    ((∀ c ∈ cells, c = none) →
      cfg.ZERO_JOBS_LARGE_COUNT ∈ job_alloc_large_slots cfg.ZERO_JOBS_SMALL_COUNT 0 w ∧
      ∀ e d, job_alloc_large cfg w e d = none) ∧
    ∀ job, (w.fibers (w.job_heap job).fiber).stack_size = cfg.ZERO_JOBS_LARGE_SIZE →
      cfg.ZERO_JOBS_LARGE_SIZE ≠ cfg.ZERO_JOBS_SMALL_SIZE →
      job_free_select cfg w job = job_free_table.large ∧
      cfg.ZERO_JOBS_LARGE_COUNT ∈ job_free_accesses cfg w job ∧
      job_free cfg w job = none := by
  constructor
  · intro hnull
    have hmem := job_alloc_large_slots_exhausted w cells ht hnull cfg.ZERO_JOBS_SMALL_COUNT 0
      (Nat.zero_le _) (by omega)
    rw [hlen] at hmem
    refine ⟨hmem, fun e d => ?_⟩
    exact (job_alloc_large_loop_none_iff e d w cells ht _ 0).2
      ⟨_, hmem, by omega⟩
  · intro job hsize hne
    have hsel : job_free_select cfg w job = job_free_table.large := by
      simp [job_free_select, hsize, hne]
    have := job_free_slots_past job_free_table.large (by decide) cfg.ZERO_JOBS_LARGE_COUNT
      cfg.ZERO_JOBS_SMALL_COUNT 0 (set_entrypoint w (w.job_heap job).fiber none) cells ht hlen
      (Nat.zero_le _) (by omega)
    refine ⟨hsel, ?_, ?_⟩
    · simp only [job_free_accesses, hsel]
      exact this.1
    · simp only [job_free, hsize, if_neg hne, if_true]
      exact this.2

/-- The world `large_exhausted` is reached: the 32 calls of `job_alloc_large` return the
32 jobs of the large pool, and leave every cell of the large table null. -/
theorem large_exhausted_eq :
    (job_allocs_large zero_jobs_config_default (List.replicate 32 (some 0, NULL))
      (job_pool_init zero_jobs_config_default World.init)).map (fun r => r.2) =
      some ((List.range 32).map (fun k => some (128 + k))) ∧
    large_exhausted.zero_jobs_large_free_table = some (List.replicate 32 none) ∧
    (large_exhausted.fibers (large_exhausted.job_heap 128).fiber).stack_size =
      zero_jobs_config_default.ZERO_JOBS_LARGE_SIZE := by
  decide!

/-- Witness for C22: default constants, pools initialised, the large pool exhausted by 32
claims.  The next `job_alloc_large` and the `job_free` of the first job of the large pool
access slot 32 of the large table, which has 32 cells. -/
theorem large_pool_scans_leave_table_witness :
    large_exhausted.zero_jobs_large_free_table = some (List.replicate 32 none) ∧
    (List.replicate 32 (none : Option Nat)).length =
      zero_jobs_config_default.ZERO_JOBS_LARGE_COUNT ∧
    zero_jobs_config_default.ZERO_JOBS_LARGE_COUNT <
      zero_jobs_config_default.ZERO_JOBS_SMALL_COUNT ∧
    32 ∈ job_alloc_large_slots 128 0 large_exhausted ∧
    (∀ e d, job_alloc_large zero_jobs_config_default large_exhausted e d = none) ∧
    32 ∈ job_free_accesses zero_jobs_config_default large_exhausted 128 ∧
    job_free zero_jobs_config_default large_exhausted 128 = none :=
  have h := large_pool_scans_leave_table zero_jobs_config_default large_exhausted
    (List.replicate 32 none) large_exhausted_eq.2.1 (by decide) (by decide)
  have h1 := h.1 (fun c hc => List.eq_of_mem_replicate hc)
  have h2 := h.2 128 large_exhausted_eq.2.2 (by decide)
  ⟨large_exhausted_eq.2.1, by decide, by decide, h1.1, h1.2, h2.2.1, h2.2.2⟩

/-! ## Counterexamples to the claims as first stated -/

/-- C5, counterexample.  In the Tick `jobs_run(0)` after the calls `raise_calls`, the job
P (fiber 2) blocks in `job_wait_on_condition(c)`; at the second pass `c` is zero and P is
moved to the running batch behind Q (fiber 3), which A has created in the first batch; Q
runs first and creates a job on `c`, which raises `c` to 1; then the scheduler resumes P,
which reads `c == 1`: the counter is tested at the pass and not at the resume.  The trace
shows the creation on `c` before the second resume of P and the decrement after it. -/
theorem counter_waiter_resumed_on_nonzero :
    (host_calls raise_text false 8 raise_calls World.init).map
      (fun w => (w.log, w.mem 1, w.mem 0)) =
      some ([Event.created ⟨1, none⟩, Event.created ⟨2, none⟩, Event.resumed ⟨1, none⟩,
        Event.created ⟨3, none⟩, Event.resumed ⟨2, none⟩, Event.resumed ⟨3, none⟩,
        Event.created ⟨4, some 0⟩, Event.resumed ⟨2, none⟩, Event.resumed ⟨4, some 0⟩,
        Event.decremented ⟨4, some 0⟩ 0], 1, 0) := by
  decide!

/-- C8, counterexample.  The job J (fiber 1), created on the counter `c` (address 0),
resumes a helper fiber that calls `job_yield`, which pushes J on the yielded queue, and
then returns.  `jobs_run(0)` decrements `c` from 1 to 0 when J has Ended; `jobs_run(1)`
resumes the second queue entry of J, which is a no-op on the Ended fiber, and decrements
`c` again, to -1: two decrements for the one job, the second in a later Tick. -/
theorem counter_decremented_twice :
    (host_calls twice_text false 8 twice_calls World.init).map
      (fun w => (w.log, w.mem 0, (w.fibers 1).status)) =
      some ([Event.created ⟨1, some 0⟩, Event.resumed ⟨1, some 0⟩,
        Event.yielded ⟨1, some 0⟩, Event.decremented ⟨1, some 0⟩ 0,
        Event.resumed ⟨1, some 0⟩, Event.decremented ⟨1, some 0⟩ 0], -1,
        ZERO_FIBER_ENDED) := by
  decide!

/-- C14, counterexample.  The job J (fiber 1) calls `job_yield` every time it is resumed,
after it has resumed a helper fiber that calls `job_yield` too; the helper's call pushes J
on the yielded queue as well.  In the Ticks at the times 0, 1/120, 2/120 and 3/120 the
scheduler resumes J once, twice, four times and eight times. -/
theorem yielding_job_resumed_more_than_once :
    (run_ticks helper_text false 16 (tick_times 4) helper_created).map
      (fun r => r.map (fun x => resumes x.1)) =
      some [List.replicate 1 ⟨1, none⟩, List.replicate 2 ⟨1, none⟩,
        List.replicate 4 ⟨1, none⟩, List.replicate 8 ⟨1, none⟩] := by
  decide!

/-- C23, counterexample to the last clause.  In the state `partition_world` the waiting
queue holds the records of the fibers 3, 4, 5, 6 and 7 in this order.  The Tick at time 1
resumes the waiters 3, 7, 5 and 6: the Timer waiter 7, inserted after the CounterZero
waiters 5 and 6, fires in the first pass, and 5 and 6 fire in the second pass of the same
Tick, after the first batch has brought their counters to zero. -/
theorem same_tick_waiters_not_in_insertion_order :
    partition_world.waiting_jobs.map (fun x => x.job.fiber) = [3, 4, 5, 6, 7] ∧
    partition_world.jobs.map (fun j => j.fiber) = [1, 2] ∧
    (jobs_run partition_text false 8 1 partition_world).map
      (fun w1 => (resumes (w1.log.drop partition_world.log.length)).map (fun j => j.fiber)) =
      some [1, 2, 3, 7, 5, 6] := by
  decide!

/-! ## C12 (amended) -/

/-- A record that the pass of this Tick never finds satisfied, whatever the memory, and
which is the only queue entry of its fiber, stays in the waiting queue for the whole Tick,
and the scheduler does not resume its fiber during that Tick. -/
theorem tick_holds_record (text : Nat → zero_userdata_t → Prog) (debug : Bool)
    (fuel : Nat) (now : ℚ) (w w1 : World) (wt : job_waiting_t)
    (hsat : ∀ mem, wait_satisfied now mem wt = false)
    (hreq : ∀ mem, wait_requeued now mem wt = true) (hmem : wt ∈ w.waiting_jobs)
    (halloc : wt.job.fiber < w.nfibers)
    (hjobs : ∀ j ∈ w.jobs ++ w.yielded_jobs, j.fiber ≠ wt.job.fiber)
    (honly : ∀ x ∈ w.waiting_jobs, x.job.fiber = wt.job.fiber → x = wt)
    (h : jobs_run text debug fuel now w = some w1) :
    ∃ l, w1.log = w.log ++ l ∧ (∀ j ∈ resumes l, j.fiber ≠ wt.job.fiber) ∧
      wt ∈ w1.waiting_jobs ∧ wt.job.fiber < w1.nfibers ∧
      (∀ j ∈ w1.jobs ++ w1.yielded_jobs, j.fiber ≠ wt.job.fiber) ∧
      (∀ x ∈ w1.waiting_jobs, x.job.fiber = wt.job.fiber → x = wt) := by
  obtain ⟨w2, hl, rfl⟩ := jobs_run_eq text debug fuel now w w1 h
  have key := jobs_run_loop_inv text debug fuel now
    (fun rest v => ∃ l, v.log = w.log ++ l ∧ (∀ j ∈ resumes l, j.fiber ≠ wt.job.fiber) ∧
      (∀ j ∈ rest, j.fiber ≠ wt.job.fiber) ∧ (∀ j ∈ v.jobs, j.fiber ≠ wt.job.fiber) ∧
      (∀ j ∈ v.yielded_jobs, j.fiber ≠ wt.job.fiber) ∧ wt.job.fiber < v.nfibers ∧
      wt ∈ v.waiting_jobs ∧ (∀ x ∈ v.waiting_jobs, x.job.fiber = wt.job.fiber → x = wt))
    (by
      intro J rest v v1 ⟨l, hlog, h1, h2, h3, h4, h5, h6, h7⟩ hj
      obtain ⟨l', ws, d, e1, e2, e3, -, -, e4, e5, -, e6, e7, e8, e9, e10, -, -⟩ :=
        jobs_run_job_ext text debug fuel J v v1 hj
      have hJ : J.fiber ≠ wt.job.fiber := h2 J (List.mem_cons_self _ _)
      refine ⟨l ++ Event.resumed J :: (l' ++ d), by rw [e1, hlog, List.append_assoc], ?_, ?_, ?_,
        ?_, lt_of_lt_of_le h5 e10, ?_, ?_⟩
      · intro j hj
        rw [resumes_append] at hj
        rcases List.mem_append.mp hj with hj | hj
        · exact h1 j hj
        · simp only [resumes, resumes_append, e2, e3, List.append_nil, List.mem_singleton] at hj
          rw [hj]; exact hJ
      · intro j hj; exact h2 j (List.mem_cons_of_mem _ hj)
      · intro j hj
        rw [e4] at hj
        rcases List.mem_append.mp hj with hj | hj
        · exact h3 j hj
        · have := (e5 j hj).1
          omega
      · intro j hj
        rw [e6] at hj
        rcases List.mem_append.mp hj with hj | hj
        · exact h4 j hj
        · rw [e7 j hj]; exact hJ
      · rw [e8]; exact List.mem_append_left _ h6
      · intro x hx hf
        rw [e8] at hx
        rcases List.mem_append.mp hx with hx | hx
        · exact h7 x hx hf
        · rw [e9 x hx] at hf; exact absurd hf hJ)
    (by
      intro v v1 batch ⟨l, hlog, h1, _, h3, h4, h5, h6, h7⟩ hq
      rw [jobs_run_queueing_eq] at hq
      injection hq with hq
      injection hq with hq1 hq2
      subst hq1
      subst hq2
      refine ⟨l, hlog, h1, ?_, by simp, h4, h5, List.mem_filter.mpr ⟨h6, hreq _⟩, ?_⟩
      · intro j hj
        rcases List.mem_append.mp hj with hj | hj
        · exact h3 j hj
        · obtain ⟨x, hx, rfl⟩ := List.mem_map.mp hj
          obtain ⟨hx1, hx2⟩ := List.mem_filter.mp hx
          intro hf
          rw [h7 x hx1 hf, hsat] at hx2
          cases hx2
      · intro x hx hf
        exact h7 x (List.mem_filter.mp hx).1 hf)
    fuel { w with latest_time := now } w2
    ⟨[], by simp, by simp [resumes], by simp,
      fun j hj => hjobs j (List.mem_append_left _ hj),
      fun j hj => hjobs j (List.mem_append_right _ hj), halloc, hmem, honly⟩ hl
  obtain ⟨w0, ⟨l, hlog, h1, _, h3, h4, h5, h6, h7⟩, hq⟩ := key
  rw [jobs_run_queueing_eq] at hq
  injection hq with hq
  injection hq with hq1 hq2
  subst hq1
  refine ⟨l, hlog, h1, List.mem_filter.mpr ⟨h6, hreq _⟩, h5, ?_, ?_⟩
  · intro j hj
    simp only [List.nil_append, List.append_nil, List.mem_append, List.not_mem_nil,
      or_false] at hj
    exact h4 j hj
  · intro x hx hf
    exact h7 x (List.mem_filter.mp hx).1 hf


/-- C12 (amended): waiting on a null counter is never satisfied.  A call of
`job_wait_on_condition(nullptr)` by the job `j` pushes a CounterZero record with a null
counter.  Such a record `x` fails the test of every waiting-queue pass, whatever the time
and the memory, and is pushed back on the waiting queue.  When `x` is in the waiting
queue and is the only queue entry of its (allocated) fiber, then for every program text,
when the Tick `jobs_run(now)` returns, the scheduler has resumed that fiber nowhere in the
Tick, `x` is still in the waiting queue and is still the only queue entry of its fiber:
the same holds for every later Tick. -/
theorem null_counter_never_satisfied (text : Nat → zero_userdata_t → Prog) (debug : Bool)
    (fuel : Nat) (now : ℚ) (w w1 : World) (x : job_waiting_t)
    (hcond : x.condition = JOB_WAIT_COUNTER_ZERO) (haddr : x.data_address = none)
    (hmem : x ∈ w.waiting_jobs) (halloc : x.job.fiber < w.nfibers)
    (hjobs : ∀ j ∈ w.jobs ++ w.yielded_jobs, j.fiber ≠ x.job.fiber)
    (honly : ∀ y ∈ w.waiting_jobs, y.job.fiber = x.job.fiber → y = x)
    (h : jobs_run text debug fuel now w = some w1) :
    (∀ (v : World) (j : job_t), v.job_current = some j →
      job_wait_on_condition_push v none = some { v with
        waiting_jobs := v.waiting_jobs ++ [⟨j, JOB_WAIT_COUNTER_ZERO, 0, none⟩] }) ∧
    (∀ (time : ℚ) (mem : Nat → Int),
      wait_satisfied time mem x = false ∧ wait_requeued time mem x = true) ∧
    (∃ v batch, jobs_run_queueing now w = some (v, batch) ∧ x ∈ v.waiting_jobs ∧
      ∀ j ∈ batch, j.fiber ≠ x.job.fiber) ∧
    ∃ l, w1.log = w.log ++ l ∧ (∀ j ∈ resumes l, j.fiber ≠ x.job.fiber) ∧
      x ∈ w1.waiting_jobs ∧ x.job.fiber < w1.nfibers ∧
      (∀ j ∈ w1.jobs ++ w1.yielded_jobs, j.fiber ≠ x.job.fiber) ∧
      (∀ y ∈ w1.waiting_jobs, y.job.fiber = x.job.fiber → y = x) := by
  have hsat : ∀ (time : ℚ) (mem : Nat → Int), wait_satisfied time mem x = false :=
    fun time mem => by simp [wait_satisfied, hcond, haddr]
  have hreq : ∀ (time : ℚ) (mem : Nat → Int), wait_requeued time mem x = true :=
    fun time mem => by simp [wait_requeued, hcond, haddr]
  refine ⟨?_, fun time mem => ⟨hsat time mem, hreq time mem⟩, ?_,
    tick_holds_record text debug fuel now w w1 x (hsat now) (hreq now) hmem halloc hjobs
      honly h⟩
  · intro v j hj
    simp [job_wait_on_condition_push, hj]
  · refine ⟨_, _, jobs_run_queueing_eq now w, List.mem_filter.2 ⟨hmem, hreq now w.mem⟩, ?_⟩
    intro j hj
    rcases List.mem_append.1 hj with hj | hj
    · exact hjobs j (List.mem_append_left _ hj)
    · obtain ⟨y, hy, rfl⟩ := List.mem_map.1 hj
      obtain ⟨hy1, hy2⟩ := List.mem_filter.1 hy
      intro hf
      rw [honly y hy1 hf, hsat] at hy2
      cases hy2

/-- The Tick at time 1 on the world `null_wait_world` returns. -/
theorem null_wait_world_tick :
    (jobs_run null_wait_text false 4 1 null_wait_world).isSome = true := by
  decide!

/-- Witness for C12: the record of the job that has called
`job_wait_on_condition(nullptr)`, in the Tick at time 1. -/
theorem null_counter_never_satisfied_witness :
    null_wait_record.condition = JOB_WAIT_COUNTER_ZERO ∧
    null_wait_record.data_address = none ∧
    null_wait_record ∈ null_wait_world.waiting_jobs ∧
    null_wait_record.job.fiber < null_wait_world.nfibers ∧
    (∀ j ∈ null_wait_world.jobs ++ null_wait_world.yielded_jobs,
      j.fiber ≠ null_wait_record.job.fiber) ∧
    (∀ y ∈ null_wait_world.waiting_jobs,
      y.job.fiber = null_wait_record.job.fiber → y = null_wait_record) ∧
    jobs_run null_wait_text false 4 1 null_wait_world =
      some ((jobs_run null_wait_text false 4 1 null_wait_world).getD World.init) ∧
    ((∀ (v : World) (j : job_t), v.job_current = some j →
      job_wait_on_condition_push v none = some { v with
        waiting_jobs := v.waiting_jobs ++ [⟨j, JOB_WAIT_COUNTER_ZERO, 0, none⟩] }) ∧
    (∀ (time : ℚ) (mem : Nat → Int),
      wait_satisfied time mem null_wait_record = false ∧
        wait_requeued time mem null_wait_record = true) ∧
    (∃ v batch, jobs_run_queueing 1 null_wait_world = some (v, batch) ∧
      null_wait_record ∈ v.waiting_jobs ∧
      ∀ j ∈ batch, j.fiber ≠ null_wait_record.job.fiber) ∧
    ∃ l, ((jobs_run null_wait_text false 4 1 null_wait_world).getD World.init).log =
        null_wait_world.log ++ l ∧
      (∀ j ∈ resumes l, j.fiber ≠ null_wait_record.job.fiber) ∧
      null_wait_record ∈
        ((jobs_run null_wait_text false 4 1 null_wait_world).getD World.init).waiting_jobs ∧
      null_wait_record.job.fiber <
        ((jobs_run null_wait_text false 4 1 null_wait_world).getD World.init).nfibers ∧
      (∀ j ∈ ((jobs_run null_wait_text false 4 1 null_wait_world).getD World.init).jobs ++
          ((jobs_run null_wait_text false 4 1 null_wait_world).getD World.init).yielded_jobs,
        j.fiber ≠ null_wait_record.job.fiber) ∧
      (∀ y ∈ ((jobs_run null_wait_text false 4 1 null_wait_world).getD
          World.init).waiting_jobs,
        y.job.fiber = null_wait_record.job.fiber → y = null_wait_record)) :=
  have hrun := eq_some_getD_of_isSome (jobs_run null_wait_text false 4 1 null_wait_world)
    World.init null_wait_world_tick
  ⟨rfl, rfl, by decide!, by decide!, by decide!, by decide!, hrun,
    null_counter_never_satisfied null_wait_text false 4 1 null_wait_world _ null_wait_record
      rfl rfl (by decide!) (by decide!) (by decide!) (by decide!) hrun⟩

end Zero
